import Mathlib

/-! # Bimap: a bidirectional map over two intrusive treaps

A verification development for the repository's `node.h`, `node.cpp`,
`cartesian_tree.h` and `bimap.h`.

The C++ code is pointer code: one allocation (`node_t`) carries two
`node_base_t` link records, one per projection, and every tree operation
rewrites `left` / `right` / `father` fields in place.  The embedding keeps that
level of detail.  Memory is a record of four maps from addresses to field
contents, every operation takes the memory and returns the new one, and each run
of a recursion or a loop is bounded by a fuel argument.  A result `none` stands
for behaviour the C++ leaves undefined (a null or ill-typed dereference) or for
a loop that does not come to an end within the fuel.
-/

/-! ## Addresses and memory (`node.h`) -/

/-- Address of a `node_base_t` subobject.  `root side` is the sentinel
`treap::root` of the left (`side = true`) or right (`side = false`) tree;
`node side id` is the `node_ptr_t<_, side>` base of the dual node number `id`;
`null` is `nullptr`. -/
inductive Ptr where
  | null : Ptr
  | root (side : Bool) : Ptr
  | node (side : Bool) (id : Nat) : Ptr
  deriving DecidableEq, Repr

/-- The contents of all `node_base_t` records, one map per field. -/
structure Mem where
  left : Ptr → Ptr
  right : Ptr → Ptr
  father : Ptr → Ptr
  priority : Ptr → Nat

/-- Pointwise update of a field map. -/
def upd {α : Type} (f : Ptr → α) (p : Ptr) (v : α) : Ptr → α :=
  fun q => if q = p then v else f q

/-- Pointwise update of a value map (`node_ptr_t::value` of node `i`). -/
def updVal {α : Type} (f : Nat → Option α) (i : Nat) (v : α) : Nat → Option α :=
  fun j => if j = i then some v else f j

namespace Mem

/-- The assignment `p->left = q`. -/
def setLeft (m : Mem) (p q : Ptr) : Mem := { m with left := upd m.left p q }

/-- The assignment `p->right = q`. -/
def setRight (m : Mem) (p q : Ptr) : Mem := { m with right := upd m.right p q }

/-- The assignment `p->father = q`. -/
def setFather (m : Mem) (p q : Ptr) : Mem := { m with father := upd m.father p q }

/-- The assignment `p->priority = n` (done once, by the constructor). -/
def setPriority (m : Mem) (p : Ptr) (n : Nat) : Mem :=
  { m with priority := upd m.priority p n }

/-- Memory in which every pointer field is null. -/
def blank : Mem :=
  { left := fun _ => Ptr.null, right := fun _ => Ptr.null,
    father := fun _ => Ptr.null, priority := fun _ => 0 }

end Mem

/-! ## `node_base_t` (`node.cpp`) -/

namespace node_base_t

/-- `update_left_father`: `if (left) left->father = this;`. -/
def update_left_father (m : Mem) (this : Ptr) : Mem :=
  if m.left this = Ptr.null then m else m.setFather (m.left this) this

/-- `update_right_father`: `if (right) right->father = this;`. -/
def update_right_father (m : Mem) (this : Ptr) : Mem :=
  if m.right this = Ptr.null then m else m.setFather (m.right this) this

/-- `update_father`: the left child first, then the right child. -/
def update_father (m : Mem) (this : Ptr) : Mem :=
  update_right_father (update_left_father m this) this

/-- `get_min`: `while (curr_root && curr_root->left) curr_root = curr_root->left;`. -/
def get_min : Nat → Mem → Ptr → Option Ptr
  | 0, _, _ => none
  | fuel + 1, m, curr_root =>
    if curr_root ≠ Ptr.null ∧ m.left curr_root ≠ Ptr.null then
      get_min fuel m (m.left curr_root)
    else some curr_root

/-- `get_max`: `while (curr_root && curr_root->right) curr_root = curr_root->right;`. -/
def get_max : Nat → Mem → Ptr → Option Ptr
  | 0, _, _ => none
  | fuel + 1, m, curr_root =>
    if curr_root ≠ Ptr.null ∧ m.right curr_root ≠ Ptr.null then
      get_max fuel m (m.right curr_root)
    else some curr_root

/-- The `else` branch of `next`: climb while the current node is not a left
child, then return the father. -/
def next_climb : Nat → Mem → Ptr → Option Ptr
  | 0, _, _ => none
  | fuel + 1, m, curr_root =>
    if m.father curr_root ≠ Ptr.null ∧ m.left (m.father curr_root) ≠ curr_root then
      next_climb fuel m (m.father curr_root)
    else some (m.father curr_root)

/-- `next`: the in-order successor, found through `right` or through `father`. -/
def next (fuel : Nat) (m : Mem) (curr_root : Ptr) : Option Ptr :=
  if curr_root = Ptr.null then none
  else if m.right curr_root ≠ Ptr.null then get_min fuel m (m.right curr_root)
  else next_climb fuel m curr_root

/-- The `else` branch of `prev`: climb while the current node is not a right
child, then return the father. -/
def prev_climb : Nat → Mem → Ptr → Option Ptr
  | 0, _, _ => none
  | fuel + 1, m, curr_root =>
    if m.father curr_root ≠ Ptr.null ∧ m.right (m.father curr_root) ≠ curr_root then
      prev_climb fuel m (m.father curr_root)
    else some (m.father curr_root)

/-- `prev`: the in-order predecessor. -/
def prev (fuel : Nat) (m : Mem) (curr_root : Ptr) : Option Ptr :=
  if curr_root = Ptr.null then none
  else if m.left curr_root ≠ Ptr.null then get_max fuel m (m.left curr_root)
  else prev_climb fuel m curr_root

end node_base_t

/-! ## `treap<T, Compare, Type>` (`cartesian_tree.h`)

`side` is the template parameter `Type`, `cmp` the comparator base class and
`val` the `value` members of the `node_ptr_t<T, Type>` records. -/

namespace treap

section
variable {T : Type} (cmp : T → T → Bool) (val : Nat → Option T) (side : Bool)

/-- The lvalue `static_cast<node_value_t*>(p)->value`: defined only when `p` is
a record of this projection with a constructed value. -/
def value (val : Nat → Option T) (side : Bool) : Ptr → Option T
  | Ptr.node s i => if s = side then val i else none
  | _ => none

/-- `treap::equal`: neither argument is less than the other. -/
def equal (cmp : T → T → Bool) (lhs rhs : T) : Bool := !cmp lhs rhs && !cmp rhs lhs

/-- `treap::split`. -/
def split : Nat → Mem → Ptr → T → Option (Mem × Ptr × Ptr)
  | 0, _, _, _ => none
  | fuel + 1, m, curr_root, v =>
    if curr_root = Ptr.null then some (m, Ptr.null, Ptr.null)
    else
      match value val side curr_root with
      | none => none
      | some cv =>
        if cmp cv v then
          match split fuel m (m.right curr_root) v with
          | none => none
          | some (m1, first, second) =>
            some (node_base_t.update_father (m1.setRight curr_root first) curr_root,
                  curr_root, second)
        else
          match split fuel m (m.left curr_root) v with
          | none => none
          | some (m1, first, second) =>
            some (node_base_t.update_father (m1.setLeft curr_root second) curr_root,
                  first, curr_root)

/-- `treap::merge`. -/
def merge : Nat → Mem → Ptr → Ptr → Option (Mem × Ptr)
  | 0, _, _, _ => none
  | fuel + 1, m, first, second =>
    if second = Ptr.null then some (m, first)
    else if first = Ptr.null then some (m, second)
    else if m.priority first > m.priority second then
      match merge fuel m (m.right first) second with
      | none => none
      | some (m1, r) => some (node_base_t.update_father (m1.setRight first r) first, first)
    else
      match merge fuel m first (m.left second) with
      | none => none
      | some (m1, r) => some (node_base_t.update_father (m1.setLeft second r) second, second)

/-- `treap::insert`. -/
def insert (fuel : Nat) (m : Mem) (inserted_node : Ptr) : Option (Mem × Ptr) :=
  match value val side inserted_node with
  | none => none
  | some v =>
    match split cmp val side fuel m (m.left (Ptr.root side)) v with
    | none => none
    | some (m1, first, second) =>
      match merge fuel m1 first inserted_node with
      | none => none
      | some (m2, first2) =>
        match merge fuel m2 first2 second with
        | none => none
        | some (m3, r) =>
          some (node_base_t.update_left_father (m3.setLeft (Ptr.root side) r) (Ptr.root side),
                inserted_node)

/-- `treap::lower_bound`. -/
def lower_bound : Nat → Mem → Ptr → T → Option Ptr
  | 0, _, _, _ => none
  | fuel + 1, m, curr_node, v =>
    if curr_node ≠ Ptr.null then
      match value val side curr_node with
      | none => none
      | some cv =>
        if !cmp cv v then
          match lower_bound fuel m (m.left curr_node) v with
          | none => none
          | some tmp_res => if tmp_res = Ptr.root side then some curr_node else some tmp_res
        else lower_bound fuel m (m.right curr_node) v
    else some (Ptr.root side)

/-- `treap::upper_bound`. -/
def upper_bound (fuel : Nat) (m : Mem) (curr_node : Ptr) (v : T) : Option Ptr :=
  match lower_bound cmp val side fuel m curr_node v with
  | none => none
  | some res =>
    if res ≠ Ptr.root side then
      match value val side res with
      | none => none
      | some rv => if equal cmp rv v then node_base_t.next fuel m res else some res
    else some res

/-- `treap::find`; `Ptr.null` is the "not found" result. -/
def find (fuel : Nat) (m : Mem) (v : T) : Option Ptr :=
  match lower_bound cmp val side fuel m (m.left (Ptr.root side)) v with
  | none => none
  | some it =>
    if it = Ptr.root side then some Ptr.null
    else
      match value val side it with
      | none => none
      | some iv => if !equal cmp iv v then some Ptr.null else some it

/-- `treap::contains`: the pointer returned by `find` converted to `bool`. -/
def contains (fuel : Nat) (m : Mem) (v : T) : Option Bool :=
  match find cmp val side fuel m v with
  | none => none
  | some p => some (decide (p ≠ Ptr.null))

/-- `treap::remove(const node_base_t*)`: unlink one record; returns the
successor and whether something was removed. -/
def remove_node (fuel : Nat) (m : Mem) (deleted_node : Ptr) : Option (Mem × Ptr × Bool) :=
  if deleted_node = Ptr.null then some (m, Ptr.null, false)
  else
    match node_base_t.next fuel m deleted_node with
    | none => none
    | some res =>
      match merge fuel m (m.left deleted_node) (m.right deleted_node) with
      | none => none
      | some (m1, tmp_node_value) =>
        let father := m1.father deleted_node
        if father = Ptr.null then none
        else
          let m2 :=
            if m1.right father ≠ Ptr.null ∧ deleted_node = m1.right father then
              m1.setRight father tmp_node_value
            else m1.setLeft father tmp_node_value
          some (node_base_t.update_father m2 father, res, true)

/-- `treap::remove(iterator)`. -/
def remove_it (fuel : Nat) (m : Mem) (it : Ptr) : Option (Mem × Ptr) :=
  match remove_node fuel m it with
  | none => none
  | some (m1, res, _) => some (m1, res)

/-- `treap::remove(T const&)`: returns the unlinked record, or null. -/
def remove_value (fuel : Nat) (m : Mem) (v : T) : Option (Mem × Ptr) :=
  match find cmp val side fuel m v with
  | none => none
  | some tmp_node =>
    if tmp_node = Ptr.null then some (m, Ptr.null)
    else
      match remove_node fuel m tmp_node with
      | none => none
      | some (m1, _, _) => some (m1, tmp_node)

/-- `treap::remove(iterator, iterator)`: cut `[it_first, it_last)` out and return
the root of the subtree that was cut out. -/
def remove_range (fuel : Nat) (m : Mem) (it_first it_last : Ptr) : Option (Mem × Ptr) :=
  match value val side it_first with
  | none => none
  | some v1 =>
    match split cmp val side fuel m (m.left (Ptr.root side)) v1 with
    | none => none
    | some (m1, t1first, t1second) =>
      let treaps2 : Option (Mem × Ptr × Ptr) :=
        if it_last = Ptr.root side then some (m1, t1second, Ptr.null)
        else
          match value val side it_last with
          | none => none
          | some v2 => split cmp val side fuel m1 t1second v2
      match treaps2 with
      | none => none
      | some (m2, t2first, t2second) =>
        match merge fuel m2 t1first t2second with
        | none => none
        | some (m3, r) =>
          some (node_base_t.update_father (m3.setLeft (Ptr.root side) r) (Ptr.root side),
                t2first)

/-- The records below `p` in symmetric order, read through `left` and `right`. -/
def inorder : Nat → Mem → Ptr → Option (List Ptr)
  | 0, _, _ => none
  | fuel + 1, m, p =>
    if p = Ptr.null then some []
    else
      match inorder fuel m (m.left p), inorder fuel m (m.right p) with
      | some l, some r => some (l ++ p :: r)
      | _, _ => none

end

end treap

/-! ## `bimap<Left, Right, CompareLeft, CompareRight>` (`bimap.h`) -/

/-- The data members of a `bimap` together with the heap it owns.  `mem` holds
the link records of the two sentinels and of every dual node, `valL` / `valR`
the two `value` members of each dual node, `cnt_elem` is the member of that name
(a `std::size_t`; the count never exceeds the number of live allocations, so no
wrap-around is modelled), and `nextId` is the number of dual nodes allocated so
far (`new node_t` hands out the next number). -/
structure Bimap (L R : Type) where
  mem : Mem
  valL : Nat → Option L
  valR : Nat → Option R
  cnt_elem : Nat
  nextId : Nat

namespace bimap

section
variable {L R : Type} (cmpL : L → L → Bool) (cmpR : R → R → Bool)

/-- Bound on the length of any pointer walk in a heap without cycles: one more
than the number of dual nodes ever allocated. -/
def fuel (b : Bimap L R) : Nat := b.nextId + 1

/-- The constructor `bimap()`: two empty trees whose sentinels point at each
other through `right`.  `pl` and `pr` are the priorities the two sentinels draw. -/
def empty (pl pr : Nat) : Bimap L R :=
  { mem := (((Mem.blank.setPriority (Ptr.root true) pl).setPriority (Ptr.root false) pr).setRight
      (Ptr.root true) (Ptr.root false)).setRight (Ptr.root false) (Ptr.root true),
    valL := fun _ => none, valR := fun _ => none, cnt_elem := 0, nextId := 0 }

/-- `node_t::get_another_node<Type>`: the sibling record of the same dual node.
Defined only on a record of projection `side`. -/
def get_another_node (side : Bool) : Ptr → Option Ptr
  | Ptr.node s i => if s = side then some (Ptr.node (!side) i) else none
  | _ => none

/-- `base_it<Type>::flip`. -/
def flip (side : Bool) (m : Mem) (it : Ptr) : Option Ptr :=
  if it = Ptr.null then none
  else if m.father it = Ptr.null then some (m.right it)
  else get_another_node side it

/-- `end_left()`. -/
def end_left : Ptr := Ptr.root true

/-- `end_right()`. -/
def end_right : Ptr := Ptr.root false

/-- `begin_left()`. -/
def begin_left (b : Bimap L R) : Option Ptr :=
  node_base_t.get_min (fuel b) b.mem (b.mem.left (Ptr.root true))

/-- `begin_right()`. -/
def begin_right (b : Bimap L R) : Option Ptr :=
  node_base_t.get_min (fuel b) b.mem (b.mem.left (Ptr.root false))

/-- `size()`. -/
def size (b : Bimap L R) : Nat := b.cnt_elem

/-- `empty()` (the member function). -/
def is_empty (b : Bimap L R) : Bool := size b == 0

/-- `delete_nodes<Type>`: frees every dual node below `curr_node` and returns how
many there were.  Freed nodes are never handed out again, so only the count is
kept. -/
def delete_nodes : Nat → Mem → Ptr → Option Nat
  | 0, _, _ => none
  | fuel + 1, m, curr_node =>
    if curr_node ≠ Ptr.null then
      match delete_nodes fuel m (m.left curr_node), delete_nodes fuel m (m.right curr_node) with
      | some a, some c => some (a + c + 1)
      | _, _ => none
    else some 0

/-- `remove_another_nodes<Type>`: for every record below `curr_node`, children
first, unlink its sibling record from the other tree.  `ops` bounds the walks of
each single removal. -/
def remove_another_nodes (side : Bool) (ops : Nat) : Nat → Mem → Ptr → Option Mem
  | 0, _, _ => none
  | fuel + 1, m, curr_node =>
    if curr_node ≠ Ptr.null then
      match remove_another_nodes side ops fuel m (m.left curr_node) with
      | none => none
      | some m1 =>
        match remove_another_nodes side ops fuel m1 (m1.right curr_node) with
        | none => none
        | some m2 =>
          match get_another_node side curr_node with
          | none => none
          | some other =>
            match treap.remove_node ops m2 other with
            | none => none
            | some (m3, _, _) => some m3
    else some m

/-- `insert_forward`, the body of the four `insert` overloads.  `pl` and `pr` are
the priorities drawn for the two link records of the new dual node, number
`tmp`; `new node_t` null-initialises its pointer fields.  The two tree inserts
run with fuel `tmp + 2`, one more than the number of nodes allocated by then. -/
def insert (b : Bimap L R) (left : L) (right : R) (pl pr : Nat) : Option (Bimap L R × Ptr) :=
  match treap.contains cmpL b.valL true (fuel b) b.mem left with
  | none => none
  | some true => some (b, end_left)
  | some false =>
    match treap.contains cmpR b.valR false (fuel b) b.mem right with
    | none => none
    | some true => some (b, end_left)
    | some false =>
      let tmp := b.nextId
      let m0 := (((((((b.mem.setLeft (Ptr.node true tmp) Ptr.null).setRight (Ptr.node true tmp)
        Ptr.null).setFather (Ptr.node true tmp) Ptr.null).setPriority (Ptr.node true tmp)
        pl).setLeft (Ptr.node false tmp) Ptr.null).setRight (Ptr.node false tmp)
        Ptr.null).setFather (Ptr.node false tmp) Ptr.null).setPriority (Ptr.node false tmp) pr
      let valL := updVal b.valL tmp left
      let valR := updVal b.valR tmp right
      match treap.insert cmpL valL true (tmp + 2) m0 (Ptr.node true tmp) with
      | none => none
      | some (m1, left_ptr) =>
        match treap.insert cmpR valR false (tmp + 2) m1 (Ptr.node false tmp) with
        | none => none
        | some (m2, _) =>
          some ({ mem := m2, valL := valL, valR := valR, cnt_elem := b.cnt_elem + 1,
                  nextId := tmp + 1 }, left_ptr)

/-- `erase_left(left_iterator)` for `side = true`, `erase_right(right_iterator)`
for `side = false`. -/
def erase_it (side : Bool) (b : Bimap L R) (it : Ptr) : Option (Bimap L R × Ptr) :=
  match flip side b.mem it with
  | none => none
  | some other =>
    match treap.remove_it (fuel b) b.mem other with
    | none => none
    | some (m1, _) =>
      match treap.remove_it (fuel b) m1 it with
      | none => none
      | some (m2, res) => some ({ b with mem := m2, cnt_elem := b.cnt_elem - 1 }, res)

/-- The by-key erase of projection `side`, whose comparator is `cmp` and whose
values are `val`. -/
def erase_key {T : Type} (cmp : T → T → Bool) (val : Nat → Option T) (side : Bool)
    (b : Bimap L R) (key : T) : Option (Bimap L R × Bool) :=
  match treap.remove_value cmp val side (fuel b) b.mem key with
  | none => none
  | some (m1, tmp) =>
    if tmp ≠ Ptr.null then
      match get_another_node side tmp with
      | none => none
      | some other =>
        match treap.remove_node (fuel b) m1 other with
        | none => none
        | some (m2, _, _) => some ({ b with mem := m2, cnt_elem := b.cnt_elem - 1 }, true)
    else some ({ b with mem := m1 }, false)

/-- `erase_left(left_t const&)`. -/
def erase_left_key (b : Bimap L R) (left : L) : Option (Bimap L R × Bool) :=
  erase_key cmpL b.valL true b left

/-- `erase_right(right_t const&)`. -/
def erase_right_key (b : Bimap L R) (right : R) : Option (Bimap L R × Bool) :=
  erase_key cmpR b.valR false b right

/-- The range erase of projection `side`. -/
def erase_range {T : Type} (cmp : T → T → Bool) (val : Nat → Option T) (side : Bool)
    (b : Bimap L R) (first last : Ptr) : Option (Bimap L R × Ptr) :=
  match treap.remove_range cmp val side (fuel b) b.mem first last with
  | none => none
  | some (m1, tmp) =>
    match remove_another_nodes side (fuel b) (fuel b) m1 tmp with
    | none => none
    | some m2 =>
      match delete_nodes (fuel b) m2 tmp with
      | none => none
      | some n => some ({ b with mem := m2, cnt_elem := b.cnt_elem - n }, last)

/-- `erase_left(left_iterator, left_iterator)`. -/
def erase_left_range (b : Bimap L R) (first last : Ptr) : Option (Bimap L R × Ptr) :=
  erase_range cmpL b.valL true b first last

/-- `erase_right(right_iterator, right_iterator)`. -/
def erase_right_range (b : Bimap L R) (first last : Ptr) : Option (Bimap L R × Ptr) :=
  erase_range cmpR b.valR false b first last

/-- `find_left`. -/
def find_left (b : Bimap L R) (left : L) : Option Ptr :=
  match treap.find cmpL b.valL true (fuel b) b.mem left with
  | none => none
  | some tmp => if tmp ≠ Ptr.null then some tmp else some end_left

/-- `find_right`. -/
def find_right (b : Bimap L R) (right : R) : Option Ptr :=
  match treap.find cmpR b.valR false (fuel b) b.mem right with
  | none => none
  | some tmp => if tmp ≠ Ptr.null then some tmp else some end_right

/-- The `value` member of the right-projection record of the dual node that the
left-projection record `node` belongs to. -/
def right_of_left (b : Bimap L R) (node : Ptr) : Option R :=
  match get_another_node true node with
  | none => none
  | some other => treap.value b.valR false other

/-- The `value` member of the left-projection record of the dual node that the
right-projection record `node` belongs to. -/
def left_of_right (b : Bimap L R) (node : Ptr) : Option L :=
  match get_another_node false node with
  | none => none
  | some other => treap.value b.valL true other

/-- `at_left`; `Except.error` is the thrown `std::out_of_range`. -/
def at_left (b : Bimap L R) (key : L) : Option (Except String R) :=
  match treap.find cmpL b.valL true (fuel b) b.mem key with
  | none => none
  | some node =>
    if node = Ptr.null then some (Except.error "not founded key")
    else
      match right_of_left b node with
      | none => none
      | some r => some (Except.ok r)

/-- `at_right`; `Except.error` is the thrown `std::out_of_range`. -/
def at_right (b : Bimap L R) (key : R) : Option (Except String L) :=
  match treap.find cmpR b.valR false (fuel b) b.mem key with
  | none => none
  | some node =>
    if node = Ptr.null then some (Except.error "not founded key")
    else
      match left_of_right b node with
      | none => none
      | some l => some (Except.ok l)

/-- `at_left_or_default`; `dflt` is `right_t()`, and `pl`, `pr` are the
priorities drawn if a node is allocated. -/
def at_left_or_default (dflt : R) (b : Bimap L R) (key : L) (pl pr : Nat) :
    Option (Bimap L R × R) :=
  match find_left cmpL b key with
  | none => none
  | some iter_l =>
    if iter_l ≠ end_left then
      match flip true b.mem iter_l with
      | none => none
      | some other =>
        match treap.value b.valR false other with
        | none => none
        | some r => some (b, r)
    else
      match erase_right_key cmpR b dflt with
      | none => none
      | some (b1, _) =>
        match insert cmpL cmpR b1 key dflt pl pr with
        | none => none
        | some (b2, it) =>
          match flip true b2.mem it with
          | none => none
          | some other =>
            match treap.value b2.valR false other with
            | none => none
            | some r => some (b2, r)

/-- `at_right_or_default`; `dflt` is `left_t()`, and `pl`, `pr` are the
priorities drawn if a node is allocated. -/
def at_right_or_default (dflt : L) (b : Bimap L R) (key : R) (pl pr : Nat) :
    Option (Bimap L R × L) :=
  match find_right cmpR b key with
  | none => none
  | some iter_r =>
    if iter_r ≠ end_right then
      match flip false b.mem iter_r with
      | none => none
      | some other =>
        match treap.value b.valL true other with
        | none => none
        | some l => some (b, l)
    else
      match erase_left_key cmpL b dflt with
      | none => none
      | some (b1, _) =>
        match insert cmpL cmpR b1 dflt key pl pr with
        | none => none
        | some (b2, it) =>
          match treap.value b2.valL true it with
          | none => none
          | some l => some (b2, l)

/-- `lower_bound_left`. -/
def lower_bound_left (b : Bimap L R) (left : L) : Option Ptr :=
  treap.lower_bound cmpL b.valL true (fuel b) b.mem (b.mem.left (Ptr.root true)) left

/-- `upper_bound_left`. -/
def upper_bound_left (b : Bimap L R) (left : L) : Option Ptr :=
  treap.upper_bound cmpL b.valL true (fuel b) b.mem (b.mem.left (Ptr.root true)) left

/-- `lower_bound_right`. -/
def lower_bound_right (b : Bimap L R) (right : R) : Option Ptr :=
  treap.lower_bound cmpR b.valR false (fuel b) b.mem (b.mem.left (Ptr.root false)) right

/-- `upper_bound_right`. -/
def upper_bound_right (b : Bimap L R) (right : R) : Option Ptr :=
  treap.upper_bound cmpR b.valR false (fuel b) b.mem (b.mem.left (Ptr.root false)) right

/-- The records of the tree of projection `side` in symmetric order. -/
def nodes (side : Bool) (b : Bimap L R) : Option (List Ptr) :=
  treap.inorder (fuel b) b.mem (b.mem.left (Ptr.root side))

end

end bimap

namespace bimap

section
variable {L R : Type} (cmpL : L → L → Bool) (cmpR : R → R → Bool)

/-- `operator++` of an iterator of `b`: `current_element = next(current_element)`. -/
def incr (b : Bimap L R) (it : Ptr) : Option Ptr := node_base_t.next (fuel b) b.mem it

/-- `operator--` of an iterator of `b`: `current_element = prev(current_element)`. -/
def decr (b : Bimap L R) (it : Ptr) : Option Ptr := node_base_t.prev (fuel b) b.mem it

/-- The `for` loop of `operator==`: `it_a` walks the left tree of `a` and `it_b`
the left tree of `b`; both comparisons use the comparators of `a`, and `||` does
not evaluate its second operand when the first decides. -/
def eq_loop (a b : Bimap L R) : Nat → Ptr → Ptr → Option Bool
  | 0, _, _ => none
  | n + 1, it_a, it_b =>
    if it_a ≠ end_left ∧ it_b ≠ end_left then
      match treap.value a.valL true it_a, treap.value b.valL true it_b with
      | some la, some lb =>
        if !treap.equal cmpL la lb then some false
        else
          match flip true a.mem it_a, flip true b.mem it_b with
          | some fa, some fb =>
            match treap.value a.valR false fa, treap.value b.valR false fb with
            | some ra, some rb =>
              if !treap.equal cmpR ra rb then some false
              else
                match incr a it_a, incr b it_b with
                | some na, some nb => eq_loop a b n na nb
                | _, _ => none
            | _, _ => none
          | _, _ => none
      | _, _ => none
    else some true

/-- `operator==(a, b)`.  `same` is the test `&a == &b`; two distinct objects own
disjoint heaps, which is why each state carries its own memory.  The loop runs at
most once per element of `a` and once more for the final test. -/
def eq (same : Bool) (a b : Bimap L R) : Option Bool :=
  if same then some true
  else if size a ≠ size b then some false
  else
    match begin_left a, begin_left b with
    | some it_a, some it_b => eq_loop cmpL cmpR a b (fuel a) it_a it_b
    | _, _ => none

/-- `operator!=(a, b)`: `!(a == b)`. -/
def neq (same : Bool) (a b : Bimap L R) : Option Bool :=
  (eq cmpL cmpR same a b).map (fun r => !r)

end

end bimap

/-! ## Contracts of the public operations

The preconditions the C++ comments and the specification put on callers, and the
set of states a client can reach from `bimap()` while respecting them. -/

/-- A comparator is a strict weak ordering: irreflexive, transitive, and with a
transitive incomparability relation (`treap::equal`). -/
structure StrictWeak {T : Type} (cmp : T → T → Bool) : Prop where
  irrefl : ∀ a, cmp a a = false
  trans : ∀ a b c, cmp a b = true → cmp b c = true → cmp a c = true
  equal_trans : ∀ a b c, treap.equal cmp a b = true → treap.equal cmp b c = true →
    treap.equal cmp a c = true

/-- The iterator `it` of projection `side` refers to an element of `b`. -/
def Live {L R : Type} (side : Bool) (b : Bimap L R) (it : Ptr) : Prop :=
  ∃ xs, bimap.nodes side b = some xs ∧ it ∈ xs

/-- The pair `first`, `last` is a valid range of projection `side`: `first` refers
to an element and `last` to that element, to a later one, or is the end
iterator.  `mid` is the range itself. -/
def ValidRange {L R : Type} (side : Bool) (b : Bimap L R) (first last : Ptr) : Prop :=
  ∃ pre mid post, bimap.nodes side b = some (pre ++ (mid ++ post)) ∧
    (mid ++ post).head? = some first ∧ last = post.headD (Ptr.root side)

/-- The states reachable from `bimap()` by `insert`, the three kinds of `erase`
on either side and the two `at_*_or_default`, each called within its contract. -/
inductive Reachable {L R : Type} (cmpL : L → L → Bool) (cmpR : R → R → Bool) :
    Bimap L R → Prop
  | empty (pl pr : Nat) : Reachable cmpL cmpR (bimap.empty pl pr)
  | insert {b b1 : Bimap L R} {it : Ptr} (l : L) (r : R) (pl pr : Nat) :
      Reachable cmpL cmpR b → bimap.insert cmpL cmpR b l r pl pr = some (b1, it) →
      Reachable cmpL cmpR b1
  | erase_left_key {b b1 : Bimap L R} {res : Bool} (l : L) :
      Reachable cmpL cmpR b → bimap.erase_left_key cmpL b l = some (b1, res) →
      Reachable cmpL cmpR b1
  | erase_right_key {b b1 : Bimap L R} {res : Bool} (r : R) :
      Reachable cmpL cmpR b → bimap.erase_right_key cmpR b r = some (b1, res) →
      Reachable cmpL cmpR b1
  | erase_it {b b1 : Bimap L R} {res : Ptr} (side : Bool) (it : Ptr) :
      Reachable cmpL cmpR b → Live side b it → bimap.erase_it side b it = some (b1, res) →
      Reachable cmpL cmpR b1
  | erase_left_range {b b1 : Bimap L R} {res : Ptr} (first last : Ptr) :
      Reachable cmpL cmpR b → ValidRange true b first last →
      bimap.erase_left_range cmpL b first last = some (b1, res) → Reachable cmpL cmpR b1
  | erase_right_range {b b1 : Bimap L R} {res : Ptr} (first last : Ptr) :
      Reachable cmpL cmpR b → ValidRange false b first last →
      bimap.erase_right_range cmpR b first last = some (b1, res) → Reachable cmpL cmpR b1
  | at_left_or_default {b b1 : Bimap L R} {res : R} (dflt : R) (key : L) (pl pr : Nat) :
      Reachable cmpL cmpR b →
      bimap.at_left_or_default cmpL cmpR dflt b key pl pr = some (b1, res) →
      Reachable cmpL cmpR b1
  | at_right_or_default {b b1 : Bimap L R} {res : L} (dflt : L) (key : R) (pl pr : Nat) :
      Reachable cmpL cmpR b →
      bimap.at_right_or_default cmpL cmpR dflt b key pl pr = some (b1, res) →
      Reachable cmpL cmpR b1

/-! ## Abstraction: the tree a region of memory represents -/

/-- A binary tree of dual-node numbers: the shape a treap has at one moment. -/
inductive NodeTree where
  | nil : NodeTree
  | node (l : NodeTree) (i : Nat) (r : NodeTree) : NodeTree
  deriving DecidableEq, Repr

namespace NodeTree

/-- The node numbers in symmetric order. -/
def toList : NodeTree → List Nat
  | nil => []
  | node l i r => l.toList ++ i :: r.toList

/-- The node numbers other than the one at the top. -/
def inner : NodeTree → List Nat
  | nil => []
  | node l _ r => l.toList ++ r.toList

/-- Number of nodes. -/
def size : NodeTree → Nat
  | nil => 0
  | node l _ r => l.size + r.size + 1

/-- The address of the top record of the tree in projection `s`. -/
def ptr (s : Bool) : NodeTree → Ptr
  | nil => Ptr.null
  | node _ i _ => Ptr.node s i

/-- What `treap::split` does to the shape; `p i` says that the value of node `i`
is less than the splitting value. -/
def split (p : Nat → Bool) : NodeTree → NodeTree × NodeTree
  | nil => (nil, nil)
  | node l i r =>
    if p i then ((node l i (split p r).1), (split p r).2)
    else ((split p l).1, node (split p l).2 i r)

/-- What `treap::merge` does to the shape; `prio` gives the priorities. -/
def merge (prio : Nat → Nat) : NodeTree → NodeTree → NodeTree
  | nil, nil => nil
  | node l i r, nil => node l i r
  | nil, node l j r => node l j r
  | node l1 i r1, node l2 j r2 =>
    if prio i > prio j then node l1 i (merge prio r1 (node l2 j r2))
    else node (merge prio (node l1 i r1) l2) j r2
termination_by a b => a.size + b.size
decreasing_by
  all_goals simp_wf
  all_goals simp only [size]
  all_goals omega

/-- What `treap::lower_bound` returns: the first node in symmetric order for
which `p` fails on the search path, if any. -/
def lb (p : Nat → Bool) : NodeTree → Option Nat
  | nil => none
  | node l i r =>
    if !p i then
      match lb p l with
      | none => some i
      | some j => some j
    else lb p r

/-- What `treap::remove(node)` does to the shape: the subtree at `i` is replaced
by the merge of its two children. -/
def del (prio : Nat → Nat) (i : Nat) : NodeTree → NodeTree
  | nil => nil
  | node l j r => if j = i then merge prio l r else node (del prio i l) j (del prio i r)

/-- The subtree whose top node is `i`. -/
def sub (i : Nat) : NodeTree → NodeTree
  | nil => nil
  | node l j r =>
    if j = i then node l j r
    else if i ∈ l.toList then sub i l else sub i r

/-- The node numbers children first, left subtree before right subtree. -/
def postorder : NodeTree → List Nat
  | nil => []
  | node l i r => l.postorder ++ r.postorder ++ [i]

end NodeTree

/-- The top record of `t`, if there is one, has `f` in its `father` field. -/
def Fath (m : Mem) (s : Bool) (f : Ptr) : NodeTree → Prop
  | NodeTree.nil => True
  | NodeTree.node _ i _ => m.father (Ptr.node s i) = f

/-- Memory `m` holds the tree `t` in the link records of projection `s`: `left`
and `right` follow the shape and every child names its parent in `father`.  The
`father` field of the top record is left open. -/
def Shape (m : Mem) (s : Bool) : NodeTree → Prop
  | NodeTree.nil => True
  | NodeTree.node l i r =>
    m.left (Ptr.node s i) = l.ptr s ∧ m.right (Ptr.node s i) = r.ptr s ∧
    Fath m s (Ptr.node s i) l ∧ Fath m s (Ptr.node s i) r ∧ Shape m s l ∧ Shape m s r

/-- Memory `m'` differs from `m` at most in the link records of the nodes `F` of
projection `s`. -/
def Frame (s : Bool) (F : List Nat) (m m' : Mem) : Prop :=
  m'.priority = m.priority ∧
  ∀ q, (∀ i ∈ F, q ≠ Ptr.node s i) →
    m'.left q = m.left q ∧ m'.right q = m.right q ∧ m'.father q = m.father q

/-- An operation of the tree of projection `s` leaves alone: all priorities, the
link records of the other projection, the tree pointer of the other sentinel and
the cross pointers of both sentinels. -/
def Outside (s : Bool) (m m' : Mem) : Prop :=
  m'.priority = m.priority ∧
  (∀ i, m'.left (Ptr.node (!s) i) = m.left (Ptr.node (!s) i) ∧
        m'.right (Ptr.node (!s) i) = m.right (Ptr.node (!s) i) ∧
        m'.father (Ptr.node (!s) i) = m.father (Ptr.node (!s) i)) ∧
  m'.left (Ptr.root (!s)) = m.left (Ptr.root (!s)) ∧
  ∀ s', m'.right (Ptr.root s') = m.right (Ptr.root s')

/-- The sentinel of projection `s` holds the tree `t`. -/
structure Rooted (m : Mem) (s : Bool) (t : NodeTree) : Prop where
  root_left : m.left (Ptr.root s) = t.ptr s
  shape : Shape m s t
  fath : Fath m s (Ptr.root s) t
  root_right : m.right (Ptr.root s) = Ptr.root (!s)
  nodup : t.toList.Nodup

/-- Node `i` is ordered before node `j` by the comparator `cmp` on the values
`val`. -/
def idLt {T : Type} (cmp : T → T → Bool) (val : Nat → Option T) (i j : Nat) : Prop :=
  ∃ a b, val i = some a ∧ val j = some b ∧ cmp a b = true

/-- The representation invariant of a `bimap`: the left tree is `tl`, the right
tree is `tr`, they hold the same dual nodes, each is a search tree for its
comparator, and `cnt_elem` counts the nodes. -/
structure BimapInv {L R : Type} (cmpL : L → L → Bool) (cmpR : R → R → Bool) (b : Bimap L R)
    (tl tr : NodeTree) : Prop where
  left : Rooted b.mem true tl
  right : Rooted b.mem false tr
  perm : tl.toList.Perm tr.toList
  ids : ∀ i ∈ tl.toList, i < b.nextId
  valsL : ∀ i ∈ tl.toList, ∃ x, b.valL i = some x
  valsR : ∀ i ∈ tl.toList, ∃ x, b.valR i = some x
  sortedL : tl.toList.Pairwise (idLt cmpL b.valL)
  sortedR : tr.toList.Pairwise (idLt cmpR b.valR)
  cnt : b.cnt_elem = tl.toList.length
  cap : b.cnt_elem ≤ b.nextId


namespace NodeTree

/-- What `treap::insert` does to the shape: split at the new value, merge the new
node `n` behind the first half, merge the second half behind that. -/
def ins (prio : Nat → Nat) (p : Nat → Bool) (n : Nat) (t : NodeTree) : NodeTree :=
  merge prio (merge prio (t.split p).1 (node nil n nil)) (t.split p).2

/-- Removing the nodes `xs` one after the other, as `remove_another_nodes` does. -/
def delAll (prio : Nat → Nat) : List Nat → NodeTree → NodeTree
  | [], t => t
  | i :: xs, t => delAll prio xs (del prio i t)

end NodeTree

/-- The test `Compare::operator()(value of node i, v)` as a predicate on node
numbers. -/
def ltVal {T : Type} (cmp : T → T → Bool) (val : Nat → Option T) (v : T) (i : Nat) : Bool :=
  match val i with
  | some x => cmp x v
  | none => false

/-- The test `Compare::operator()(v, value of node i)` as a predicate on node
numbers. -/
def gtVal {T : Type} (cmp : T → T → Bool) (val : Nat → Option T) (v : T) (i : Nat) : Bool :=
  match val i with
  | some x => cmp v x
  | none => false

/-- The last statements of `treap::remove(node)`: `tmp` goes into the slot of
`father` that held `deleted_node`, then `father->update_father()`. -/
def relink (m1 : Mem) (father deleted_node tmp : Ptr) : Mem :=
  node_base_t.update_father
    (if m1.right father ≠ Ptr.null ∧ deleted_node = m1.right father then
      m1.setRight father tmp
    else m1.setLeft father tmp) father

namespace NodeTree

/-- The top node of `t`, if there is one, has a priority that `gt` allows below
the priority of node `i`. -/
def above (gt : Nat → Nat → Bool) (prio : Nat → Nat) (i : Nat) : NodeTree → Bool
  | nil => true
  | node _ j _ => gt (prio i) (prio j)

/-- Heap order along the links: at every node the priority stands in relation
`gt` to the priority of each child. -/
def heap (gt : Nat → Nat → Bool) (prio : Nat → Nat) : NodeTree → Bool
  | nil => true
  | node l i r => above gt prio i l && above gt prio i r && heap gt prio l && heap gt prio r

end NodeTree

/-- Strictly greater priority. -/
def prioGt : Nat → Nat → Bool := fun x y => decide (x > y)

/-- Greater or equal priority. -/
def prioGe : Nat → Nat → Bool := fun x y => decide (x ≥ y)

/-- The priorities of the records of projection `s` as a function of the node
number. -/
def prioOf (m : Mem) (s : Bool) : Nat → Nat := fun i => m.priority (Ptr.node s i)

/-- Both trees of `b` are heap-ordered in the non-strict sense: along every link
the priority of the parent is at least the priority of the child. -/
def HeapOrdered {L R : Type} (b : Bimap L R) : Prop :=
  ∀ s t, Rooted b.mem s t → t.heap prioGe (prioOf b.mem s) = true

/-! ## Observations used to state the properties -/

namespace bimap

section
variable {L R : Type} (cmpL : L → L → Bool) (cmpR : R → R → Bool)

/-- The pair an iterator of projection `side` stands for: `(*it, *it.flip())` for
a left iterator, `(*it.flip(), *it)` for a right iterator. -/
def pair_of (side : Bool) (b : Bimap L R) (it : Ptr) : Option (L × R) :=
  match flip side b.mem it with
  | none => none
  | some other =>
    match treap.value b.valL true (if side then it else other),
      treap.value b.valR false (if side then other else it) with
    | some l, some r => some (l, r)
    | _, _ => none

/-- The pairs of the container as read through the tree of projection `side`, in
the order of that tree. -/
def pairs (side : Bool) (b : Bimap L R) : Option (List (Option (L × R))) :=
  (nodes side b).map (List.map (pair_of side b))

/-- A run of `insert` calls, one per entry `(left, right, pl, pr)`; returns the
final state and the number of calls that did not return `end_left()`. -/
def insert_all : Bimap L R → List (L × R × Nat × Nat) → Option (Bimap L R × Nat)
  | b, [] => some (b, 0)
  | b, (l, r, pl, pr) :: rest =>
    match insert cmpL cmpR b l r pl pr with
    | none => none
    | some (b1, it) =>
      match insert_all b1 rest with
      | none => none
      | some (b2, k) => some (b2, if it ≠ end_left then k + 1 else k)

end

end bimap

/-- The value at `p` is ordered before the value at `q` by the comparator of
projection `side`. -/
def itLt {T : Type} (cmp : T → T → Bool) (val : Nat → Option T) (side : Bool) (p q : Ptr) : Prop :=
  ∃ a c, treap.value val side p = some a ∧ treap.value val side q = some c ∧ cmp a c = true

/-- The value at `q` is not ordered before the value at `p`, and the two are not
equivalent. -/
def itNoDup {T : Type} (cmp : T → T → Bool) (val : Nat → Option T) (side : Bool) (p q : Ptr) :
    Prop :=
  ∃ a c, treap.value val side p = some a ∧ treap.value val side q = some c ∧
    cmp c a = false ∧ treap.equal cmp a c = false

/-- The two values of dual node `i`. -/
def pairAt {L R : Type} (b : Bimap L R) (i : Nat) : Option (L × R) :=
  match b.valL i, b.valR i with
  | some l, some r => some (l, r)
  | _, _ => none

/-- The pair `p` has no right value equivalent to `d`. -/
def rightApart {L R : Type} (cmpR : R → R → Bool) (d : R) : Option (L × R) → Bool
  | some (_, y) => !treap.equal cmpR y d
  | none => true

/-- The pair `p` has no left value equivalent to `d`. -/
def leftApart {L R : Type} (cmpL : L → L → Bool) (d : L) : Option (L × R) → Bool
  | some (x, _) => !treap.equal cmpL x d
  | none => true

/-- The test of the loop body of `operator==` on two pairs: equivalent left
values and equivalent right values. -/
def pairEquiv {L R : Type} (cmpL : L → L → Bool) (cmpR : R → R → Bool) :
    Option (L × R) → Option (L × R) → Bool
  | some (la, ra), some (lb, rb) => treap.equal cmpL la lb && treap.equal cmpR ra rb
  | _, _ => false

/-- The left value of pair `p` is ordered before the left value of pair `q`. -/
def pairLt {L R : Type} (cmpL : L → L → Bool) (p q : Option (L × R)) : Prop :=
  ∃ x y x' y', p = some (x, y) ∧ q = some (x', y') ∧ cmpL x x' = true

/-! ## Runs of operations

A client program as data: the calls it makes, what each call hands back, and
the contract each call has to respect.  The priorities the random generator
hands out are an input of the run. -/

/-- A call of the public interface with its arguments. -/
inductive Op (L R : Type) where
  | insert (l : L) (r : R)
  | erase_left_key (l : L)
  | erase_right_key (r : R)
  | erase_it (side : Bool) (it : Ptr)
  | erase_left_range (first last : Ptr)
  | erase_right_range (first last : Ptr)
  | at_left_or_default (dflt : R) (key : L)
  | at_right_or_default (dflt : L) (key : R)
  | find_left (l : L)
  | find_right (r : R)
  | at_left (l : L)
  | at_right (r : R)
  | lower_bound_left (l : L)
  | upper_bound_left (l : L)
  | lower_bound_right (r : R)
  | upper_bound_right (r : R)
  | size

/-- What a call hands back: an iterator, a `bool`, a left or right value, a
thrown `std::out_of_range`, or a `std::size_t`. -/
inductive Res (L R : Type) where
  | it (p : Ptr)
  | flag (x : Bool)
  | left (x : L)
  | right (x : R)
  | thrown (msg : String)
  | count (n : Nat)

namespace bimap

section
variable {L R : Type} (cmpL : L → L → Bool) (cmpR : R → R → Bool)

/-- One call on the state `b`; `pl` and `pr` are the priorities the generator
hands out if the call allocates a node. -/
def apply (b : Bimap L R) (pl pr : Nat) : Op L R → Option (Bimap L R × Res L R)
  | Op.insert l r => (insert cmpL cmpR b l r pl pr).map (fun x => (x.1, Res.it x.2))
  | Op.erase_left_key l => (erase_left_key cmpL b l).map (fun x => (x.1, Res.flag x.2))
  | Op.erase_right_key r => (erase_right_key cmpR b r).map (fun x => (x.1, Res.flag x.2))
  | Op.erase_it side it => (erase_it side b it).map (fun x => (x.1, Res.it x.2))
  | Op.erase_left_range first last =>
    (erase_left_range cmpL b first last).map (fun x => (x.1, Res.it x.2))
  | Op.erase_right_range first last =>
    (erase_right_range cmpR b first last).map (fun x => (x.1, Res.it x.2))
  | Op.at_left_or_default dflt key =>
    (at_left_or_default cmpL cmpR dflt b key pl pr).map (fun x => (x.1, Res.right x.2))
  | Op.at_right_or_default dflt key =>
    (at_right_or_default cmpL cmpR dflt b key pl pr).map (fun x => (x.1, Res.left x.2))
  | Op.find_left l => (find_left cmpL b l).map (fun p => (b, Res.it p))
  | Op.find_right r => (find_right cmpR b r).map (fun p => (b, Res.it p))
  | Op.at_left l =>
    (at_left cmpL b l).map (fun x =>
      (b, match x with
        | Except.ok r => Res.right r
        | Except.error msg => Res.thrown msg))
  | Op.at_right r =>
    (at_right cmpR b r).map (fun x =>
      (b, match x with
        | Except.ok l => Res.left l
        | Except.error msg => Res.thrown msg))
  | Op.lower_bound_left l => (lower_bound_left cmpL b l).map (fun p => (b, Res.it p))
  | Op.upper_bound_left l => (upper_bound_left cmpL b l).map (fun p => (b, Res.it p))
  | Op.lower_bound_right r => (lower_bound_right cmpR b r).map (fun p => (b, Res.it p))
  | Op.upper_bound_right r => (upper_bound_right cmpR b r).map (fun p => (b, Res.it p))
  | Op.size => some (b, Res.count (size b))

/-- A run: the calls in order, each with the two priorities the generator would
hand out to it; returns the final state and the results of the calls. -/
def run : Bimap L R → List (Op L R × Nat × Nat) → Option (Bimap L R × List (Res L R))
  | b, [] => some (b, [])
  | b, (op, pl, pr) :: rest =>
    match apply cmpL cmpR b pl pr op with
    | none => none
    | some (b1, res) =>
      match run b1 rest with
      | none => none
      | some (b2, results) => some (b2, res :: results)

end

end bimap

/-- The contract of one call in the state `b`: an iterator handed to `erase`
refers to an element, a range handed to `erase` is a valid range. -/
def OpOk {L R : Type} (b : Bimap L R) : Op L R → Prop
  | Op.erase_it side it => Live side b it
  | Op.erase_left_range first last => ValidRange true b first last
  | Op.erase_right_range first last => ValidRange false b first last
  | _ => True

/-- Every call of the run respects its contract in the state it is made in. -/
def RunOk {L R : Type} (cmpL : L → L → Bool) (cmpR : R → R → Bool) :
    Bimap L R → List (Op L R × Nat × Nat) → Prop
  | _, [] => True
  | b, (op, pl, pr) :: rest =>
    OpOk b op ∧ ∀ b1 res, bimap.apply cmpL cmpR b pl pr op = some (b1, res) →
      RunOk cmpL cmpR b1 rest

/-- Two states that differ at most in the shapes of their trees: the same dual
nodes with the same values, in the same symmetric order on either side. -/
def SameView {L R : Type} (cmpL : L → L → Bool) (cmpR : R → R → Bool) (b1 b2 : Bimap L R) :
    Prop :=
  ∃ tl1 tr1 tl2 tr2, BimapInv cmpL cmpR b1 tl1 tr1 ∧ BimapInv cmpL cmpR b2 tl2 tr2 ∧
    tl1.toList = tl2.toList ∧ tr1.toList = tr2.toList ∧
    b1.valL = b2.valL ∧ b1.valR = b2.valR ∧ b1.nextId = b2.nextId

/-! ## Concrete instances -/

/-- The comparator `std::less<int>` restricted to the naturals. -/
def natLt : Nat → Nat → Bool := fun a c => decide (a < c)

/-- The state after `bimap<int, int> b;`. -/
def demo0 : Bimap Nat Nat := bimap.empty 0 0

/-- The state after `b.insert(1, 10)`, the new records drawing priorities 5 and 7. -/
def demo1 : Bimap Nat Nat :=
  ((bimap.insert natLt natLt demo0 1 10 5 7).map Prod.fst).getD demo0

/-- The state after `b.erase_left(1)` on `demo1`. -/
def demo2 : Bimap Nat Nat :=
  ((bimap.erase_left_key natLt demo1 1).map Prod.fst).getD demo0

/-- The state after `b.insert(2, 20)` on `demo1`, the new records drawing
priorities 3 and 9. -/
def demo12 : Bimap Nat Nat :=
  ((bimap.insert natLt natLt demo1 2 20 3 9).map Prod.fst).getD demo0

/-- The state after `b.insert(3, 30)` on `demo12`, the new records drawing
priorities 4 and 2: the bimap holds `(1, 10)`, `(2, 20)`, `(3, 30)`. -/
def demo3 : Bimap Nat Nat :=
  ((bimap.insert natLt natLt demo12 3 30 4 2).map Prod.fst).getD demo0

/-- The shape of the left tree of `demo3`. -/
def demo3L : NodeTree :=
  NodeTree.node NodeTree.nil 0 (NodeTree.node (NodeTree.node NodeTree.nil 1 NodeTree.nil) 2
    NodeTree.nil)

/-- The shape of the right tree of `demo3`. -/
def demo3R : NodeTree :=
  NodeTree.node (NodeTree.node NodeTree.nil 0 NodeTree.nil) 1
    (NodeTree.node NodeTree.nil 2 NodeTree.nil)

/-- The state after `b.insert(2, 20)` on an empty bimap, the new records drawing
priorities 5 and 7. -/
def demoMix1 : Bimap Nat Nat :=
  ((bimap.insert natLt natLt demo0 2 20 5 7).map Prod.fst).getD demo0

/-- The state after `b.insert(1, 30)` on `demoMix1`, the new records drawing
priorities 3 and 9. -/
def demoMix2 : Bimap Nat Nat :=
  ((bimap.insert natLt natLt demoMix1 1 30 3 9).map Prod.fst).getD demo0

/-- The state after `b.insert(3, 10)` on `demoMix2`, the new records drawing
priorities 4 and 2: the bimap holds `(2, 20)`, `(1, 30)`, `(3, 10)`, inserted in
this order, so that neither projection is sorted by insertion order. -/
def demoMix : Bimap Nat Nat :=
  ((bimap.insert natLt natLt demoMix2 3 10 4 2).map Prod.fst).getD demo0

/-- Two freshly constructed records of the left projection that drew the same
priority 5. -/
def tieMem : Mem :=
  (Mem.blank.setPriority (Ptr.node true 0) 5).setPriority (Ptr.node true 1) 5

/-- The state after `b.insert(1, 10)` on an empty bimap, both new records drawing
priority 5. -/
def demoTie1 : Bimap Nat Nat :=
  ((bimap.insert natLt natLt demo0 1 10 5 5).map Prod.fst).getD demo0

/-- The state after `b.insert(2, 20)` on `demoTie1`, both new records drawing
priority 5 again. -/
def demoTie : Bimap Nat Nat :=
  ((bimap.insert natLt natLt demoTie1 2 20 5 5).map Prod.fst).getD demo0

/-- The memory after `merge` of the two records of `tieMem`. -/
def tieMerged : Mem :=
  ((treap.merge 3 tieMem (Ptr.node true 0) (Ptr.node true 1)).map Prod.fst).getD Mem.blank

/-- The shape both trees of `demoTie` have, and the result of the merge in
`tieMem`: node 1 on top, node 0 its left child. -/
def tieShape : NodeTree :=
  NodeTree.node (NodeTree.node NodeTree.nil 0 NodeTree.nil) 1 NodeTree.nil

/-! ## Memory updates -/

@[simp] theorem upd_same {α : Type} (f : Ptr → α) (p : Ptr) (v : α) : upd f p v p = v := by
  simp [upd]

theorem upd_ne {α : Type} (f : Ptr → α) {p q : Ptr} (v : α) (h : q ≠ p) : upd f p v q = f q := by
  simp [upd, h]

theorem upd_apply {α : Type} (f : Ptr → α) (p q : Ptr) (v : α) :
    upd f p v q = if q = p then v else f q := rfl

namespace Mem

@[simp] theorem setLeft_left (m : Mem) (p q : Ptr) : (m.setLeft p q).left = upd m.left p q := rfl
@[simp] theorem setLeft_right (m : Mem) (p q : Ptr) : (m.setLeft p q).right = m.right := rfl
@[simp] theorem setLeft_father (m : Mem) (p q : Ptr) : (m.setLeft p q).father = m.father := rfl
@[simp] theorem setLeft_priority (m : Mem) (p q : Ptr) : (m.setLeft p q).priority = m.priority := rfl
@[simp] theorem setRight_left (m : Mem) (p q : Ptr) : (m.setRight p q).left = m.left := rfl
@[simp] theorem setRight_right (m : Mem) (p q : Ptr) : (m.setRight p q).right = upd m.right p q := rfl
@[simp] theorem setRight_father (m : Mem) (p q : Ptr) : (m.setRight p q).father = m.father := rfl
@[simp] theorem setRight_priority (m : Mem) (p q : Ptr) : (m.setRight p q).priority = m.priority := rfl
@[simp] theorem setFather_left (m : Mem) (p q : Ptr) : (m.setFather p q).left = m.left := rfl
@[simp] theorem setFather_right (m : Mem) (p q : Ptr) : (m.setFather p q).right = m.right := rfl
@[simp] theorem setFather_father (m : Mem) (p q : Ptr) : (m.setFather p q).father = upd m.father p q := rfl
@[simp] theorem setFather_priority (m : Mem) (p q : Ptr) : (m.setFather p q).priority = m.priority := rfl
@[simp] theorem setPriority_left (m : Mem) (p : Ptr) (n : Nat) : (m.setPriority p n).left = m.left := rfl
@[simp] theorem setPriority_right (m : Mem) (p : Ptr) (n : Nat) : (m.setPriority p n).right = m.right := rfl
@[simp] theorem setPriority_father (m : Mem) (p : Ptr) (n : Nat) : (m.setPriority p n).father = m.father := rfl
@[simp] theorem setPriority_priority (m : Mem) (p : Ptr) (n : Nat) :
    (m.setPriority p n).priority = upd m.priority p n := rfl

end Mem

namespace node_base_t

@[simp] theorem update_left_father_left (m : Mem) (p : Ptr) :
    (update_left_father m p).left = m.left := by
  unfold update_left_father; split <;> rfl

@[simp] theorem update_left_father_right (m : Mem) (p : Ptr) :
    (update_left_father m p).right = m.right := by
  unfold update_left_father; split <;> rfl

@[simp] theorem update_left_father_priority (m : Mem) (p : Ptr) :
    (update_left_father m p).priority = m.priority := by
  unfold update_left_father; split <;> rfl

theorem update_left_father_father (m : Mem) (p q : Ptr) :
    (update_left_father m p).father q =
      if m.left p ≠ Ptr.null ∧ q = m.left p then p else m.father q := by
  unfold update_left_father
  by_cases h : m.left p = Ptr.null
  · simp [h]
  · simp [h, upd_apply]

@[simp] theorem update_right_father_left (m : Mem) (p : Ptr) :
    (update_right_father m p).left = m.left := by
  unfold update_right_father; split <;> rfl

@[simp] theorem update_right_father_right (m : Mem) (p : Ptr) :
    (update_right_father m p).right = m.right := by
  unfold update_right_father; split <;> rfl

@[simp] theorem update_right_father_priority (m : Mem) (p : Ptr) :
    (update_right_father m p).priority = m.priority := by
  unfold update_right_father; split <;> rfl

theorem update_right_father_father (m : Mem) (p q : Ptr) :
    (update_right_father m p).father q =
      if m.right p ≠ Ptr.null ∧ q = m.right p then p else m.father q := by
  unfold update_right_father
  by_cases h : m.right p = Ptr.null
  · simp [h]
  · simp [h, upd_apply]

@[simp] theorem update_father_left (m : Mem) (p : Ptr) : (update_father m p).left = m.left := by
  simp [update_father]

@[simp] theorem update_father_right (m : Mem) (p : Ptr) : (update_father m p).right = m.right := by
  simp [update_father]

@[simp] theorem update_father_priority (m : Mem) (p : Ptr) :
    (update_father m p).priority = m.priority := by
  simp [update_father]

theorem update_father_father (m : Mem) (p q : Ptr) :
    (update_father m p).father q =
      if m.right p ≠ Ptr.null ∧ q = m.right p then p
      else if m.left p ≠ Ptr.null ∧ q = m.left p then p else m.father q := by
  simp [update_father, update_right_father_father, update_left_father_father]

/-- A record that is neither child of `p` keeps its `father` field. -/
theorem update_father_father_of_ne (m : Mem) (p q : Ptr) (hl : q ≠ m.left p)
    (hr : q ≠ m.right p) : (update_father m p).father q = m.father q := by
  simp [update_father_father, hl, hr]

end node_base_t

/-! ## Shapes: lists of nodes -/

namespace NodeTree

@[simp] theorem toList_nil : NodeTree.nil.toList = [] := rfl
@[simp] theorem toList_node (l : NodeTree) (i : Nat) (r : NodeTree) :
    (NodeTree.node l i r).toList = l.toList ++ i :: r.toList := rfl
@[simp] theorem inner_nil : NodeTree.nil.inner = [] := rfl
@[simp] theorem inner_node (l : NodeTree) (i : Nat) (r : NodeTree) :
    (NodeTree.node l i r).inner = l.toList ++ r.toList := rfl
@[simp] theorem size_nil : NodeTree.nil.size = 0 := rfl
@[simp] theorem size_node (l : NodeTree) (i : Nat) (r : NodeTree) :
    (NodeTree.node l i r).size = l.size + r.size + 1 := rfl
@[simp] theorem ptr_nil (s : Bool) : NodeTree.nil.ptr s = Ptr.null := rfl
@[simp] theorem ptr_node (s : Bool) (l : NodeTree) (i : Nat) (r : NodeTree) :
    (NodeTree.node l i r).ptr s = Ptr.node s i := rfl

theorem length_toList (t : NodeTree) : t.toList.length = t.size := by
  induction t with
  | nil => rfl
  | node l i r ihl ihr => simp [ihl, ihr]; omega

theorem inner_subset (t : NodeTree) : ∀ j ∈ t.inner, j ∈ t.toList := by
  cases t with
  | nil => simp
  | node l i r =>
    intro j hj
    simp only [inner_node, List.mem_append] at hj
    simp only [toList_node, List.mem_append, List.mem_cons]
    tauto

/-- The top pointer of a tree is null or a record of one of its nodes. -/
theorem ptr_cases (s : Bool) (t : NodeTree) :
    t.ptr s = Ptr.null ∨ ∃ j, j ∈ t.toList ∧ t.ptr s = Ptr.node s j := by
  cases t with
  | nil => exact Or.inl rfl
  | node l i r => exact Or.inr ⟨i, by simp, rfl⟩

theorem ptr_eq_null_iff (s : Bool) (t : NodeTree) : t.ptr s = Ptr.null ↔ t = NodeTree.nil := by
  cases t <;> simp

/-- A pointer that is no record of a node of `t` and not null is not the top of `t`. -/
theorem ne_ptr_of_not_mem {s : Bool} {t : NodeTree} {q : Ptr}
    (h : ∀ j ∈ t.toList, q ≠ Ptr.node s j) (hq : t.ptr s ≠ Ptr.null) : q ≠ t.ptr s := by
  rcases ptr_cases s t with h0 | ⟨j, hj, he⟩
  · exact absurd h0 hq
  · rw [he]; exact h j hj

theorem node_ne_ptr_of_not_mem {s : Bool} {t : NodeTree} {j : Nat} (h : j ∉ t.toList) :
    Ptr.node s j ≠ t.ptr s := by
  rcases ptr_cases s t with h0 | ⟨k, hk, he⟩
  · rw [h0]; simp
  · rw [he]; intro hc; injection hc with _ hjk; exact h (hjk ▸ hk)

theorem node_ne_ptr_of_mem_inner {s : Bool} {t : NodeTree} {j : Nat} (hn : t.toList.Nodup)
    (h : j ∈ t.inner) : Ptr.node s j ≠ t.ptr s := by
  cases t with
  | nil => simp
  | node l i r =>
    simp only [toList_node] at hn
    simp only [inner_node, List.mem_append] at h
    simp only [ptr_node, ne_eq, Ptr.node.injEq, true_and]
    rintro rfl
    rw [List.nodup_append] at hn
    rcases h with h | h
    · exact hn.2.2 h (List.mem_cons_self _ _)
    · exact (List.nodup_cons.1 hn.2.1).1 h

end NodeTree


/-! ## Shapes in memory -/

theorem Fath_nil (m : Mem) (s : Bool) (f : Ptr) : Fath m s f NodeTree.nil := trivial

theorem Fath_iff (m : Mem) (s : Bool) (f : Ptr) (t : NodeTree) :
    Fath m s f t ↔ (t.ptr s ≠ Ptr.null → m.father (t.ptr s) = f) := by
  cases t <;> simp [Fath]

/-- `Shape` reads `left` and `right` of the nodes of the tree and `father` of the
nodes below the top; memories that agree there hold the same shapes. -/
theorem Shape_congr {m m' : Mem} {s : Bool} : ∀ (t : NodeTree),
    (∀ j ∈ t.toList, m'.left (Ptr.node s j) = m.left (Ptr.node s j) ∧
      m'.right (Ptr.node s j) = m.right (Ptr.node s j)) →
    (∀ j ∈ t.inner, m'.father (Ptr.node s j) = m.father (Ptr.node s j)) →
    Shape m s t → Shape m' s t
  | NodeTree.nil, _, _, _ => trivial
  | NodeTree.node l i r, hlr, hf, h => by
    obtain ⟨h1, h2, h3, h4, h5, h6⟩ := h
    have hi := hlr i (by simp)
    refine ⟨hi.1.trans h1, hi.2.trans h2, ?_, ?_, ?_, ?_⟩
    · cases l with
      | nil => trivial
      | node ll j lr =>
        have := hf j (by simp)
        exact this.trans h3
    · cases r with
      | nil => trivial
      | node rl j rr =>
        have := hf j (by simp)
        exact this.trans h4
    · exact Shape_congr l (fun j hj => hlr j (by simp [hj]))
        (fun j hj => hf j (by simp [NodeTree.inner_subset l j hj])) h5
    · exact Shape_congr r (fun j hj => hlr j (by simp [hj]))
        (fun j hj => hf j (by simp [NodeTree.inner_subset r j hj])) h6

theorem Shape_frame {m m' : Mem} {s : Bool} {F : List Nat} {t : NodeTree}
    (hfr : Frame s F m m') (hd : ∀ j ∈ t.toList, j ∉ F) (h : Shape m s t) : Shape m' s t := by
  have key : ∀ j ∈ t.toList, ∀ i ∈ F, Ptr.node s j ≠ Ptr.node s i := by
    intro j hj i hi hc
    injection hc with _ hji
    exact hd j hj (hji ▸ hi)
  exact Shape_congr t (fun j hj => ⟨(hfr.2 _ (key j hj)).1, (hfr.2 _ (key j hj)).2.1⟩)
    (fun j hj => (hfr.2 _ (key j (NodeTree.inner_subset t j hj))).2.2) h

theorem Fath_frame {m m' : Mem} {s : Bool} {F : List Nat} {t : NodeTree} {f : Ptr}
    (hfr : Frame s F m m') (hd : ∀ j ∈ t.toList, j ∉ F) (h : Fath m s f t) : Fath m' s f t := by
  cases t with
  | nil => trivial
  | node l i r =>
    have : ∀ k ∈ F, Ptr.node s i ≠ Ptr.node s k := by
      intro k hk hc
      injection hc with _ hik
      exact hd i (by simp) (hik ▸ hk)
    exact ((hfr.2 _ this).2.2).trans h

theorem Frame_refl (s : Bool) (F : List Nat) (m : Mem) : Frame s F m m :=
  ⟨rfl, fun _ _ => ⟨rfl, rfl, rfl⟩⟩

theorem Frame_trans {s : Bool} {F : List Nat} {m1 m2 m3 : Mem} (h12 : Frame s F m1 m2)
    (h23 : Frame s F m2 m3) : Frame s F m1 m3 :=
  ⟨h23.1.trans h12.1, fun q hq =>
    ⟨(h23.2 q hq).1.trans (h12.2 q hq).1, (h23.2 q hq).2.1.trans (h12.2 q hq).2.1,
      (h23.2 q hq).2.2.trans (h12.2 q hq).2.2⟩⟩

theorem Frame_mono {s : Bool} {F G : List Nat} {m1 m2 : Mem} (h : Frame s F m1 m2)
    (hFG : ∀ i ∈ F, i ∈ G) : Frame s G m1 m2 :=
  ⟨h.1, fun q hq => h.2 q (fun i hi => hq i (hFG i hi))⟩

/-- Hanging the shapes `l` and `r` under node `i`: once `left` and `right` of the
record of `i` point at them, `update_father` completes the shape. -/
theorem Shape_attach {m : Mem} {s : Bool} {l r : NodeTree} {i : Nat}
    (hl : Shape m s l) (hr : Shape m s r) (hn : (l.toList ++ i :: r.toList).Nodup)
    (hleft : m.left (Ptr.node s i) = l.ptr s) (hright : m.right (Ptr.node s i) = r.ptr s) :
    Shape (node_base_t.update_father m (Ptr.node s i)) s (NodeTree.node l i r) := by
  rw [List.nodup_append] at hn
  obtain ⟨hnl, hnr, hdis⟩ := hn
  rw [List.nodup_cons] at hnr
  have hdlr : ∀ j ∈ l.toList, j ∉ r.toList := fun j hj hjr =>
    hdis hj (List.mem_cons_of_mem _ hjr)
  refine ⟨by simpa using hleft, by simpa using hright, ?_, ?_, ?_, ?_⟩
  · rw [Fath_iff]
    intro hne
    rw [node_base_t.update_father_father]
    simp [hleft, hne]
  · rw [Fath_iff]
    intro hne
    rw [node_base_t.update_father_father]
    simp [hright, hne]
  · refine Shape_congr l (fun j _ => by simp) (fun j hj => ?_) hl
    apply node_base_t.update_father_father_of_ne
    · rw [hleft]; exact NodeTree.node_ne_ptr_of_mem_inner hnl hj
    · rw [hright]; exact NodeTree.node_ne_ptr_of_not_mem (hdlr j (NodeTree.inner_subset l j hj))
  · refine Shape_congr r (fun j _ => by simp) (fun j hj => ?_) hr
    apply node_base_t.update_father_father_of_ne
    · rw [hleft]
      exact NodeTree.node_ne_ptr_of_not_mem
        (fun hjl => hdlr j hjl (NodeTree.inner_subset r j hj))
    · rw [hright]; exact NodeTree.node_ne_ptr_of_mem_inner hnr.2 hj

/-- `update_father` at node `i` leaves alone every shape that contains neither
child of `i` below its top. -/
theorem Shape_update_father {m : Mem} {s : Bool} {t : NodeTree} {p : Ptr}
    (h : Shape m s t)
    (hl : ∀ j ∈ t.inner, Ptr.node s j ≠ m.left p) (hr : ∀ j ∈ t.inner, Ptr.node s j ≠ m.right p) :
    Shape (node_base_t.update_father m p) s t :=
  Shape_congr t (fun j _ => by simp)
    (fun j hj => node_base_t.update_father_father_of_ne m p _ (hl j hj) (hr j hj)) h

theorem Shape_setLeft {m : Mem} {s : Bool} {t : NodeTree} {p q : Ptr}
    (h : Shape m s t) (hp : ∀ j ∈ t.toList, Ptr.node s j ≠ p) : Shape (m.setLeft p q) s t :=
  Shape_congr t (fun j hj => by simp [upd_ne _ _ (hp j hj)]) (fun j _ => by simp) h

theorem Shape_setRight {m : Mem} {s : Bool} {t : NodeTree} {p q : Ptr}
    (h : Shape m s t) (hp : ∀ j ∈ t.toList, Ptr.node s j ≠ p) : Shape (m.setRight p q) s t :=
  Shape_congr t (fun j hj => by simp [upd_ne _ _ (hp j hj)]) (fun j _ => by simp) h


/-- A record that is neither non-null child of `p` keeps its `father` field. -/
theorem node_base_t.update_father_father_of_ne_or_null (m : Mem) (p q : Ptr)
    (hl : m.left p ≠ Ptr.null → q ≠ m.left p) (hr : m.right p ≠ Ptr.null → q ≠ m.right p) :
    (node_base_t.update_father m p).father q = m.father q := by
  rw [node_base_t.update_father_father]
  by_cases h1 : m.right p = Ptr.null
  · by_cases h2 : m.left p = Ptr.null
    · simp [h1, h2]
    · simp [h1, h2, hl h2]
  · by_cases h2 : m.left p = Ptr.null
    · simp [h1, h2, hr h1]
    · simp [h1, h2, hl h2, hr h1]

namespace NodeTree

theorem split_toList (p : Nat → Bool) (t : NodeTree) :
    (t.split p).1.toList ++ (t.split p).2.toList = t.toList := by
  induction t with
  | nil => rfl
  | node l i r ihl ihr =>
    unfold split
    by_cases h : p i = true
    · simp [h, ihr]
    · simp [h, ← ihl]

theorem split_fst_subset (p : Nat → Bool) (t : NodeTree) :
    ∀ j ∈ (t.split p).1.toList, j ∈ t.toList := by
  intro j hj
  rw [← split_toList p t]
  exact List.mem_append_left _ hj

theorem split_snd_subset (p : Nat → Bool) (t : NodeTree) :
    ∀ j ∈ (t.split p).2.toList, j ∈ t.toList := by
  intro j hj
  rw [← split_toList p t]
  exact List.mem_append_right _ hj

theorem split_nodup (p : Nat → Bool) {t : NodeTree} (h : t.toList.Nodup) :
    ((t.split p).1.toList ++ (t.split p).2.toList).Nodup := by
  rw [split_toList]; exact h

theorem split_size (p : Nat → Bool) (t : NodeTree) :
    (t.split p).1.size + (t.split p).2.size = t.size := by
  rw [← length_toList, ← length_toList, ← length_toList, ← List.length_append, split_toList]

theorem merge_nil_right (prio : Nat → Nat) (a : NodeTree) : merge prio a nil = a := by
  cases a <;> simp [merge]

theorem merge_nil_left (prio : Nat → Nat) (b : NodeTree) : merge prio nil b = b := by
  cases b <;> simp [merge]

theorem merge_node_node (prio : Nat → Nat) (l1 : NodeTree) (i : Nat) (r1 l2 : NodeTree) (j : Nat)
    (r2 : NodeTree) :
    merge prio (node l1 i r1) (node l2 j r2) =
      if prio i > prio j then node l1 i (merge prio r1 (node l2 j r2))
      else node (merge prio (node l1 i r1) l2) j r2 := by
  rw [merge]

theorem merge_toList (prio : Nat → Nat) : ∀ (n : Nat) (a b : NodeTree), a.size + b.size ≤ n →
    (merge prio a b).toList = a.toList ++ b.toList := by
  intro n
  induction n with
  | zero =>
    intro a b h
    cases a with
    | nil => simp [merge_nil_left]
    | node l i r => simp at h
  | succ n ih =>
    intro a b h
    cases a with
    | nil => simp [merge_nil_left]
    | node l1 i r1 =>
      cases b with
      | nil => simp [merge_nil_right]
      | node l2 j r2 =>
        rw [merge_node_node]
        by_cases hp : prio i > prio j
        · have := ih r1 (node l2 j r2) (by simp at h ⊢; omega)
          simp [hp, this]
        · have := ih (node l1 i r1) l2 (by simp at h ⊢; omega)
          simp [hp, this]

theorem merge_toList_eq (prio : Nat → Nat) (a b : NodeTree) :
    (merge prio a b).toList = a.toList ++ b.toList :=
  merge_toList prio _ a b (Nat.le_refl _)

end NodeTree

/-- `treap::split` on a subtree of shape `t` returns the two halves
`NodeTree.split` describes and rewrites nothing but the records of `t`. -/
theorem split_shape {T : Type} (cmp : T → T → Bool) (val : Nat → Option T) (s : Bool) (v : T)
    (p : Nat → Bool) : ∀ (t : NodeTree) (fuel : Nat) (m : Mem),
    (∀ i ∈ t.toList, ∃ x, val i = some x ∧ cmp x v = p i) → Shape m s t → t.toList.Nodup →
    t.size < fuel →
    ∃ m', treap.split cmp val s fuel m (t.ptr s) v
        = some (m', (t.split p).1.ptr s, (t.split p).2.ptr s) ∧
      Shape m' s (t.split p).1 ∧ Shape m' s (t.split p).2 ∧ Frame s t.toList m m' := by
  intro t
  induction t with
  | nil =>
    intro fuel m _ _ _ hf
    obtain ⟨f, rfl⟩ : ∃ f, fuel = f + 1 := ⟨fuel - 1, by omega⟩
    exact ⟨m, by simp [treap.split, NodeTree.split], trivial, trivial, Frame_refl _ _ _⟩
  | node l i r ihl ihr =>
    intro fuel m hv hs hn hf
    obtain ⟨f, rfl⟩ : ∃ f, fuel = f + 1 := ⟨fuel - 1, by omega⟩
    obtain ⟨x, hx, hcx⟩ := hv i (by simp)
    obtain ⟨h1, h2, h3, h4, h5, h6⟩ := hs
    have hn' := hn
    simp only [NodeTree.toList_node] at hn'
    rw [List.nodup_append] at hn'
    obtain ⟨hnl, hnr, hdis⟩ := hn'
    rw [List.nodup_cons] at hnr
    obtain ⟨hir, hnr⟩ := hnr
    have hil : i ∉ l.toList := fun h => hdis h (List.mem_cons_self _ _)
    have hdlr : ∀ j ∈ l.toList, j ∉ r.toList := fun j hj hjr =>
      hdis hj (List.mem_cons_of_mem _ hjr)
    simp only [NodeTree.size_node] at hf
    by_cases hp : p i = true
    · -- the top goes to the first half, the right subtree is split
      obtain ⟨m1, e1, sa, sb, fr⟩ := ihr f m (fun j hj => hv j (by simp [hj])) h6 hnr (by omega)
      have hab := NodeTree.split_nodup p hnr
      rw [List.nodup_append] at hab
      have hia : i ∉ (r.split p).1.toList := fun h => hir (NodeTree.split_fst_subset p r i h)
      have hib : i ∉ (r.split p).2.toList := fun h => hir (NodeTree.split_snd_subset p r i h)
      have hm1l : m1.left (Ptr.node s i) = l.ptr s := by
        rw [(fr.2 (Ptr.node s i) (fun k hk hc => by injection hc with _ e; exact hir (e ▸ hk))).1]
        exact h1
      have sl1 : Shape m1 s l := Shape_frame fr (fun j hj => hdlr j hj) h5
      have e2 : (NodeTree.node l i r).split p
          = (NodeTree.node l i (r.split p).1, (r.split p).2) := by
        simp [NodeTree.split, hp]
      refine ⟨node_base_t.update_father (m1.setRight (Ptr.node s i) ((r.split p).1.ptr s))
        (Ptr.node s i), ?_, ?_, ?_, ?_⟩
      · simp [treap.split, treap.value, hx, hcx, hp, h2, e1, e2]
      · rw [e2]
        apply Shape_attach
        · exact Shape_setRight sl1 (fun j hj hc => by injection hc with _ e; exact hil (e ▸ hj))
        · exact Shape_setRight sa (fun j hj hc => by injection hc with _ e; exact hia (e ▸ hj))
        · rw [List.nodup_append]
          refine ⟨hnl, List.nodup_cons.2 ⟨hia, hab.1⟩, ?_⟩
          intro a ha1 ha2
          rcases List.mem_cons.1 ha2 with rfl | ha2
          · exact hil ha1
          · exact hdlr a ha1 (NodeTree.split_fst_subset p r a ha2)
        · simpa using hm1l
        · simp
      · rw [e2]
        apply Shape_update_father
        · exact Shape_setRight sb (fun j hj hc => by injection hc with _ e; exact hib (e ▸ hj))
        · intro j hj
          have hjb := NodeTree.inner_subset _ j hj
          simp only [Mem.setRight_left, hm1l]
          exact NodeTree.node_ne_ptr_of_not_mem
            (fun hjl => hdlr j hjl (NodeTree.split_snd_subset p r j hjb))
        · intro j hj
          have hjb := NodeTree.inner_subset _ j hj
          simp only [Mem.setRight_right, upd_same]
          exact NodeTree.node_ne_ptr_of_not_mem (fun hja => hab.2.2 hja hjb)
      · refine ⟨by simpa using fr.1, fun q hq => ?_⟩
        have hqr : ∀ k ∈ r.toList, q ≠ Ptr.node s k := fun k hk => hq k (by simp [hk])
        have hqi : q ≠ Ptr.node s i := hq i (by simp)
        have := fr.2 q hqr
        refine ⟨by simpa using this.1, by simpa [upd_ne _ _ hqi] using this.2.1, ?_⟩
        rw [node_base_t.update_father_father_of_ne_or_null]
        · simpa using this.2.2
        · simp only [Mem.setRight_left, hm1l]
          exact NodeTree.ne_ptr_of_not_mem (fun k hk => hq k (by simp [hk]))
        · simp only [Mem.setRight_right, upd_same]
          exact NodeTree.ne_ptr_of_not_mem
            (fun k hk => hqr k (NodeTree.split_fst_subset p r k hk))
    · -- the top goes to the second half, the left subtree is split
      have hp' : p i = false := by simpa using hp
      obtain ⟨m1, e1, sa, sb, fr⟩ := ihl f m (fun j hj => hv j (by simp [hj])) h5 hnl (by omega)
      have hab := NodeTree.split_nodup p hnl
      rw [List.nodup_append] at hab
      have hia : i ∉ (l.split p).1.toList := fun h => hil (NodeTree.split_fst_subset p l i h)
      have hib : i ∉ (l.split p).2.toList := fun h => hil (NodeTree.split_snd_subset p l i h)
      have hm1r : m1.right (Ptr.node s i) = r.ptr s := by
        rw [(fr.2 (Ptr.node s i)
          (fun k hk hc => by injection hc with _ e; exact hil (e ▸ hk))).2.1]
        exact h2
      have sr1 : Shape m1 s r := Shape_frame fr (fun j hj hjl => hdlr j hjl hj) h6
      have e2 : (NodeTree.node l i r).split p
          = ((l.split p).1, NodeTree.node (l.split p).2 i r) := by
        simp [NodeTree.split, hp']
      refine ⟨node_base_t.update_father (m1.setLeft (Ptr.node s i) ((l.split p).2.ptr s))
        (Ptr.node s i), ?_, ?_, ?_, ?_⟩
      · simp [treap.split, treap.value, hx, hcx, hp', h1, e1, e2]
      · rw [e2]
        apply Shape_update_father
        · exact Shape_setLeft sa (fun j hj hc => by injection hc with _ e; exact hia (e ▸ hj))
        · intro j hj
          have hja := NodeTree.inner_subset _ j hj
          simp only [Mem.setLeft_left, upd_same]
          exact NodeTree.node_ne_ptr_of_not_mem (fun hjb => hab.2.2 hja hjb)
        · intro j hj
          have hja := NodeTree.inner_subset _ j hj
          simp only [Mem.setLeft_right, hm1r]
          exact NodeTree.node_ne_ptr_of_not_mem
            (fun hjr => hdlr j (NodeTree.split_fst_subset p l j hja) hjr)
      · rw [e2]
        apply Shape_attach
        · exact Shape_setLeft sb (fun j hj hc => by injection hc with _ e; exact hib (e ▸ hj))
        · exact Shape_setLeft sr1 (fun j hj hc => by injection hc with _ e; exact hir (e ▸ hj))
        · rw [List.nodup_append]
          refine ⟨hab.2.1, List.nodup_cons.2 ⟨hir, hnr⟩, ?_⟩
          intro a ha1 ha2
          rcases List.mem_cons.1 ha2 with rfl | ha2
          · exact hib ha1
          · exact hdlr a (NodeTree.split_snd_subset p l a ha1) ha2
        · simp
        · simpa using hm1r
      · refine ⟨by simpa using fr.1, fun q hq => ?_⟩
        have hql : ∀ k ∈ l.toList, q ≠ Ptr.node s k := fun k hk => hq k (by simp [hk])
        have hqi : q ≠ Ptr.node s i := hq i (by simp)
        have := fr.2 q hql
        refine ⟨by simpa [upd_ne _ _ hqi] using this.1, by simpa using this.2.1, ?_⟩
        rw [node_base_t.update_father_father_of_ne_or_null]
        · simpa using this.2.2
        · simp only [Mem.setLeft_left, upd_same]
          exact NodeTree.ne_ptr_of_not_mem
            (fun k hk => hql k (NodeTree.split_snd_subset p l k hk))
        · simp only [Mem.setLeft_right, hm1r]
          exact NodeTree.ne_ptr_of_not_mem (fun k hk => hq k (by simp [hk]))


/-- `treap::merge` on subtrees of shapes `a` and `b` returns the shape
`NodeTree.merge` describes and rewrites nothing but the records of `a` and `b`. -/
theorem merge_shape (s : Bool) : ∀ (fuel : Nat) (a b : NodeTree) (m : Mem),
    Shape m s a → Shape m s b → (a.toList ++ b.toList).Nodup → a.size + b.size < fuel →
    ∃ m', treap.merge fuel m (a.ptr s) (b.ptr s)
        = some (m', (NodeTree.merge (fun i => m.priority (Ptr.node s i)) a b).ptr s) ∧
      Shape m' s (NodeTree.merge (fun i => m.priority (Ptr.node s i)) a b) ∧
      Frame s (a.toList ++ b.toList) m m' := by
  intro fuel
  induction fuel with
  | zero => intro a b m _ _ _ hf; omega
  | succ f ih =>
    intro a b m sa sb hn hf
    cases b with
    | nil =>
      exact ⟨m, by simp [treap.merge, NodeTree.merge_nil_right],
        by simpa [NodeTree.merge_nil_right] using sa, Frame_refl _ _ _⟩
    | node l2 j r2 =>
      cases a with
      | nil =>
        exact ⟨m, by simp [treap.merge, NodeTree.merge_nil_left],
          by simpa [NodeTree.merge_nil_left] using sb, Frame_refl _ _ _⟩
      | node l1 i r1 =>
        obtain ⟨a1, a2, a3, a4, a5, a6⟩ := sa
        obtain ⟨b1, b2, b3, b4, b5, b6⟩ := sb
        simp only [NodeTree.size_node] at hf
        simp only [NodeTree.toList_node, List.append_assoc, List.cons_append] at hn
        -- all the disjointness facts the two cases need
        have hn1 : (l1.toList ++ i :: (r1.toList ++ (l2.toList ++ j :: r2.toList))).Nodup := hn
        rw [List.nodup_append] at hn
        obtain ⟨nl1, hn2, d1⟩ := hn
        rw [List.nodup_cons] at hn2
        obtain ⟨hi, hn3⟩ := hn2
        by_cases hp : m.priority (Ptr.node s i) > m.priority (Ptr.node s j)
        · -- `first` stays on top and `second` is merged into its right subtree
          obtain ⟨m1, e1, sR, fr⟩ := ih r1 (NodeTree.node l2 j r2) m a6 ⟨b1, b2, b3, b4, b5, b6⟩
            (by simpa using hn3) (by simp; omega)
          generalize hR : NodeTree.merge (fun i => m.priority (Ptr.node s i)) r1
            (NodeTree.node l2 j r2) = Rt at e1 sR
          have hRl : Rt.toList = r1.toList ++ (l2.toList ++ j :: r2.toList) := by
            rw [← hR, NodeTree.merge_toList_eq]; simp
          have hiR : i ∉ Rt.toList := by rw [hRl]; exact hi
          have hm1l : m1.left (Ptr.node s i) = l1.ptr s := by
            rw [(fr.2 (Ptr.node s i) (fun k hk hc => by
              injection hc with _ e; exact hi (by simpa [e] using hk))).1]
            exact a1
          have sl1 : Shape m1 s l1 := Shape_frame fr
            (fun k hk hk2 => d1 hk (List.mem_cons_of_mem _ (by simpa using hk2))) a5
          have e2 : NodeTree.merge (fun i => m.priority (Ptr.node s i)) (NodeTree.node l1 i r1)
              (NodeTree.node l2 j r2) = NodeTree.node l1 i Rt := by
            rw [NodeTree.merge_node_node, if_pos hp, hR]
          refine ⟨node_base_t.update_father (m1.setRight (Ptr.node s i) (Rt.ptr s))
            (Ptr.node s i), ?_, ?_, ?_⟩
          · simp only [NodeTree.ptr_node] at e1
            simp [treap.merge, hp, a2, e1, e2]
          · rw [e2]
            apply Shape_attach
            · exact Shape_setRight sl1 (fun k hk hc => by
                injection hc with _ e; exact d1 hk (by simp [e]))
            · exact Shape_setRight sR (fun k hk hc => by
                injection hc with _ e; exact hiR (e ▸ hk))
            · rw [hRl]; exact hn1
            · simpa using hm1l
            · simp
          · refine ⟨by simpa using fr.1, fun q hq => ?_⟩
            have hqR : ∀ k ∈ Rt.toList, q ≠ Ptr.node s k := fun k hk =>
              hq k (by rw [hRl] at hk; simp at hk ⊢; tauto)
            have hqi : q ≠ Ptr.node s i := hq i (by simp)
            have := fr.2 q (fun k hk => hqR k (by rw [hRl]; simpa using hk))
            refine ⟨by simpa using this.1, by simpa [upd_ne _ _ hqi] using this.2.1, ?_⟩
            rw [node_base_t.update_father_father_of_ne_or_null]
            · simpa using this.2.2
            · simp only [Mem.setRight_left, hm1l]
              exact NodeTree.ne_ptr_of_not_mem (fun k hk => hq k (by simp [hk]))
            · simp only [Mem.setRight_right, upd_same]
              exact NodeTree.ne_ptr_of_not_mem hqR
        · -- `second` goes on top and `first` is merged into its left subtree
          have hnL : ((NodeTree.node l1 i r1).toList ++ l2.toList).Nodup := by
            have : (l1.toList ++ i :: (r1.toList ++ l2.toList) ++ j :: r2.toList).Nodup := by
              simpa using hn1
            simpa using (List.nodup_append.1 this).1
          obtain ⟨m1, e1, sL, fr⟩ := ih (NodeTree.node l1 i r1) l2 m ⟨a1, a2, a3, a4, a5, a6⟩ b5
            hnL (by simp; omega)
          generalize hL : NodeTree.merge (fun i => m.priority (Ptr.node s i))
            (NodeTree.node l1 i r1) l2 = Lt at e1 sL
          have hLl : Lt.toList = l1.toList ++ i :: (r1.toList ++ l2.toList) := by
            rw [← hL, NodeTree.merge_toList_eq]; simp
          have hn4 : (Lt.toList ++ j :: r2.toList).Nodup := by
            rw [hLl]; simpa using hn1
          have hn5 := hn4
          rw [List.nodup_append] at hn5
          obtain ⟨_, hn6, d2⟩ := hn5
          rw [List.nodup_cons] at hn6
          have hjL : j ∉ Lt.toList := fun h => d2 h (List.mem_cons_self _ _)
          have hm1r : m1.right (Ptr.node s j) = r2.ptr s := by
            rw [(fr.2 (Ptr.node s j) (fun k hk hc => by
              injection hc with _ e
              exact hjL (by rw [hLl]; simpa [e] using hk))).2.1]
            exact b2
          have sr2 : Shape m1 s r2 := Shape_frame fr
            (fun k hk hk2 => d2 (by rw [hLl]; simpa using hk2) (List.mem_cons_of_mem _ hk)) b6
          have e2 : NodeTree.merge (fun i => m.priority (Ptr.node s i)) (NodeTree.node l1 i r1)
              (NodeTree.node l2 j r2) = NodeTree.node Lt j r2 := by
            rw [NodeTree.merge_node_node, if_neg hp, hL]
          refine ⟨node_base_t.update_father (m1.setLeft (Ptr.node s j) (Lt.ptr s))
            (Ptr.node s j), ?_, ?_, ?_⟩
          · simp only [NodeTree.ptr_node] at e1
            simp [treap.merge, hp, b1, e1, e2]
          · rw [e2]
            apply Shape_attach
            · exact Shape_setLeft sL (fun k hk hc => by
                injection hc with _ e; exact hjL (e ▸ hk))
            · exact Shape_setLeft sr2 (fun k hk hc => by
                injection hc with _ e; exact hn6.1 (e ▸ hk))
            · exact hn4
            · simp
            · simpa using hm1r
          · refine ⟨by simpa using fr.1, fun q hq => ?_⟩
            have hqL : ∀ k ∈ Lt.toList, q ≠ Ptr.node s k := fun k hk =>
              hq k (by rw [hLl] at hk; simp at hk ⊢; tauto)
            have hqj : q ≠ Ptr.node s j := hq j (by simp)
            have := fr.2 q (fun k hk => hqL k (by rw [hLl]; simpa using hk))
            refine ⟨by simpa [upd_ne _ _ hqj] using this.1, by simpa using this.2.1, ?_⟩
            rw [node_base_t.update_father_father_of_ne_or_null]
            · simpa using this.2.2
            · simp only [Mem.setLeft_left, upd_same]
              exact NodeTree.ne_ptr_of_not_mem hqL
            · simp only [Mem.setLeft_right, hm1r]
              exact NodeTree.ne_ptr_of_not_mem (fun k hk => hq k (by simp [hk]))


/-- `treap::lower_bound` on a subtree of shape `t` returns what `NodeTree.lb`
describes, with the sentinel standing for "none". -/
theorem lower_bound_shape {T : Type} (cmp : T → T → Bool) (val : Nat → Option T) (s : Bool)
    (v : T) (p : Nat → Bool) : ∀ (t : NodeTree) (fuel : Nat) (m : Mem),
    (∀ i ∈ t.toList, ∃ x, val i = some x ∧ cmp x v = p i) → Shape m s t → t.size < fuel →
    treap.lower_bound cmp val s fuel m (t.ptr s) v
      = some ((t.lb p).elim (Ptr.root s) (Ptr.node s)) := by
  intro t
  induction t with
  | nil =>
    intro fuel m _ _ hf
    obtain ⟨f, rfl⟩ : ∃ f, fuel = f + 1 := ⟨fuel - 1, by omega⟩
    simp [treap.lower_bound, NodeTree.lb]
  | node l i r ihl ihr =>
    intro fuel m hv hs hf
    obtain ⟨f, rfl⟩ : ∃ f, fuel = f + 1 := ⟨fuel - 1, by omega⟩
    obtain ⟨x, hx, hcx⟩ := hv i (by simp)
    obtain ⟨h1, h2, _, _, h5, h6⟩ := hs
    simp only [NodeTree.size_node] at hf
    by_cases hp : p i = true
    · have := ihr f m (fun j hj => hv j (by simp [hj])) h6 (by omega)
      have hcx' : cmp x v = true := hcx.trans hp
      simp [treap.lower_bound, treap.value, hx, hcx', hp, h2, this, NodeTree.lb]
    · have hp' : p i = false := by simpa using hp
      have := ihl f m (fun j hj => hv j (by simp [hj])) h5 (by omega)
      have hcx' : cmp x v = false := hcx.trans hp'
      simp only [treap.lower_bound, NodeTree.ptr_node, treap.value, hx, hcx', hp', h1, this,
        NodeTree.lb]
      cases l.lb p <;> simp [hcx']

/-- Reading a subtree of shape `t` in symmetric order gives the records of
`t.toList`. -/
theorem inorder_shape (s : Bool) : ∀ (t : NodeTree) (fuel : Nat) (m : Mem),
    Shape m s t → t.size < fuel →
    treap.inorder fuel m (t.ptr s) = some (t.toList.map (Ptr.node s)) := by
  intro t
  induction t with
  | nil =>
    intro fuel m _ hf
    obtain ⟨f, rfl⟩ : ∃ f, fuel = f + 1 := ⟨fuel - 1, by omega⟩
    simp [treap.inorder]
  | node l i r ihl ihr =>
    intro fuel m hs hf
    obtain ⟨f, rfl⟩ : ∃ f, fuel = f + 1 := ⟨fuel - 1, by omega⟩
    obtain ⟨h1, h2, _, _, h5, h6⟩ := hs
    simp only [NodeTree.size_node] at hf
    simp [treap.inorder, h1, h2, ihl f m h5 (by omega), ihr f m h6 (by omega)]

/-- `delete_nodes` on a subtree of shape `t` counts the nodes of `t`. -/
theorem delete_nodes_shape (s : Bool) : ∀ (t : NodeTree) (fuel : Nat) (m : Mem),
    Shape m s t → t.size < fuel → bimap.delete_nodes fuel m (t.ptr s) = some t.size := by
  intro t
  induction t with
  | nil =>
    intro fuel m _ hf
    obtain ⟨f, rfl⟩ : ∃ f, fuel = f + 1 := ⟨fuel - 1, by omega⟩
    simp [bimap.delete_nodes]
  | node l i r ihl ihr =>
    intro fuel m hs hf
    obtain ⟨f, rfl⟩ : ∃ f, fuel = f + 1 := ⟨fuel - 1, by omega⟩
    obtain ⟨h1, h2, _, _, h5, h6⟩ := hs
    simp only [NodeTree.size_node] at hf
    simp [bimap.delete_nodes, h1, h2, ihl f m h5 (by omega), ihr f m h6 (by omega)]

/-- `get_min` on a subtree of shape `t` returns the record of the first node of
`t` in symmetric order, and null on the empty tree. -/
theorem get_min_shape (s : Bool) : ∀ (t : NodeTree) (fuel : Nat) (m : Mem),
    Shape m s t → t.size < fuel →
    node_base_t.get_min fuel m (t.ptr s) = some (t.toList.head?.elim Ptr.null (Ptr.node s)) := by
  intro t
  induction t with
  | nil =>
    intro fuel m _ hf
    obtain ⟨f, rfl⟩ : ∃ f, fuel = f + 1 := ⟨fuel - 1, by omega⟩
    simp [node_base_t.get_min]
  | node l i r ihl _ =>
    intro fuel m hs hf
    obtain ⟨f, rfl⟩ : ∃ f, fuel = f + 1 := ⟨fuel - 1, by omega⟩
    obtain ⟨h1, _, _, _, h5, _⟩ := hs
    simp only [NodeTree.size_node] at hf
    cases l with
    | nil => simp [node_base_t.get_min, h1]
    | node ll j lr =>
      have := ihl f m h5 (by simp at hf ⊢; omega)
      simp only [NodeTree.ptr_node] at this
      simp only [node_base_t.get_min, NodeTree.ptr_node, h1]
      simp [this, List.head?_append]

/-- `get_max` on a subtree of shape `t` returns the record of the last node of
`t` in symmetric order, and null on the empty tree. -/
theorem get_max_shape (s : Bool) : ∀ (t : NodeTree) (fuel : Nat) (m : Mem),
    Shape m s t → t.size < fuel →
    node_base_t.get_max fuel m (t.ptr s)
      = some (t.toList.getLast?.elim Ptr.null (Ptr.node s)) := by
  intro t
  induction t with
  | nil =>
    intro fuel m _ hf
    obtain ⟨f, rfl⟩ : ∃ f, fuel = f + 1 := ⟨fuel - 1, by omega⟩
    simp [node_base_t.get_max]
  | node l i r _ ihr =>
    intro fuel m hs hf
    obtain ⟨f, rfl⟩ : ∃ f, fuel = f + 1 := ⟨fuel - 1, by omega⟩
    obtain ⟨_, h2, _, _, _, h6⟩ := hs
    simp only [NodeTree.size_node] at hf
    cases r with
    | nil => simp [node_base_t.get_max, h2]
    | node rl j rr =>
      have := ihr f m h6 (by simp at hf ⊢; omega)
      simp only [NodeTree.ptr_node] at this
      have e : (NodeTree.node l i (NodeTree.node rl j rr)).toList.getLast?
          = (NodeTree.node rl j rr).toList.getLast? := by
        rw [NodeTree.toList_node l i, show l.toList ++ i :: (NodeTree.node rl j rr).toList
          = (l.toList ++ [i]) ++ (NodeTree.node rl j rr).toList by simp]
        exact List.getLast?_append_of_ne_nil _ (by simp)
      rw [e]
      simp only [node_base_t.get_max, NodeTree.ptr_node, h2]
      simp [this]


theorem head?_elim_append_cons {α β : Type} (xs : List α) (y : α) (ys : List α) (d : β)
    (g : α → β) : (xs ++ y :: ys).head?.elim d g = xs.head?.elim (g y) g := by
  cases xs <;> rfl

/-- `next` inside a subtree of shape `t`: if climbing out of the top of `t` ends
at `after`, then `next` on the record of a node of `t` gives the record of the
node that follows it in symmetric order, and `after` at the last node. -/
theorem next_shape (s : Bool) : ∀ (t : NodeTree) (m : Mem) (after : Ptr) (k0 : Nat),
    Shape m s t → t.toList.Nodup →
    (∀ k, k0 ≤ k → node_base_t.next_climb k m (t.ptr s) = some after) →
    ∀ (fuel : Nat), k0 + t.size ≤ fuel → ∀ (pre : List Nat) (i : Nat) (post : List Nat),
      t.toList = pre ++ i :: post →
      node_base_t.next fuel m (Ptr.node s i) = some (post.head?.elim after (Ptr.node s)) := by
  intro t
  induction t with
  | nil => intro m after k0 _ _ _ fuel _ pre i post h; simp at h
  | node l j r ihl ihr =>
    intro m after k0 hs hn hex fuel hf pre i post h
    obtain ⟨h1, h2, h3, h4, h5, h6⟩ := hs
    simp only [NodeTree.toList_node] at hn h
    simp only [NodeTree.size_node] at hf
    have hn' := hn
    rw [List.nodup_append] at hn'
    obtain ⟨hnl, hnr, hdis⟩ := hn'
    rw [List.nodup_cons] at hnr
    -- the node itself
    have self : ∀ post', r.toList = post' →
        node_base_t.next fuel m (Ptr.node s j) = some (post'.head?.elim after (Ptr.node s)) := by
      intro post' hp
      subst hp
      cases r with
      | nil =>
        have := hex fuel (by omega)
        simp only [NodeTree.ptr_node] at this
        simp [node_base_t.next, h2, this]
      | node rl jr rr =>
        have := get_min_shape s (NodeTree.node rl jr rr) fuel m h6 (by omega)
        simp only [node_base_t.next, h2]
        simp only [NodeTree.ptr_node] at this ⊢
        simp only [this]
        cases hh : (NodeTree.node rl jr rr).toList with
        | nil => simp at hh
        | cons a as => simp
    -- a node of the left subtree
    have inl : ∀ c, l.toList = pre ++ i :: c → post = c ++ j :: r.toList →
        node_base_t.next fuel m (Ptr.node s i) = some (post.head?.elim after (Ptr.node s)) := by
      intro c hl hp
      have hexl : ∀ k, 1 ≤ k → node_base_t.next_climb k m (l.ptr s) = some (Ptr.node s j) := by
        intro k hk
        obtain ⟨k', rfl⟩ : ∃ k', k = k' + 1 := ⟨k - 1, by omega⟩
        cases l with
        | nil => simp at hl
        | node ll jl lr =>
          simp only [Fath] at h3
          simp [node_base_t.next_climb, h3, h1]
      have := ihl m (Ptr.node s j) 1 h5 hnl hexl fuel (by omega) pre i c hl
      rw [this, hp, head?_elim_append_cons]
    -- a node of the right subtree
    have inr : ∀ a, r.toList = a ++ i :: post →
        node_base_t.next fuel m (Ptr.node s i) = some (post.head?.elim after (Ptr.node s)) := by
      intro a hr
      have hexr : ∀ k, k0 + 1 ≤ k → node_base_t.next_climb k m (r.ptr s) = some after := by
        intro k hk
        obtain ⟨k', rfl⟩ : ∃ k', k = k' + 1 := ⟨k - 1, by omega⟩
        cases r with
        | nil => simp at hr
        | node rl jr rr =>
          simp only [Fath] at h4
          have hne : m.left (Ptr.node s j) ≠ Ptr.node s jr := by
            rw [h1]
            intro hc
            have : jr ∈ l.toList := by
              rcases NodeTree.ptr_cases s l with h0 | ⟨q, hq, he⟩
              · rw [h0] at hc; cases hc
              · rw [he] at hc; injection hc with _ e; exact e ▸ hq
            exact hdis this (by simp)
          have := hex k' (by omega)
          simp only [NodeTree.ptr_node] at this
          simp [node_base_t.next_climb, h4, hne, this]
      exact ihr m after (k0 + 1) h6 hnr.2 hexr fuel (by omega) a i post hr
    rw [List.append_eq_append_iff] at h
    rcases h with ⟨a, hpre, ha⟩ | ⟨c, hl, hc⟩
    · cases a with
      | nil =>
        simp only [List.nil_append, List.cons.injEq] at ha
        obtain ⟨rfl, hr⟩ := ha
        exact self post hr
      | cons x a =>
        simp only [List.cons_append, List.cons.injEq] at ha
        exact inr a ha.2
    · cases c with
      | nil =>
        simp only [List.nil_append, List.cons.injEq] at hc
        obtain ⟨rfl, hr⟩ := hc
        exact self post hr.symm
      | cons x c =>
        simp only [List.cons_append, List.cons.injEq] at hc
        obtain ⟨rfl, hp⟩ := hc
        exact inl c hl hp


theorem Rooted_size_lt {m : Mem} {s : Bool} {t : NodeTree} (_h : Rooted m s t) {n : Nat}
    (hn : t.toList.length ≤ n) : t.size < n + 1 := by
  rw [← NodeTree.length_toList]; omega

/-- `next` in a tree that hangs under its sentinel: the record of the following
node, and the sentinel (the end iterator) at the last node. -/
theorem next_rooted {m : Mem} {s : Bool} {t : NodeTree} (h : Rooted m s t) {fuel : Nat}
    (hf : t.size < fuel) {pre : List Nat} {i : Nat} {post : List Nat}
    (hl : t.toList = pre ++ i :: post) :
    node_base_t.next fuel m (Ptr.node s i) = some (post.head?.elim (Ptr.root s) (Ptr.node s)) := by
  refine next_shape s t m (Ptr.root s) 1 h.shape h.nodup ?_ fuel (by omega) pre i post hl
  intro k hk
  obtain ⟨k', rfl⟩ : ∃ k', k = k' + 1 := ⟨k - 1, by omega⟩
  cases t with
  | nil => simp at hl
  | node l j r =>
    have h1 := h.fath
    have h2 := h.root_left
    simp only [Fath] at h1
    simp only [NodeTree.ptr_node] at h2
    simp [node_base_t.next_climb, h1, h2]

theorem ins_toList (prio : Nat → Nat) (p : Nat → Bool) (n : Nat) (t : NodeTree) :
    (t.ins prio p n).toList = (t.split p).1.toList ++ n :: (t.split p).2.toList := by
  simp [NodeTree.ins, NodeTree.merge_toList_eq]

/-- `treap::insert` on a tree `t` under its sentinel: the new record ends up in
the tree, between the two halves of the split; nothing of the other projection
and no `father` field of a sentinel is written. -/
theorem insert_rooted {T : Type} (cmp : T → T → Bool) (val : Nat → Option T) (s : Bool) (v : T)
    (p : Nat → Bool) {m : Mem} {t : NodeTree} (h : Rooted m s t) {n : Nat} {fuel : Nat}
    (hv : ∀ i ∈ t.toList, ∃ x, val i = some x ∧ cmp x v = p i) (hvn : val n = some v)
    (hn : n ∉ t.toList) (hnl : m.left (Ptr.node s n) = Ptr.null)
    (hnr : m.right (Ptr.node s n) = Ptr.null) (hf : t.size + 2 ≤ fuel) :
    ∃ m', treap.insert cmp val s fuel m (Ptr.node s n) = some (m', Ptr.node s n) ∧
      Rooted m' s (t.ins (fun i => m.priority (Ptr.node s i)) p n) ∧ Outside s m m' ∧
      (∀ s', m'.father (Ptr.root s') = m.father (Ptr.root s')) := by
  obtain ⟨m1, e1, sa, sb, fr1⟩ := split_shape cmp val s v p t fuel m hv h.shape h.nodup (by omega)
  have hab := NodeTree.split_nodup p h.nodup
  have hsz := NodeTree.split_size p t
  generalize hA : (t.split p).1 = A at e1 sa hab hsz
  generalize hB : (t.split p).2 = B at e1 sb hab hsz
  have hAs : ∀ k ∈ A.toList, k ∈ t.toList := by
    intro k hk; rw [← hA] at hk; exact NodeTree.split_fst_subset p t k hk
  have hBs : ∀ k ∈ B.toList, k ∈ t.toList := by
    intro k hk; rw [← hB] at hk; exact NodeTree.split_snd_subset p t k hk
  have hnn : ∀ k ∈ t.toList, Ptr.node s n ≠ Ptr.node s k := by
    intro k hk hc; injection hc with _ e; exact hn (e ▸ hk)
  -- the new record is a one-node shape
  have sn : Shape m1 s (NodeTree.node NodeTree.nil n NodeTree.nil) := by
    have := fr1.2 (Ptr.node s n) hnn
    exact ⟨by rw [this.1]; exact hnl, by rw [this.2.1]; exact hnr, trivial, trivial, trivial,
      trivial⟩
  have hab' := hab
  rw [List.nodup_append] at hab'
  have hn1 : (A.toList ++ (NodeTree.node NodeTree.nil n NodeTree.nil).toList).Nodup := by
    simp only [NodeTree.toList_node, NodeTree.toList_nil, List.nil_append]
    rw [List.nodup_append]
    refine ⟨hab'.1, by simp, ?_⟩
    intro k hk hk2
    simp only [List.mem_singleton] at hk2
    exact hn (hk2 ▸ hAs k hk)
  obtain ⟨m2, e2, sA, fr2⟩ := merge_shape s fuel A _ m1 sa sn hn1 (by simp; omega)
  rw [fr1.1] at e2 sA
  generalize hA2 : NodeTree.merge (fun i => m.priority (Ptr.node s i)) A
    (NodeTree.node NodeTree.nil n NodeTree.nil) = A2 at e2 sA
  have hA2l : A2.toList = A.toList ++ [n] := by
    rw [← hA2, NodeTree.merge_toList_eq]; simp
  have sb2 : Shape m2 s B := by
    refine Shape_frame fr2 ?_ sb
    intro k hk hk2
    simp only [NodeTree.toList_node, NodeTree.toList_nil, List.nil_append, List.mem_append,
      List.mem_singleton] at hk2
    rcases hk2 with hk2 | rfl
    · exact hab'.2.2 hk2 hk
    · exact hn (hBs k hk)
  have hn2 : (A2.toList ++ B.toList).Nodup := by
    rw [hA2l, List.append_assoc, List.nodup_append]
    refine ⟨hab'.1, ?_, ?_⟩
    · simp only [List.singleton_append, List.nodup_cons]
      exact ⟨fun hk => hn (hBs n hk), hab'.2.1⟩
    · intro k hk hk2
      simp only [List.singleton_append, List.mem_cons] at hk2
      rcases hk2 with rfl | hk2
      · exact hn (hAs k hk)
      · exact hab'.2.2 hk hk2
  have hsz2 : A2.size + B.size < fuel := by
    rw [← NodeTree.length_toList A2, hA2l, List.length_append, NodeTree.length_toList]
    simp; omega
  obtain ⟨m3, e3, sT, fr3⟩ := merge_shape s fuel A2 B m2 sA sb2 hn2 hsz2
  rw [fr2.1, fr1.1] at e3 sT
  have hT : NodeTree.merge (fun i => m.priority (Ptr.node s i)) A2 B
      = t.ins (fun i => m.priority (Ptr.node s i)) p n := by
    simp [NodeTree.ins, hA, hB, hA2]
  rw [hT] at e3 sT
  generalize hTT : t.ins (fun i => m.priority (Ptr.node s i)) p n = Tt at e3 sT hT
  have hTl : Tt.toList = A.toList ++ n :: B.toList := by
    rw [← hTT, ins_toList, hA, hB]
  have hTn : Tt.toList.Nodup := by
    rw [hTl]; simpa [hA2l] using hn2
  -- all three steps together stay within the records of `t` and the new record
  have fr : Frame s (n :: t.toList) m m3 := by
    refine Frame_trans (Frame_mono fr1 (fun k hk => List.mem_cons_of_mem _ hk))
      (Frame_trans (Frame_mono fr2 ?_) (Frame_mono fr3 ?_))
    · intro k hk
      simp only [NodeTree.toList_node, NodeTree.toList_nil, List.nil_append, List.mem_append,
        List.mem_singleton] at hk
      rcases hk with hk | rfl
      · exact List.mem_cons_of_mem _ (hAs k hk)
      · exact List.mem_cons_self _ _
    · intro k hk
      rw [hA2l] at hk
      simp only [List.mem_append, List.mem_singleton] at hk
      rcases hk with (hk | rfl) | hk
      · exact List.mem_cons_of_mem _ (hAs k hk)
      · exact List.mem_cons_self _ _
      · exact List.mem_cons_of_mem _ (hBs k hk)
  have hroot : ∀ s' : Bool, ∀ k ∈ n :: t.toList, Ptr.root s' ≠ Ptr.node s k := by
    intro s' k _ hc; cases hc
  have hother : ∀ j : Nat, ∀ k ∈ n :: t.toList, Ptr.node (!s) j ≠ Ptr.node s k := by
    intro j k _ hc; injection hc with e _; cases s <;> simp at e
  have hTp : ∀ q, (Tt.ptr s ≠ Ptr.null → q = Tt.ptr s → ∃ k, q = Ptr.node s k) := by
    intro q _ hq
    rcases NodeTree.ptr_cases s Tt with h0 | ⟨k, _, he⟩
    · contradiction
    · exact ⟨k, hq.trans he⟩
  refine ⟨node_base_t.update_left_father (m3.setLeft (Ptr.root s) (Tt.ptr s)) (Ptr.root s),
    ?_, ?_, ?_, ?_⟩
  · simp only [NodeTree.ptr_node] at e2
    simp [treap.insert, treap.value, hvn, h.root_left, e1, e2, e3]
  · refine ⟨by simp, ?_, ?_, ?_, hTn⟩
    · refine Shape_congr Tt (fun j _ => ?_) (fun j hj => ?_) sT
      · simp [upd_apply]
      · rw [node_base_t.update_left_father_father]
        have := NodeTree.node_ne_ptr_of_mem_inner (s := s) hTn hj
        simp [this]
    · rw [Fath_iff]
      intro hne
      rw [node_base_t.update_left_father_father]
      simp [hne]
    · have := (fr.2 (Ptr.root s) (hroot s)).2.1
      simp only [node_base_t.update_left_father_right, Mem.setLeft_right]
      rw [this]; exact h.root_right
  · refine ⟨by simpa using fr.1, fun j => ?_, ?_, fun s' => ?_⟩
    · have := fr.2 (Ptr.node (!s) j) (hother j)
      refine ⟨by simpa [upd_apply] using this.1, by simpa using this.2.1, ?_⟩
      rw [node_base_t.update_left_father_father]
      simp only [Mem.setLeft_left, upd_same, Mem.setLeft_father]
      rw [if_neg]
      · exact this.2.2
      · rintro ⟨hne, hq⟩
        obtain ⟨k, hk⟩ := hTp _ hne hq
        injection hk with e _; cases s <;> simp at e
    · have := (fr.2 (Ptr.root (!s)) (hroot (!s))).1
      have hne : Ptr.root (!s) ≠ Ptr.root s := by cases s <;> simp
      simpa [upd_ne _ _ hne] using this
    · simpa using (fr.2 (Ptr.root s') (hroot s')).2.1
  · intro s'
    rw [node_base_t.update_left_father_father]
    simp only [Mem.setLeft_left, upd_same, Mem.setLeft_father]
    rw [if_neg]
    · exact (fr.2 (Ptr.root s') (hroot s')).2.2
    · rintro ⟨hne, hq⟩
      obtain ⟨k, hk⟩ := hTp _ hne hq
      cases hk


/-! ## Strict weak orderings -/

namespace StrictWeak

variable {T : Type} {cmp : T → T → Bool}

theorem asymm (h : StrictWeak cmp) {a b : T} (hab : cmp a b = true) : cmp b a = false := by
  cases hba : cmp b a with
  | false => rfl
  | true =>
    have := h.trans a b a hab hba
    rw [h.irrefl] at this
    cases this

theorem equal_symm {a b : T} (hab : treap.equal cmp a b = true) : treap.equal cmp b a = true := by
  simp only [treap.equal, Bool.and_eq_true, Bool.not_eq_true'] at hab ⊢
  exact ⟨hab.2, hab.1⟩

theorem equal_iff {a b : T} :
    treap.equal cmp a b = true ↔ cmp a b = false ∧ cmp b a = false := by
  simp [treap.equal]

theorem not_equal_of_lt {a b : T} (hab : cmp a b = true) :
    treap.equal cmp a b = false := by
  simp [treap.equal, hab]

/-- `a < x` and `x ~ v` give `a < v`. -/
theorem lt_of_lt_of_equal (h : StrictWeak cmp) {a x v : T} (hax : cmp a x = true)
    (hxv : treap.equal cmp x v = true) : cmp a v = true := by
  cases hav : cmp a v with
  | true => rfl
  | false =>
    exfalso
    cases hva : cmp v a with
    | true =>
      have := h.trans v a x hva hax
      rw [equal_iff] at hxv
      rw [hxv.2] at this
      cases this
    | false =>
      have e1 : treap.equal cmp a v = true := equal_iff.2 ⟨hav, hva⟩
      have e2 := h.equal_trans a v x e1 (equal_symm hxv)
      rw [equal_iff] at e2
      rw [e2.1] at hax
      cases hax

/-- `v ~ x` and `x < b` give `v < b`. -/
theorem lt_of_equal_of_lt (h : StrictWeak cmp) {v x b : T} (hvx : treap.equal cmp v x = true)
    (hxb : cmp x b = true) : cmp v b = true := by
  cases hvb : cmp v b with
  | true => rfl
  | false =>
    exfalso
    cases hbv : cmp b v with
    | true =>
      have := h.trans x b v hxb hbv
      rw [equal_iff] at hvx
      rw [hvx.2] at this
      cases this
    | false =>
      have e1 : treap.equal cmp v b = true := equal_iff.2 ⟨hvb, hbv⟩
      have e2 := h.equal_trans x v b (equal_symm hvx) e1
      rw [equal_iff] at e2
      rw [e2.1] at hxb
      cases hxb

end StrictWeak

/-! ## Sorted lists of nodes -/

section
variable {T : Type} {cmp : T → T → Bool} {val : Nat → Option T}

theorem ltVal_of_some {v x : T} {i : Nat} (h : val i = some x) :
    ltVal cmp val v i = cmp x v := by
  simp [ltVal, h]

theorem gtVal_of_some {v x : T} {i : Nat} (h : val i = some x) :
    gtVal cmp val v i = cmp v x := by
  simp [gtVal, h]

/-- In a sorted list, the nodes below `v` come before the others. -/
theorem ltVal_mono (hc : StrictWeak cmp) (v : T) {xs : List Nat}
    (h : xs.Pairwise (idLt cmp val)) :
    xs.Pairwise (fun i j => ltVal cmp val v j = true → ltVal cmp val v i = true) := by
  refine h.imp ?_
  rintro i j ⟨a, b, ha, hb, hab⟩ hj
  rw [ltVal_of_some hb] at hj
  rw [ltVal_of_some ha]
  exact hc.trans a b v hab hj

/-- In a sorted list, the nodes not above `v` come before the others. -/
theorem gtVal_mono (hc : StrictWeak cmp) (v : T) {xs : List Nat}
    (h : xs.Pairwise (idLt cmp val)) :
    xs.Pairwise (fun i j => gtVal cmp val v i = true → gtVal cmp val v j = true) := by
  refine h.imp ?_
  rintro i j ⟨a, b, ha, hb, hab⟩ hi
  rw [gtVal_of_some ha] at hi
  rw [gtVal_of_some hb]
  exact hc.trans v a b hi hab

end

namespace NodeTree

/-- On a tree whose nodes satisfying `p` come first, `split` is a filter. -/
theorem split_filter (p : Nat → Bool) : ∀ (t : NodeTree),
    t.toList.Pairwise (fun i j => p j = true → p i = true) →
    (t.split p).1.toList = t.toList.filter p ∧
      (t.split p).2.toList = t.toList.filter (fun i => !p i) := by
  intro t
  induction t with
  | nil => intro _; simp [split]
  | node l i r ihl ihr =>
    intro h
    simp only [toList_node] at h
    rw [List.pairwise_append] at h
    obtain ⟨hl, hir, hlr⟩ := h
    rw [List.pairwise_cons] at hir
    obtain ⟨hi, hr⟩ := hir
    by_cases hp : p i = true
    · have hall : ∀ a ∈ l.toList, p a = true := fun a ha => hlr a ha i (by simp) hp
      have e1 : l.toList.filter p = l.toList := List.filter_eq_self.2 hall
      have e2 : l.toList.filter (fun i => !p i) = [] :=
        List.filter_eq_nil_iff.2 (fun a ha => by simp [hall a ha])
      obtain ⟨i1, i2⟩ := ihr hr
      simp [split, hp, List.filter_append, List.filter_cons, e1, e2, i1, i2]
    · have hp' : p i = false := by simpa using hp
      have hall : ∀ a ∈ r.toList, p a = false := by
        intro a ha
        cases hpa : p a with
        | false => rfl
        | true => exact absurd (hi a ha hpa) hp
      have e1 : r.toList.filter p = [] :=
        List.filter_eq_nil_iff.2 (fun a ha => by simp [hall a ha])
      have e2 : r.toList.filter (fun i => !p i) = r.toList :=
        List.filter_eq_self.2 (fun a ha => by simp [hall a ha])
      obtain ⟨i1, i2⟩ := ihl hl
      simp [split, hp', List.filter_append, List.filter_cons, e1, e2, i1, i2]

/-- On a tree whose nodes satisfying `p` come first, `lb` finds the first node
that does not satisfy `p`. -/
theorem lb_find (p : Nat → Bool) : ∀ (t : NodeTree),
    t.toList.Pairwise (fun i j => p j = true → p i = true) →
    t.lb p = t.toList.find? (fun i => !p i) := by
  intro t
  induction t with
  | nil => intro _; rfl
  | node l i r ihl ihr =>
    intro h
    simp only [toList_node] at h
    rw [List.pairwise_append] at h
    obtain ⟨hl, hir, hlr⟩ := h
    rw [List.pairwise_cons] at hir
    obtain ⟨_, hr⟩ := hir
    by_cases hp : p i = true
    · have hall : ∀ a ∈ l.toList, p a = true := fun a ha => hlr a ha i (by simp) hp
      have e1 : l.toList.find? (fun i => !p i) = none :=
        List.find?_eq_none.2 (fun a ha => by simp [hall a ha])
      simp [lb, hp, List.find?_append, e1, List.find?_cons, ihr hr]
    · have hp' : p i = false := by simpa using hp
      simp only [lb, hp', toList_node, List.find?_append, List.find?_cons, ihl hl]
      cases l.toList.find? (fun i => !p i) <;> simp

end NodeTree


section
variable {T : Type} {cmp : T → T → Bool} {val : Nat → Option T}

/-- What `treap::find` returns on a tree with node list `xs`: the first node not
below `v` if it is equivalent to `v`, and null otherwise. -/
theorem find_rooted (hc : StrictWeak cmp) {s : Bool} {m : Mem} {t : NodeTree} (h : Rooted m s t)
    (hv : ∀ i ∈ t.toList, ∃ x, val i = some x) (hs : t.toList.Pairwise (idLt cmp val)) (v : T)
    {fuel : Nat} (hf : t.size < fuel) :
    treap.find cmp val s fuel m v =
      some (match t.toList.find? (fun i => !ltVal cmp val v i) with
        | some i => if gtVal cmp val v i then Ptr.null else Ptr.node s i
        | none => Ptr.null) := by
  have hp : ∀ i ∈ t.toList, ∃ x, val i = some x ∧ cmp x v = ltVal cmp val v i := by
    intro i hi
    obtain ⟨x, hx⟩ := hv i hi
    exact ⟨x, hx, (ltVal_of_some hx).symm⟩
  have e := lower_bound_shape cmp val s v (ltVal cmp val v) t fuel m hp h.shape hf
  rw [NodeTree.lb_find _ t (ltVal_mono hc v hs)] at e
  simp only [treap.find, h.root_left, e]
  cases hfd : t.toList.find? (fun i => !ltVal cmp val v i) with
  | none => simp
  | some i =>
    have hi := List.mem_of_find?_eq_some hfd
    have hni := List.find?_some hfd
    obtain ⟨x, hx⟩ := hv i hi
    simp only [ltVal_of_some hx, Bool.not_eq_true', ] at hni
    simp [treap.value, hx, treap.equal, hni, gtVal_of_some hx]
    cases cmp v x <;> simp

/-- In a sorted list the search of `find` ends at the node equivalent to `v`, if
there is one. -/
theorem find?_of_equal (hc : StrictWeak cmp) (v : T) : ∀ (xs : List Nat),
    xs.Pairwise (idLt cmp val) → ∀ i x, i ∈ xs → val i = some x → treap.equal cmp x v = true →
    xs.find? (fun j => !ltVal cmp val v j) = some i := by
  intro xs
  induction xs with
  | nil => intro _ i x hi; simp at hi
  | cons a rest ih =>
    intro hs i x hi hx he
    rw [List.pairwise_cons] at hs
    rcases List.mem_cons.1 hi with rfl | hi
    · have : ltVal cmp val v i = false := by
        rw [ltVal_of_some hx]; exact (StrictWeak.equal_iff.1 he).1
      simp [List.find?_cons, this]
    · obtain ⟨a', b', ha', hb', hab⟩ := hs.1 i hi
      rw [hx] at hb'
      injection hb' with hb'
      subst hb'
      have : ltVal cmp val v a = true := by
        rw [ltVal_of_some ha']; exact hc.lt_of_lt_of_equal hab he
      simp only [List.find?_cons, this, Bool.not_true]
      exact ih hs.2 i x hi hx he

/-- `treap::find` returns the record of the node equivalent to `v`. -/
theorem find_of_equal (hc : StrictWeak cmp) {s : Bool} {m : Mem} {t : NodeTree}
    (h : Rooted m s t) (hv : ∀ i ∈ t.toList, ∃ x, val i = some x)
    (hs : t.toList.Pairwise (idLt cmp val)) (v : T) {fuel : Nat} (hf : t.size < fuel)
    {i : Nat} {x : T} (hi : i ∈ t.toList) (hx : val i = some x)
    (he : treap.equal cmp x v = true) :
    treap.find cmp val s fuel m v = some (Ptr.node s i) := by
  rw [find_rooted hc h hv hs v hf, find?_of_equal hc v _ hs i x hi hx he]
  have : gtVal cmp val v i = false := by
    rw [gtVal_of_some hx]; exact (StrictWeak.equal_iff.1 he).2
  simp [this]

/-- `treap::find` returns null when no node is equivalent to `v`. -/
theorem find_of_not_equal (hc : StrictWeak cmp) {s : Bool} {m : Mem} {t : NodeTree}
    (h : Rooted m s t) (hv : ∀ i ∈ t.toList, ∃ x, val i = some x)
    (hs : t.toList.Pairwise (idLt cmp val)) (v : T) {fuel : Nat} (hf : t.size < fuel)
    (hne : ∀ i ∈ t.toList, ∀ x, val i = some x → treap.equal cmp x v = false) :
    treap.find cmp val s fuel m v = some Ptr.null := by
  rw [find_rooted hc h hv hs v hf]
  cases hfd : t.toList.find? (fun i => !ltVal cmp val v i) with
  | none => rfl
  | some i =>
    have hi := List.mem_of_find?_eq_some hfd
    have hni := List.find?_some hfd
    obtain ⟨x, hx⟩ := hv i hi
    have h1 := hne i hi x hx
    simp only [ltVal_of_some hx, Bool.not_eq_true'] at hni
    have : gtVal cmp val v i = true := by
      rw [gtVal_of_some hx]
      simp only [treap.equal, hni] at h1
      simpa using h1
    simp [this]

/-- What `treap::find` returns is null or the record of a node equivalent to `v`. -/
theorem find_cases (hc : StrictWeak cmp) {s : Bool} {m : Mem} {t : NodeTree}
    (h : Rooted m s t) (hv : ∀ i ∈ t.toList, ∃ x, val i = some x)
    (hs : t.toList.Pairwise (idLt cmp val)) (v : T) {fuel : Nat} (hf : t.size < fuel) :
    (treap.find cmp val s fuel m v = some Ptr.null ∧
        ∀ i ∈ t.toList, ∀ x, val i = some x → treap.equal cmp x v = false) ∨
    ∃ i x, i ∈ t.toList ∧ val i = some x ∧ treap.equal cmp x v = true ∧
      treap.find cmp val s fuel m v = some (Ptr.node s i) := by
  by_cases hex : ∃ i x, i ∈ t.toList ∧ val i = some x ∧ treap.equal cmp x v = true
  · obtain ⟨i, x, hi, hx, he⟩ := hex
    exact Or.inr ⟨i, x, hi, hx, he, find_of_equal hc h hv hs v hf hi hx he⟩
  · have hne : ∀ i ∈ t.toList, ∀ x, val i = some x → treap.equal cmp x v = false := by
      intro i hi x hx
      cases he : treap.equal cmp x v with
      | false => rfl
      | true => exact absurd ⟨i, x, hi, hx, he⟩ hex
    exact Or.inl ⟨find_of_not_equal hc h hv hs v hf hne, hne⟩

end


/-! ## The representation invariant -/

/-- An operation of one tree keeps the other tree as it is. -/
theorem Rooted_outside {s : Bool} {m m' : Mem} {t : NodeTree} (ho : Outside s m m')
    (h : Rooted m (!s) t) : Rooted m' (!s) t := by
  obtain ⟨_, hn, hl, hr⟩ := ho
  refine ⟨hl.trans h.root_left, ?_, ?_, (hr _).trans h.root_right, h.nodup⟩
  · exact Shape_congr t (fun j _ => ⟨(hn j).1, (hn j).2.1⟩) (fun j _ => (hn j).2.2) h.shape
  · have := h.fath
    cases t with
    | nil => trivial
    | node l i r => exact ((hn i).2.2).trans this

theorem Rooted_outside_true {m m' : Mem} {t : NodeTree} (ho : Outside true m m')
    (h : Rooted m false t) : Rooted m' false t :=
  Rooted_outside (s := true) ho h

theorem Rooted_outside_false {m m' : Mem} {t : NodeTree} (ho : Outside false m m')
    (h : Rooted m true t) : Rooted m' true t :=
  Rooted_outside (s := false) ho h

theorem Outside_refl (s : Bool) (m : Mem) : Outside s m m :=
  ⟨rfl, fun _ => ⟨rfl, rfl, rfl⟩, rfl, fun _ => rfl⟩

theorem Outside_trans {s : Bool} {m1 m2 m3 : Mem} (h12 : Outside s m1 m2)
    (h23 : Outside s m2 m3) : Outside s m1 m3 :=
  ⟨h23.1.trans h12.1,
    fun i => ⟨(h23.2.1 i).1.trans (h12.2.1 i).1, (h23.2.1 i).2.1.trans (h12.2.1 i).2.1,
      (h23.2.1 i).2.2.trans (h12.2.1 i).2.2⟩,
    h23.2.2.1.trans h12.2.2.1, fun s' => (h23.2.2.2 s').trans (h12.2.2.2 s')⟩

section
variable {L R : Type} {cmpL : L → L → Bool} {cmpR : R → R → Bool}

theorem BimapInv.length_right {b : Bimap L R} {tl tr : NodeTree}
    (h : BimapInv cmpL cmpR b tl tr) : tr.toList.length = tl.toList.length :=
  h.perm.length_eq.symm

theorem BimapInv.size_left_lt {b : Bimap L R} {tl tr : NodeTree}
    (h : BimapInv cmpL cmpR b tl tr) : tl.size < bimap.fuel b := by
  have := h.cnt
  have := h.cap
  rw [← NodeTree.length_toList]
  unfold bimap.fuel
  omega

theorem BimapInv.size_right_lt {b : Bimap L R} {tl tr : NodeTree}
    (h : BimapInv cmpL cmpR b tl tr) : tr.size < bimap.fuel b := by
  have := h.cnt
  have := h.cap
  have := h.length_right
  rw [← NodeTree.length_toList]
  unfold bimap.fuel
  omega

theorem BimapInv.valsR_right {b : Bimap L R} {tl tr : NodeTree}
    (h : BimapInv cmpL cmpR b tl tr) : ∀ i ∈ tr.toList, ∃ x, b.valR i = some x :=
  fun i hi => h.valsR i (h.perm.mem_iff.2 hi)

theorem BimapInv.ids_right {b : Bimap L R} {tl tr : NodeTree}
    (h : BimapInv cmpL cmpR b tl tr) : ∀ i ∈ tr.toList, i < b.nextId :=
  fun i hi => h.ids i (h.perm.mem_iff.2 hi)

/-- The records of a projection, read from memory, are those of the tree of the
invariant. -/
theorem BimapInv.nodes_left {b : Bimap L R} {tl tr : NodeTree}
    (h : BimapInv cmpL cmpR b tl tr) :
    bimap.nodes true b = some (tl.toList.map (Ptr.node true)) := by
  unfold bimap.nodes
  rw [h.left.root_left]
  exact inorder_shape true tl _ _ h.left.shape h.size_left_lt

theorem BimapInv.nodes_right {b : Bimap L R} {tl tr : NodeTree}
    (h : BimapInv cmpL cmpR b tl tr) :
    bimap.nodes false b = some (tr.toList.map (Ptr.node false)) := by
  unfold bimap.nodes
  rw [h.right.root_left]
  exact inorder_shape false tr _ _ h.right.shape h.size_right_lt

/-- The state `bimap()` constructs satisfies the invariant, with two empty trees. -/
theorem inv_empty (pl pr : Nat) :
    BimapInv cmpL cmpR (bimap.empty pl pr : Bimap L R) NodeTree.nil NodeTree.nil := by
  refine ⟨⟨rfl, trivial, trivial, ?_, List.nodup_nil⟩, ⟨rfl, trivial, trivial, ?_,
    List.nodup_nil⟩, List.Perm.refl _, ?_, ?_, ?_, List.Pairwise.nil, List.Pairwise.nil, rfl,
    Nat.le_refl _⟩
  · simp [bimap.empty, upd_apply]
  · simp [bimap.empty, upd_apply]
  · intro i hi; simp at hi
  · intro i hi; simp at hi
  · intro i hi; simp at hi

end


section
variable {T : Type} {cmp : T → T → Bool} {val : Nat → Option T}

theorem updVal_same (val : Nat → Option T) (n : Nat) (v : T) : updVal val n v n = some v := by
  simp [updVal]

theorem updVal_ne (val : Nat → Option T) {n i : Nat} (v : T) (h : i ≠ n) :
    updVal val n v i = val i := by
  simp [updVal, h]

theorem idLt_updVal {n i j : Nat} (v : T) (hi : i ≠ n) (hj : j ≠ n)
    (h : idLt cmp val i j) : idLt cmp (updVal val n v) i j := by
  obtain ⟨a, b, ha, hb, hab⟩ := h
  exact ⟨a, b, by rw [updVal_ne _ _ hi]; exact ha, by rw [updVal_ne _ _ hj]; exact hb, hab⟩

theorem Pairwise_idLt_updVal {n : Nat} (v : T) {xs : List Nat} (hn : n ∉ xs)
    (h : xs.Pairwise (idLt cmp val)) : xs.Pairwise (idLt cmp (updVal val n v)) := by
  induction xs with
  | nil => exact List.Pairwise.nil
  | cons a rest ih =>
    rw [List.pairwise_cons] at h ⊢
    have ha : a ≠ n := fun e => hn (e ▸ List.mem_cons_self _ _)
    refine ⟨fun b hb => ?_, ih (fun hc => hn (List.mem_cons_of_mem _ hc)) h.2⟩
    refine idLt_updVal v ha (fun e => hn (e ▸ List.mem_cons_of_mem _ hb)) (h.1 b hb)

/-- Putting a new node between the nodes below its value and the others keeps a
sorted list sorted, when no node is equivalent to the new value. -/
theorem sorted_insert (hc : StrictWeak cmp) {xs : List Nat} {n : Nat} (v : T)
    (hs : xs.Pairwise (idLt cmp val)) (hv : ∀ i ∈ xs, ∃ x, val i = some x) (hn : n ∉ xs)
    (hne : ∀ i ∈ xs, ∀ x, val i = some x → treap.equal cmp x v = false) :
    (xs.filter (ltVal cmp val v) ++ n :: xs.filter (fun i => !ltVal cmp val v i)).Pairwise
      (idLt cmp (updVal val n v)) := by
  have hs' := Pairwise_idLt_updVal v hn hs
  rw [List.pairwise_append]
  refine ⟨hs'.sublist (List.filter_sublist _), ?_, ?_⟩
  · rw [List.pairwise_cons]
    refine ⟨fun b hb => ?_, hs'.sublist (List.filter_sublist _)⟩
    rw [List.mem_filter] at hb
    obtain ⟨x, hx⟩ := hv b hb.1
    have hbn : b ≠ n := fun e => hn (e ▸ hb.1)
    have h1 : cmp x v = false := by simpa [ltVal_of_some hx] using hb.2
    have h2 := hne b hb.1 x hx
    simp only [treap.equal, h1] at h2
    exact ⟨v, x, updVal_same _ _ _, by rw [updVal_ne _ _ hbn]; exact hx, by simpa using h2⟩
  · intro a ha b hb
    rw [List.mem_filter] at ha
    obtain ⟨x, hx⟩ := hv a ha.1
    have han : a ≠ n := fun e => hn (e ▸ ha.1)
    have h1 : cmp x v = true := by simpa [ltVal_of_some hx] using ha.2
    rcases List.mem_cons.1 hb with rfl | hb
    · exact ⟨x, v, by rw [updVal_ne _ _ han]; exact hx, updVal_same _ _ _, h1⟩
    · rw [List.mem_filter] at hb
      obtain ⟨y, hy⟩ := hv b hb.1
      have hbn : b ≠ n := fun e => hn (e ▸ hb.1)
      have h2 : cmp y v = false := by simpa [ltVal_of_some hy] using hb.2
      refine ⟨x, y, by rw [updVal_ne _ _ han]; exact hx, by rw [updVal_ne _ _ hbn]; exact hy, ?_⟩
      cases hxy : cmp x y with
      | true => rfl
      | false =>
        exfalso
        cases hyx : cmp y x with
        | true =>
          rw [hc.trans y x v hyx h1] at h2
          cases h2
        | false =>
          have e : treap.equal cmp y x = true := StrictWeak.equal_iff.2 ⟨hyx, hxy⟩
          rw [hc.lt_of_equal_of_lt e h1] at h2
          cases h2

theorem filter_perm_cons (p : Nat → Bool) (xs : List Nat) (n : Nat) :
    (xs.filter p ++ n :: xs.filter (fun i => !p i)).Perm (n :: xs) := by
  refine List.perm_middle.trans (List.Perm.cons n ?_)
  exact List.filter_append_perm p xs

end


section
variable {L R : Type} {cmpL : L → L → Bool} {cmpR : R → R → Bool}

/-- `insert` with a left or a right value that is already stored returns
`end_left()` and the state it was given. -/
theorem insert_dup (hL : StrictWeak cmpL) (hR : StrictWeak cmpR) {b : Bimap L R}
    {tl tr : NodeTree} (h : BimapInv cmpL cmpR b tl tr) (l : L) (r : R) (pl pr : Nat)
    (hdup : (∃ i x, i ∈ tl.toList ∧ b.valL i = some x ∧ treap.equal cmpL x l = true) ∨
      (∃ i y, i ∈ tl.toList ∧ b.valR i = some y ∧ treap.equal cmpR y r = true)) :
    bimap.insert cmpL cmpR b l r pl pr = some (b, bimap.end_left) := by
  rcases find_cases hL h.left h.valsL h.sortedL l h.size_left_lt with ⟨e, hne⟩ | ⟨i, x, _, _, _, e⟩
  · rcases hdup with ⟨i, x, hi, hx, he⟩ | ⟨i, y, hi, hy, he⟩
    · rw [hne i hi x hx] at he; cases he
    · have e2 := find_of_equal hR h.right h.valsR_right h.sortedR r h.size_right_lt
        (h.perm.mem_iff.1 hi) hy he
      simp [bimap.insert, treap.contains, e, e2]
  · simp [bimap.insert, treap.contains, e]

/-- `insert` with values that are stored on neither side allocates node number
`nextId`, links it into both trees and counts it; the `father` fields of the two
sentinels are not written. -/
theorem insert_fresh (hL : StrictWeak cmpL) (hR : StrictWeak cmpR) {b : Bimap L R}
    {tl tr : NodeTree} (h : BimapInv cmpL cmpR b tl tr) (l : L) (r : R) (pl pr : Nat)
    (hl : ∀ i ∈ tl.toList, ∀ x, b.valL i = some x → treap.equal cmpL x l = false)
    (hr : ∀ i ∈ tl.toList, ∀ y, b.valR i = some y → treap.equal cmpR y r = false) :
    ∃ b' tl' tr',
      bimap.insert cmpL cmpR b l r pl pr = some (b', Ptr.node true b.nextId) ∧
      BimapInv cmpL cmpR b' tl' tr' ∧
      b'.valL = updVal b.valL b.nextId l ∧ b'.valR = updVal b.valR b.nextId r ∧
      b'.cnt_elem = b.cnt_elem + 1 ∧ b'.nextId = b.nextId + 1 ∧
      tl'.toList = tl.toList.filter (ltVal cmpL b.valL l) ++
        b.nextId :: tl.toList.filter (fun i => !ltVal cmpL b.valL l i) ∧
      tr'.toList = tr.toList.filter (ltVal cmpR b.valR r) ++
        b.nextId :: tr.toList.filter (fun i => !ltVal cmpR b.valR r i) ∧
      (∀ s', b'.mem.father (Ptr.root s') = b.mem.father (Ptr.root s')) := by
  have hr' : ∀ i ∈ tr.toList, ∀ y, b.valR i = some y → treap.equal cmpR y r = false :=
    fun i hi => hr i (h.perm.mem_iff.2 hi)
  have e1 := find_of_not_equal hL h.left h.valsL h.sortedL l h.size_left_lt hl
  have e2 := find_of_not_equal hR h.right h.valsR_right h.sortedR r h.size_right_lt hr'
  have hnl : b.nextId ∉ tl.toList := fun hc => Nat.lt_irrefl _ (h.ids _ hc)
  have hnr : b.nextId ∉ tr.toList := fun hc => Nat.lt_irrefl _ (h.ids_right _ hc)
  -- the memory after `new node_t`
  generalize hm0 : ((((((((b.mem.setLeft (Ptr.node true b.nextId) Ptr.null).setRight
    (Ptr.node true b.nextId) Ptr.null).setFather (Ptr.node true b.nextId) Ptr.null).setPriority
    (Ptr.node true b.nextId) pl).setLeft (Ptr.node false b.nextId) Ptr.null).setRight
    (Ptr.node false b.nextId) Ptr.null).setFather (Ptr.node false b.nextId)
    Ptr.null).setPriority (Ptr.node false b.nextId) pr) = m0
  have hm0l : ∀ q, (∀ s, q ≠ Ptr.node s b.nextId) → m0.left q = b.mem.left q ∧
      m0.right q = b.mem.right q ∧ m0.father q = b.mem.father q := by
    intro q hq
    subst hm0
    simp [upd_apply, hq true, hq false]
  have hm0n : ∀ s, m0.left (Ptr.node s b.nextId) = Ptr.null ∧
      m0.right (Ptr.node s b.nextId) = Ptr.null := by
    intro s
    subst hm0
    cases s <;> simp [upd_apply]
  have hroot0 : ∀ s' s, Ptr.root s' ≠ Ptr.node s b.nextId := by intro s' s hc; cases hc
  have rooted0 : ∀ (s : Bool) (t : NodeTree), b.nextId ∉ t.toList → Rooted b.mem s t →
      Rooted m0 s t := by
    intro s t hn ht
    have hne : ∀ j ∈ t.toList, ∀ s', Ptr.node s j ≠ Ptr.node s' b.nextId := by
      intro j hj s' hc
      injection hc with _ e
      exact hn (e ▸ hj)
    refine ⟨(hm0l _ (hroot0 s)).1.trans ht.root_left, ?_, ?_,
      (hm0l _ (hroot0 s)).2.1.trans ht.root_right, ht.nodup⟩
    · exact Shape_congr t (fun j hj => ⟨(hm0l _ (hne j hj)).1, (hm0l _ (hne j hj)).2.1⟩)
        (fun j hj => (hm0l _ (hne j (NodeTree.inner_subset t j hj))).2.2) ht.shape
    · have := ht.fath
      cases t with
      | nil => trivial
      | node tl' i tr' => exact ((hm0l _ (hne i (by simp))).2.2).trans this
  have hszl : tl.size + 2 ≤ b.nextId + 2 := by
    have := h.size_left_lt; unfold bimap.fuel at this; omega
  have hszr : tr.size + 2 ≤ b.nextId + 2 := by
    have := h.size_right_lt; unfold bimap.fuel at this; omega
  -- the left tree
  obtain ⟨m1, i1, r1, o1, f1⟩ := insert_rooted cmpL (updVal b.valL b.nextId l) true l
    (ltVal cmpL b.valL l) (rooted0 true tl hnl h.left)
    (fun i hi => by
      obtain ⟨x, hx⟩ := h.valsL i hi
      have hin : i ≠ b.nextId := fun e => hnl (e ▸ hi)
      exact ⟨x, by rw [updVal_ne _ _ hin]; exact hx, (ltVal_of_some hx).symm⟩)
    (updVal_same _ _ _) hnl (hm0n true).1 (hm0n true).2 hszl
  -- the right tree
  have rr1 : Rooted m1 false tr := Rooted_outside_true o1 (rooted0 false tr hnr h.right)
  obtain ⟨m2, i2, r2, o2, f2⟩ := insert_rooted cmpR (updVal b.valR b.nextId r) false r
    (ltVal cmpR b.valR r) rr1
    (fun i hi => by
      obtain ⟨x, hx⟩ := h.valsR_right i hi
      have hin : i ≠ b.nextId := fun e => hnr (e ▸ hi)
      exact ⟨x, by rw [updVal_ne _ _ hin]; exact hx, (ltVal_of_some hx).symm⟩)
    (updVal_same _ _ _) hnr
    (((o1.2.1 b.nextId).1).trans (hm0n false).1)
    (((o1.2.1 b.nextId).2.1).trans (hm0n false).2) hszr
  have rl2 := Rooted_outside_false o2 r1
  have hsl := NodeTree.split_filter (ltVal cmpL b.valL l) tl (ltVal_mono hL l h.sortedL)
  have hsr := NodeTree.split_filter (ltVal cmpR b.valR r) tr (ltVal_mono hR r h.sortedR)
  generalize hTl : NodeTree.ins (fun i => m0.priority (Ptr.node true i)) (ltVal cmpL b.valL l)
    b.nextId tl = tl' at r1 rl2
  generalize hTr : NodeTree.ins (fun i => m1.priority (Ptr.node false i)) (ltVal cmpR b.valR r)
    b.nextId tr = tr' at r2
  have el : tl'.toList = tl.toList.filter (ltVal cmpL b.valL l) ++
      b.nextId :: tl.toList.filter (fun i => !ltVal cmpL b.valL l i) := by
    rw [← hTl, ins_toList, hsl.1, hsl.2]
  have er : tr'.toList = tr.toList.filter (ltVal cmpR b.valR r) ++
      b.nextId :: tr.toList.filter (fun i => !ltVal cmpR b.valR r i) := by
    rw [← hTr, ins_toList, hsr.1, hsr.2]
  have pl' : tl'.toList.Perm (b.nextId :: tl.toList) := by
    rw [el]; exact filter_perm_cons _ _ _
  have pr' : tr'.toList.Perm (b.nextId :: tr.toList) := by
    rw [er]; exact filter_perm_cons _ _ _
  refine ⟨⟨m2, updVal b.valL b.nextId l, updVal b.valR b.nextId r, b.cnt_elem + 1,
    b.nextId + 1⟩, tl', tr', ?_, ?_, rfl, rfl, rfl, rfl, el, er, ?_⟩
  · simp only [bimap.insert, treap.contains, e1, e2, ne_eq, not_true_eq_false, decide_False]
    rw [hm0]
    simp [i1, i2]
  · refine ⟨rl2, r2, pl'.trans ((List.Perm.cons _ h.perm).trans pr'.symm), ?_, ?_, ?_, ?_, ?_, ?_,
      ?_⟩
    · intro i hi
      rcases List.mem_cons.1 (pl'.mem_iff.1 hi) with rfl | hi
      · exact Nat.lt_succ_self _
      · exact Nat.lt_succ_of_lt (h.ids i hi)
    · intro i hi
      show ∃ x, updVal b.valL b.nextId l i = some x
      rcases List.mem_cons.1 (pl'.mem_iff.1 hi) with rfl | hi
      · exact ⟨l, updVal_same _ _ _⟩
      · obtain ⟨x, hx⟩ := h.valsL i hi
        have hin : i ≠ b.nextId := fun e => hnl (e ▸ hi)
        exact ⟨x, (updVal_ne _ _ hin).trans hx⟩
    · intro i hi
      show ∃ x, updVal b.valR b.nextId r i = some x
      rcases List.mem_cons.1 (pl'.mem_iff.1 hi) with rfl | hi
      · exact ⟨r, updVal_same _ _ _⟩
      · obtain ⟨x, hx⟩ := h.valsR i hi
        have hin : i ≠ b.nextId := fun e => hnl (e ▸ hi)
        exact ⟨x, (updVal_ne _ _ hin).trans hx⟩
    · rw [el]; exact sorted_insert hL l h.sortedL h.valsL hnl hl
    · rw [er]; exact sorted_insert hR r h.sortedR h.valsR_right hnr hr'
    · show b.cnt_elem + 1 = tl'.toList.length
      rw [pl'.length_eq, List.length_cons, h.cnt]
    · show b.cnt_elem + 1 ≤ b.nextId + 1
      have := h.cap; omega
  · intro s'
    rw [f2 s', f1 s']
    exact (hm0l _ (hroot0 s')).2.2
end


namespace NodeTree

theorem del_of_not_mem (prio : Nat → Nat) (i : Nat) : ∀ (t : NodeTree), i ∉ t.toList →
    del prio i t = t := by
  intro t
  induction t with
  | nil => intro _; rfl
  | node l j r ihl ihr =>
    intro h
    simp only [toList_node, List.mem_append, List.mem_cons, not_or] at h
    have hj : j ≠ i := fun e => h.2.1 e.symm
    simp [del, hj, ihl h.1, ihr h.2.2]

theorem del_toList (prio : Nat → Nat) (i : Nat) : ∀ (t : NodeTree), t.toList.Nodup →
    (del prio i t).toList = t.toList.filter (fun k => decide (k ≠ i)) := by
  intro t
  induction t with
  | nil => intro _; rfl
  | node l j r ihl ihr =>
    intro h
    simp only [toList_node] at h
    rw [List.nodup_append] at h
    obtain ⟨hl, hjr, hd⟩ := h
    rw [List.nodup_cons] at hjr
    by_cases hj : j = i
    · subst hj
      have e1 : l.toList.filter (fun k => decide (k ≠ j)) = l.toList :=
        List.filter_eq_self.2 (fun a ha => by
          have : a ≠ j := fun e => hd ha (e ▸ List.mem_cons_self _ _)
          simpa using this)
      have e2 : r.toList.filter (fun k => decide (k ≠ j)) = r.toList :=
        List.filter_eq_self.2 (fun a ha => by
          have : a ≠ j := fun e => hjr.1 (e ▸ ha)
          simpa using this)
      rw [toList_node, List.filter_append, List.filter_cons, e1, e2]
      simp [del, merge_toList_eq]
    · simp [del, hj, List.filter_append, List.filter_cons, ihl hl, ihr hjr.2]

theorem del_toList_subset (prio : Nat → Nat) (i : Nat) {t : NodeTree} (h : t.toList.Nodup) :
    ∀ k ∈ (del prio i t).toList, k ∈ t.toList ∧ k ≠ i := by
  intro k hk
  rw [del_toList prio i t h, List.mem_filter] at hk
  exact ⟨hk.1, by simpa using hk.2⟩

theorem del_nodup (prio : Nat → Nat) (i : Nat) {t : NodeTree} (h : t.toList.Nodup) :
    (del prio i t).toList.Nodup := by
  rw [del_toList prio i t h]
  exact h.filter _

/-- The top of `del i t` is the top of `t`, unless that is `i`. -/
theorem del_ptr_of_ne (prio : Nat → Nat) (s : Bool) {i : Nat} {l : NodeTree} {j : Nat}
    {r : NodeTree} (h : j ≠ i) : (del prio i (node l j r)).ptr s = Ptr.node s j := by
  simp [del, h]

theorem sub_self (l : NodeTree) (i : Nat) (r : NodeTree) : (node l i r).sub i = node l i r := by
  simp [sub]

theorem sub_left {l : NodeTree} {i j : Nat} {r : NodeTree} (h : j ≠ i) (hi : i ∈ l.toList) :
    (node l j r).sub i = l.sub i := by
  simp [sub, h, hi]

theorem sub_right {l : NodeTree} {i j : Nat} {r : NodeTree} (h : j ≠ i) (hi : i ∉ l.toList) :
    (node l j r).sub i = r.sub i := by
  simp [sub, h, hi]

/-- The subtree below a node of `t`: its top is that node, and its other nodes
are nodes of `t`. -/
theorem sub_spec (i : Nat) : ∀ (t : NodeTree), i ∈ t.toList →
    ∃ li ri, t.sub i = node li i ri ∧ (∀ k ∈ li.toList ++ ri.toList, k ∈ t.toList) ∧
      li.size + ri.size < t.size ∧ (t.toList.Nodup → (li.toList ++ i :: ri.toList).Nodup) := by
  intro t
  induction t with
  | nil => intro h; simp at h
  | node l j r ihl ihr =>
    intro h
    by_cases hj : j = i
    · subst hj
      exact ⟨l, r, sub_self _ _ _, fun k hk => by
        simp only [List.mem_append] at hk
        simp only [toList_node, List.mem_append, List.mem_cons]
        tauto, by simp, fun hn => hn⟩
    · by_cases hl : i ∈ l.toList
      · obtain ⟨li, ri, e, hs, hz, hn⟩ := ihl hl
        refine ⟨li, ri, (sub_left hj hl).trans e, fun k hk => ?_, by simp; omega, fun hnn => ?_⟩
        · simp only [toList_node, List.mem_append, List.mem_cons]
          exact Or.inl (hs k hk)
        · simp only [toList_node] at hnn
          exact hn (List.nodup_append.1 hnn).1
      · have hr : i ∈ r.toList := by
          simp only [toList_node, List.mem_append, List.mem_cons] at h
          rcases h with h | h | h
          · exact absurd h hl
          · exact absurd h.symm hj
          · exact h
        obtain ⟨li, ri, e, hs, hz, hn⟩ := ihr hr
        refine ⟨li, ri, (sub_right hj hl).trans e, fun k hk => ?_, by simp; omega, fun hnn => ?_⟩
        · simp only [toList_node, List.mem_append, List.mem_cons]
          exact Or.inr (Or.inr (hs k hk))
        · simp only [toList_node] at hnn
          exact hn (List.nodup_cons.1 (List.nodup_append.1 hnn).2.1).2

end NodeTree

/-- The link fields of a node of a shape point at the two parts of the subtree
below it, which are shapes themselves. -/
theorem Shape_sub {m : Mem} {s : Bool} {i : Nat} : ∀ (t : NodeTree), Shape m s t →
    i ∈ t.toList → ∀ li ri, t.sub i = NodeTree.node li i ri →
    m.left (Ptr.node s i) = li.ptr s ∧ m.right (Ptr.node s i) = ri.ptr s ∧ Shape m s li ∧
      Shape m s ri := by
  intro t
  induction t with
  | nil => intro _ h; simp at h
  | node l j r ihl ihr =>
    intro hs hi li ri he
    obtain ⟨h1, h2, _, _, h5, h6⟩ := hs
    by_cases hj : j = i
    · subst hj
      rw [NodeTree.sub_self] at he
      injection he with e1 _ e3
      subst e1; subst e3
      exact ⟨h1, h2, h5, h6⟩
    · by_cases hl : i ∈ l.toList
      · rw [NodeTree.sub_left hj hl] at he
        exact ihl h5 hl li ri he
      · have hr : i ∈ r.toList := by
          simp only [NodeTree.toList_node, List.mem_append, List.mem_cons] at hi
          rcases hi with h | h | h
          · exact absurd h hl
          · exact absurd h.symm hj
          · exact h
        rw [NodeTree.sub_right hj hl] at he
        exact ihr h6 hr li ri he


theorem relink_priority (m1 : Mem) (f d x : Ptr) : (relink m1 f d x).priority = m1.priority := by
  unfold relink; split <;> simp

/-- `relink` when the removed record hangs in the `left` slot of its father. -/
theorem relink_of_left {m1 : Mem} {f d x : Ptr} (h : d ≠ m1.right f) :
    relink m1 f d x = node_base_t.update_father (m1.setLeft f x) f := by
  unfold relink
  rw [if_neg (fun hc => h hc.2)]

/-- `relink` when the removed record hangs in the `right` slot of its father. -/
theorem relink_of_right {m1 : Mem} {f d x : Ptr} (h : d = m1.right f) (hd : d ≠ Ptr.null) :
    relink m1 f d x = node_base_t.update_father (m1.setRight f x) f := by
  unfold relink
  rw [if_pos ⟨h ▸ hd, h⟩]

/-- Removing the top node `i` of a subtree that hangs under `f`: the merged
children `X` take its place. -/
theorem del_top (s : Bool) {m m1 : Mem} {i : Nat} {l r X : NodeTree} {f : Ptr}
    (hfr : Frame s (l.toList ++ r.toList) m m1) (hXs : Shape m1 s X)
    (hXl : ∀ k ∈ X.toList, k ∈ l.toList ++ r.toList) (hXn : X.toList.Nodup)
    (hft : ∀ k ∈ l.toList ++ i :: r.toList, f ≠ Ptr.node s k)
    (hang : (m.left f = Ptr.node s i ∧ ∀ k ∈ l.toList ++ i :: r.toList, m.right f ≠ Ptr.node s k) ∨
      (m.right f = Ptr.node s i ∧ ∀ k ∈ l.toList ++ i :: r.toList, m.left f ≠ Ptr.node s k)) :
    Shape (relink m1 f (Ptr.node s i) (X.ptr s)) s X ∧
    Fath (relink m1 f (Ptr.node s i) (X.ptr s)) s f X ∧
    (m.left f = Ptr.node s i → (relink m1 f (Ptr.node s i) (X.ptr s)).left f = X.ptr s ∧
      (relink m1 f (Ptr.node s i) (X.ptr s)).right f = m.right f) ∧
    (m.right f = Ptr.node s i → (relink m1 f (Ptr.node s i) (X.ptr s)).right f = X.ptr s ∧
      (relink m1 f (Ptr.node s i) (X.ptr s)).left f = m.left f) ∧
    (∀ q, q ≠ f → (relink m1 f (Ptr.node s i) (X.ptr s)).left q = m1.left q ∧
      (relink m1 f (Ptr.node s i) (X.ptr s)).right q = m1.right q) ∧
    (∀ q, q ≠ Ptr.null → (∀ k ∈ l.toList ++ i :: r.toList, q ≠ Ptr.node s k) →
      (relink m1 f (Ptr.node s i) (X.ptr s)).father q = m.father q ∨
      ((relink m1 f (Ptr.node s i) (X.ptr s)).father q = f ∧ (q = m.left f ∨ q = m.right f))) := by
  have hsub : ∀ k ∈ l.toList ++ r.toList, k ∈ l.toList ++ i :: r.toList := by
    intro k hk
    simp only [List.mem_append, List.mem_cons] at hk ⊢
    tauto
  have hfX : ∀ k ∈ l.toList ++ r.toList, f ≠ Ptr.node s k := fun k hk => hft k (hsub k hk)
  have hf1 := hfr.2 f hfX
  have hXf : ∀ k ∈ X.toList, Ptr.node s k ≠ f := fun k hk e => hfX k (hXl k hk) e.symm
  -- the top of `X` is null or a record of the subtree
  have hXp : ∀ q, q = X.ptr s → q ≠ Ptr.null → ∃ k ∈ l.toList ++ i :: r.toList, q = Ptr.node s k := by
    intro q hq h0
    rcases NodeTree.ptr_cases s X with h | ⟨k, hk, he⟩
    · exact absurd (hq.trans h) h0
    · exact ⟨k, hsub k (hXl k hk), hq.trans he⟩
  rcases hang with ⟨hl, hr⟩ | ⟨hr, hl⟩
  · -- `i` hangs in the `left` slot
    have hne : Ptr.node s i ≠ m1.right f := by
      rw [hf1.2.1]; exact fun e => hr i (by simp) e.symm
    rw [relink_of_left hne]
    refine ⟨?_, ?_, fun _ => by simp [hf1.2.1], fun hc => absurd hc (hr i (by simp)), ?_, ?_⟩
    · refine Shape_update_father (Shape_setLeft hXs hXf) (fun k hk => ?_) (fun k hk => ?_)
      · simp only [Mem.setLeft_left, upd_same]
        exact NodeTree.node_ne_ptr_of_mem_inner hXn hk
      · simp only [Mem.setLeft_right, hf1.2.1]
        exact fun e => hr k (hsub k (hXl k (NodeTree.inner_subset X k hk))) e.symm
    · rw [Fath_iff]
      intro h0
      rw [node_base_t.update_father_father]
      simp [h0]
    · intro q hq
      simp [upd_ne _ _ hq]
    · intro q hq0 hq
      rw [node_base_t.update_father_father]
      simp only [Mem.setLeft_right, Mem.setLeft_left, upd_same, Mem.setLeft_father, hf1.2.1]
      by_cases h1 : m.right f ≠ Ptr.null ∧ q = m.right f
      · rw [if_pos h1]; exact Or.inr ⟨rfl, Or.inr h1.2⟩
      · rw [if_neg h1]
        by_cases h2 : X.ptr s ≠ Ptr.null ∧ q = X.ptr s
        · obtain ⟨k, hk, he⟩ := hXp q h2.2 hq0
          exact absurd he (hq k hk)
        · rw [if_neg h2]
          exact Or.inl (hfr.2 q (fun k hk => hq k (hsub k hk))).2.2
  · -- `i` hangs in the `right` slot
    have he : Ptr.node s i = m1.right f := by rw [hf1.2.1]; exact hr.symm
    rw [relink_of_right he (by simp)]
    refine ⟨?_, ?_, fun hc => absurd hc (hl i (by simp)), fun _ => by simp [hf1.1], ?_, ?_⟩
    · refine Shape_update_father (Shape_setRight hXs hXf) (fun k hk => ?_) (fun k hk => ?_)
      · simp only [Mem.setRight_left, hf1.1]
        exact fun e => hl k (hsub k (hXl k (NodeTree.inner_subset X k hk))) e.symm
      · simp only [Mem.setRight_right, upd_same]
        exact NodeTree.node_ne_ptr_of_mem_inner hXn hk
    · rw [Fath_iff]
      intro h0
      rw [node_base_t.update_father_father]
      simp [h0]
    · intro q hq
      simp [upd_ne _ _ hq]
    · intro q hq0 hq
      rw [node_base_t.update_father_father]
      simp only [Mem.setRight_right, Mem.setRight_left, upd_same, Mem.setRight_father, hf1.1]
      by_cases h1 : X.ptr s ≠ Ptr.null ∧ q = X.ptr s
      · obtain ⟨k, hk, he⟩ := hXp q h1.2 hq0
        exact absurd he (hq k hk)
      · rw [if_neg h1]
        by_cases h2 : m.left f ≠ Ptr.null ∧ q = m.left f
        · rw [if_pos h2]; exact Or.inr ⟨rfl, Or.inl h2.2⟩
        · rw [if_neg h2]
          exact Or.inl (hfr.2 q (fun k hk => hq k (hsub k hk))).2.2


theorem NodeTree.ne_ptr_of_ne_null {s : Bool} {t : NodeTree} {q : Ptr}
    (h : ∀ j ∈ t.toList, q ≠ Ptr.node s j) (hq : q ≠ Ptr.null) : q ≠ t.ptr s := by
  rcases NodeTree.ptr_cases s t with h0 | ⟨j, hj, he⟩
  · rw [h0]; exact hq
  · rw [he]; exact h j hj

/-- Removing node `i` from a shape `t` that hangs under `f`: after the children
of `i` have been merged into `X` (memory `m1`) and `X` has been linked in the
place of `i` (memory `m3`), memory holds the shape `del i t`; outside `t` only
the `father` fields of the children of `f` may have been rewritten. -/
theorem del_shape (s : Bool) (prio : Nat → Nat) {m m1 m3 : Mem} {i : Nat} {li ri X : NodeTree}
    (hfr : Frame s (li.toList ++ ri.toList) m m1) (hXs : Shape m1 s X)
    (hXl : ∀ k ∈ X.toList, k ∈ li.toList ++ ri.toList) (hXn : X.toList.Nodup)
    (hX : NodeTree.merge prio li ri = X)
    (hm3 : m3 = relink m1 (m.father (Ptr.node s i)) (Ptr.node s i) (X.ptr s)) :
    ∀ (t : NodeTree) (f : Ptr), Shape m s t → Fath m s f t → t.toList.Nodup → i ∈ t.toList →
      t.sub i = NodeTree.node li i ri → f ≠ Ptr.null → (∀ k ∈ t.toList, f ≠ Ptr.node s k) →
      ((m.left f = t.ptr s ∧ ∀ k ∈ t.toList, m.right f ≠ Ptr.node s k) ∨
       (m.right f = t.ptr s ∧ ∀ k ∈ t.toList, m.left f ≠ Ptr.node s k)) →
      m.father (Ptr.node s i) ≠ Ptr.null ∧ Shape m3 s (t.del prio i) ∧
      Fath m3 s f (t.del prio i) ∧
      (m.left f = t.ptr s → m3.left f = (t.del prio i).ptr s ∧ m3.right f = m.right f) ∧
      (m.right f = t.ptr s → m3.right f = (t.del prio i).ptr s ∧ m3.left f = m.left f) ∧
      (∀ q, q ≠ f → (∀ k ∈ t.toList, q ≠ Ptr.node s k) →
        m3.left q = m.left q ∧ m3.right q = m.right q) ∧
      (∀ q, q ≠ Ptr.null → (∀ k ∈ t.toList, q ≠ Ptr.node s k) →
        m3.father q = m.father q ∨ (m3.father q = f ∧ (q = m.left f ∨ q = m.right f))) := by
  intro t
  induction t with
  | nil => intro f _ _ _ hi; simp at hi
  | node l j r ihl ihr =>
    intro f hs hfa hn hi hsub hf0 hft hang
    obtain ⟨h1, h2, h3, h4, h5, h6⟩ := hs
    have hn' := hn
    simp only [NodeTree.toList_node] at hn'
    rw [List.nodup_append] at hn'
    obtain ⟨hnl, hnr, hdis⟩ := hn'
    rw [List.nodup_cons] at hnr
    obtain ⟨hjr, hnr⟩ := hnr
    have hjl : j ∉ l.toList := fun h => hdis h (List.mem_cons_self _ _)
    have hdlr : ∀ k ∈ l.toList, k ∉ r.toList := fun k hk hkr =>
      hdis hk (List.mem_cons_of_mem _ hkr)
    have hfj : f ≠ Ptr.node s j := hft j (by simp)
    by_cases hj : j = i
    · -- the node to remove is the top
      subst hj
      rw [NodeTree.sub_self] at hsub
      injection hsub with e1 _ e3
      subst e1; subst e3
      simp only [Fath] at hfa
      rw [hfa] at hm3
      simp only [NodeTree.ptr_node, NodeTree.toList_node] at hang hft
      obtain ⟨a1, a2, a3, a4, a5, a6⟩ := del_top s hfr hXs hXl hXn hft hang
      rw [← hm3] at a1 a2 a3 a4 a5 a6
      have hd : NodeTree.del prio j (NodeTree.node l j r) = X := by simp [NodeTree.del, hX]
      rw [hd]
      refine ⟨by rw [hfa]; exact hf0, a1, a2, a3, a4, ?_, a6⟩
      intro q hq hqt
      have := hfr.2 q (fun k hk => hqt k (by
        simp only [List.mem_append] at hk
        simp only [NodeTree.toList_node, List.mem_append, List.mem_cons]
        tauto))
      exact ⟨(a5 q hq).1.trans this.1, (a5 q hq).2.trans this.2.1⟩
    · have hjn : Ptr.node s j ≠ Ptr.null := by simp
      by_cases hl : i ∈ l.toList
      · -- the node to remove is in the left subtree
        have hir : i ∉ r.toList := hdlr i hl
        rw [NodeTree.sub_left hj hl] at hsub
        obtain ⟨b0, b1, b2, b3, _, b5, b6⟩ := ihl (Ptr.node s j) h5 h3 hnl hl hsub hjn
          (fun k hk e => by injection e with _ e; exact hjl (e ▸ hk))
          (Or.inl ⟨h1, fun k hk => by
            rw [h2]; exact fun e => hdlr k hk (by
              rcases NodeTree.ptr_cases s r with h0 | ⟨k', hk', he⟩
              · rw [h0] at e; cases e
              · rw [he] at e; injection e with _ e; exact e ▸ hk')⟩)
        have hd : NodeTree.del prio i (NodeTree.node l j r)
            = NodeTree.node (NodeTree.del prio i l) j r := by
          simp [NodeTree.del, hj, NodeTree.del_of_not_mem prio i r hir]
        have hfr' : ∀ k ∈ r.toList, m3.father (Ptr.node s k) = m.father (Ptr.node s k) ∨
            (m3.father (Ptr.node s k) = Ptr.node s j ∧ Ptr.node s k = r.ptr s) := by
          intro k hk
          rcases b6 (Ptr.node s k) (by simp)
            (fun k' hk' e => by injection e with _ e; exact hdlr k' hk' (e ▸ hk)) with h | ⟨h, h'⟩
          · exact Or.inl h
          · rcases h' with h' | h'
            · rw [h1] at h'
              exact absurd h' (NodeTree.node_ne_ptr_of_not_mem (fun hkl => hdlr k hkl hk))
            · rw [h2] at h'; exact Or.inr ⟨h, h'⟩
        rw [hd]
        refine ⟨b0, ⟨(b3 h1).1, (b3 h1).2.trans h2, b2, ?_, b1, ?_⟩, ?_, ?_, ?_, ?_, ?_⟩
        · cases r with
          | nil => trivial
          | node rl k rr =>
            simp only [Fath] at h4 ⊢
            rcases hfr' k (by simp) with h | ⟨h, _⟩
            · exact h.trans h4
            · exact h
        · refine Shape_congr r (fun k hk => ?_) (fun k hk => ?_) h6
          · exact b5 (Ptr.node s k) (fun e => by injection e with _ e; exact hjr (e ▸ hk))
              (fun k' hk' e => by injection e with _ e; exact hdlr k' hk' (e ▸ hk))
          · rcases hfr' k (NodeTree.inner_subset r k hk) with h | ⟨_, h⟩
            · exact h
            · exact absurd h (NodeTree.node_ne_ptr_of_mem_inner hnr hk)
        · show m3.father (Ptr.node s j) = f
          simp only [Fath] at hfa
          rcases b6 (Ptr.node s j) hjn
            (fun k hk e => by injection e with _ e; exact hjl (e ▸ hk)) with h | ⟨_, h | h⟩
          · exact h.trans hfa
          · rw [h1] at h; exact absurd h (NodeTree.node_ne_ptr_of_not_mem hjl)
          · rw [h2] at h; exact absurd h (NodeTree.node_ne_ptr_of_not_mem hjr)
        · intro hc
          have := b5 f hfj (fun k hk => hft k (by simp [hk]))
          exact ⟨this.1.trans hc, this.2⟩
        · intro hc
          have := b5 f hfj (fun k hk => hft k (by simp [hk]))
          exact ⟨this.2.trans hc, this.1⟩
        · intro q hq hqt
          exact b5 q (hqt j (by simp)) (fun k hk => hqt k (by simp [hk]))
        · intro q hq0 hqt
          rcases b6 q hq0 (fun k hk => hqt k (by simp [hk])) with h | ⟨_, h | h⟩
          · exact Or.inl h
          · rw [h1] at h
            exact absurd h (NodeTree.ne_ptr_of_ne_null (fun k hk => hqt k (by simp [hk])) hq0)
          · rw [h2] at h
            exact absurd h (NodeTree.ne_ptr_of_ne_null (fun k hk => hqt k (by simp [hk])) hq0)
      · -- the node to remove is in the right subtree
        have hr : i ∈ r.toList := by
          simp only [NodeTree.toList_node, List.mem_append, List.mem_cons] at hi
          rcases hi with h | h | h
          · exact absurd h hl
          · exact absurd h.symm hj
          · exact h
        rw [NodeTree.sub_right hj hl] at hsub
        obtain ⟨b0, b1, b2, _, b4, b5, b6⟩ := ihr (Ptr.node s j) h6 h4 hnr hr hsub hjn
          (fun k hk e => by injection e with _ e; exact hjr (e ▸ hk))
          (Or.inr ⟨h2, fun k hk => by
            rw [h1]; exact fun e => hdlr k (by
              rcases NodeTree.ptr_cases s l with h0 | ⟨k', hk', he⟩
              · rw [h0] at e; cases e
              · rw [he] at e; injection e with _ e; exact e ▸ hk') hk⟩)
        have hd : NodeTree.del prio i (NodeTree.node l j r)
            = NodeTree.node l j (NodeTree.del prio i r) := by
          simp [NodeTree.del, hj, NodeTree.del_of_not_mem prio i l hl]
        have hfl' : ∀ k ∈ l.toList, m3.father (Ptr.node s k) = m.father (Ptr.node s k) ∨
            (m3.father (Ptr.node s k) = Ptr.node s j ∧ Ptr.node s k = l.ptr s) := by
          intro k hk
          rcases b6 (Ptr.node s k) (by simp)
            (fun k' hk' e => by injection e with _ e; exact hdlr k hk (e ▸ hk')) with h | ⟨h, h'⟩
          · exact Or.inl h
          · rcases h' with h' | h'
            · rw [h1] at h'; exact Or.inr ⟨h, h'⟩
            · rw [h2] at h'
              exact absurd h' (NodeTree.node_ne_ptr_of_not_mem (hdlr k hk))
        rw [hd]
        refine ⟨b0, ⟨(b4 h2).2.trans h1, (b4 h2).1, ?_, b2, ?_, b1⟩, ?_, ?_, ?_, ?_, ?_⟩
        · cases l with
          | nil => trivial
          | node ll k lr =>
            simp only [Fath] at h3 ⊢
            rcases hfl' k (by simp) with h | ⟨h, _⟩
            · exact h.trans h3
            · exact h
        · refine Shape_congr l (fun k hk => ?_) (fun k hk => ?_) h5
          · exact b5 (Ptr.node s k) (fun e => by injection e with _ e; exact hjl (e ▸ hk))
              (fun k' hk' e => by injection e with _ e; exact hdlr k hk (e ▸ hk'))
          · rcases hfl' k (NodeTree.inner_subset l k hk) with h | ⟨_, h⟩
            · exact h
            · exact absurd h (NodeTree.node_ne_ptr_of_mem_inner hnl hk)
        · show m3.father (Ptr.node s j) = f
          simp only [Fath] at hfa
          rcases b6 (Ptr.node s j) hjn
            (fun k hk e => by injection e with _ e; exact hjr (e ▸ hk)) with h | ⟨_, h | h⟩
          · exact h.trans hfa
          · rw [h1] at h; exact absurd h (NodeTree.node_ne_ptr_of_not_mem hjl)
          · rw [h2] at h; exact absurd h (NodeTree.node_ne_ptr_of_not_mem hjr)
        · intro hc
          have := b5 f hfj (fun k hk => hft k (by simp [hk]))
          exact ⟨this.1.trans hc, this.2⟩
        · intro hc
          have := b5 f hfj (fun k hk => hft k (by simp [hk]))
          exact ⟨this.2.trans hc, this.1⟩
        · intro q hq hqt
          exact b5 q (hqt j (by simp)) (fun k hk => hqt k (by simp [hk]))
        · intro q hq0 hqt
          rcases b6 q hq0 (fun k hk => hqt k (by simp [hk])) with h | ⟨_, h | h⟩
          · exact Or.inl h
          · rw [h1] at h
            exact absurd h (NodeTree.ne_ptr_of_ne_null (fun k hk => hqt k (by simp [hk])) hq0)
          · rw [h2] at h
            exact absurd h (NodeTree.ne_ptr_of_ne_null (fun k hk => hqt k (by simp [hk])) hq0)


/-- `treap::remove(node)` on a node `i` of the tree `t` under its sentinel: the
tree becomes `del i t`, the result is the successor of `i`, and nothing of the
other projection is written except, possibly, the `father` field of its sentinel. -/
theorem remove_node_rooted {m : Mem} {s : Bool} {t : NodeTree} (h : Rooted m s t) {i : Nat}
    (hi : i ∈ t.toList) {fuel : Nat} (hf : t.size < fuel) :
    ∃ m' res, treap.remove_node fuel m (Ptr.node s i) = some (m', res, true) ∧
      Rooted m' s (t.del (fun k => m.priority (Ptr.node s k)) i) ∧ Outside s m m' ∧
      (∀ pre post, t.toList = pre ++ i :: post →
        res = post.head?.elim (Ptr.root s) (Ptr.node s)) := by
  obtain ⟨li, ri, hsub, hss, hsz, hnn⟩ := NodeTree.sub_spec i t hi
  have hn2 := hnn h.nodup
  obtain ⟨c1, c2, c3, c4⟩ := Shape_sub t h.shape hi li ri hsub
  obtain ⟨pre, post, hpp⟩ := List.append_of_mem hi
  have hnext := next_rooted h hf hpp
  have hn3 : (li.toList ++ ri.toList).Nodup := by
    rw [List.nodup_append] at hn2 ⊢
    exact ⟨hn2.1, (List.nodup_cons.1 hn2.2.1).2,
      fun k hk hk2 => hn2.2.2 hk (List.mem_cons_of_mem _ hk2)⟩
  have hi3 : i ∉ li.toList ++ ri.toList := by
    rw [List.nodup_append] at hn2
    intro hc
    rcases List.mem_append.1 hc with hc | hc
    · exact hn2.2.2 hc (List.mem_cons_self _ _)
    · exact (List.nodup_cons.1 hn2.2.1).1 hc
  obtain ⟨m1, e1, sX, fr⟩ := merge_shape s fuel li ri m c3 c4 hn3 (by omega)
  generalize hX : NodeTree.merge (fun k => m.priority (Ptr.node s k)) li ri = X at e1 sX
  have hXl : ∀ k ∈ X.toList, k ∈ li.toList ++ ri.toList := by
    intro k hk; rw [← hX, NodeTree.merge_toList_eq] at hk; exact hk
  have hXn : X.toList.Nodup := by rw [← hX, NodeTree.merge_toList_eq]; exact hn3
  have hfa : m1.father (Ptr.node s i) = m.father (Ptr.node s i) :=
    (fr.2 _ (fun k hk e => by injection e with _ e; exact hi3 (e ▸ hk))).2.2
  have hroot : ∀ s' : Bool, ∀ k ∈ t.toList, Ptr.root s' ≠ Ptr.node s k := by
    intro s' k _ e; cases e
  obtain ⟨b0, b1, b2, b3, _, b5, b6⟩ := del_shape s (fun k => m.priority (Ptr.node s k)) fr sX
    hXl hXn hX rfl t (Ptr.root s) h.shape h.fath h.nodup hi hsub (by simp) (hroot s)
    (Or.inl ⟨h.root_left, fun k _ => by rw [h.root_right]; simp⟩)
  refine ⟨relink m1 (m.father (Ptr.node s i)) (Ptr.node s i) (X.ptr s),
    post.head?.elim (Ptr.root s) (Ptr.node s), ?_, ?_, ?_, ?_⟩
  · simp only [treap.remove_node, hnext, c1, c2, e1, hfa]
    simp [b0, relink]
  · exact ⟨(b3 h.root_left).1, b1, b2, (b3 h.root_left).2.trans h.root_right,
      NodeTree.del_nodup _ _ h.nodup⟩
  · have hoth : ∀ j : Nat, ∀ k ∈ t.toList, Ptr.node (!s) j ≠ Ptr.node s k := by
      intro j k _ e; injection e with e _; cases s <;> simp at e
    refine ⟨(relink_priority _ _ _ _).trans fr.1, fun j => ?_, ?_, fun s' => ?_⟩
    · have hne : Ptr.node (!s) j ≠ Ptr.root s := by simp
      refine ⟨(b5 _ hne (hoth j)).1, (b5 _ hne (hoth j)).2, ?_⟩
      rcases b6 (Ptr.node (!s) j) (by simp) (hoth j) with e | ⟨_, e | e⟩
      · exact e
      · rw [h.root_left] at e
        exact absurd e (NodeTree.ne_ptr_of_ne_null (hoth j) (by simp))
      · rw [h.root_right] at e; cases e
    · have hne : Ptr.root (!s) ≠ Ptr.root s := by cases s <;> simp
      exact (b5 _ hne (hroot (!s))).1
    · by_cases hs : s' = s
      · subst hs; exact (b3 h.root_left).2
      · exact (b5 _ (fun e => by injection e with e; exact hs e) (hroot s')).2
  · intro pre' post' hpp'
    have := next_rooted h hf hpp'
    rw [hnext] at this
    injection this


/-- A record of a tree under its sentinel has a father. -/
theorem Shape_father_ne_null {m : Mem} {s : Bool} {i : Nat} : ∀ (t : NodeTree) (f : Ptr),
    Shape m s t → Fath m s f t → f ≠ Ptr.null → i ∈ t.toList →
    m.father (Ptr.node s i) ≠ Ptr.null := by
  intro t
  induction t with
  | nil => intro f _ _ _ hi; simp at hi
  | node l j r ihl ihr =>
    intro f hs hfa hf hi
    obtain ⟨_, _, h3, h4, h5, h6⟩ := hs
    simp only [NodeTree.toList_node, List.mem_append, List.mem_cons] at hi
    rcases hi with hi | rfl | hi
    · exact ihl (Ptr.node s j) h5 h3 (by simp) hi
    · simp only [Fath] at hfa; rw [hfa]; exact hf
    · exact ihr (Ptr.node s j) h6 h4 (by simp) hi

theorem Rooted_father_ne_null {m : Mem} {s : Bool} {t : NodeTree} (h : Rooted m s t) {i : Nat}
    (hi : i ∈ t.toList) : m.father (Ptr.node s i) ≠ Ptr.null :=
  Shape_father_ne_null t (Ptr.root s) h.shape h.fath (by simp) hi

theorem Rooted_outside_of_eq {s s' : Bool} (hs : s' = !s) {m m' : Mem} {t : NodeTree}
    (ho : Outside s m m') (h : Rooted m s' t) : Rooted m' s' t := by
  subst hs; exact Rooted_outside ho h

/-- Unlinking the two records of dual node `i`, first from the tree of projection
`s`, then from the other tree. -/
theorem remove_both {s s' : Bool} (hs : s' = !s) {m : Mem} {t t' : NodeTree}
    (h : Rooted m s t) (h' : Rooted m s' t') {i : Nat} (hi : i ∈ t.toList) (hi' : i ∈ t'.toList)
    {fuel : Nat} (hf : t.size < fuel) (hf' : t'.size < fuel) :
    ∃ m1 m2 res res', treap.remove_node fuel m (Ptr.node s i) = some (m1, res, true) ∧
      treap.remove_node fuel m1 (Ptr.node s' i) = some (m2, res', true) ∧
      Rooted m2 s (t.del (fun k => m.priority (Ptr.node s k)) i) ∧
      Rooted m2 s' (t'.del (fun k => m.priority (Ptr.node s' k)) i) ∧
      m2.priority = m.priority ∧
      (∀ pre post, t.toList = pre ++ i :: post →
        res = post.head?.elim (Ptr.root s) (Ptr.node s)) ∧
      (∀ pre post, t'.toList = pre ++ i :: post →
        res' = post.head?.elim (Ptr.root s') (Ptr.node s')) := by
  have hs2 : s = !s' := by subst hs; simp
  obtain ⟨m1, res, e1, r1, o1, n1⟩ := remove_node_rooted h hi hf
  have r1' := Rooted_outside_of_eq hs o1 h'
  obtain ⟨m2, res', e2, r2, o2, n2⟩ := remove_node_rooted r1' hi' hf'
  rw [o1.1] at r2
  exact ⟨m1, m2, res, res', e1, e2, Rooted_outside_of_eq hs2 o2 r1, r2, o2.1.trans o1.1, n1, n2⟩

theorem length_filter_ne {xs : List Nat} (hn : xs.Nodup) {i : Nat} (hi : i ∈ xs) :
    (xs.filter (fun k => decide (k ≠ i))).length + 1 = xs.length := by
  have e : (fun k => decide (k ≠ i)) = (fun x => x != i) := by
    funext k
    by_cases hk : k = i <;> simp [hk]
  rw [e, ← hn.erase_eq_filter, List.length_erase_of_mem hi]
  have : 0 < xs.length := List.length_pos_of_mem hi
  omega

section
variable {L R : Type} {cmpL : L → L → Bool} {cmpR : R → R → Bool}

/-- The invariant after dual node `i` has been unlinked from both trees and
`cnt_elem` has been decremented. -/
theorem inv_del {b : Bimap L R} {tl tr : NodeTree} (h : BimapInv cmpL cmpR b tl tr) {i : Nat}
    (hi : i ∈ tl.toList) {m' : Mem} (p1 p2 : Nat → Nat) (hl : Rooted m' true (tl.del p1 i))
    (hr : Rooted m' false (tr.del p2 i)) :
    BimapInv cmpL cmpR { b with mem := m', cnt_elem := b.cnt_elem - 1 } (tl.del p1 i)
      (tr.del p2 i) := by
  have el := NodeTree.del_toList p1 i tl h.left.nodup
  have er := NodeTree.del_toList p2 i tr h.right.nodup
  have hlen := length_filter_ne h.left.nodup hi
  refine ⟨hl, hr, ?_, ?_, ?_, ?_, ?_, ?_, ?_, ?_⟩
  · rw [el, er]; exact h.perm.filter _
  · intro k hk
    exact h.ids k (NodeTree.del_toList_subset p1 i h.left.nodup k hk).1
  · intro k hk
    exact h.valsL k (NodeTree.del_toList_subset p1 i h.left.nodup k hk).1
  · intro k hk
    exact h.valsR k (NodeTree.del_toList_subset p1 i h.left.nodup k hk).1
  · rw [el]; exact h.sortedL.sublist (List.filter_sublist _)
  · rw [er]; exact h.sortedR.sublist (List.filter_sublist _)
  · show b.cnt_elem - 1 = (tl.del p1 i).toList.length
    rw [el, h.cnt]; omega
  · show b.cnt_elem - 1 ≤ b.nextId
    have := h.cap; omega

end


section
variable {L R : Type} {cmpL : L → L → Bool} {cmpR : R → R → Bool}

/-- The by-key erase of projection `s`: nothing happens when no stored value is
equivalent to the key; otherwise the dual node that holds it is unlinked from
both trees and `cnt_elem` is decremented. -/
theorem erase_key_rooted {T : Type} {cmp : T → T → Bool} {val : Nat → Option T}
    (hc : StrictWeak cmp) (s s' : Bool) (hs : s' = !s) (b : Bimap L R) {t t' : NodeTree}
    (h : Rooted b.mem s t) (h' : Rooted b.mem s' t') (hmem : ∀ i, i ∈ t.toList → i ∈ t'.toList)
    (hv : ∀ i ∈ t.toList, ∃ x, val i = some x) (hso : t.toList.Pairwise (idLt cmp val))
    (hf : t.size < bimap.fuel b) (hf' : t'.size < bimap.fuel b) (key : T) :
    ((∀ i ∈ t.toList, ∀ x, val i = some x → treap.equal cmp x key = false) →
      bimap.erase_key cmp val s b key = some (b, false)) ∧
    (∀ i x, i ∈ t.toList → val i = some x → treap.equal cmp x key = true →
      ∃ m2, bimap.erase_key cmp val s b key
          = some ({ b with mem := m2, cnt_elem := b.cnt_elem - 1 }, true) ∧
        Rooted m2 s (t.del (fun k => b.mem.priority (Ptr.node s k)) i) ∧
        Rooted m2 s' (t'.del (fun k => b.mem.priority (Ptr.node s' k)) i) ∧
        m2.priority = b.mem.priority) := by
  constructor
  · intro hne
    have e := find_of_not_equal hc h hv hso key hf hne
    simp [bimap.erase_key, treap.remove_value, e]
  · intro i x hi hx he
    have e := find_of_equal hc h hv hso key hf hi hx he
    obtain ⟨m1, m2, res, res', e1, e2, r1, r2, hp, _, _⟩ :=
      remove_both hs h h' hi (hmem i hi) hf hf'
    subst hs
    exact ⟨m2, by simp [bimap.erase_key, treap.remove_value, e, e1, bimap.get_another_node, e2],
      r1, r2, hp⟩

/-- `erase_left(left_t const&)` on a state that satisfies the invariant. -/
theorem erase_left_key_inv (hL : StrictWeak cmpL) {b : Bimap L R} {tl tr : NodeTree}
    (h : BimapInv cmpL cmpR b tl tr) (key : L) :
    ((∀ i ∈ tl.toList, ∀ x, b.valL i = some x → treap.equal cmpL x key = false) →
      bimap.erase_left_key cmpL b key = some (b, false)) ∧
    (∀ i x, i ∈ tl.toList → b.valL i = some x → treap.equal cmpL x key = true →
      ∃ b' tl' tr', bimap.erase_left_key cmpL b key = some (b', true) ∧
        BimapInv cmpL cmpR b' tl' tr' ∧
        tl'.toList = tl.toList.filter (fun k => decide (k ≠ i)) ∧
        tr'.toList = tr.toList.filter (fun k => decide (k ≠ i)) ∧
        b'.valL = b.valL ∧ b'.valR = b.valR ∧ b'.nextId = b.nextId ∧
        b'.cnt_elem = b.cnt_elem - 1) := by
  obtain ⟨a1, a2⟩ := erase_key_rooted hL true false rfl b h.left h.right
    (fun i hi => h.perm.mem_iff.1 hi) h.valsL h.sortedL h.size_left_lt h.size_right_lt key
  refine ⟨a1, fun i x hi hx he => ?_⟩
  obtain ⟨m2, e, r1, r2, _⟩ := a2 i x hi hx he
  exact ⟨_, _, _, e, inv_del h hi _ _ r1 r2, NodeTree.del_toList _ i tl h.left.nodup,
    NodeTree.del_toList _ i tr h.right.nodup, rfl, rfl, rfl, rfl⟩

/-- `erase_right(right_t const&)` on a state that satisfies the invariant. -/
theorem erase_right_key_inv (hR : StrictWeak cmpR) {b : Bimap L R} {tl tr : NodeTree}
    (h : BimapInv cmpL cmpR b tl tr) (key : R) :
    ((∀ i ∈ tl.toList, ∀ x, b.valR i = some x → treap.equal cmpR x key = false) →
      bimap.erase_right_key cmpR b key = some (b, false)) ∧
    (∀ i x, i ∈ tl.toList → b.valR i = some x → treap.equal cmpR x key = true →
      ∃ b' tl' tr', bimap.erase_right_key cmpR b key = some (b', true) ∧
        BimapInv cmpL cmpR b' tl' tr' ∧
        tl'.toList = tl.toList.filter (fun k => decide (k ≠ i)) ∧
        tr'.toList = tr.toList.filter (fun k => decide (k ≠ i)) ∧
        b'.valL = b.valL ∧ b'.valR = b.valR ∧ b'.nextId = b.nextId ∧
        b'.cnt_elem = b.cnt_elem - 1) := by
  obtain ⟨a1, a2⟩ := erase_key_rooted hR false true rfl b h.right h.left
    (fun i hi => h.perm.mem_iff.2 hi) h.valsR_right h.sortedR h.size_right_lt h.size_left_lt key
  refine ⟨fun hne => a1 (fun i hi => hne i (h.perm.mem_iff.2 hi)), fun i x hi hx he => ?_⟩
  obtain ⟨m2, e, r1, r2, _⟩ := a2 i x (h.perm.mem_iff.1 hi) hx he
  exact ⟨_, _, _, e, inv_del h hi _ _ r2 r1, NodeTree.del_toList _ i tl h.left.nodup,
    NodeTree.del_toList _ i tr h.right.nodup, rfl, rfl, rfl, rfl⟩

/-- `flip` on an iterator that refers to an element gives the sibling record. -/
theorem flip_rooted {m : Mem} {s : Bool} {t : NodeTree} (h : Rooted m s t) {i : Nat}
    (hi : i ∈ t.toList) : bimap.flip s m (Ptr.node s i) = some (Ptr.node (!s) i) := by
  simp [bimap.flip, Rooted_father_ne_null h hi, bimap.get_another_node]

/-- The by-iterator erase of projection `s` on an iterator that refers to the
element `i`: the dual node is unlinked from both trees, `cnt_elem` is
decremented and the successor of `i` in projection `s` is returned. -/
theorem erase_it_rooted (s s' : Bool) (hs : s' = !s) (b : Bimap L R) {t t' : NodeTree}
    (h : Rooted b.mem s t) (h' : Rooted b.mem s' t') {i : Nat} (hi : i ∈ t.toList)
    (hi' : i ∈ t'.toList) (hf : t.size < bimap.fuel b) (hf' : t'.size < bimap.fuel b) :
    ∃ m2 res, bimap.erase_it s b (Ptr.node s i)
        = some ({ b with mem := m2, cnt_elem := b.cnt_elem - 1 }, res) ∧
      Rooted m2 s (t.del (fun k => b.mem.priority (Ptr.node s k)) i) ∧
      Rooted m2 s' (t'.del (fun k => b.mem.priority (Ptr.node s' k)) i) ∧
      m2.priority = b.mem.priority ∧
      (∀ pre post, t.toList = pre ++ i :: post →
        res = post.head?.elim (Ptr.root s) (Ptr.node s)) := by
  have hs2 : s = !s' := by subst hs; simp
  obtain ⟨m1, m2, res', res, e1, e2, r1, r2, hp, _, n2⟩ := remove_both hs2 h' h hi' hi hf' hf
  refine ⟨m2, res, ?_, r2, r1, hp, n2⟩
  subst hs
  simp [bimap.erase_it, flip_rooted h hi, treap.remove_it, e1, e2]

end


/-- `treap::remove(iterator, iterator)` on the tree `t` under its sentinel.  With
`A`, `B` the halves of `t` split at the value of `first`, and `D`, `C` the halves
of `B` split at the value of `last` (`D = B` and `C` empty when `last` is the end
iterator): the tree becomes the merge of `A` and `C`, and `D` is handed back as a
shape of its own. -/
theorem remove_range_rooted {T : Type} (cmp : T → T → Bool) (val : Nat → Option T) {s : Bool}
    {m : Mem} {t : NodeTree} (h : Rooted m s t) {fuel : Nat} (hf : t.size < fuel)
    {first last : Ptr} {v1 : T} (hv1 : treap.value val s first = some v1)
    (hlast : last = Ptr.root s ∨ ∃ v2, treap.value val s last = some v2)
    (hv : ∀ i ∈ t.toList, ∃ x, val i = some x) :
    ∃ m' A D C, treap.remove_range cmp val s fuel m first last = some (m', D.ptr s) ∧
      Rooted m' s (NodeTree.merge (fun k => m.priority (Ptr.node s k)) A C) ∧
      Shape m' s D ∧ Outside s m m' ∧
      A.toList ++ (D.toList ++ C.toList) = t.toList ∧
      A = (t.split (ltVal cmp val v1)).1 ∧
      ((last = Ptr.root s ∧ D = (t.split (ltVal cmp val v1)).2 ∧ C = NodeTree.nil) ∨
        (last ≠ Ptr.root s ∧ ∃ v2, treap.value val s last = some v2 ∧
          D = ((t.split (ltVal cmp val v1)).2.split (ltVal cmp val v2)).1 ∧
          C = ((t.split (ltVal cmp val v1)).2.split (ltVal cmp val v2)).2)) := by
  have hp : ∀ (v : T) (t' : NodeTree), (∀ i ∈ t'.toList, i ∈ t.toList) →
      ∀ i ∈ t'.toList, ∃ x, val i = some x ∧ cmp x v = ltVal cmp val v i := by
    intro v t' hsub i hi
    obtain ⟨x, hx⟩ := hv i (hsub i hi)
    exact ⟨x, hx, (ltVal_of_some hx).symm⟩
  obtain ⟨m1, e1, sA, sB, fr1⟩ := split_shape cmp val s v1 (ltVal cmp val v1) t fuel m
    (hp v1 t (fun _ hi => hi)) h.shape h.nodup hf
  have hAB := NodeTree.split_toList (ltVal cmp val v1) t
  have hszAB := NodeTree.split_size (ltVal cmp val v1) t
  generalize hA : (t.split (ltVal cmp val v1)).1 = A at e1 sA hAB hszAB
  generalize hB : (t.split (ltVal cmp val v1)).2 = B at e1 sB hAB hszAB
  have hnAB : (A.toList ++ B.toList).Nodup := by rw [hAB]; exact h.nodup
  have hBsub : ∀ i ∈ B.toList, i ∈ t.toList := fun i hi => by
    rw [← hAB]; exact List.mem_append_right _ hi
  -- the second cut
  have second : ∃ m2 D C,
      Shape m2 s D ∧ Shape m2 s C ∧ Frame s B.toList m1 m2 ∧ D.toList ++ C.toList = B.toList ∧
      ((last = Ptr.root s ∧ m2 = m1 ∧ D = B ∧ C = NodeTree.nil) ∨
        (last ≠ Ptr.root s ∧ ∃ v2, treap.value val s last = some v2 ∧
          treap.split cmp val s fuel m1 (B.ptr s) v2 = some (m2, D.ptr s, C.ptr s) ∧
          D = (B.split (ltVal cmp val v2)).1 ∧ C = (B.split (ltVal cmp val v2)).2)) := by
    by_cases hl : last = Ptr.root s
    · exact ⟨m1, B, NodeTree.nil, sB, trivial, Frame_refl _ _ _, by simp,
        Or.inl ⟨hl, rfl, rfl, rfl⟩⟩
    · rcases hlast with hc | ⟨v2, hv2⟩
      · exact absurd hc hl
      · obtain ⟨m2, e2, sD, sC, fr2⟩ := split_shape cmp val s v2 (ltVal cmp val v2) B fuel m1
          (hp v2 B hBsub) sB (List.nodup_append.1 hnAB).2.1 (by omega)
        exact ⟨m2, _, _, sD, sC, fr2, NodeTree.split_toList _ B,
          Or.inr ⟨hl, v2, hv2, e2, rfl, rfl⟩⟩
  obtain ⟨m2, D, C, sD, sC, fr2, hDC, hcase⟩ := second
  have hnAB' := hnAB
  rw [List.nodup_append] at hnAB'
  obtain ⟨hnA, hnB, dAB⟩ := hnAB'
  have hnDC : (D.toList ++ C.toList).Nodup := by rw [hDC]; exact hnB
  have hnDC' := hnDC
  rw [List.nodup_append] at hnDC'
  obtain ⟨hnD, hnC, dDC⟩ := hnDC'
  have hDB : ∀ i ∈ D.toList, i ∈ B.toList := fun i hi => by
    rw [← hDC]; exact List.mem_append_left _ hi
  have hCB : ∀ i ∈ C.toList, i ∈ B.toList := fun i hi => by
    rw [← hDC]; exact List.mem_append_right _ hi
  have sA2 : Shape m2 s A := Shape_frame fr2 (fun i hi hiB => dAB hi hiB) sA
  have hnAC : (A.toList ++ C.toList).Nodup := by
    rw [List.nodup_append]
    exact ⟨hnA, hnC, fun i hi hiC => dAB hi (hCB i hiC)⟩
  have hszAC : A.size + C.size < fuel := by
    have : C.size ≤ B.size := by
      rw [← NodeTree.length_toList, ← NodeTree.length_toList, ← hDC, List.length_append]
      omega
    omega
  obtain ⟨m3, e3, sK, fr3⟩ := merge_shape s fuel A C m2 sA2 sC hnAC hszAC
  rw [fr2.1, fr1.1] at e3 sK
  generalize hK : NodeTree.merge (fun k => m.priority (Ptr.node s k)) A C = K at e3 sK
  have hKl : K.toList = A.toList ++ C.toList := by rw [← hK, NodeTree.merge_toList_eq]
  have hDK : ∀ i ∈ D.toList, i ∉ A.toList ++ C.toList := by
    intro i hi hc
    rcases List.mem_append.1 hc with hc | hc
    · exact dAB hc (hDB i hi)
    · exact dDC hi hc
  have sD3 : Shape m3 s D := Shape_frame fr3 hDK sD
  have fr : Frame s t.toList m m3 := by
    refine Frame_trans fr1 (Frame_trans (Frame_mono fr2 hBsub) (Frame_mono fr3 ?_))
    intro i hi
    rw [← hAB]
    rcases List.mem_append.1 hi with hi | hi
    · exact List.mem_append_left _ hi
    · exact List.mem_append_right _ (hCB i hi)
  have hroot : ∀ s' : Bool, ∀ k ∈ t.toList, Ptr.root s' ≠ Ptr.node s k := by
    intro s' k _ e; cases e
  have hoth : ∀ j : Nat, ∀ k ∈ t.toList, Ptr.node (!s) j ≠ Ptr.node s k := by
    intro j k _ e; injection e with e _; cases s <;> simp at e
  have hrr : m3.right (Ptr.root s) = Ptr.root (!s) :=
    ((fr.2 _ (hroot s)).2.1).trans h.root_right
  have hKp : ∀ q, K.ptr s ≠ Ptr.null → q = K.ptr s → ∃ k ∈ K.toList, q = Ptr.node s k := by
    intro q h0 hq
    rcases NodeTree.ptr_cases s K with h | ⟨k, hk, he⟩
    · exact absurd h h0
    · exact ⟨k, hk, hq.trans he⟩
  refine ⟨node_base_t.update_father (m3.setLeft (Ptr.root s) (K.ptr s)) (Ptr.root s), A, D, C,
    ?_, ?_, ?_, ?_, by rw [hDC, hAB], rfl, ?_⟩
  · simp only [treap.remove_range, hv1, h.root_left, e1]
    rcases hcase with ⟨hl, hm, hD, hC⟩ | ⟨hl, v2, hv2, e2, _, _⟩
    · subst hm; subst hD; subst hC
      simp only [NodeTree.ptr_nil] at e3
      simp [hl, e3]
    · simp [hl, hv2, e2, e3]
  · rw [hK]
    refine ⟨by simp, ?_, ?_, by simpa using hrr, by rw [hKl]; exact hnAC⟩
    · refine Shape_update_father (Shape_setLeft sK (fun j _ => by simp)) (fun j hj => ?_)
        (fun j _ => ?_)
      · simp only [Mem.setLeft_left, upd_same]
        exact NodeTree.node_ne_ptr_of_mem_inner (by rw [hKl]; exact hnAC) hj
      · simp only [Mem.setLeft_right, hrr]; simp
    · rw [Fath_iff]
      intro h0
      rw [node_base_t.update_father_father]
      simp [h0]
  · refine Shape_update_father (Shape_setLeft sD3 (fun j _ => by simp)) (fun j hj => ?_)
      (fun j _ => ?_)
    · simp only [Mem.setLeft_left, upd_same]
      exact NodeTree.node_ne_ptr_of_not_mem (by
        rw [hKl]; exact hDK j (NodeTree.inner_subset D j hj))
    · simp only [Mem.setLeft_right, hrr]; simp
  · refine ⟨by simpa using fr.1, fun j => ?_, ?_, fun s' => ?_⟩
    · have := fr.2 _ (hoth j)
      refine ⟨by simpa [upd_apply] using this.1, by simpa using this.2.1, ?_⟩
      rw [node_base_t.update_father_father_of_ne_or_null]
      · simpa using this.2.2
      · simp only [Mem.setLeft_left, upd_same]
        intro h0 hc
        obtain ⟨k, _, he⟩ := hKp _ h0 hc
        injection he with e _; cases s <;> simp at e
      · simp only [Mem.setLeft_right, hrr]; simp
    · have hne : Ptr.root (!s) ≠ Ptr.root s := by cases s <;> simp
      simpa [upd_ne _ _ hne] using (fr.2 _ (hroot (!s))).1
    · simpa using (fr.2 _ (hroot s')).2.1
  · rcases hcase with ⟨hl, _, hD, hC⟩ | ⟨hl, v2, hv2, _, hD, hC⟩
    · exact Or.inl ⟨hl, hD, hC⟩
    · exact Or.inr ⟨hl, v2, hv2, hD, hC⟩


namespace NodeTree

theorem mem_postorder (k : Nat) : ∀ (t : NodeTree), k ∈ t.postorder ↔ k ∈ t.toList := by
  intro t
  induction t with
  | nil => simp [postorder]
  | node l i r ihl ihr =>
    simp only [postorder, toList_node, List.mem_append, List.mem_cons, List.mem_singleton, ihl,
      ihr, List.not_mem_nil, or_false]
    tauto

theorem delAll_append (prio : Nat → Nat) : ∀ (xs ys : List Nat) (t : NodeTree),
    delAll prio (xs ++ ys) t = delAll prio ys (delAll prio xs t) := by
  intro xs
  induction xs with
  | nil => intro ys t; rfl
  | cons x xs ih => intro ys t; simp [delAll, ih]

theorem delAll_toList (prio : Nat → Nat) : ∀ (xs : List Nat) (t : NodeTree), t.toList.Nodup →
    (delAll prio xs t).toList.Nodup ∧
      (delAll prio xs t).toList = t.toList.filter (fun k => decide (k ∉ xs)) := by
  intro xs
  induction xs with
  | nil => intro t h; simp [delAll, h]
  | cons x xs ih =>
    intro t h
    obtain ⟨h1, h2⟩ := ih (del prio x t) (del_nodup prio x h)
    refine ⟨h1, ?_⟩
    simp only [delAll]
    rw [h2, del_toList prio x t h, List.filter_filter]
    congr 1
    funext k
    by_cases hx : k = x <;> simp [hx]

theorem delAll_size_le (prio : Nat → Nat) (xs : List Nat) {t : NodeTree} (h : t.toList.Nodup) :
    (delAll prio xs t).size ≤ t.size := by
  rw [← length_toList, ← length_toList, (delAll_toList prio xs t h).2]
  exact List.length_filter_le _ _

end NodeTree

/-- An operation of one tree keeps every shape of the other projection. -/
theorem Shape_outside {s s' : Bool} (hs : s = !s') {m m' : Mem} {t : NodeTree}
    (ho : Outside s' m m') (h : Shape m s t) : Shape m' s t := by
  subst hs
  exact Shape_congr t (fun j _ => ⟨(ho.2.1 j).1, (ho.2.1 j).2.1⟩) (fun j _ => (ho.2.1 j).2.2) h

/-- `remove_another_nodes` on a cut-out subtree of shape `D` (projection `s`):
the sibling records of the nodes of `D` are unlinked from the other tree, children
first, and the records of projection `s` are not written. -/
theorem remove_another_nodes_shape {s s' : Bool} (hs : s' = !s) (prio : Nat → Nat) (ops : Nat) :
    ∀ (D : NodeTree) (fuel : Nat) (m : Mem) (t' : NodeTree), Shape m s D → D.toList.Nodup →
      Rooted m s' t' → (∀ k ∈ D.toList, k ∈ t'.toList) → D.size < fuel → t'.size < ops →
      (∀ k, m.priority (Ptr.node s' k) = prio k) →
      ∃ m', bimap.remove_another_nodes s ops fuel m (D.ptr s) = some m' ∧
        Rooted m' s' (t'.delAll prio D.postorder) ∧ Outside s' m m' := by
  have hs2 : s = !s' := by subst hs; simp
  intro D
  induction D with
  | nil =>
    intro fuel m t' _ _ ht _ hf _ _
    obtain ⟨f, rfl⟩ : ∃ f, fuel = f + 1 := ⟨fuel - 1, by omega⟩
    exact ⟨m, by simp [bimap.remove_another_nodes], ht, Outside_refl _ _⟩
  | node l j r ihl ihr =>
    intro fuel m t' hD hn ht hsub hf hops hprio
    obtain ⟨f, rfl⟩ : ∃ f, fuel = f + 1 := ⟨fuel - 1, by omega⟩
    obtain ⟨h1, h2, _, _, h5, h6⟩ := hD
    simp only [NodeTree.toList_node] at hn hsub
    simp only [NodeTree.size_node] at hf
    rw [List.nodup_append] at hn
    obtain ⟨hnl, hnr, hdis⟩ := hn
    rw [List.nodup_cons] at hnr
    have hjl : j ∉ l.toList := fun h => hdis h (List.mem_cons_self _ _)
    -- the left subtree
    obtain ⟨m1, e1, r1, o1⟩ := ihl f m t' h5 hnl ht (fun k hk => hsub k (by simp [hk]))
      (by omega) hops hprio
    have ht1 := NodeTree.delAll_toList prio l.postorder t' ht.nodup
    have hr1 : m1.right (Ptr.node s j) = r.ptr s := by
      have := (o1.2.1 j).2.1
      rw [← hs2] at this
      exact this.trans h2
    -- the right subtree
    obtain ⟨m2, e2, r2, o2⟩ := ihr f m1 (t'.delAll prio l.postorder) (Shape_outside hs2 o1 h6)
      hnr.2 r1 (fun k hk => by
        rw [ht1.2, List.mem_filter]
        refine ⟨hsub k (by simp [hk]), ?_⟩
        have : k ∉ l.postorder := fun hc =>
          hdis ((NodeTree.mem_postorder k l).1 hc) (List.mem_cons_of_mem _ hk)
        simpa using this)
      (by omega) (Nat.lt_of_le_of_lt (NodeTree.delAll_size_le prio _ ht.nodup) hops)
      (fun k => by rw [o1.1]; exact hprio k)
    have ht2 := NodeTree.delAll_toList prio r.postorder _ ht1.1
    -- the node itself
    have hj2 : j ∈ ((t'.delAll prio l.postorder).delAll prio r.postorder).toList := by
      rw [ht2.2, List.mem_filter, ht1.2, List.mem_filter]
      refine ⟨⟨hsub j (by simp), ?_⟩, ?_⟩
      · have : j ∉ l.postorder := fun hc => hjl ((NodeTree.mem_postorder j l).1 hc)
        simpa using this
      · have : j ∉ r.postorder := fun hc => hnr.1 ((NodeTree.mem_postorder j r).1 hc)
        simpa using this
    have hlt : ((t'.delAll prio l.postorder).delAll prio r.postorder).size < ops :=
      Nat.lt_of_le_of_lt (NodeTree.delAll_size_le prio _ ht1.1)
        (Nat.lt_of_le_of_lt (NodeTree.delAll_size_le prio _ ht.nodup) hops)
    obtain ⟨m3, res, e3, r3, o3, _⟩ := remove_node_rooted r2 hj2 hlt
    have hpr : (fun k => m2.priority (Ptr.node s' k)) = prio := by
      funext k; rw [o2.1, o1.1]; exact hprio k
    rw [hpr] at r3
    refine ⟨m3, ?_, ?_, Outside_trans o1 (Outside_trans o2 o3)⟩
    · subst hs
      simp [bimap.remove_another_nodes, h1, e1, hr1, e2, bimap.get_another_node, e3]
    · have : (NodeTree.node l j r).postorder = l.postorder ++ (r.postorder ++ [j]) := by
        simp [NodeTree.postorder]
      rw [this, NodeTree.delAll_append, NodeTree.delAll_append]
      exact r3


theorem filter_not_mem_middle {A D C P : List Nat} (hP : ∀ k, k ∈ P ↔ k ∈ D)
    (hn : (A ++ (D ++ C)).Nodup) :
    (A ++ (D ++ C)).filter (fun k => decide (k ∉ P)) = A ++ C := by
  rw [List.nodup_append] at hn
  obtain ⟨_, hDC, dA⟩ := hn
  rw [List.nodup_append] at hDC
  obtain ⟨_, _, dDC⟩ := hDC
  have eA : A.filter (fun k => decide (k ∉ P)) = A :=
    List.filter_eq_self.2 (fun k hk => by
      have : k ∉ P := fun hc => dA hk (List.mem_append_left _ ((hP k).1 hc))
      simpa using this)
  have eD : D.filter (fun k => decide (k ∉ P)) = [] :=
    List.filter_eq_nil_iff.2 (fun k hk => by simp [(hP k).2 hk])
  have eC : C.filter (fun k => decide (k ∉ P)) = C :=
    List.filter_eq_self.2 (fun k hk => by
      have : k ∉ P := fun hc => dDC ((hP k).1 hc) hk
      simpa using this)
  rw [List.filter_append, List.filter_append, eA, eD, eC, List.nil_append]

section
variable {L R : Type} {cmpL : L → L → Bool} {cmpR : R → R → Bool}

/-- The range erase of projection `s`: the range is cut out of the tree of `s`,
the sibling records of the nodes that were cut out are unlinked from the other
tree, and `cnt_elem` is decreased by their number. -/
theorem erase_range_rooted {T : Type} (cmp : T → T → Bool) (val : Nat → Option T)
    (s s' : Bool) (hs : s' = !s) (b : Bimap L R) {t t' : NodeTree}
    (h : Rooted b.mem s t) (h' : Rooted b.mem s' t') (hmem : ∀ i, i ∈ t.toList → i ∈ t'.toList)
    (hv : ∀ i ∈ t.toList, ∃ x, val i = some x)
    (hf : t.size < bimap.fuel b) (hf' : t'.size < bimap.fuel b)
    {first last : Ptr} {v1 : T} (hv1 : treap.value val s first = some v1)
    (hlast : last = Ptr.root s ∨ ∃ v2, treap.value val s last = some v2) :
    ∃ m2 A D C, bimap.erase_range cmp val s b first last
        = some ({ b with mem := m2, cnt_elem := b.cnt_elem - D.size }, last) ∧
      Rooted m2 s (NodeTree.merge (fun k => b.mem.priority (Ptr.node s k)) A C) ∧
      Rooted m2 s' (t'.delAll (fun k => b.mem.priority (Ptr.node s' k)) D.postorder) ∧
      A.toList ++ (D.toList ++ C.toList) = t.toList ∧
      A = (t.split (ltVal cmp val v1)).1 ∧
      ((last = Ptr.root s ∧ D = (t.split (ltVal cmp val v1)).2 ∧ C = NodeTree.nil) ∨
        (last ≠ Ptr.root s ∧ ∃ v2, treap.value val s last = some v2 ∧
          D = ((t.split (ltVal cmp val v1)).2.split (ltVal cmp val v2)).1 ∧
          C = ((t.split (ltVal cmp val v1)).2.split (ltVal cmp val v2)).2)) := by
  have hs2 : s = !s' := by subst hs; simp
  obtain ⟨m1, A, D, C, e1, rK, sD, o1, hl, hA, hcase⟩ :=
    remove_range_rooted cmp val h hf hv1 hlast hv
  have hn : (A.toList ++ (D.toList ++ C.toList)).Nodup := by rw [hl]; exact h.nodup
  have hnD : D.toList.Nodup := (List.nodup_append.1 (List.nodup_append.1 hn).2.1).1
  have hDt : ∀ k ∈ D.toList, k ∈ t.toList := fun k hk => by
    rw [← hl]; exact List.mem_append_right _ (List.mem_append_left _ hk)
  have hDsz : D.size < bimap.fuel b := by
    have : D.size ≤ t.size := by
      rw [← NodeTree.length_toList, ← NodeTree.length_toList, ← hl]
      simp only [List.length_append]
      omega
    omega
  obtain ⟨m2, e2, r2, o2⟩ := remove_another_nodes_shape hs
    (fun k => b.mem.priority (Ptr.node s' k)) (bimap.fuel b) D (bimap.fuel b) m1 t' sD hnD
    (Rooted_outside_of_eq hs o1 h') (fun k hk => hmem k (hDt k hk)) hDsz hf'
    (fun k => by rw [o1.1])
  have e3 := delete_nodes_shape s D (bimap.fuel b) m2 (Shape_outside hs2 o2 sD) hDsz
  exact ⟨m2, A, D, C, by simp [bimap.erase_range, e1, e2, e3],
    Rooted_outside_of_eq hs2 o2 rK, r2, hl, hA, hcase⟩

/-- The invariant after a range has been cut out of one tree and its nodes have
been unlinked from the other. -/
theorem inv_range {b : Bimap L R} {tl tr : NodeTree} (h : BimapInv cmpL cmpR b tl tr)
    {m' : Mem} {tl' tr' : NodeTree} {D : List Nat} (hD : D.Nodup)
    (hl : Rooted m' true tl') (hr : Rooted m' false tr')
    (el : tl'.toList = tl.toList.filter (fun k => decide (k ∉ D)))
    (er : tr'.toList = tr.toList.filter (fun k => decide (k ∉ D)))
    (hsub : ∀ k ∈ D, k ∈ tl.toList) :
    BimapInv cmpL cmpR { b with mem := m', cnt_elem := b.cnt_elem - D.length } tl' tr' := by
  have hlen : (tl.toList.filter (fun k => decide (k ∉ D))).length + D.length
      = tl.toList.length := by
    have h1 : (tl.toList.filter (fun k => decide (k ∈ D))).Perm D := by
      rw [List.perm_ext_iff_of_nodup (h.left.nodup.filter _) hD]
      intro k
      simp only [List.mem_filter, decide_eq_true_eq]
      exact ⟨fun hk => hk.2, fun hk => ⟨hsub k hk, hk⟩⟩
    have h2 := List.filter_append_perm (fun k => decide (k ∈ D)) tl.toList
    have h3 := h2.length_eq
    rw [List.length_append, h1.length_eq] at h3
    have e : (fun k => decide (k ∉ D)) = (fun k => !decide (k ∈ D)) := by
      funext k; simp
    rw [e]; omega
  refine ⟨hl, hr, ?_, ?_, ?_, ?_, ?_, ?_, ?_, ?_⟩
  · rw [el, er]; exact h.perm.filter _
  · intro k hk
    rw [el, List.mem_filter] at hk
    exact h.ids k hk.1
  · intro k hk
    rw [el, List.mem_filter] at hk
    exact h.valsL k hk.1
  · intro k hk
    rw [el, List.mem_filter] at hk
    exact h.valsR k hk.1
  · rw [el]; exact h.sortedL.sublist (List.filter_sublist _)
  · rw [er]; exact h.sortedR.sublist (List.filter_sublist _)
  · show b.cnt_elem - D.length = tl'.toList.length
    rw [el, h.cnt]; omega
  · show b.cnt_elem - D.length ≤ b.nextId
    have := h.cap; omega

end


theorem pairwise_or {α : Type} {Rel : α → α → Prop} : ∀ {xs : List α}, xs.Pairwise Rel →
    ∀ {i j : α}, i ∈ xs → j ∈ xs → i ≠ j → Rel i j ∨ Rel j i := by
  intro xs
  induction xs with
  | nil => intro _ i j hi; simp at hi
  | cons a rest ih =>
    intro h i j hi hj hne
    rw [List.pairwise_cons] at h
    rcases List.mem_cons.1 hi with hia | hir
    · rcases List.mem_cons.1 hj with hja | hjr
      · exact absurd (hia.trans hja.symm) hne
      · exact Or.inl (hia ▸ h.1 j hjr)
    · rcases List.mem_cons.1 hj with hja | hjr
      · exact Or.inr (hja ▸ h.1 i hir)
      · exact ih h.2 hir hjr hne

section
variable {T : Type} {cmp : T → T → Bool} {val : Nat → Option T}

/-- In a sorted list at most one node is equivalent to a given value. -/
theorem equal_unique (hc : StrictWeak cmp) {xs : List Nat} (hs : xs.Pairwise (idLt cmp val))
    {v : T} {i j : Nat} {x y : T} (hi : i ∈ xs) (hj : j ∈ xs) (hx : val i = some x)
    (hy : val j = some y) (hxe : treap.equal cmp x v = true)
    (hye : treap.equal cmp y v = true) : i = j := by
  by_contra hne
  have hxy : treap.equal cmp x y = true :=
    hc.equal_trans x v y hxe (StrictWeak.equal_symm hye)
  rw [StrictWeak.equal_iff] at hxy
  rcases pairwise_or hs hi hj hne with ⟨a, c, ha, hc', hac⟩ | ⟨a, c, ha, hc', hac⟩
  · rw [hx] at ha; rw [hy] at hc'
    injection ha with ha; injection hc' with hc'
    subst ha; subst hc'
    rw [hxy.1] at hac; cases hac
  · rw [hy] at ha; rw [hx] at hc'
    injection ha with ha; injection hc' with hc'
    subst ha; subst hc'
    rw [hxy.2] at hac; cases hac

end

section
variable {L R : Type} {cmpL : L → L → Bool} {cmpR : R → R → Bool}

/-- An iterator of the left projection that refers to an element is the record of
a node of the left tree. -/
theorem BimapInv.live_left {b : Bimap L R} {tl tr : NodeTree} (h : BimapInv cmpL cmpR b tl tr)
    {it : Ptr} : Live true b it ↔ ∃ i, i ∈ tl.toList ∧ it = Ptr.node true i := by
  unfold Live
  rw [h.nodes_left]
  constructor
  · rintro ⟨xs, hx, hit⟩
    injection hx with hx
    subst hx
    obtain ⟨i, hi, rfl⟩ := List.mem_map.1 hit
    exact ⟨i, hi, rfl⟩
  · rintro ⟨i, hi, rfl⟩
    exact ⟨_, rfl, List.mem_map.2 ⟨i, hi, rfl⟩⟩

/-- An iterator of the right projection that refers to an element is the record
of a node of the right tree. -/
theorem BimapInv.live_right {b : Bimap L R} {tl tr : NodeTree} (h : BimapInv cmpL cmpR b tl tr)
    {it : Ptr} : Live false b it ↔ ∃ i, i ∈ tr.toList ∧ it = Ptr.node false i := by
  unfold Live
  rw [h.nodes_right]
  constructor
  · rintro ⟨xs, hx, hit⟩
    injection hx with hx
    subst hx
    obtain ⟨i, hi, rfl⟩ := List.mem_map.1 hit
    exact ⟨i, hi, rfl⟩
  · rintro ⟨i, hi, rfl⟩
    exact ⟨_, rfl, List.mem_map.2 ⟨i, hi, rfl⟩⟩

/-- In a valid range `first` is the record of a node and `last` is the record of
a node or the end iterator. -/
theorem validRange_ends {s : Bool} {b : Bimap L R} {t : NodeTree}
    (hn : bimap.nodes s b = some (t.toList.map (Ptr.node s))) {first last : Ptr}
    (h : ValidRange s b first last) :
    (∃ i, i ∈ t.toList ∧ first = Ptr.node s i) ∧
      (last = Ptr.root s ∨ ∃ i, i ∈ t.toList ∧ last = Ptr.node s i) := by
  obtain ⟨pre, mid, post, hx, hf, hl⟩ := h
  rw [hn] at hx
  injection hx with hx
  have hmem : ∀ q, q ∈ pre ++ (mid ++ post) → ∃ i, i ∈ t.toList ∧ q = Ptr.node s i := by
    intro q hq
    rw [← hx] at hq
    obtain ⟨i, hi, rfl⟩ := List.mem_map.1 hq
    exact ⟨i, hi, rfl⟩
  constructor
  · exact hmem first (List.mem_append_right _ (List.mem_of_mem_head? hf))
  · cases post with
    | nil => exact Or.inl hl
    | cons q post' =>
      right
      rw [hl]
      exact hmem q (by simp)

/-- `erase_left(left_iterator)` on a state that satisfies the invariant. -/
theorem erase_it_left_inv {b : Bimap L R} {tl tr : NodeTree} (h : BimapInv cmpL cmpR b tl tr)
    {i : Nat} (hi : i ∈ tl.toList) :
    ∃ b' tl' tr' res, bimap.erase_it true b (Ptr.node true i) = some (b', res) ∧
      BimapInv cmpL cmpR b' tl' tr' ∧
      tl'.toList = tl.toList.filter (fun k => decide (k ≠ i)) ∧
      tr'.toList = tr.toList.filter (fun k => decide (k ≠ i)) ∧
      b'.valL = b.valL ∧ b'.valR = b.valR ∧ b'.nextId = b.nextId ∧
      b'.cnt_elem = b.cnt_elem - 1 ∧
      (∀ pre post, tl.toList = pre ++ i :: post →
        res = post.head?.elim (Ptr.root true) (Ptr.node true)) := by
  obtain ⟨m2, res, e, r1, r2, _, hres⟩ := erase_it_rooted true false rfl b h.left
    h.right hi (h.perm.mem_iff.1 hi) h.size_left_lt h.size_right_lt
  exact ⟨_, _, _, res, e, inv_del h hi _ _ r1 r2, NodeTree.del_toList _ i tl h.left.nodup,
    NodeTree.del_toList _ i tr h.right.nodup, rfl, rfl, rfl, rfl, hres⟩

/-- `erase_right(right_iterator)` on a state that satisfies the invariant. -/
theorem erase_it_right_inv {b : Bimap L R} {tl tr : NodeTree} (h : BimapInv cmpL cmpR b tl tr)
    {i : Nat} (hi : i ∈ tr.toList) :
    ∃ b' tl' tr' res, bimap.erase_it false b (Ptr.node false i) = some (b', res) ∧
      BimapInv cmpL cmpR b' tl' tr' ∧
      tl'.toList = tl.toList.filter (fun k => decide (k ≠ i)) ∧
      tr'.toList = tr.toList.filter (fun k => decide (k ≠ i)) ∧
      b'.valL = b.valL ∧ b'.valR = b.valR ∧ b'.nextId = b.nextId ∧
      b'.cnt_elem = b.cnt_elem - 1 ∧
      (∀ pre post, tr.toList = pre ++ i :: post →
        res = post.head?.elim (Ptr.root false) (Ptr.node false)) := by
  have hi' := h.perm.mem_iff.2 hi
  obtain ⟨m2, res, e, r1, r2, _, hres⟩ := erase_it_rooted false true rfl b
    h.right h.left hi hi' h.size_right_lt h.size_left_lt
  exact ⟨_, _, _, res, e, inv_del h hi' _ _ r2 r1, NodeTree.del_toList _ i tl h.left.nodup,
    NodeTree.del_toList _ i tr h.right.nodup, rfl, rfl, rfl, rfl, hres⟩

end


section
variable {L R : Type} {cmpL : L → L → Bool} {cmpR : R → R → Bool}

theorem filter_postorder (D : NodeTree) (xs : List Nat) :
    xs.filter (fun k => decide (k ∉ D.postorder)) = xs.filter (fun k => decide (k ∉ D.toList)) := by
  congr 1
  funext k
  simp [NodeTree.mem_postorder]

/-- `erase_left(left_iterator, left_iterator)` on a state that satisfies the
invariant: the nodes `D` between the two cuts leave both trees. -/
theorem erase_left_range_inv {b : Bimap L R} {tl tr : NodeTree}
    (h : BimapInv cmpL cmpR b tl tr) {first last : Ptr}
    (hfirst : ∃ i, i ∈ tl.toList ∧ first = Ptr.node true i)
    (hlast : last = Ptr.root true ∨ ∃ i, i ∈ tl.toList ∧ last = Ptr.node true i) :
    ∃ b' tl' tr' A D C, bimap.erase_left_range cmpL b first last = some (b', last) ∧
      BimapInv cmpL cmpR b' tl' tr' ∧
      A ++ (D ++ C) = tl.toList ∧ tl'.toList = A ++ C ∧
      tr'.toList = tr.toList.filter (fun k => decide (k ∉ D)) ∧
      b'.valL = b.valL ∧ b'.valR = b.valR ∧ b'.nextId = b.nextId ∧
      b'.cnt_elem = b.cnt_elem - D.length := by
  obtain ⟨i1, hi1, rfl⟩ := hfirst
  obtain ⟨v1, hv1⟩ := h.valsL i1 hi1
  have hl2 : last = Ptr.root true ∨ ∃ v2, treap.value b.valL true last = some v2 := by
    rcases hlast with hl | ⟨i2, hi2, rfl⟩
    · exact Or.inl hl
    · obtain ⟨v2, hv2⟩ := h.valsL i2 hi2
      exact Or.inr ⟨v2, by simp [treap.value, hv2]⟩
  have hv1' : treap.value b.valL true (Ptr.node true i1) = some v1 := by simp [treap.value, hv1]
  obtain ⟨m2, A, D, C, e, r1, r2, hl, _, _⟩ := erase_range_rooted cmpL b.valL true false rfl b
    h.left h.right (fun i hi => h.perm.mem_iff.1 hi) h.valsL h.size_left_lt h.size_right_lt
    hv1' hl2
  have hn : (A.toList ++ (D.toList ++ C.toList)).Nodup := by rw [hl]; exact h.left.nodup
  have hnD : D.toList.Nodup := (List.nodup_append.1 (List.nodup_append.1 hn).2.1).1
  have el : (NodeTree.merge (fun k => b.mem.priority (Ptr.node true k)) A C).toList
      = tl.toList.filter (fun k => decide (k ∉ D.toList)) := by
    rw [NodeTree.merge_toList_eq, ← hl, filter_not_mem_middle (fun _ => Iff.rfl) hn]
  have er : (tr.delAll (fun k => b.mem.priority (Ptr.node false k)) D.postorder).toList
      = tr.toList.filter (fun k => decide (k ∉ D.toList)) := by
    rw [(NodeTree.delAll_toList _ _ tr h.right.nodup).2, filter_postorder]
  have hinv := inv_range h hnD r1 r2 el er (fun k hk => by
    rw [← hl]; exact List.mem_append_right _ (List.mem_append_left _ hk))
  rw [NodeTree.length_toList] at hinv
  exact ⟨_, _, _, A.toList, D.toList, C.toList, e, hinv, hl, NodeTree.merge_toList_eq _ _ _, er,
    rfl, rfl, rfl, (NodeTree.length_toList D).symm ▸ rfl⟩

/-- `erase_right(right_iterator, right_iterator)` on a state that satisfies the
invariant: the nodes `D` between the two cuts leave both trees. -/
theorem erase_right_range_inv {b : Bimap L R} {tl tr : NodeTree}
    (h : BimapInv cmpL cmpR b tl tr) {first last : Ptr}
    (hfirst : ∃ i, i ∈ tr.toList ∧ first = Ptr.node false i)
    (hlast : last = Ptr.root false ∨ ∃ i, i ∈ tr.toList ∧ last = Ptr.node false i) :
    ∃ b' tl' tr' A D C, bimap.erase_right_range cmpR b first last = some (b', last) ∧
      BimapInv cmpL cmpR b' tl' tr' ∧
      A ++ (D ++ C) = tr.toList ∧ tr'.toList = A ++ C ∧
      tl'.toList = tl.toList.filter (fun k => decide (k ∉ D)) ∧
      b'.valL = b.valL ∧ b'.valR = b.valR ∧ b'.nextId = b.nextId ∧
      b'.cnt_elem = b.cnt_elem - D.length := by
  obtain ⟨i1, hi1, rfl⟩ := hfirst
  obtain ⟨v1, hv1⟩ := h.valsR_right i1 hi1
  have hl2 : last = Ptr.root false ∨ ∃ v2, treap.value b.valR false last = some v2 := by
    rcases hlast with hl | ⟨i2, hi2, rfl⟩
    · exact Or.inl hl
    · obtain ⟨v2, hv2⟩ := h.valsR_right i2 hi2
      exact Or.inr ⟨v2, by simp [treap.value, hv2]⟩
  have hv1' : treap.value b.valR false (Ptr.node false i1) = some v1 := by
    simp [treap.value, hv1]
  obtain ⟨m2, A, D, C, e, r1, r2, hl, _, _⟩ := erase_range_rooted cmpR b.valR false true rfl b
    h.right h.left (fun i hi => h.perm.mem_iff.2 hi) h.valsR_right h.size_right_lt
    h.size_left_lt hv1' hl2
  have hn : (A.toList ++ (D.toList ++ C.toList)).Nodup := by rw [hl]; exact h.right.nodup
  have hnD : D.toList.Nodup := (List.nodup_append.1 (List.nodup_append.1 hn).2.1).1
  have er : (NodeTree.merge (fun k => b.mem.priority (Ptr.node false k)) A C).toList
      = tr.toList.filter (fun k => decide (k ∉ D.toList)) := by
    rw [NodeTree.merge_toList_eq, ← hl, filter_not_mem_middle (fun _ => Iff.rfl) hn]
  have el : (tl.delAll (fun k => b.mem.priority (Ptr.node true k)) D.postorder).toList
      = tl.toList.filter (fun k => decide (k ∉ D.toList)) := by
    rw [(NodeTree.delAll_toList _ _ tl h.left.nodup).2, filter_postorder]
  have hinv := inv_range h hnD r2 r1 el er (fun k hk => by
    apply h.perm.mem_iff.2
    rw [← hl]; exact List.mem_append_right _ (List.mem_append_left _ hk))
  rw [NodeTree.length_toList] at hinv
  exact ⟨_, _, _, A.toList, D.toList, C.toList, e, hinv, hl, NodeTree.merge_toList_eq _ _ _, el,
    rfl, rfl, rfl, (NodeTree.length_toList D).symm ▸ rfl⟩

end


section
variable {L R : Type} {cmpL : L → L → Bool} {cmpR : R → R → Bool}

/-- `erase_right(key)` leaves a state with the invariant in which no right value
is equivalent to the key. -/
theorem erase_right_key_clear (hR : StrictWeak cmpR) {b : Bimap L R} {tl tr : NodeTree}
    (h : BimapInv cmpL cmpR b tl tr) (key : R) :
    ∃ b' tl' tr' res, bimap.erase_right_key cmpR b key = some (b', res) ∧
      BimapInv cmpL cmpR b' tl' tr' ∧ b'.valL = b.valL ∧ b'.valR = b.valR ∧
      (∀ i ∈ tl'.toList, i ∈ tl.toList) ∧
      (∀ i ∈ tl'.toList, ∀ y, b.valR i = some y → treap.equal cmpR y key = false) := by
  obtain ⟨a1, a2⟩ := erase_right_key_inv hR h key
  by_cases hex : ∃ i y, i ∈ tl.toList ∧ b.valR i = some y ∧ treap.equal cmpR y key = true
  · obtain ⟨i, y, hi, hy, he⟩ := hex
    obtain ⟨b', tl', tr', e, hinv, el, _, hvl, hvr, _, _⟩ := a2 i y hi hy he
    refine ⟨b', tl', tr', true, e, hinv, hvl, hvr, ?_, ?_⟩
    · intro k hk; rw [el, List.mem_filter] at hk; exact hk.1
    · intro k hk z hz
      rw [el, List.mem_filter] at hk
      cases hze : treap.equal cmpR z key with
      | false => rfl
      | true =>
        have := equal_unique hR h.sortedR (h.perm.mem_iff.1 hk.1) (h.perm.mem_iff.1 hi) hz hy
          hze he
        simp [this] at hk
  · have hne : ∀ i ∈ tl.toList, ∀ y, b.valR i = some y → treap.equal cmpR y key = false := by
      intro i hi y hy
      cases he : treap.equal cmpR y key with
      | false => rfl
      | true => exact absurd ⟨i, y, hi, hy, he⟩ hex
    exact ⟨b, tl, tr, false, a1 hne, h, rfl, rfl, fun _ hi => hi, hne⟩

/-- `erase_left(key)` leaves a state with the invariant in which no left value is
equivalent to the key. -/
theorem erase_left_key_clear (hL : StrictWeak cmpL) {b : Bimap L R} {tl tr : NodeTree}
    (h : BimapInv cmpL cmpR b tl tr) (key : L) :
    ∃ b' tl' tr' res, bimap.erase_left_key cmpL b key = some (b', res) ∧
      BimapInv cmpL cmpR b' tl' tr' ∧ b'.valL = b.valL ∧ b'.valR = b.valR ∧
      (∀ i ∈ tl'.toList, i ∈ tl.toList) ∧
      (∀ i ∈ tl'.toList, ∀ y, b.valL i = some y → treap.equal cmpL y key = false) := by
  obtain ⟨a1, a2⟩ := erase_left_key_inv hL h key
  by_cases hex : ∃ i y, i ∈ tl.toList ∧ b.valL i = some y ∧ treap.equal cmpL y key = true
  · obtain ⟨i, y, hi, hy, he⟩ := hex
    obtain ⟨b', tl', tr', e, hinv, el, _, hvl, hvr, _, _⟩ := a2 i y hi hy he
    refine ⟨b', tl', tr', true, e, hinv, hvl, hvr, ?_, ?_⟩
    · intro k hk; rw [el, List.mem_filter] at hk; exact hk.1
    · intro k hk z hz
      rw [el, List.mem_filter] at hk
      cases hze : treap.equal cmpL z key with
      | false => rfl
      | true =>
        have := equal_unique hL h.sortedL hk.1 hi hz hy hze he
        simp [this] at hk
  · have hne : ∀ i ∈ tl.toList, ∀ y, b.valL i = some y → treap.equal cmpL y key = false := by
      intro i hi y hy
      cases he : treap.equal cmpL y key with
      | false => rfl
      | true => exact absurd ⟨i, y, hi, hy, he⟩ hex
    exact ⟨b, tl, tr, false, a1 hne, h, rfl, rfl, fun _ hi => hi, hne⟩

/-- `at_left_or_default` returns and keeps the invariant. -/
theorem at_left_or_default_inv (hL : StrictWeak cmpL) (hR : StrictWeak cmpR) {b : Bimap L R}
    {tl tr : NodeTree} (h : BimapInv cmpL cmpR b tl tr) (dflt : R) (key : L) (pl pr : Nat) :
    ∃ b' tl' tr' res, bimap.at_left_or_default cmpL cmpR dflt b key pl pr = some (b', res) ∧
      BimapInv cmpL cmpR b' tl' tr' := by
  rcases find_cases hL h.left h.valsL h.sortedL key h.size_left_lt with
    ⟨e, hne⟩ | ⟨i, x, hi, hx, he, e⟩
  · obtain ⟨b1, tl1, tr1, res1, e1, h1, hvl, hvr, hsub, hclr⟩ := erase_right_key_clear hR h dflt
    obtain ⟨b2, tl2, tr2, e2, h2, _, hvr2, _, _, el2, _, _⟩ := insert_fresh hL hR h1 key dflt pl pr
      (fun k hk y hy => hne k (hsub k hk) y (by rw [← hvl]; exact hy))
      (fun k hk y hy => hclr k hk y (by rw [← hvr]; exact hy))
    have hn : b1.nextId ∈ tl2.toList := by rw [el2]; simp
    have e3 := flip_rooted h2.left hn
    refine ⟨b2, tl2, tr2, dflt, ?_, h2⟩
    simp [bimap.at_left_or_default, bimap.find_left, e, bimap.end_left, e1, e2, e3, treap.value,
      hvr2, updVal_same]
  · obtain ⟨y, hy⟩ := h.valsR i hi
    have e3 := flip_rooted h.left hi
    refine ⟨b, tl, tr, y, ?_, h⟩
    simp [bimap.at_left_or_default, bimap.find_left, e, bimap.end_left, e3, treap.value, hy]

/-- `at_right_or_default` returns and keeps the invariant. -/
theorem at_right_or_default_inv (hL : StrictWeak cmpL) (hR : StrictWeak cmpR) {b : Bimap L R}
    {tl tr : NodeTree} (h : BimapInv cmpL cmpR b tl tr) (dflt : L) (key : R) (pl pr : Nat) :
    ∃ b' tl' tr' res, bimap.at_right_or_default cmpL cmpR dflt b key pl pr = some (b', res) ∧
      BimapInv cmpL cmpR b' tl' tr' := by
  rcases find_cases hR h.right h.valsR_right h.sortedR key h.size_right_lt with
    ⟨e, hne⟩ | ⟨i, x, hi, hx, he, e⟩
  · obtain ⟨b1, tl1, tr1, res1, e1, h1, hvl, hvr, hsub, hclr⟩ := erase_left_key_clear hL h dflt
    obtain ⟨b2, tl2, tr2, e2, h2, hvl2, _, _, _, _, _, _⟩ := insert_fresh hL hR h1 dflt key pl pr
      (fun k hk y hy => hclr k hk y (by rw [← hvl]; exact hy))
      (fun k hk y hy => hne k (h.perm.mem_iff.1 (hsub k hk)) y (by rw [← hvr]; exact hy))
    refine ⟨b2, tl2, tr2, dflt, ?_, h2⟩
    simp [bimap.at_right_or_default, bimap.find_right, e, bimap.end_right, e1, e2, treap.value,
      hvl2, updVal_same]
  · obtain ⟨y, hy⟩ := h.valsL i (h.perm.mem_iff.2 hi)
    have e3 := flip_rooted h.right hi
    refine ⟨b, tl, tr, y, ?_, h⟩
    simp only [Bool.not_false] at e3
    simp [bimap.at_right_or_default, bimap.find_right, e, bimap.end_right, e3, treap.value, hy]

/-- Every reachable state satisfies the representation invariant. -/
theorem reachable_inv (hL : StrictWeak cmpL) (hR : StrictWeak cmpR) {b : Bimap L R}
    (hb : Reachable cmpL cmpR b) : ∃ tl tr, BimapInv cmpL cmpR b tl tr := by
  induction hb with
  | empty pl pr => exact ⟨_, _, inv_empty pl pr⟩
  | @insert b b1 it l r pl pr _ e ih =>
    obtain ⟨tl, tr, h⟩ := ih
    by_cases hdup : (∃ i x, i ∈ tl.toList ∧ b.valL i = some x ∧ treap.equal cmpL x l = true) ∨
        (∃ i y, i ∈ tl.toList ∧ b.valR i = some y ∧ treap.equal cmpR y r = true)
    · rw [insert_dup hL hR h l r pl pr hdup] at e
      injection e with e; injection e with e _
      exact ⟨tl, tr, e ▸ h⟩
    · rw [not_or] at hdup
      obtain ⟨b', tl', tr', e', h', _⟩ := insert_fresh hL hR h l r pl pr
        (fun i hi x hx => by
          cases he : treap.equal cmpL x l with
          | false => rfl
          | true => exact absurd ⟨i, x, hi, hx, he⟩ hdup.1)
        (fun i hi x hx => by
          cases he : treap.equal cmpR x r with
          | false => rfl
          | true => exact absurd ⟨i, x, hi, hx, he⟩ hdup.2)
      rw [e'] at e
      injection e with e; injection e with e _
      exact ⟨tl', tr', e ▸ h'⟩
  | @erase_left_key b b1 res l _ e ih =>
    obtain ⟨tl, tr, h⟩ := ih
    obtain ⟨b', tl', tr', res', e', h', _⟩ := erase_left_key_clear hL h l
    rw [e'] at e
    injection e with e; injection e with e _
    exact ⟨tl', tr', e ▸ h'⟩
  | @erase_right_key b b1 res r _ e ih =>
    obtain ⟨tl, tr, h⟩ := ih
    obtain ⟨b', tl', tr', res', e', h', _⟩ := erase_right_key_clear hR h r
    rw [e'] at e
    injection e with e; injection e with e _
    exact ⟨tl', tr', e ▸ h'⟩
  | @erase_it b b1 res side it _ hlive e ih =>
    obtain ⟨tl, tr, h⟩ := ih
    cases side with
    | true =>
      obtain ⟨i, hi, rfl⟩ := h.live_left.1 hlive
      obtain ⟨b', tl', tr', res', e', h', _⟩ := erase_it_left_inv h hi
      rw [e'] at e
      injection e with e; injection e with e _
      exact ⟨tl', tr', e ▸ h'⟩
    | false =>
      obtain ⟨i, hi, rfl⟩ := h.live_right.1 hlive
      obtain ⟨b', tl', tr', res', e', h', _⟩ := erase_it_right_inv h hi
      rw [e'] at e
      injection e with e; injection e with e _
      exact ⟨tl', tr', e ▸ h'⟩
  | @erase_left_range b b1 res first last _ hv e ih =>
    obtain ⟨tl, tr, h⟩ := ih
    obtain ⟨hf, hl⟩ := validRange_ends h.nodes_left hv
    obtain ⟨b', tl', tr', A, D, C, e', h', _⟩ := erase_left_range_inv h hf hl
    rw [e'] at e
    injection e with e; injection e with e _
    exact ⟨tl', tr', e ▸ h'⟩
  | @erase_right_range b b1 res first last _ hv e ih =>
    obtain ⟨tl, tr, h⟩ := ih
    obtain ⟨hf, hl⟩ := validRange_ends h.nodes_right hv
    obtain ⟨b', tl', tr', A, D, C, e', h', _⟩ := erase_right_range_inv h hf hl
    rw [e'] at e
    injection e with e; injection e with e _
    exact ⟨tl', tr', e ▸ h'⟩
  | @at_left_or_default b b1 res dflt key pl pr _ e ih =>
    obtain ⟨tl, tr, h⟩ := ih
    obtain ⟨b', tl', tr', res', e', h'⟩ := at_left_or_default_inv hL hR h dflt key pl pr
    rw [e'] at e
    injection e with e; injection e with e _
    exact ⟨tl', tr', e ▸ h'⟩
  | @at_right_or_default b b1 res dflt key pl pr _ e ih =>
    obtain ⟨tl, tr, h⟩ := ih
    obtain ⟨b', tl', tr', res', e', h'⟩ := at_right_or_default_inv hL hR h dflt key pl pr
    rw [e'] at e
    injection e with e; injection e with e _
    exact ⟨tl', tr', e ▸ h'⟩

end


section
variable {L R : Type} {cmpL : L → L → Bool} {cmpR : R → R → Bool}

theorem pair_of_left {b : Bimap L R} {tl : NodeTree} (h : Rooted b.mem true tl) {i : Nat}
    (hi : i ∈ tl.toList) : bimap.pair_of true b (Ptr.node true i) = pairAt b i := by
  have e := flip_rooted h hi
  simp only [Bool.not_true] at e
  simp only [bimap.pair_of, e, treap.value, pairAt, if_true]

theorem pair_of_right {b : Bimap L R} {tr : NodeTree} (h : Rooted b.mem false tr) {i : Nat}
    (hi : i ∈ tr.toList) : bimap.pair_of false b (Ptr.node false i) = pairAt b i := by
  have e := flip_rooted h hi
  simp only [Bool.not_false] at e
  simp [bimap.pair_of, e, treap.value, pairAt]

/-- The pairs read through the left tree are the pairs of its nodes. -/
theorem BimapInv.pairs_left {b : Bimap L R} {tl tr : NodeTree} (h : BimapInv cmpL cmpR b tl tr) :
    bimap.pairs true b = some (tl.toList.map (pairAt b)) := by
  simp only [bimap.pairs, h.nodes_left, Option.map_some', List.map_map, Option.some.injEq]
  apply List.map_congr_left
  intro i hi
  exact pair_of_left h.left hi

/-- The pairs read through the right tree are the pairs of its nodes. -/
theorem BimapInv.pairs_right {b : Bimap L R} {tl tr : NodeTree}
    (h : BimapInv cmpL cmpR b tl tr) :
    bimap.pairs false b = some (tr.toList.map (pairAt b)) := by
  simp only [bimap.pairs, h.nodes_right, Option.map_some', List.map_map, Option.some.injEq]
  apply List.map_congr_left
  intro i hi
  exact pair_of_right h.right hi

/-- Sortedness of node numbers read as sortedness of the records. -/
theorem pairwise_itLt {T : Type} {cmp : T → T → Bool} {val : Nat → Option T} (s : Bool)
    {xs : List Nat} (h : xs.Pairwise (idLt cmp val)) :
    (xs.map (Ptr.node s)).Pairwise (itLt cmp val s) := by
  rw [List.pairwise_map]
  refine h.imp ?_
  rintro i j ⟨a, c, ha, hc, hac⟩
  exact ⟨a, c, by simp [treap.value, ha], by simp [treap.value, hc], hac⟩

theorem pairwise_itNoDup {T : Type} {cmp : T → T → Bool} {val : Nat → Option T}
    (hc : StrictWeak cmp) (s : Bool) {xs : List Nat} (h : xs.Pairwise (idLt cmp val)) :
    (xs.map (Ptr.node s)).Pairwise (itNoDup cmp val s) := by
  rw [List.pairwise_map]
  refine h.imp ?_
  rintro i j ⟨a, c, ha, hc', hac⟩
  exact ⟨a, c, by simp [treap.value, ha], by simp [treap.value, hc'], hc.asymm hac,
    StrictWeak.not_equal_of_lt hac⟩

theorem natLt_strictWeak : StrictWeak natLt := by
  refine ⟨fun a => by simp [natLt], fun a b c h1 h2 => ?_, fun a b c h1 h2 => ?_⟩
  · simp only [natLt, decide_eq_true_eq] at *; omega
  · simp only [treap.equal, natLt, Bool.and_eq_true, Bool.not_eq_true',
      decide_eq_false_iff_not] at *
    omega

theorem demo1_reachable : Reachable natLt natLt demo1 :=
  @Reachable.insert Nat Nat natLt natLt demo0 demo1 (Ptr.node true 0) 1 10 5 7
    (Reachable.empty 0 0) (by rfl)

theorem demoMix1_reachable : Reachable natLt natLt demoMix1 :=
  @Reachable.insert Nat Nat natLt natLt demo0 demoMix1 (Ptr.node true 0) 2 20 5 7
    (Reachable.empty 0 0) (by rfl)

theorem demoMix2_reachable : Reachable natLt natLt demoMix2 :=
  @Reachable.insert Nat Nat natLt natLt demoMix1 demoMix2 (Ptr.node true 1) 1 30 3 9
    demoMix1_reachable (by rfl)

theorem demoMix_reachable : Reachable natLt natLt demoMix :=
  @Reachable.insert Nat Nat natLt natLt demoMix2 demoMix (Ptr.node true 2) 3 10 4 2
    demoMix2_reachable (by rfl)

theorem demoMix_nodes_left :
    bimap.nodes true demoMix = some [Ptr.node true 1, Ptr.node true 0, Ptr.node true 2] := by
  decide

theorem demoMix_nodes_right :
    bimap.nodes false demoMix = some [Ptr.node false 2, Ptr.node false 0, Ptr.node false 1] := by
  decide

theorem demo2_reachable : Reachable natLt natLt demo2 :=
  @Reachable.erase_left_key Nat Nat natLt natLt demo1 demo2 true 1 demo1_reachable (by rfl)

end


section
variable {L R : Type} {cmpL : L → L → Bool} {cmpR : R → R → Bool}

/-- A stored left value, given by a live iterator, is the value of a node of the
left tree. -/
theorem BimapInv.stored_left {b : Bimap L R} {tl tr : NodeTree} (h : BimapInv cmpL cmpR b tl tr)
    {it : Ptr} {x : L} (hl : Live true b it) (hx : treap.value b.valL true it = some x) :
    ∃ i, i ∈ tl.toList ∧ it = Ptr.node true i ∧ b.valL i = some x := by
  obtain ⟨i, hi, rfl⟩ := h.live_left.1 hl
  exact ⟨i, hi, rfl, by simpa [treap.value] using hx⟩

/-- A stored right value, given by a live iterator, is the value of a node of the
right tree. -/
theorem BimapInv.stored_right {b : Bimap L R} {tl tr : NodeTree}
    (h : BimapInv cmpL cmpR b tl tr) {it : Ptr} {y : R} (hl : Live false b it)
    (hy : treap.value b.valR false it = some y) :
    ∃ i, i ∈ tr.toList ∧ it = Ptr.node false i ∧ b.valR i = some y := by
  obtain ⟨i, hi, rfl⟩ := h.live_right.1 hl
  exact ⟨i, hi, rfl, by simpa [treap.value] using hy⟩

theorem pairAt_insert {b b' : Bimap L R} {l : L} {r : R}
    (hvl : b'.valL = updVal b.valL b.nextId l) (hvr : b'.valR = updVal b.valR b.nextId r) :
    pairAt b' b.nextId = some (l, r) ∧ ∀ i, i ≠ b.nextId → pairAt b' i = pairAt b i := by
  constructor
  · simp [pairAt, hvl, hvr, updVal_same]
  · intro i hi
    simp [pairAt, hvl, hvr, updVal_ne _ _ hi]

/-- C1: on every bimap reachable from `bimap()` (comparators strict weak
orderings), `insert(l, r)` with `l` equivalent to a stored left value or `r`
equivalent to a stored right value returns `end_left()` and hands back the very
state it was given, so `size()` and the pairs read through either projection are
as before. -/
theorem insert_duplicate_noop (hL : StrictWeak cmpL) (hR : StrictWeak cmpR) {b : Bimap L R}
    (hb : Reachable cmpL cmpR b) (l : L) (r : R) (pl pr : Nat)
    (hdup : (∃ it x, Live true b it ∧ treap.value b.valL true it = some x ∧
        treap.equal cmpL x l = true) ∨
      (∃ it y, Live false b it ∧ treap.value b.valR false it = some y ∧
        treap.equal cmpR y r = true)) :
    ∃ b', bimap.insert cmpL cmpR b l r pl pr = some (b', bimap.end_left) ∧ b' = b ∧
      bimap.size b' = bimap.size b ∧
      bimap.nodes true b' = bimap.nodes true b ∧ bimap.nodes false b' = bimap.nodes false b ∧
      bimap.pairs true b' = bimap.pairs true b ∧ bimap.pairs false b' = bimap.pairs false b := by
  obtain ⟨tl, tr, h⟩ := reachable_inv hL hR hb
  refine ⟨b, insert_dup hL hR h l r pl pr ?_, rfl, rfl, rfl, rfl, rfl, rfl⟩
  rcases hdup with ⟨it, x, hl, hx, he⟩ | ⟨it, y, hl, hy, he⟩
  · obtain ⟨i, hi, _, hv⟩ := h.stored_left hl hx
    exact Or.inl ⟨i, x, hi, hv, he⟩
  · obtain ⟨i, hi, _, hv⟩ := h.stored_right hl hy
    exact Or.inr ⟨i, y, h.perm.mem_iff.2 hi, hv, he⟩

/-- C1 at a concrete input: `insert(1, 20)` on the bimap that holds `(1, 10)`. -/
theorem insert_duplicate_noop_witness :
    Reachable natLt natLt demo1 ∧
    (∃ it x, Live true demo1 it ∧ treap.value demo1.valL true it = some x ∧
      treap.equal natLt x 1 = true) ∧
    ∃ b', bimap.insert natLt natLt demo1 1 20 3 4 = some (b', bimap.end_left) ∧ b' = demo1 ∧
      bimap.size b' = bimap.size demo1 ∧
      bimap.nodes true b' = bimap.nodes true demo1 ∧
      bimap.nodes false b' = bimap.nodes false demo1 ∧
      bimap.pairs true b' = bimap.pairs true demo1 ∧
      bimap.pairs false b' = bimap.pairs false demo1 :=
  ⟨demo1_reachable,
    ⟨Ptr.node true 0, 1, ⟨[Ptr.node true 0], by decide, by simp⟩, by decide, by decide⟩,
    insert_duplicate_noop natLt_strictWeak natLt_strictWeak demo1_reachable 1 20 3 4
      (Or.inl ⟨Ptr.node true 0, 1, ⟨[Ptr.node true 0], by decide, by simp⟩, by decide,
        by decide⟩)⟩

/-- C2: on every reachable bimap, `insert(l, r)` with `l` equivalent to no stored
left value and `r` equivalent to no stored right value returns an iterator `it`
other than `end_left()` with `*it = l` and `*it.flip() = r`; `size()` grows by
one; and the pairs read through either projection are the previous pairs plus
`(l, r)`. -/
theorem insert_fresh_adds_pair (hL : StrictWeak cmpL) (hR : StrictWeak cmpR) {b : Bimap L R}
    (hb : Reachable cmpL cmpR b) (l : L) (r : R) (pl pr : Nat)
    (hl : ∀ it x, Live true b it → treap.value b.valL true it = some x →
      treap.equal cmpL x l = false)
    (hr : ∀ it y, Live false b it → treap.value b.valR false it = some y →
      treap.equal cmpR y r = false) :
    ∃ b' it it', bimap.insert cmpL cmpR b l r pl pr = some (b', it) ∧ it ≠ bimap.end_left ∧
      treap.value b'.valL true it = some l ∧ bimap.flip true b'.mem it = some it' ∧
      treap.value b'.valR false it' = some r ∧ bimap.size b' = bimap.size b + 1 ∧
      ∃ ps qs ps' qs', bimap.pairs true b = some ps ∧ bimap.pairs false b = some qs ∧
        bimap.pairs true b' = some ps' ∧ bimap.pairs false b' = some qs' ∧
        ps'.Perm (some (l, r) :: ps) ∧ qs'.Perm (some (l, r) :: qs) := by
  obtain ⟨tl, tr, h⟩ := reachable_inv hL hR hb
  have hl' : ∀ i ∈ tl.toList, ∀ x, b.valL i = some x → treap.equal cmpL x l = false :=
    fun i hi x hx => hl (Ptr.node true i) x (h.live_left.2 ⟨i, hi, rfl⟩)
      (by simpa [treap.value] using hx)
  have hr' : ∀ i ∈ tl.toList, ∀ y, b.valR i = some y → treap.equal cmpR y r = false :=
    fun i hi y hy => hr (Ptr.node false i) y (h.live_right.2 ⟨i, h.perm.mem_iff.1 hi, rfl⟩)
      (by simpa [treap.value] using hy)
  obtain ⟨b', tl', tr', e, h', hvl, hvr, hc, _, el, er, _⟩ :=
    insert_fresh hL hR h l r pl pr hl' hr'
  have hn : b.nextId ∈ tl'.toList := by rw [el]; simp
  have hnl : b.nextId ∉ tl.toList := fun hc => Nat.lt_irrefl _ (h.ids _ hc)
  have hnr : b.nextId ∉ tr.toList := fun hc => Nat.lt_irrefl _ (h.ids_right _ hc)
  have e3 := flip_rooted h'.left hn
  obtain ⟨pn, po⟩ := pairAt_insert hvl hvr
  have pl' : tl'.toList.Perm (b.nextId :: tl.toList) := by
    rw [el]; exact filter_perm_cons _ _ _
  have pr' : tr'.toList.Perm (b.nextId :: tr.toList) := by
    rw [er]; exact filter_perm_cons _ _ _
  refine ⟨b', Ptr.node true b.nextId, Ptr.node false b.nextId, e, by simp [bimap.end_left],
    by simp [treap.value, hvl, updVal_same], by simpa using e3,
    by simp [treap.value, hvr, updVal_same], hc, _, _, _, _, h.pairs_left, h.pairs_right,
    h'.pairs_left, h'.pairs_right, ?_, ?_⟩
  · refine (pl'.map (pairAt b')).trans ?_
    rw [List.map_cons, pn]
    refine List.Perm.cons _ (List.Perm.of_eq ?_)
    exact List.map_congr_left (fun i hi => po i (fun e => hnl (e ▸ hi)))
  · refine (pr'.map (pairAt b')).trans ?_
    rw [List.map_cons, pn]
    refine List.Perm.cons _ (List.Perm.of_eq ?_)
    exact List.map_congr_left (fun i hi => po i (fun e => hnr (e ▸ hi)))

theorem demo1_nodes_left : bimap.nodes true demo1 = some [Ptr.node true 0] := by decide

theorem demo1_nodes_right : bimap.nodes false demo1 = some [Ptr.node false 0] := by decide

theorem demo1_live_left {it : Ptr} (h : Live true demo1 it) : it = Ptr.node true 0 := by
  obtain ⟨xs, hx, hit⟩ := h
  rw [demo1_nodes_left] at hx
  injection hx with hx
  subst hx
  simpa using hit

theorem demo1_live_right {it : Ptr} (h : Live false demo1 it) : it = Ptr.node false 0 := by
  obtain ⟨xs, hx, hit⟩ := h
  rw [demo1_nodes_right] at hx
  injection hx with hx
  subst hx
  simpa using hit

/-- C2 at a concrete input: `insert(2, 20)` on the bimap that holds `(1, 10)`. -/
theorem insert_fresh_adds_pair_witness :
    Reachable natLt natLt demo1 ∧
    ∃ b' it it', bimap.insert natLt natLt demo1 2 20 3 4 = some (b', it) ∧
      it ≠ bimap.end_left ∧
      treap.value b'.valL true it = some 2 ∧ bimap.flip true b'.mem it = some it' ∧
      treap.value b'.valR false it' = some 20 ∧ bimap.size b' = bimap.size demo1 + 1 ∧
      ∃ ps qs ps' qs', bimap.pairs true demo1 = some ps ∧ bimap.pairs false demo1 = some qs ∧
        bimap.pairs true b' = some ps' ∧ bimap.pairs false b' = some qs' ∧
        ps'.Perm (some (2, 20) :: ps) ∧ qs'.Perm (some (2, 20) :: qs) :=
  ⟨demo1_reachable,
    insert_fresh_adds_pair natLt_strictWeak natLt_strictWeak demo1_reachable 2 20 3 4
      (fun it x hlive hx => by
        rw [demo1_live_left hlive] at hx
        have : treap.value demo1.valL true (Ptr.node true 0) = some 1 := by decide
        rw [this] at hx
        injection hx with hx
        subst hx
        decide)
      (fun it y hlive hy => by
        rw [demo1_live_right hlive] at hy
        have : treap.value demo1.valR false (Ptr.node false 0) = some 10 := by decide
        rw [this] at hy
        injection hy with hy
        subst hy
        decide)⟩

end


section
variable {L R : Type} {cmpL : L → L → Bool} {cmpR : R → R → Bool}

/-- Each `insert` on a state with the invariant returns; it either gives back the
state and `end_left()`, or a state with one more pair and another iterator. -/
theorem insert_inv (hL : StrictWeak cmpL) (hR : StrictWeak cmpR) {b : Bimap L R}
    {tl tr : NodeTree} (h : BimapInv cmpL cmpR b tl tr) (l : L) (r : R) (pl pr : Nat) :
    ∃ b' it tl' tr', bimap.insert cmpL cmpR b l r pl pr = some (b', it) ∧
      BimapInv cmpL cmpR b' tl' tr' ∧
      bimap.size b' = bimap.size b + (if it ≠ bimap.end_left then 1 else 0) := by
  by_cases hdup : (∃ i x, i ∈ tl.toList ∧ b.valL i = some x ∧ treap.equal cmpL x l = true) ∨
      (∃ i y, i ∈ tl.toList ∧ b.valR i = some y ∧ treap.equal cmpR y r = true)
  · exact ⟨b, bimap.end_left, tl, tr, insert_dup hL hR h l r pl pr hdup, h, by simp⟩
  · rw [not_or] at hdup
    obtain ⟨b', tl', tr', e', h', _, _, hc, _⟩ := insert_fresh hL hR h l r pl pr
      (fun i hi x hx => by
        cases he : treap.equal cmpL x l with
        | false => rfl
        | true => exact absurd ⟨i, x, hi, hx, he⟩ hdup.1)
      (fun i hi x hx => by
        cases he : treap.equal cmpR x r with
        | false => rfl
        | true => exact absurd ⟨i, x, hi, hx, he⟩ hdup.2)
    exact ⟨b', _, tl', tr', e', h', by simpa [bimap.end_left, bimap.size] using hc⟩

/-- A run of `insert` calls from a state with the invariant returns, and the size
grows by the number of calls that did not return `end_left()`. -/
theorem insert_all_inv (hL : StrictWeak cmpL) (hR : StrictWeak cmpR) :
    ∀ (ops : List (L × R × Nat × Nat)) {b : Bimap L R} {tl tr : NodeTree},
      BimapInv cmpL cmpR b tl tr →
      ∃ b' k, bimap.insert_all cmpL cmpR b ops = some (b', k) ∧
        bimap.size b' = bimap.size b + k := by
  intro ops
  induction ops with
  | nil => intro b tl tr _; exact ⟨b, 0, rfl, rfl⟩
  | cons op rest ih =>
    intro b tl tr h
    obtain ⟨l, r, pl, pr⟩ := op
    obtain ⟨b1, it, tl1, tr1, e1, h1, hs1⟩ := insert_inv hL hR h l r pl pr
    obtain ⟨b2, k, e2, hs2⟩ := ih h1
    refine ⟨b2, if it ≠ bimap.end_left then k + 1 else k, by simp [bimap.insert_all, e1, e2], ?_⟩
    rw [hs2, hs1]
    split <;> omega

/-- C3: in every state reachable from `bimap()` by `insert`, the `erase`
operations (by key, by iterator, by range) and the `at_*_or_default` operations,
`size()` is the number of records in the left tree and the number of records in
the right tree; and after any run of `insert` calls on `bimap()`, `size()` is the
number of calls that did not return `end_left()`. -/
theorem size_counts_nodes (hL : StrictWeak cmpL) (hR : StrictWeak cmpR) {b : Bimap L R}
    (hb : Reachable cmpL cmpR b) (ops : List (L × R × Nat × Nat)) (pl pr : Nat) :
    (∃ xs ys, bimap.nodes true b = some xs ∧ bimap.nodes false b = some ys ∧
      bimap.size b = xs.length ∧ bimap.size b = ys.length) ∧
    (∃ b' k, bimap.insert_all cmpL cmpR (bimap.empty pl pr) ops = some (b', k) ∧
      bimap.size b' = k) := by
  obtain ⟨tl, tr, h⟩ := reachable_inv hL hR hb
  constructor
  · refine ⟨_, _, h.nodes_left, h.nodes_right, ?_, ?_⟩
    · simp [bimap.size, h.cnt]
    · simp [bimap.size, h.cnt, h.length_right]
  · obtain ⟨b', k, e, hs⟩ := insert_all_inv hL hR ops (@inv_empty L R cmpL cmpR pl pr)
    exact ⟨b', k, e, by simpa [bimap.size, bimap.empty] using hs⟩

/-- C3 at a concrete input: the bimap that holds `(1, 10)`, and the run
`insert(1, 10)`, `insert(1, 20)`, `insert(2, 20)` on `bimap()`. -/
theorem size_counts_nodes_witness :
    Reachable natLt natLt demo1 ∧
    (∃ xs ys, bimap.nodes true demo1 = some xs ∧ bimap.nodes false demo1 = some ys ∧
      bimap.size demo1 = xs.length ∧ bimap.size demo1 = ys.length) ∧
    (∃ b' k, bimap.insert_all natLt natLt (bimap.empty 0 0)
        [(1, 10, 5, 7), (1, 20, 1, 1), (2, 20, 3, 3)] = some (b', k) ∧
      bimap.size b' = k) :=
  ⟨demo1_reachable,
    size_counts_nodes natLt_strictWeak natLt_strictWeak demo1_reachable
      [(1, 10, 5, 7), (1, 20, 1, 1), (2, 20, 3, 3)] 0 0⟩

/-- C4: in every reachable state, with comparators that are strict weak
orderings, the records of the left tree in symmetric order are strictly
increasing under the left comparator and those of the right tree under the right
comparator; hence in each projection no later value is ordered before an earlier
one and no two values are equivalent. -/
theorem trees_sorted (hL : StrictWeak cmpL) (hR : StrictWeak cmpR) {b : Bimap L R}
    (hb : Reachable cmpL cmpR b) :
    ∃ xs ys, bimap.nodes true b = some xs ∧ bimap.nodes false b = some ys ∧
      xs.Pairwise (itLt cmpL b.valL true) ∧ ys.Pairwise (itLt cmpR b.valR false) ∧
      xs.Pairwise (itNoDup cmpL b.valL true) ∧ ys.Pairwise (itNoDup cmpR b.valR false) := by
  obtain ⟨tl, tr, h⟩ := reachable_inv hL hR hb
  exact ⟨_, _, h.nodes_left, h.nodes_right, pairwise_itLt true h.sortedL,
    pairwise_itLt false h.sortedR, pairwise_itNoDup hL true h.sortedL,
    pairwise_itNoDup hR false h.sortedR⟩

/-- C4 at a concrete input: the bimap built by `insert(2, 20)`, `insert(1, 30)`,
`insert(3, 10)`. The left tree walks the records in the order of the left values
1, 2, 3 and the right tree in the order of the right values 10, 20, 30, neither of
which is the order of insertion. -/
theorem trees_sorted_witness :
    Reachable natLt natLt demoMix ∧
    bimap.nodes true demoMix = some [Ptr.node true 1, Ptr.node true 0, Ptr.node true 2] ∧
    bimap.nodes false demoMix = some [Ptr.node false 2, Ptr.node false 0, Ptr.node false 1] ∧
    ∃ xs ys, bimap.nodes true demoMix = some xs ∧ bimap.nodes false demoMix = some ys ∧
      xs.Pairwise (itLt natLt demoMix.valL true) ∧
      ys.Pairwise (itLt natLt demoMix.valR false) ∧
      xs.Pairwise (itNoDup natLt demoMix.valL true) ∧
      ys.Pairwise (itNoDup natLt demoMix.valR false) :=
  ⟨demoMix_reachable, demoMix_nodes_left, demoMix_nodes_right,
    trees_sorted natLt_strictWeak natLt_strictWeak demoMix_reachable⟩

/-- C5: in every reachable state, `flip` is a bijection between the records of
the left tree and the records of the right tree: neither tree holds a record
twice, the images of the left records under `flip` are the right records, and
the images of the right records under `flip` are the left records. -/
theorem flip_bijection (hL : StrictWeak cmpL) (hR : StrictWeak cmpR) {b : Bimap L R}
    (hb : Reachable cmpL cmpR b) :
    ∃ xs ys, bimap.nodes true b = some xs ∧ bimap.nodes false b = some ys ∧
      xs.Nodup ∧ ys.Nodup ∧
      (xs.map (bimap.flip true b.mem)).Perm (ys.map some) ∧
      (ys.map (bimap.flip false b.mem)).Perm (xs.map some) ∧
      (∀ p ∈ xs, ∃ q ∈ ys, bimap.flip true b.mem p = some q) ∧
      (∀ q ∈ ys, ∃ p ∈ xs, bimap.flip false b.mem q = some p) := by
  obtain ⟨tl, tr, h⟩ := reachable_inv hL hR hb
  have hinj : ∀ s : Bool, Function.Injective (Ptr.node s) := by
    intro s i j e; injection e
  have e1 : (tl.toList.map (Ptr.node true)).map (bimap.flip true b.mem)
      = tl.toList.map (fun i => some (Ptr.node false i)) := by
    rw [List.map_map]
    exact List.map_congr_left (fun i hi => by simpa using flip_rooted h.left hi)
  have e2 : (tr.toList.map (Ptr.node false)).map (bimap.flip false b.mem)
      = tr.toList.map (fun i => some (Ptr.node true i)) := by
    rw [List.map_map]
    exact List.map_congr_left (fun i hi => by simpa using flip_rooted h.right hi)
  refine ⟨_, _, h.nodes_left, h.nodes_right, h.left.nodup.map (hinj true),
    h.right.nodup.map (hinj false), ?_, ?_, ?_, ?_⟩
  · rw [e1, List.map_map]
    exact h.perm.map _
  · rw [e2, List.map_map]
    exact h.perm.symm.map _
  · intro p hp
    obtain ⟨i, hi, rfl⟩ := List.mem_map.1 hp
    exact ⟨Ptr.node false i, List.mem_map.2 ⟨i, h.perm.mem_iff.1 hi, rfl⟩,
      by simpa using flip_rooted h.left hi⟩
  · intro q hq
    obtain ⟨i, hi, rfl⟩ := List.mem_map.1 hq
    exact ⟨Ptr.node true i, List.mem_map.2 ⟨i, h.perm.mem_iff.2 hi, rfl⟩,
      by simpa using flip_rooted h.right hi⟩

/-- C5 at a concrete input: the bimap that holds `(1, 10)`. -/
theorem flip_bijection_witness :
    Reachable natLt natLt demo1 ∧
    ∃ xs ys, bimap.nodes true demo1 = some xs ∧ bimap.nodes false demo1 = some ys ∧
      xs.Nodup ∧ ys.Nodup ∧
      (xs.map (bimap.flip true demo1.mem)).Perm (ys.map some) ∧
      (ys.map (bimap.flip false demo1.mem)).Perm (xs.map some) ∧
      (∀ p ∈ xs, ∃ q ∈ ys, bimap.flip true demo1.mem p = some q) ∧
      (∀ q ∈ ys, ∃ p ∈ xs, bimap.flip false demo1.mem q = some p) :=
  ⟨demo1_reachable, flip_bijection natLt_strictWeak natLt_strictWeak demo1_reachable⟩

/-- C6: in every reachable state, for an iterator `it` of either projection that
refers to an element, `it.flip().flip()` is `it` again, so it dereferences to
the same value. -/
theorem flip_flip (hL : StrictWeak cmpL) (hR : StrictWeak cmpR) {b : Bimap L R}
    (hb : Reachable cmpL cmpR b) (side : Bool) (it : Ptr) (hlive : Live side b it) :
    ∃ it', bimap.flip side b.mem it = some it' ∧ bimap.flip (!side) b.mem it' = some it ∧
      Live (!side) b it' := by
  obtain ⟨tl, tr, h⟩ := reachable_inv hL hR hb
  cases side with
  | true =>
    obtain ⟨i, hi, rfl⟩ := h.live_left.1 hlive
    have hi' := h.perm.mem_iff.1 hi
    exact ⟨Ptr.node false i, by simpa using flip_rooted h.left hi,
      by simpa using flip_rooted h.right hi', h.live_right.2 ⟨i, hi', rfl⟩⟩
  | false =>
    obtain ⟨i, hi, rfl⟩ := h.live_right.1 hlive
    have hi' := h.perm.mem_iff.2 hi
    exact ⟨Ptr.node true i, by simpa using flip_rooted h.right hi,
      by simpa using flip_rooted h.left hi', h.live_left.2 ⟨i, hi', rfl⟩⟩

/-- C6 at a concrete input: the left iterator to `1` in the bimap that holds
`(1, 10)`. -/
theorem flip_flip_witness :
    Reachable natLt natLt demo1 ∧ Live true demo1 (Ptr.node true 0) ∧
    ∃ it', bimap.flip true demo1.mem (Ptr.node true 0) = some it' ∧
      bimap.flip (!true) demo1.mem it' = some (Ptr.node true 0) ∧ Live (!true) demo1 it' :=
  ⟨demo1_reachable, ⟨[Ptr.node true 0], by decide, by simp⟩,
    flip_flip natLt_strictWeak natLt_strictWeak demo1_reachable true (Ptr.node true 0)
      ⟨[Ptr.node true 0], by decide, by simp⟩⟩

end


section
variable {L R : Type} {cmpL : L → L → Bool} {cmpR : R → R → Bool}

/-- C7 (the code at the failing input): after `insert(1, 10)` the two end
iterators flip into each other, but after the following `erase_left(1)` the
`father` field of each sentinel holds the other sentinel, so `flip` on
`end_right()` and on `end_left()` no longer takes the sentinel branch and
applies `get_another_node` to a sentinel, which is undefined. -/
theorem end_flip_broken_after_erase :
    Reachable natLt natLt demo1 ∧
    bimap.flip true demo1.mem bimap.end_left = some bimap.end_right ∧
    bimap.flip false demo1.mem bimap.end_right = some bimap.end_left ∧
    Reachable natLt natLt demo2 ∧
    demo2.mem.father bimap.end_right = bimap.end_left ∧
    demo2.mem.father bimap.end_left = bimap.end_right ∧
    bimap.flip false demo2.mem bimap.end_right = none ∧
    bimap.flip true demo2.mem bimap.end_left = none :=
  ⟨demo1_reachable, by decide, by decide, demo2_reachable, by decide, by decide, by decide,
    by decide⟩

/-- C8 (the code at the failing input): on the empty bimap `begin_left()` is the
null iterator, not `end_left()`, and likewise on the right. -/
theorem begin_of_empty_is_null :
    bimap.is_empty demo0 = true ∧
    bimap.begin_left demo0 = some Ptr.null ∧ bimap.begin_left demo0 ≠ some bimap.end_left ∧
    bimap.begin_right demo0 = some Ptr.null ∧
    bimap.begin_right demo0 ≠ some bimap.end_right :=
  ⟨by decide, by decide, by decide, by decide, by decide⟩

/-- On a reachable bimap that holds a pair, `begin_left()` refers to the first
record of the left tree and is not `end_left()`. -/
theorem begin_left_of_nonempty (hL : StrictWeak cmpL) (hR : StrictWeak cmpR) {b : Bimap L R}
    (hb : Reachable cmpL cmpR b) (hne : bimap.size b ≠ 0) :
    ∃ p xs, bimap.nodes true b = some (p :: xs) ∧ bimap.begin_left b = some p ∧
      p ≠ bimap.end_left := by
  obtain ⟨tl, tr, h⟩ := reachable_inv hL hR hb
  have e := get_min_shape true tl _ b.mem h.left.shape h.size_left_lt
  have hn := h.nodes_left
  cases hl : tl.toList with
  | nil =>
    have := h.cnt
    rw [hl] at this
    exact absurd this hne
  | cons i rest =>
    rw [hl] at e hn
    refine ⟨Ptr.node true i, rest.map (Ptr.node true), by simpa using hn, ?_,
      by simp [bimap.end_left]⟩
    unfold bimap.begin_left
    rw [h.left.root_left]
    simpa using e

/-- C9: in every reachable state, `at_left(k)` throws exactly when no stored left
value is equivalent to `k`; otherwise it returns the right value of the pair
whose left value is equivalent to `k`, and there is only one such pair.
Symmetrically for `at_right`. -/
theorem at_throws_iff_absent (hL : StrictWeak cmpL) (hR : StrictWeak cmpR) {b : Bimap L R}
    (hb : Reachable cmpL cmpR b) (kl : L) (kr : R) :
    (∃ res, bimap.at_left cmpL b kl = some res ∧
      ((∃ msg, res = Except.error msg) ↔
        ∀ it x, Live true b it → treap.value b.valL true it = some x →
          treap.equal cmpL x kl = false) ∧
      (∀ it x, Live true b it → treap.value b.valL true it = some x →
        treap.equal cmpL x kl = true →
        (∃ r, bimap.right_of_left b it = some r ∧ res = Except.ok r) ∧
        ∀ it2 x2, Live true b it2 → treap.value b.valL true it2 = some x2 →
          treap.equal cmpL x2 kl = true → it2 = it)) ∧
    (∃ res, bimap.at_right cmpR b kr = some res ∧
      ((∃ msg, res = Except.error msg) ↔
        ∀ it y, Live false b it → treap.value b.valR false it = some y →
          treap.equal cmpR y kr = false) ∧
      (∀ it y, Live false b it → treap.value b.valR false it = some y →
        treap.equal cmpR y kr = true →
        (∃ l, bimap.left_of_right b it = some l ∧ res = Except.ok l) ∧
        ∀ it2 y2, Live false b it2 → treap.value b.valR false it2 = some y2 →
          treap.equal cmpR y2 kr = true → it2 = it)) := by
  obtain ⟨tl, tr, h⟩ := reachable_inv hL hR hb
  constructor
  · rcases find_cases hL h.left h.valsL h.sortedL kl h.size_left_lt with
      ⟨e, hne⟩ | ⟨i, x, hi, hx, he, e⟩
    · have hne' : ∀ it x, Live true b it → treap.value b.valL true it = some x →
          treap.equal cmpL x kl = false := by
        intro it x hl hv
        obtain ⟨j, hj, _, hvj⟩ := h.stored_left hl hv
        exact hne j hj x hvj
      refine ⟨Except.error "not founded key", by simp [bimap.at_left, e],
        ⟨fun _ => hne', fun _ => ⟨_, rfl⟩⟩, ?_⟩
      intro it x hl hv he
      rw [hne' it x hl hv] at he
      cases he
    · obtain ⟨r, hr⟩ := h.valsR i hi
      have hrl : bimap.right_of_left b (Ptr.node true i) = some r := by
        simp [bimap.right_of_left, bimap.get_another_node, treap.value, hr]
      refine ⟨Except.ok r, by simp [bimap.at_left, e, hrl], ⟨?_, ?_⟩, ?_⟩
      · rintro ⟨msg, hm⟩; cases hm
      · intro hall
        have := hall (Ptr.node true i) x (h.live_left.2 ⟨i, hi, rfl⟩)
          (by simp [treap.value, hx])
        rw [he] at this; cases this
      · intro it x' hl hv he'
        obtain ⟨j, hj, rfl, hvj⟩ := h.stored_left hl hv
        have hji := equal_unique hL h.sortedL hj hi hvj hx he' he
        subst hji
        refine ⟨⟨r, hrl, rfl⟩, ?_⟩
        intro it2 x2 hl2 hv2 he2
        obtain ⟨j2, hj2, rfl, hvj2⟩ := h.stored_left hl2 hv2
        rw [equal_unique hL h.sortedL hj2 hj hvj2 hvj he2 he']
  · rcases find_cases hR h.right h.valsR_right h.sortedR kr h.size_right_lt with
      ⟨e, hne⟩ | ⟨i, y, hi, hy, he, e⟩
    · have hne' : ∀ it y, Live false b it → treap.value b.valR false it = some y →
          treap.equal cmpR y kr = false := by
        intro it y hl hv
        obtain ⟨j, hj, _, hvj⟩ := h.stored_right hl hv
        exact hne j hj y hvj
      refine ⟨Except.error "not founded key", by simp [bimap.at_right, e],
        ⟨fun _ => hne', fun _ => ⟨_, rfl⟩⟩, ?_⟩
      intro it y hl hv he
      rw [hne' it y hl hv] at he
      cases he
    · obtain ⟨l, hl⟩ := h.valsL i (h.perm.mem_iff.2 hi)
      have hlr : bimap.left_of_right b (Ptr.node false i) = some l := by
        simp [bimap.left_of_right, bimap.get_another_node, treap.value, hl]
      refine ⟨Except.ok l, by simp [bimap.at_right, e, hlr], ⟨?_, ?_⟩, ?_⟩
      · rintro ⟨msg, hm⟩; cases hm
      · intro hall
        have := hall (Ptr.node false i) y (h.live_right.2 ⟨i, hi, rfl⟩)
          (by simp [treap.value, hy])
        rw [he] at this; cases this
      · intro it y' hlv hv he'
        obtain ⟨j, hj, rfl, hvj⟩ := h.stored_right hlv hv
        have hji := equal_unique hR h.sortedR hj hi hvj hy he' he
        subst hji
        refine ⟨⟨l, hlr, rfl⟩, ?_⟩
        intro it2 y2 hl2 hv2 he2
        obtain ⟨j2, hj2, rfl, hvj2⟩ := h.stored_right hl2 hv2
        rw [equal_unique hR h.sortedR hj2 hj hvj2 hvj he2 he']

/-- C9 at a concrete input: `at_left(1)` and `at_right(3)` on the bimap that
holds `(1, 10)`. -/
theorem at_throws_iff_absent_witness :
    Reachable natLt natLt demo1 ∧
    bimap.at_left natLt demo1 1 = some (Except.ok 10) ∧
    bimap.at_right natLt demo1 3 = some (Except.error "not founded key") ∧
    (∃ res, bimap.at_left natLt demo1 1 = some res ∧
      ((∃ msg, res = Except.error msg) ↔
        ∀ it x, Live true demo1 it → treap.value demo1.valL true it = some x →
          treap.equal natLt x 1 = false) ∧
      (∀ it x, Live true demo1 it → treap.value demo1.valL true it = some x →
        treap.equal natLt x 1 = true →
        (∃ r, bimap.right_of_left demo1 it = some r ∧ res = Except.ok r) ∧
        ∀ it2 x2, Live true demo1 it2 → treap.value demo1.valL true it2 = some x2 →
          treap.equal natLt x2 1 = true → it2 = it)) ∧
    (∃ res, bimap.at_right natLt demo1 3 = some res ∧
      ((∃ msg, res = Except.error msg) ↔
        ∀ it y, Live false demo1 it → treap.value demo1.valR false it = some y →
          treap.equal natLt y 3 = false) ∧
      (∀ it y, Live false demo1 it → treap.value demo1.valR false it = some y →
        treap.equal natLt y 3 = true →
        (∃ l, bimap.left_of_right demo1 it = some l ∧ res = Except.ok l) ∧
        ∀ it2 y2, Live false demo1 it2 → treap.value demo1.valR false it2 = some y2 →
          treap.equal natLt y2 3 = true → it2 = it)) :=
  ⟨demo1_reachable, by rfl, by rfl,
    at_throws_iff_absent natLt_strictWeak natLt_strictWeak demo1_reachable 1 3⟩

/-- C10: in every reachable state, `find_left(k)` returns the iterator to the
stored left element `e` with neither `e < k` nor `k < e`, when there is one, and
`end_left()` when there is none.  Symmetrically for `find_right`. -/
theorem find_returns_equivalent (hL : StrictWeak cmpL) (hR : StrictWeak cmpR) {b : Bimap L R}
    (hb : Reachable cmpL cmpR b) (kl : L) (kr : R) :
    (∀ it x, Live true b it → treap.value b.valL true it = some x →
      cmpL x kl = false → cmpL kl x = false → bimap.find_left cmpL b kl = some it) ∧
    ((∀ it x, Live true b it → treap.value b.valL true it = some x →
      ¬(cmpL x kl = false ∧ cmpL kl x = false)) →
      bimap.find_left cmpL b kl = some bimap.end_left) ∧
    (∀ it y, Live false b it → treap.value b.valR false it = some y →
      cmpR y kr = false → cmpR kr y = false → bimap.find_right cmpR b kr = some it) ∧
    ((∀ it y, Live false b it → treap.value b.valR false it = some y →
      ¬(cmpR y kr = false ∧ cmpR kr y = false)) →
      bimap.find_right cmpR b kr = some bimap.end_right) := by
  obtain ⟨tl, tr, h⟩ := reachable_inv hL hR hb
  refine ⟨?_, ?_, ?_, ?_⟩
  · intro it x hl hv h1 h2
    obtain ⟨i, hi, rfl, hvi⟩ := h.stored_left hl hv
    have e := find_of_equal hL h.left h.valsL h.sortedL kl h.size_left_lt hi hvi
      (StrictWeak.equal_iff.2 ⟨h1, h2⟩)
    simp [bimap.find_left, e]
  · intro hall
    have e := find_of_not_equal hL h.left h.valsL h.sortedL kl h.size_left_lt
      (fun i hi x hx => by
        cases he : treap.equal cmpL x kl with
        | false => rfl
        | true =>
          exact absurd (StrictWeak.equal_iff.1 he)
            (hall (Ptr.node true i) x (h.live_left.2 ⟨i, hi, rfl⟩) (by simp [treap.value, hx])))
    simp [bimap.find_left, e]
  · intro it y hl hv h1 h2
    obtain ⟨i, hi, rfl, hvi⟩ := h.stored_right hl hv
    have e := find_of_equal hR h.right h.valsR_right h.sortedR kr h.size_right_lt hi hvi
      (StrictWeak.equal_iff.2 ⟨h1, h2⟩)
    simp [bimap.find_right, e]
  · intro hall
    have e := find_of_not_equal hR h.right h.valsR_right h.sortedR kr h.size_right_lt
      (fun i hi y hy => by
        cases he : treap.equal cmpR y kr with
        | false => rfl
        | true =>
          exact absurd (StrictWeak.equal_iff.1 he)
            (hall (Ptr.node false i) y (h.live_right.2 ⟨i, hi, rfl⟩)
              (by simp [treap.value, hy])))
    simp [bimap.find_right, e]

/-- C10 at a concrete input: `find_left(1)` and `find_right(3)` on the bimap that
holds `(1, 10)`. -/
theorem find_returns_equivalent_witness :
    Reachable natLt natLt demo1 ∧
    bimap.find_left natLt demo1 1 = some (Ptr.node true 0) ∧
    bimap.find_right natLt demo1 3 = some bimap.end_right :=
  ⟨demo1_reachable,
    (find_returns_equivalent natLt_strictWeak natLt_strictWeak demo1_reachable 1 3).1
      (Ptr.node true 0) 1 ⟨[Ptr.node true 0], by decide, by simp⟩ (by decide) (by decide)
      (by decide),
    (find_returns_equivalent natLt_strictWeak natLt_strictWeak demo1_reachable 1 3).2.2.2
      (fun it y hlive hy => by
        rw [demo1_live_right hlive] at hy
        have : treap.value demo1.valR false (Ptr.node false 0) = some 10 := by decide
        rw [this] at hy
        injection hy with hy
        subst hy
        decide)⟩

end


theorem demo12_reachable : Reachable natLt natLt demo12 :=
  @Reachable.insert Nat Nat natLt natLt demo1 demo12 (Ptr.node true 1) 2 20 3 9
    demo1_reachable (by rfl)

theorem demo3_reachable : Reachable natLt natLt demo3 :=
  @Reachable.insert Nat Nat natLt natLt demo12 demo3 (Ptr.node true 2) 3 30 4 2
    demo12_reachable (by rfl)

theorem demo3_nodes_left :
    bimap.nodes true demo3 = some [Ptr.node true 0, Ptr.node true 1, Ptr.node true 2] := by
  decide

theorem demo3_nodes_right :
    bimap.nodes false demo3 = some [Ptr.node false 0, Ptr.node false 1, Ptr.node false 2] := by
  decide

theorem demo3_shape_left : Shape demo3.mem true demo3L := by
  simp only [demo3L, Shape, Fath, NodeTree.ptr]
  decide

theorem demo3_shape_right : Shape demo3.mem false demo3R := by
  simp only [demo3R, Shape, Fath, NodeTree.ptr]
  decide

namespace NodeTree

theorem above_of_all {gt : Nat → Nat → Bool} {prio : Nat → Nat} {i : Nat} {t : NodeTree}
    (h : ∀ k ∈ t.toList, gt (prio i) (prio k) = true) : above gt prio i t = true := by
  cases t with
  | nil => rfl
  | node l j r => exact h j (by simp)

/-- In a heap-ordered tree below node `i`, every priority stands in relation `gt`
to that of `i`, provided `gt` is transitive. -/
theorem heap_all {gt : Nat → Nat → Bool} {prio : Nat → Nat}
    (ht : ∀ x y z, gt x y = true → gt y z = true → gt x z = true) (i : Nat) :
    ∀ t : NodeTree, heap gt prio t = true → above gt prio i t = true →
      ∀ k ∈ t.toList, gt (prio i) (prio k) = true := by
  intro t
  induction t with
  | nil => intro _ _ k hk; simp at hk
  | node l j r ihl ihr =>
    intro hh ha k hk
    simp only [heap, Bool.and_eq_true] at hh
    obtain ⟨⟨⟨h1, h2⟩, h3⟩, h4⟩ := hh
    have ha' : gt (prio i) (prio j) = true := ha
    have aux : ∀ c : NodeTree, above gt prio j c = true → above gt prio i c = true := by
      intro c hc
      cases c with
      | nil => rfl
      | node cl cj cr => exact ht _ _ _ ha' hc
    simp only [toList_node, List.mem_append, List.mem_cons] at hk
    rcases hk with hk | rfl | hk
    · exact ihl h3 (aux l h1) k hk
    · exact ha'
    · exact ihr h4 (aux r h2) k hk

/-- `split` keeps both halves heap-ordered. -/
theorem split_heap {gt : Nat → Nat → Bool} {prio : Nat → Nat}
    (ht : ∀ x y z, gt x y = true → gt y z = true → gt x z = true) (p : Nat → Bool) :
    ∀ t : NodeTree, heap gt prio t = true →
      heap gt prio (t.split p).1 = true ∧ heap gt prio (t.split p).2 = true := by
  intro t
  induction t with
  | nil => intro _; simp [split, heap]
  | node l j r ihl ihr =>
    intro hh
    have hh' := hh
    simp only [heap, Bool.and_eq_true] at hh'
    obtain ⟨⟨⟨h1, h2⟩, h3⟩, h4⟩ := hh'
    by_cases hp : p j = true
    · obtain ⟨ia, ib⟩ := ihr h4
      have hall := heap_all ht j r h4 h2
      simp only [split, hp, if_true, heap, Bool.and_eq_true]
      exact ⟨⟨⟨⟨h1, above_of_all (fun k hk => hall k (split_fst_subset p r k hk))⟩, h3⟩, ia⟩, ib⟩
    · obtain ⟨ia, ib⟩ := ihl h3
      have hall := heap_all ht j l h3 h1
      simp only [split, hp, heap, Bool.and_eq_true]
      exact ⟨ia, ⟨⟨above_of_all (fun k hk => hall k (split_snd_subset p l k hk)), h2⟩, ib⟩, h4⟩

end NodeTree

theorem prioGt_trans (x y z : Nat) (h1 : prioGt x y = true) (h2 : prioGt y z = true) :
    prioGt x z = true := by
  simp only [prioGt, decide_eq_true_eq] at *
  omega

theorem prioGe_trans (x y z : Nat) (h1 : prioGe x y = true) (h2 : prioGe y z = true) :
    prioGe x z = true := by
  simp only [prioGe, decide_eq_true_eq] at *
  omega

/-- A list of nodes that is strictly increasing holds no node twice. -/
theorem nodup_of_sorted {T : Type} {cmp : T → T → Bool} (hc : StrictWeak cmp)
    {val : Nat → Option T} {xs : List Nat} (h : xs.Pairwise (idLt cmp val)) : xs.Nodup := by
  refine h.imp ?_
  rintro i j ⟨a, b, ha, hb, hab⟩ rfl
  rw [ha] at hb
  injection hb with hb
  subst hb
  rw [hc.irrefl] at hab
  exact Bool.noConfusion hab


/-- C19: `treap::split` on a subtree of shape `t` whose nodes carry values and
are strictly increasing in symmetric order returns two subtrees `a` and `b`
with: the symmetric order of `a` followed by that of `b` is the symmetric order
of `t`; every value in `a` is less than `v`; no value in `b` is less than `v`;
and heap order along the links, strict or not, carries over from `t` to `a` and
to `b`. -/
theorem split_partitions {T : Type} {cmp : T → T → Bool} (hc : StrictWeak cmp)
    (val : Nat → Option T) (s : Bool) (v : T) {m : Mem} {t : NodeTree} {fuel : Nat}
    (hs : Shape m s t) (hv : ∀ i ∈ t.toList, ∃ x, val i = some x)
    (hsorted : t.toList.Pairwise (idLt cmp val)) (hf : t.size < fuel) :
    ∃ m' a b, treap.split cmp val s fuel m (t.ptr s) v = some (m', a.ptr s, b.ptr s) ∧
      Shape m' s a ∧ Shape m' s b ∧
      treap.inorder fuel m (t.ptr s) = some (t.toList.map (Ptr.node s)) ∧
      treap.inorder fuel m' (a.ptr s) = some (a.toList.map (Ptr.node s)) ∧
      treap.inorder fuel m' (b.ptr s) = some (b.toList.map (Ptr.node s)) ∧
      a.toList ++ b.toList = t.toList ∧
      (∀ i ∈ a.toList, ∃ x, val i = some x ∧ cmp x v = true) ∧
      (∀ i ∈ b.toList, ∃ x, val i = some x ∧ cmp x v = false) ∧
      (t.heap prioGt (prioOf m s) = true →
        a.heap prioGt (prioOf m' s) = true ∧ b.heap prioGt (prioOf m' s) = true) ∧
      (t.heap prioGe (prioOf m s) = true →
        a.heap prioGe (prioOf m' s) = true ∧ b.heap prioGe (prioOf m' s) = true) := by
  have hp : ∀ i ∈ t.toList, ∃ x, val i = some x ∧ cmp x v = ltVal cmp val v i := by
    intro i hi
    obtain ⟨x, hx⟩ := hv i hi
    exact ⟨x, hx, (ltVal_of_some hx).symm⟩
  obtain ⟨m', e, sa, sb, fr⟩ := split_shape cmp val s v (ltVal cmp val v) t fuel m hp hs
    (nodup_of_sorted hc hsorted) hf
  obtain ⟨fa, fb⟩ := NodeTree.split_filter (ltVal cmp val v) t (ltVal_mono hc v hsorted)
  have hsz := NodeTree.split_size (ltVal cmp val v) t
  have hprio : prioOf m' s = prioOf m s := by
    funext i
    simp [prioOf, fr.1]
  refine ⟨m', (t.split (ltVal cmp val v)).1, (t.split (ltVal cmp val v)).2, e, sa, sb,
    inorder_shape s t fuel m hs hf, inorder_shape s _ fuel m' sa (by omega),
    inorder_shape s _ fuel m' sb (by omega), NodeTree.split_toList _ t, ?_, ?_, ?_, ?_⟩
  · intro i hi
    rw [fa, List.mem_filter] at hi
    obtain ⟨x, hx⟩ := hv i hi.1
    have hlt : ltVal cmp val v i = cmp x v := ltVal_of_some hx
    exact ⟨x, hx, by rw [← hlt]; exact hi.2⟩
  · intro i hi
    rw [fb, List.mem_filter] at hi
    obtain ⟨x, hx⟩ := hv i hi.1
    have hlt : ltVal cmp val v i = cmp x v := ltVal_of_some hx
    refine ⟨x, hx, ?_⟩
    rw [← hlt]
    simpa using hi.2
  · intro hh
    rw [hprio]
    exact NodeTree.split_heap prioGt_trans _ t hh
  · intro hh
    rw [hprio]
    exact NodeTree.split_heap prioGe_trans _ t hh

theorem demo3_vals_left : ∀ i ∈ demo3L.toList, ∃ x, demo3.valL i = some x := by
  intro i hi
  simp only [demo3L, NodeTree.toList, List.nil_append, List.mem_cons, List.append_nil,
    List.cons_append, List.mem_nil_iff, or_false] at hi
  rcases hi with rfl | rfl | rfl
  · exact ⟨1, by decide⟩
  · exact ⟨2, by decide⟩
  · exact ⟨3, by decide⟩

theorem demo3_sorted_left : demo3L.toList.Pairwise (idLt natLt demo3.valL) := by
  simp only [demo3L, NodeTree.toList, List.nil_append, List.append_nil, List.cons_append,
    List.pairwise_cons, List.mem_cons, List.mem_nil_iff, or_false, forall_eq_or_imp, forall_eq,
    List.Pairwise.nil, and_true, IsEmpty.forall_iff, implies_true]
  exact ⟨⟨⟨1, 2, by decide, by decide, by decide⟩, ⟨1, 3, by decide, by decide, by decide⟩⟩,
    ⟨2, 3, by decide, by decide, by decide⟩⟩

/-- C19 at a concrete input: `split` at the value 2 of the left tree of the bimap
that holds `(1, 10)`, `(2, 20)`, `(3, 30)`. -/
theorem split_partitions_witness :
    Shape demo3.mem true demo3L ∧ demo3L.size < 4 ∧
    ∃ m' a b, treap.split natLt demo3.valL true 4 demo3.mem (demo3L.ptr true) 2
        = some (m', a.ptr true, b.ptr true) ∧
      Shape m' true a ∧ Shape m' true b ∧
      treap.inorder 4 demo3.mem (demo3L.ptr true) = some (demo3L.toList.map (Ptr.node true)) ∧
      treap.inorder 4 m' (a.ptr true) = some (a.toList.map (Ptr.node true)) ∧
      treap.inorder 4 m' (b.ptr true) = some (b.toList.map (Ptr.node true)) ∧
      a.toList ++ b.toList = demo3L.toList ∧
      (∀ i ∈ a.toList, ∃ x, demo3.valL i = some x ∧ natLt x 2 = true) ∧
      (∀ i ∈ b.toList, ∃ x, demo3.valL i = some x ∧ natLt x 2 = false) ∧
      (demo3L.heap prioGt (prioOf demo3.mem true) = true →
        a.heap prioGt (prioOf m' true) = true ∧ b.heap prioGt (prioOf m' true) = true) ∧
      (demo3L.heap prioGe (prioOf demo3.mem true) = true →
        a.heap prioGe (prioOf m' true) = true ∧ b.heap prioGe (prioOf m' true) = true) :=
  ⟨demo3_shape_left, by decide,
    split_partitions natLt_strictWeak demo3.valL true 2 demo3_shape_left demo3_vals_left
      demo3_sorted_left (by decide)⟩

/-- C20: `treap::merge` on two subtrees of shapes `a` and `b` that share no node
returns a subtree whose symmetric order is that of `a` followed by that of `b`,
with every node of the two exactly once; so if both are strictly increasing and
every node of `a` is ordered before every node of `b`, the result is strictly
increasing. -/
theorem merge_concatenates (s : Bool) {m : Mem} {a b : NodeTree} {fuel : Nat}
    (ha : Shape m s a) (hb : Shape m s b) (hn : (a.toList ++ b.toList).Nodup)
    (hf : a.size + b.size < fuel) :
    ∃ m' t, treap.merge fuel m (a.ptr s) (b.ptr s) = some (m', t.ptr s) ∧ Shape m' s t ∧
      treap.inorder fuel m (a.ptr s) = some (a.toList.map (Ptr.node s)) ∧
      treap.inorder fuel m (b.ptr s) = some (b.toList.map (Ptr.node s)) ∧
      treap.inorder fuel m' (t.ptr s) = some ((a.toList ++ b.toList).map (Ptr.node s)) ∧
      t.toList = a.toList ++ b.toList ∧
      (∀ i, i ∈ a.toList ∨ i ∈ b.toList → t.toList.count i = 1) ∧
      (∀ i, i ∉ a.toList → i ∉ b.toList → t.toList.count i = 0) ∧
      ∀ {T : Type} (cmp : T → T → Bool) (val : Nat → Option T),
        a.toList.Pairwise (idLt cmp val) → b.toList.Pairwise (idLt cmp val) →
        (∀ i ∈ a.toList, ∀ j ∈ b.toList, idLt cmp val i j) →
        t.toList.Pairwise (idLt cmp val) := by
  obtain ⟨m', e, st, _⟩ := merge_shape s fuel a b m ha hb hn hf
  have hl := NodeTree.merge_toList_eq (fun i => m.priority (Ptr.node s i)) a b
  have hsz : (NodeTree.merge (fun i => m.priority (Ptr.node s i)) a b).size = a.size + b.size := by
    rw [← NodeTree.length_toList, hl, List.length_append, NodeTree.length_toList,
      NodeTree.length_toList]
  refine ⟨m', _, e, st, inorder_shape s a fuel m ha (by omega),
    inorder_shape s b fuel m hb (by omega), ?_, hl, ?_, ?_, ?_⟩
  · rw [← hl]
    exact inorder_shape s _ fuel m' st (by omega)
  · intro i hi
    rw [hl]
    exact List.count_eq_one_of_mem hn (List.mem_append.2 hi)
  · intro i h1 h2
    rw [hl]
    exact List.count_eq_zero_of_not_mem (by simp [h1, h2])
  · intro T cmp val h1 h2 h3
    rw [hl]
    exact List.pairwise_append.2 ⟨h1, h2, h3⟩

/-- C20 at a concrete input: `merge` of the two leaves of the right tree of the
bimap that holds `(1, 10)`, `(2, 20)`, `(3, 30)`. -/
theorem merge_concatenates_witness :
    Shape demo3.mem false (NodeTree.node NodeTree.nil 0 NodeTree.nil) ∧
    Shape demo3.mem false (NodeTree.node NodeTree.nil 2 NodeTree.nil) ∧
    ∃ m' t, treap.merge 3 demo3.mem (Ptr.node false 0) (Ptr.node false 2) = some (m', t.ptr false) ∧
      Shape m' false t ∧
      treap.inorder 3 demo3.mem (Ptr.node false 0) = some [Ptr.node false 0] ∧
      treap.inorder 3 demo3.mem (Ptr.node false 2) = some [Ptr.node false 2] ∧
      treap.inorder 3 m' (t.ptr false) = some [Ptr.node false 0, Ptr.node false 2] ∧
      t.toList = [0, 2] ∧
      (∀ i, i ∈ [0] ∨ i ∈ [2] → t.toList.count i = 1) ∧
      (∀ i, i ∉ [0] → i ∉ [2] → t.toList.count i = 0) ∧
      ∀ {T : Type} (cmp : T → T → Bool) (val : Nat → Option T),
        [0].Pairwise (idLt cmp val) → [2].Pairwise (idLt cmp val) →
        (∀ i ∈ [0], ∀ j ∈ [2], idLt cmp val i j) →
        t.toList.Pairwise (idLt cmp val) :=
  ⟨by simp only [Shape, Fath, NodeTree.ptr]; decide,
    by simp only [Shape, Fath, NodeTree.ptr]; decide,
    @merge_concatenates false demo3.mem (NodeTree.node NodeTree.nil 0 NodeTree.nil)
      (NodeTree.node NodeTree.nil 2 NodeTree.nil) 3
      (by simp only [Shape, Fath, NodeTree.ptr]; decide)
      (by simp only [Shape, Fath, NodeTree.ptr]; decide)
      (by decide) (by decide)⟩


/-- A predicate that can only switch from true to false along a list cuts the
list into the part where it holds and the part where it fails. -/
theorem filter_append_of_mono (p : Nat → Bool) : ∀ xs : List Nat,
    xs.Pairwise (fun i j => p j = true → p i = true) →
    xs.filter p ++ xs.filter (fun i => !p i) = xs := by
  intro xs
  induction xs with
  | nil => intro _; rfl
  | cons a rest ih =>
    intro h
    rw [List.pairwise_cons] at h
    by_cases ha : p a = true
    · simp only [List.filter_cons, ha, if_true, Bool.not_true, Bool.false_eq_true, if_false,
        List.cons_append]
      rw [ih h.2]
    · have hall : ∀ j ∈ rest, p j = false := by
        intro j hj
        cases hpj : p j with
        | false => rfl
        | true => exact absurd (h.1 j hj hpj) ha
      have e1 : rest.filter p = [] := by
        rw [List.filter_eq_nil_iff]
        intro j hj
        simp [hall j hj]
      have e2 : rest.filter (fun i => !p i) = rest := by
        rw [List.filter_eq_self]
        intro j hj
        simp [hall j hj]
      simp only [Bool.not_eq_true] at ha
      simp [List.filter_cons, ha, e1, e2]

theorem find?_eq_head?_filter (p : Nat → Bool) (xs : List Nat) :
    xs.find? p = (xs.filter p).head? := by
  induction xs with
  | nil => rfl
  | cons a rest ih =>
    by_cases ha : p a = true
    · simp [List.find?_cons, List.filter_cons, ha]
    · simp only [Bool.not_eq_true] at ha
      simp only [List.find?_cons, List.filter_cons, ha, Bool.false_eq_true, if_false]
      exact ih

theorem headD_map_node (s : Bool) (xs : List Nat) :
    (xs.map (Ptr.node s)).headD (Ptr.root s) = xs.head?.elim (Ptr.root s) (Ptr.node s) := by
  cases xs <;> rfl

section
variable {T : Type} {cmp : T → T → Bool} {val : Nat → Option T}

/-- `treap::lower_bound` on a tree under its sentinel: the first node whose value
is not less than `v`, the sentinel if there is none. -/
theorem lower_bound_rooted (hc : StrictWeak cmp) {s : Bool} {m : Mem} {t : NodeTree}
    (h : Rooted m s t) (hv : ∀ i ∈ t.toList, ∃ x, val i = some x)
    (hs : t.toList.Pairwise (idLt cmp val)) (v : T) {fuel : Nat} (hf : t.size < fuel) :
    treap.lower_bound cmp val s fuel m (m.left (Ptr.root s)) v =
      some ((t.toList.filter (fun i => !ltVal cmp val v i)).head?.elim (Ptr.root s)
        (Ptr.node s)) := by
  have hp : ∀ i ∈ t.toList, ∃ x, val i = some x ∧ cmp x v = ltVal cmp val v i := by
    intro i hi
    obtain ⟨x, hx⟩ := hv i hi
    exact ⟨x, hx, (ltVal_of_some hx).symm⟩
  rw [h.root_left, lower_bound_shape cmp val s v (ltVal cmp val v) t fuel m hp h.shape hf,
    NodeTree.lb_find _ t (ltVal_mono hc v hs), find?_eq_head?_filter]

/-- `treap::upper_bound` on a tree under its sentinel: the first node whose value
`v` is less than, the sentinel if there is none. -/
theorem upper_bound_rooted (hc : StrictWeak cmp) {s : Bool} {m : Mem} {t : NodeTree}
    (h : Rooted m s t) (hv : ∀ i ∈ t.toList, ∃ x, val i = some x)
    (hs : t.toList.Pairwise (idLt cmp val)) (v : T) {fuel : Nat} (hf : t.size < fuel) :
    treap.upper_bound cmp val s fuel m (m.left (Ptr.root s)) v =
      some ((t.toList.filter (gtVal cmp val v)).head?.elim (Ptr.root s) (Ptr.node s)) := by
  have hcut := filter_append_of_mono (ltVal cmp val v) t.toList (ltVal_mono hc v hs)
  have hlow := lower_bound_rooted hc h hv hs v hf
  have hA : ∀ i ∈ t.toList.filter (ltVal cmp val v), gtVal cmp val v i = false := by
    intro i hi
    rw [List.mem_filter] at hi
    obtain ⟨x, hx⟩ := hv i hi.1
    have h1 : ltVal cmp val v i = cmp x v := ltVal_of_some hx
    have h2 : gtVal cmp val v i = cmp v x := gtVal_of_some hx
    rw [h2]
    exact hc.asymm (h1 ▸ hi.2)
  have hfA : (t.toList.filter (ltVal cmp val v)).filter (gtVal cmp val v) = [] := by
    rw [List.filter_eq_nil_iff]
    intro i hi
    simp [hA i hi]
  unfold treap.upper_bound
  rw [hlow]
  cases hB : t.toList.filter (fun i => !ltVal cmp val v i) with
  | nil =>
    rw [hB, List.append_nil] at hcut
    rw [← hcut, hfA]
    simp
  | cons i rest =>
    rw [hB] at hcut
    have hi : i ∈ t.toList := by rw [← hcut]; simp
    have hiB : i ∈ t.toList.filter (fun i => !ltVal cmp val v i) := by rw [hB]; simp
    obtain ⟨x, hx⟩ := hv i hi
    have h1 : ltVal cmp val v i = cmp x v := ltVal_of_some hx
    have h2 : gtVal cmp val v i = cmp v x := gtVal_of_some hx
    have hnl : cmp x v = false := by
      rw [List.mem_filter] at hiB
      rw [← h1]
      simpa using hiB.2
    have hsrt : (i :: rest).Pairwise (idLt cmp val) := by
      have := hs
      rw [← hcut] at this
      exact (List.pairwise_append.1 this).2.1
    rw [List.pairwise_cons] at hsrt
    have hval : treap.value val s (Ptr.node s i) = some x := by simp [treap.value, hx]
    simp only [List.head?_cons, Option.elim, ne_eq, reduceCtorEq, not_false_eq_true, if_true,
      hval]
    cases he : treap.equal cmp x v with
    | true =>
      have hrest : ∀ j ∈ rest, gtVal cmp val v j = true := by
        intro j hj
        obtain ⟨a, c, ha, hc', hac⟩ := hsrt.1 j hj
        rw [hx] at ha
        injection ha with ha
        subst ha
        have h3 : gtVal cmp val v j = cmp v c := gtVal_of_some hc'
        rw [h3]
        exact hc.lt_of_equal_of_lt (StrictWeak.equal_symm he) hac
      have hgi : gtVal cmp val v i = false := by
        rw [h2]
        exact ((StrictWeak.equal_iff).1 he).2
      have hfr : rest.filter (gtVal cmp val v) = rest := by
        rw [List.filter_eq_self]
        exact hrest
      simp only [if_true]
      rw [next_rooted h hf hcut.symm, ← hcut, List.filter_append, hfA, List.nil_append,
        List.filter_cons, hgi, hfr]
      cases rest <;> rfl
    | false =>
      have hgi : gtVal cmp val v i = true := by
        rw [h2]
        cases hvx : cmp v x with
        | true => rfl
        | false =>
          have : treap.equal cmp x v = true := (StrictWeak.equal_iff).2 ⟨hnl, hvx⟩
          rw [he] at this
          cases this
      simp only [Bool.false_eq_true, if_false]
      rw [← hcut, List.filter_append, hfA, List.nil_append, List.filter_cons, hgi]
      simp

end

section
variable {T : Type} {cmp : T → T → Bool} {val : Nat → Option T}

/-- Both bounds on a tree under its sentinel, stated on the list of records. -/
theorem bounds_rooted (hc : StrictWeak cmp) {s : Bool} {m : Mem} {t : NodeTree}
    (h : Rooted m s t) (hv : ∀ i ∈ t.toList, ∃ x, val i = some x)
    (hs : t.toList.Pairwise (idLt cmp val)) (v : T) {fuel : Nat} (hf : t.size < fuel) :
    (∃ pre post, t.toList.map (Ptr.node s) = pre ++ post ∧
      (∀ p ∈ pre, ∃ x, treap.value val s p = some x ∧ cmp x v = true) ∧
      (∀ p ∈ post, ∃ x, treap.value val s p = some x ∧ cmp x v = false) ∧
      treap.lower_bound cmp val s fuel m (m.left (Ptr.root s)) v
        = some (post.headD (Ptr.root s))) ∧
    (∃ pre post, t.toList.map (Ptr.node s) = pre ++ post ∧
      (∀ p ∈ pre, ∃ x, treap.value val s p = some x ∧ cmp v x = false) ∧
      (∀ p ∈ post, ∃ x, treap.value val s p = some x ∧ cmp v x = true) ∧
      treap.upper_bound cmp val s fuel m (m.left (Ptr.root s)) v
        = some (post.headD (Ptr.root s))) := by
  constructor
  · refine ⟨(t.toList.filter (ltVal cmp val v)).map (Ptr.node s),
      (t.toList.filter (fun i => !ltVal cmp val v i)).map (Ptr.node s), ?_, ?_, ?_, ?_⟩
    · rw [← List.map_append, filter_append_of_mono _ _ (ltVal_mono hc v hs)]
    · intro p hp
      obtain ⟨i, hi, rfl⟩ := List.mem_map.1 hp
      rw [List.mem_filter] at hi
      obtain ⟨x, hx⟩ := hv i hi.1
      have h1 : ltVal cmp val v i = cmp x v := ltVal_of_some hx
      exact ⟨x, by simp [treap.value, hx], h1 ▸ hi.2⟩
    · intro p hp
      obtain ⟨i, hi, rfl⟩ := List.mem_map.1 hp
      rw [List.mem_filter] at hi
      obtain ⟨x, hx⟩ := hv i hi.1
      have h1 : ltVal cmp val v i = cmp x v := ltVal_of_some hx
      refine ⟨x, by simp [treap.value, hx], ?_⟩
      rw [← h1]
      simpa using hi.2
    · rw [headD_map_node]
      exact lower_bound_rooted hc h hv hs v hf
  · have hmono : t.toList.Pairwise
        (fun i j => (!gtVal cmp val v j) = true → (!gtVal cmp val v i) = true) := by
      refine (gtVal_mono hc v hs).imp ?_
      intro i j hij hj
      cases hgi : gtVal cmp val v i with
      | false => rfl
      | true =>
        rw [hij hgi] at hj
        cases hj
    have hcut := filter_append_of_mono (fun i => !gtVal cmp val v i) t.toList hmono
    simp only [Bool.not_not] at hcut
    refine ⟨(t.toList.filter (fun i => !gtVal cmp val v i)).map (Ptr.node s),
      (t.toList.filter (gtVal cmp val v)).map (Ptr.node s), ?_, ?_, ?_, ?_⟩
    · rw [← List.map_append, hcut]
    · intro p hp
      obtain ⟨i, hi, rfl⟩ := List.mem_map.1 hp
      rw [List.mem_filter] at hi
      obtain ⟨x, hx⟩ := hv i hi.1
      have h1 : gtVal cmp val v i = cmp v x := gtVal_of_some hx
      refine ⟨x, by simp [treap.value, hx], ?_⟩
      rw [← h1]
      simpa using hi.2
    · intro p hp
      obtain ⟨i, hi, rfl⟩ := List.mem_map.1 hp
      rw [List.mem_filter] at hi
      obtain ⟨x, hx⟩ := hv i hi.1
      have h1 : gtVal cmp val v i = cmp v x := gtVal_of_some hx
      exact ⟨x, by simp [treap.value, hx], h1 ▸ hi.2⟩
    · rw [headD_map_node]
      exact upper_bound_rooted hc h hv hs v hf

end

section
variable {L R : Type} {cmpL : L → L → Bool} {cmpR : R → R → Bool}

/-- C11: in every reachable state, the records of the left tree in symmetric
order split as `pre ++ post` with every value in `pre` less than `l` and no value
in `post` less than `l`, and `lower_bound_left(l)` returns the first record of
`post`, or `end_left()` when `post` is empty; they also split as `pre ++ post`
with `l` less than no value in `pre` and less than every value in `post`, and
`upper_bound_left(l)` returns the first record of that `post`, or `end_left()`.
The same holds for `lower_bound_right(r)` and `upper_bound_right(r)` on the
right tree. -/
theorem bounds_locate (hL : StrictWeak cmpL) (hR : StrictWeak cmpR) {b : Bimap L R}
    (hb : Reachable cmpL cmpR b) (l : L) (r : R) :
    (∃ pre post, bimap.nodes true b = some (pre ++ post) ∧
      (∀ p ∈ pre, ∃ x, treap.value b.valL true p = some x ∧ cmpL x l = true) ∧
      (∀ p ∈ post, ∃ x, treap.value b.valL true p = some x ∧ cmpL x l = false) ∧
      bimap.lower_bound_left cmpL b l = some (post.headD bimap.end_left)) ∧
    (∃ pre post, bimap.nodes true b = some (pre ++ post) ∧
      (∀ p ∈ pre, ∃ x, treap.value b.valL true p = some x ∧ cmpL l x = false) ∧
      (∀ p ∈ post, ∃ x, treap.value b.valL true p = some x ∧ cmpL l x = true) ∧
      bimap.upper_bound_left cmpL b l = some (post.headD bimap.end_left)) ∧
    (∃ pre post, bimap.nodes false b = some (pre ++ post) ∧
      (∀ p ∈ pre, ∃ x, treap.value b.valR false p = some x ∧ cmpR x r = true) ∧
      (∀ p ∈ post, ∃ x, treap.value b.valR false p = some x ∧ cmpR x r = false) ∧
      bimap.lower_bound_right cmpR b r = some (post.headD bimap.end_right)) ∧
    (∃ pre post, bimap.nodes false b = some (pre ++ post) ∧
      (∀ p ∈ pre, ∃ x, treap.value b.valR false p = some x ∧ cmpR r x = false) ∧
      (∀ p ∈ post, ∃ x, treap.value b.valR false p = some x ∧ cmpR r x = true) ∧
      bimap.upper_bound_right cmpR b r = some (post.headD bimap.end_right)) := by
  obtain ⟨tl, tr, h⟩ := reachable_inv hL hR hb
  obtain ⟨⟨p1, q1, e1, a1, b1, c1⟩, ⟨p2, q2, e2, a2, b2, c2⟩⟩ :=
    bounds_rooted hL h.left h.valsL h.sortedL l h.size_left_lt
  obtain ⟨⟨p3, q3, e3, a3, b3, c3⟩, ⟨p4, q4, e4, a4, b4, c4⟩⟩ :=
    bounds_rooted hR h.right h.valsR_right h.sortedR r h.size_right_lt
  exact ⟨⟨p1, q1, by rw [h.nodes_left, e1], a1, b1, c1⟩,
    ⟨p2, q2, by rw [h.nodes_left, e2], a2, b2, c2⟩,
    ⟨p3, q3, by rw [h.nodes_right, e3], a3, b3, c3⟩,
    ⟨p4, q4, by rw [h.nodes_right, e4], a4, b4, c4⟩⟩

/-- C11 at a concrete input: the four bounds at `2` and `25` on the bimap that
holds `(1, 10)`, `(2, 20)`, `(3, 30)`. -/
theorem bounds_locate_witness :
    Reachable natLt natLt demo3 ∧
    bimap.lower_bound_left natLt demo3 2 = some (Ptr.node true 1) ∧
    bimap.upper_bound_left natLt demo3 2 = some (Ptr.node true 2) ∧
    bimap.lower_bound_right natLt demo3 25 = some (Ptr.node false 2) ∧
    bimap.upper_bound_right natLt demo3 30 = some bimap.end_right ∧
    (∃ pre post, bimap.nodes true demo3 = some (pre ++ post) ∧
      (∀ p ∈ pre, ∃ x, treap.value demo3.valL true p = some x ∧ natLt x 2 = true) ∧
      (∀ p ∈ post, ∃ x, treap.value demo3.valL true p = some x ∧ natLt x 2 = false) ∧
      bimap.lower_bound_left natLt demo3 2 = some (post.headD bimap.end_left)) ∧
    (∃ pre post, bimap.nodes true demo3 = some (pre ++ post) ∧
      (∀ p ∈ pre, ∃ x, treap.value demo3.valL true p = some x ∧ natLt 2 x = false) ∧
      (∀ p ∈ post, ∃ x, treap.value demo3.valL true p = some x ∧ natLt 2 x = true) ∧
      bimap.upper_bound_left natLt demo3 2 = some (post.headD bimap.end_left)) ∧
    (∃ pre post, bimap.nodes false demo3 = some (pre ++ post) ∧
      (∀ p ∈ pre, ∃ x, treap.value demo3.valR false p = some x ∧ natLt x 25 = true) ∧
      (∀ p ∈ post, ∃ x, treap.value demo3.valR false p = some x ∧ natLt x 25 = false) ∧
      bimap.lower_bound_right natLt demo3 25 = some (post.headD bimap.end_right)) ∧
    (∃ pre post, bimap.nodes false demo3 = some (pre ++ post) ∧
      (∀ p ∈ pre, ∃ x, treap.value demo3.valR false p = some x ∧ natLt 25 x = false) ∧
      (∀ p ∈ post, ∃ x, treap.value demo3.valR false p = some x ∧ natLt 25 x = true) ∧
      bimap.upper_bound_right natLt demo3 25 = some (post.headD bimap.end_right)) :=
  ⟨demo3_reachable, by decide, by decide, by decide, by decide,
    bounds_locate natLt_strictWeak natLt_strictWeak demo3_reachable 2 25⟩

end


/-- Filtering one entry out of a list without repetitions removes just that
entry. -/
theorem filter_ne_split {xs : List Nat} (hn : xs.Nodup) {i : Nat} (hi : i ∈ xs) :
    ∃ pre post, xs = pre ++ i :: post ∧ xs.filter (fun k => decide (k ≠ i)) = pre ++ post := by
  obtain ⟨pre, post, rfl⟩ := List.append_of_mem hi
  refine ⟨pre, post, rfl, ?_⟩
  have hn' := hn
  rw [List.nodup_append] at hn'
  obtain ⟨_, h2, h3⟩ := hn'
  have hpre : i ∉ pre := fun hp => h3 hp (by simp)
  have hpost : i ∉ post := (List.nodup_cons.1 h2).1
  rw [List.filter_append, List.filter_cons]
  have e1 : pre.filter (fun k => decide (k ≠ i)) = pre := by
    rw [List.filter_eq_self]
    intro k hk
    simpa using fun hki : k = i => hpre (hki ▸ hk)
  have e2 : post.filter (fun k => decide (k ≠ i)) = post := by
    rw [List.filter_eq_self]
    intro k hk
    simpa using fun hki : k = i => hpost (hki ▸ hk)
  rw [e1, e2]
  simp

theorem pairAt_congr {L R : Type} {b b' : Bimap L R} (hl : b'.valL = b.valL)
    (hr : b'.valR = b.valR) : pairAt b' = pairAt b := by
  funext i
  simp [pairAt, hl, hr]

section
variable {L R : Type} {cmpL : L → L → Bool} {cmpR : R → R → Bool}

/-- What an observer sees when dual node `i` has left both trees: its pair is
gone from either sequence, and nothing else has moved. -/
theorem remove_observed {b b' : Bimap L R} {tl tr tl' tr' : NodeTree}
    (h : BimapInv cmpL cmpR b tl tr) {i : Nat} (hi : i ∈ tl.toList)
    (el : tl'.toList = tl.toList.filter (fun k => decide (k ≠ i)))
    (er : tr'.toList = tr.toList.filter (fun k => decide (k ≠ i)))
    (hc : b'.cnt_elem = b.cnt_elem - 1) :
    ∃ x y prel postl prer postr, b.valL i = some x ∧ b.valR i = some y ∧
      pairAt b i = some (x, y) ∧
      tl.toList = prel ++ i :: postl ∧ tl'.toList = prel ++ postl ∧
      tr.toList = prer ++ i :: postr ∧ tr'.toList = prer ++ postr ∧
      bimap.size b' + 1 = bimap.size b := by
  obtain ⟨x, hx⟩ := h.valsL i hi
  obtain ⟨y, hy⟩ := h.valsR i hi
  obtain ⟨prel, postl, e1, f1⟩ := filter_ne_split h.left.nodup hi
  obtain ⟨prer, postr, e2, f2⟩ := filter_ne_split h.right.nodup (h.perm.mem_iff.1 hi)
  refine ⟨x, y, prel, postl, prer, postr, hx, hy, by simp [pairAt, hx, hy], e1, el.trans f1, e2,
    er.trans f2, ?_⟩
  have hcnt := h.cnt
  have hlen : 0 < tl.toList.length := List.length_pos_of_mem hi
  simp only [bimap.size, hc]
  omega

/-- C12: in every reachable state `erase_left(l)` returns; it returns true
exactly when some stored left value is equivalent to `l`; when it returns false
the state is the one it was given; when it returns true, `size()` has gone down
by one and the pair with the left value equivalent to `l` has been taken out of
the sequence of pairs of either projection, every other pair staying where it
was.  The same holds for `erase_right(r)` with the right values. -/
theorem erase_key_removes_pair (hL : StrictWeak cmpL) (hR : StrictWeak cmpR) {b : Bimap L R}
    (hb : Reachable cmpL cmpR b) (l : L) (r : R) :
    (∃ b' res, bimap.erase_left_key cmpL b l = some (b', res) ∧
      (res = true ↔ ∃ it x, Live true b it ∧ treap.value b.valL true it = some x ∧
        treap.equal cmpL x l = true) ∧
      (res = false → b' = b) ∧
      (res = true → bimap.size b' + 1 = bimap.size b ∧
        ∃ x y ps1 ps2 qs1 qs2, treap.equal cmpL x l = true ∧
          bimap.pairs true b = some (ps1 ++ some (x, y) :: ps2) ∧
          bimap.pairs true b' = some (ps1 ++ ps2) ∧
          bimap.pairs false b = some (qs1 ++ some (x, y) :: qs2) ∧
          bimap.pairs false b' = some (qs1 ++ qs2))) ∧
    (∃ b' res, bimap.erase_right_key cmpR b r = some (b', res) ∧
      (res = true ↔ ∃ it y, Live false b it ∧ treap.value b.valR false it = some y ∧
        treap.equal cmpR y r = true) ∧
      (res = false → b' = b) ∧
      (res = true → bimap.size b' + 1 = bimap.size b ∧
        ∃ x y ps1 ps2 qs1 qs2, treap.equal cmpR y r = true ∧
          bimap.pairs true b = some (ps1 ++ some (x, y) :: ps2) ∧
          bimap.pairs true b' = some (ps1 ++ ps2) ∧
          bimap.pairs false b = some (qs1 ++ some (x, y) :: qs2) ∧
          bimap.pairs false b' = some (qs1 ++ qs2))) := by
  obtain ⟨tl, tr, h⟩ := reachable_inv hL hR hb
  constructor
  · obtain ⟨a1, a2⟩ := erase_left_key_inv hL h l
    by_cases hex : ∃ i x, i ∈ tl.toList ∧ b.valL i = some x ∧ treap.equal cmpL x l = true
    · obtain ⟨i, x, hi, hx, he⟩ := hex
      obtain ⟨b', tl', tr', e, h', el, er, hvl, hvr, _, hc⟩ := a2 i x hi hx he
      obtain ⟨x', y, prel, postl, prer, postr, hx', hy, hp, e1, e1', e2, e2', hsz⟩ :=
        remove_observed h hi el er hc
      have hxx : x' = x := by rw [hx] at hx'; injection hx' with hx'; exact hx'.symm
      subst hxx
      have hpa := pairAt_congr hvl hvr
      refine ⟨b', true, e, ⟨fun _ => ⟨Ptr.node true i, x', h.live_left.2 ⟨i, hi, rfl⟩,
        by simp [treap.value, hx], he⟩, fun _ => rfl⟩, (fun hf => by cases hf), fun _ => ⟨hsz,
        x', y, prel.map (pairAt b), postl.map (pairAt b), prer.map (pairAt b),
        postr.map (pairAt b), he, ?_, ?_, ?_, ?_⟩⟩
      · rw [h.pairs_left, e1]; simp [hp]
      · rw [h'.pairs_left, e1', hpa]; simp
      · rw [h.pairs_right, e2]; simp [hp]
      · rw [h'.pairs_right, e2', hpa]; simp
    · have hne : ∀ i ∈ tl.toList, ∀ x, b.valL i = some x → treap.equal cmpL x l = false := by
        intro i hi x hx
        cases he : treap.equal cmpL x l with
        | false => rfl
        | true => exact absurd ⟨i, x, hi, hx, he⟩ hex
      refine ⟨b, false, a1 hne, ⟨(fun hf => by cases hf), ?_⟩, fun _ => rfl, fun hf => by cases hf⟩
      rintro ⟨it, x, hlive, hx, he⟩
      obtain ⟨i, hi, _, hxi⟩ := h.stored_left hlive hx
      rw [hne i hi x hxi] at he
      cases he
  · obtain ⟨a1, a2⟩ := erase_right_key_inv hR h r
    by_cases hex : ∃ i y, i ∈ tl.toList ∧ b.valR i = some y ∧ treap.equal cmpR y r = true
    · obtain ⟨i, y, hi, hy, he⟩ := hex
      obtain ⟨b', tl', tr', e, h', el, er, hvl, hvr, _, hc⟩ := a2 i y hi hy he
      obtain ⟨x, y', prel, postl, prer, postr, hx, hy', hp, e1, e1', e2, e2', hsz⟩ :=
        remove_observed h hi el er hc
      have hyy : y' = y := by rw [hy] at hy'; injection hy' with hy'; exact hy'.symm
      subst hyy
      have hpa := pairAt_congr hvl hvr
      refine ⟨b', true, e, ⟨fun _ => ⟨Ptr.node false i, y', h.live_right.2
        ⟨i, h.perm.mem_iff.1 hi, rfl⟩, by simp [treap.value, hy], he⟩, fun _ => rfl⟩,
        (fun hf => by cases hf), fun _ => ⟨hsz,
        x, y', prel.map (pairAt b), postl.map (pairAt b), prer.map (pairAt b),
        postr.map (pairAt b), he, ?_, ?_, ?_, ?_⟩⟩
      · rw [h.pairs_left, e1]; simp [hp]
      · rw [h'.pairs_left, e1', hpa]; simp
      · rw [h.pairs_right, e2]; simp [hp]
      · rw [h'.pairs_right, e2', hpa]; simp
    · have hne : ∀ i ∈ tl.toList, ∀ y, b.valR i = some y → treap.equal cmpR y r = false := by
        intro i hi y hy
        cases he : treap.equal cmpR y r with
        | false => rfl
        | true => exact absurd ⟨i, y, hi, hy, he⟩ hex
      refine ⟨b, false, a1 hne, ⟨(fun hf => by cases hf), ?_⟩, fun _ => rfl, fun hf => by cases hf⟩
      rintro ⟨it, y, hlive, hy, he⟩
      obtain ⟨i, hi, _, hyi⟩ := h.stored_right hlive hy
      rw [hne i (h.perm.mem_iff.2 hi) y hyi] at he
      cases he

end

section
variable {L R : Type} {cmpL : L → L → Bool} {cmpR : R → R → Bool}

/-- C12 at a concrete input: `erase_left(2)` and `erase_right(40)` on the bimap
that holds `(1, 10)`, `(2, 20)`, `(3, 30)`. -/
theorem erase_key_removes_pair_witness :
    Reachable natLt natLt demo3 ∧
    (bimap.erase_left_key natLt demo3 2).map Prod.snd = some true ∧
    bimap.erase_right_key natLt demo3 40 = some (demo3, false) ∧
    (∃ b' res, bimap.erase_left_key natLt demo3 2 = some (b', res) ∧
      (res = true ↔ ∃ it x, Live true demo3 it ∧ treap.value demo3.valL true it = some x ∧
        treap.equal natLt x 2 = true) ∧
      (res = false → b' = demo3) ∧
      (res = true → bimap.size b' + 1 = bimap.size demo3 ∧
        ∃ x y ps1 ps2 qs1 qs2, treap.equal natLt x 2 = true ∧
          bimap.pairs true demo3 = some (ps1 ++ some (x, y) :: ps2) ∧
          bimap.pairs true b' = some (ps1 ++ ps2) ∧
          bimap.pairs false demo3 = some (qs1 ++ some (x, y) :: qs2) ∧
          bimap.pairs false b' = some (qs1 ++ qs2))) ∧
    (∃ b' res, bimap.erase_right_key natLt demo3 40 = some (b', res) ∧
      (res = true ↔ ∃ it y, Live false demo3 it ∧ treap.value demo3.valR false it = some y ∧
        treap.equal natLt y 40 = true) ∧
      (res = false → b' = demo3) ∧
      (res = true → bimap.size b' + 1 = bimap.size demo3 ∧
        ∃ x y ps1 ps2 qs1 qs2, treap.equal natLt y 40 = true ∧
          bimap.pairs true demo3 = some (ps1 ++ some (x, y) :: ps2) ∧
          bimap.pairs true b' = some (ps1 ++ ps2) ∧
          bimap.pairs false demo3 = some (qs1 ++ some (x, y) :: qs2) ∧
          bimap.pairs false b' = some (qs1 ++ qs2))) :=
  ⟨demo3_reachable, by decide, by rfl,
    erase_key_removes_pair natLt_strictWeak natLt_strictWeak demo3_reachable 2 40⟩

/-- The records that stay keep their pairs when only `mem` and `cnt_elem`
change. -/
theorem pair_of_kept {b b' : Bimap L R} {t t' : NodeTree} (s : Bool) (h : Rooted b.mem s t)
    (h' : Rooted b'.mem s t') (hsub : ∀ j ∈ t'.toList, j ∈ t.toList)
    (hvl : b'.valL = b.valL) (hvr : b'.valR = b.valR) :
    ∀ p ∈ t'.toList.map (Ptr.node s), bimap.pair_of s b' p = bimap.pair_of s b p := by
  intro p hp
  obtain ⟨j, hj, rfl⟩ := List.mem_map.1 hp
  cases s with
  | true => rw [pair_of_left h' hj, pair_of_left h (hsub j hj), pairAt_congr hvl hvr]
  | false => rw [pair_of_right h' hj, pair_of_right h (hsub j hj), pairAt_congr hvl hvr]

/-- C13: in every reachable state, for an iterator `it` of projection `side`
that refers to an element, `erase_left(it)` (`side = true`) or `erase_right(it)`
(`side = false`) returns; the records of that projection were `pre ++ it :: post`
and are `pre ++ post` afterwards; the result is the first record of `post`, or
the end iterator when `post` is empty; in the other projection the partner `it'`
of `it`, which stands for the same pair, has been taken out in the same way;
every remaining record of either projection stands for the pair it stood for;
and `size()` has gone down by one. -/
theorem erase_it_removes_pair (hL : StrictWeak cmpL) (hR : StrictWeak cmpR) {b : Bimap L R}
    (hb : Reachable cmpL cmpR b) (side : Bool) (it : Ptr) (hlive : Live side b it) :
    ∃ b' res pre post it' pre' post' pr, bimap.erase_it side b it = some (b', res) ∧
      bimap.nodes side b = some (pre ++ it :: post) ∧
      bimap.nodes side b' = some (pre ++ post) ∧
      res = post.headD (Ptr.root side) ∧
      bimap.flip side b.mem it = some it' ∧
      bimap.nodes (!side) b = some (pre' ++ it' :: post') ∧
      bimap.nodes (!side) b' = some (pre' ++ post') ∧
      bimap.pair_of side b it = some pr ∧ bimap.pair_of (!side) b it' = some pr ∧
      (∀ p ∈ pre ++ post, bimap.pair_of side b' p = bimap.pair_of side b p) ∧
      (∀ q ∈ pre' ++ post', bimap.pair_of (!side) b' q = bimap.pair_of (!side) b q) ∧
      bimap.size b' + 1 = bimap.size b := by
  obtain ⟨tl, tr, h⟩ := reachable_inv hL hR hb
  cases side with
  | true =>
    obtain ⟨i, hi, rfl⟩ := h.live_left.1 hlive
    obtain ⟨b', tl', tr', res, e, h', el, er, hvl, hvr, _, hc, hres⟩ := erase_it_left_inv h hi
    obtain ⟨x, y, prel, postl, prer, postr, hx, hy, hp, e1, e1', e2, e2', hsz⟩ :=
      remove_observed h hi el er hc
    have hir : i ∈ tr.toList := h.perm.mem_iff.1 hi
    refine ⟨b', res, prel.map (Ptr.node true), postl.map (Ptr.node true), Ptr.node false i,
      prer.map (Ptr.node false), postr.map (Ptr.node false), (x, y), e, ?_, ?_, ?_,
      flip_rooted h.left hi, ?_, ?_, ?_, ?_, ?_, ?_, hsz⟩
    all_goals try simp only [Bool.not_true]
    · rw [h.nodes_left, e1]; simp
    · rw [h'.nodes_left, e1']; simp
    · rw [hres prel postl e1, headD_map_node]
    · rw [h.nodes_right, e2]; simp
    · rw [h'.nodes_right, e2']; simp
    · rw [pair_of_left h.left hi, hp]
    · exact (pair_of_right h.right hir).trans hp
    · have := pair_of_kept true h.left h'.left
        (fun j hj => by rw [el] at hj; exact (List.mem_filter.1 hj).1) hvl hvr
      rw [e1', List.map_append] at this
      exact this
    · have := pair_of_kept false h.right h'.right
        (fun j hj => by rw [er] at hj; exact (List.mem_filter.1 hj).1) hvl hvr
      rw [e2', List.map_append] at this
      exact this
  | false =>
    obtain ⟨i, hir, rfl⟩ := h.live_right.1 hlive
    have hi : i ∈ tl.toList := h.perm.mem_iff.2 hir
    obtain ⟨b', tl', tr', res, e, h', el, er, hvl, hvr, _, hc, hres⟩ := erase_it_right_inv h hir
    obtain ⟨x, y, prel, postl, prer, postr, hx, hy, hp, e1, e1', e2, e2', hsz⟩ :=
      remove_observed h hi el er hc
    refine ⟨b', res, prer.map (Ptr.node false), postr.map (Ptr.node false), Ptr.node true i,
      prel.map (Ptr.node true), postl.map (Ptr.node true), (x, y), e, ?_, ?_, ?_,
      flip_rooted h.right hir, ?_, ?_, ?_, ?_, ?_, ?_, hsz⟩
    all_goals try simp only [Bool.not_false]
    · rw [h.nodes_right, e2]; simp
    · rw [h'.nodes_right, e2']; simp
    · rw [hres prer postr e2, headD_map_node]
    · rw [h.nodes_left, e1]; simp
    · rw [h'.nodes_left, e1']; simp
    · rw [pair_of_right h.right hir, hp]
    · exact (pair_of_left h.left hi).trans hp
    · have := pair_of_kept false h.right h'.right
        (fun j hj => by rw [er] at hj; exact (List.mem_filter.1 hj).1) hvl hvr
      rw [e2', List.map_append] at this
      exact this
    · have := pair_of_kept true h.left h'.left
        (fun j hj => by rw [el] at hj; exact (List.mem_filter.1 hj).1) hvl hvr
      rw [e1', List.map_append] at this
      exact this

/-- C13 at a concrete input: `erase_left(it)` with `it` at `2` on the bimap that
holds `(1, 10)`, `(2, 20)`, `(3, 30)`; the result is the iterator at `3`. -/
theorem erase_it_removes_pair_witness :
    Reachable natLt natLt demo3 ∧ Live true demo3 (Ptr.node true 1) ∧
    (bimap.erase_it true demo3 (Ptr.node true 1)).map Prod.snd = some (Ptr.node true 2) ∧
    ∃ b' res pre post it' pre' post' pr,
      bimap.erase_it true demo3 (Ptr.node true 1) = some (b', res) ∧
      bimap.nodes true demo3 = some (pre ++ Ptr.node true 1 :: post) ∧
      bimap.nodes true b' = some (pre ++ post) ∧
      res = post.headD (Ptr.root true) ∧
      bimap.flip true demo3.mem (Ptr.node true 1) = some it' ∧
      bimap.nodes (!true) demo3 = some (pre' ++ it' :: post') ∧
      bimap.nodes (!true) b' = some (pre' ++ post') ∧
      bimap.pair_of true demo3 (Ptr.node true 1) = some pr ∧
      bimap.pair_of (!true) demo3 it' = some pr ∧
      (∀ p ∈ pre ++ post, bimap.pair_of true b' p = bimap.pair_of true demo3 p) ∧
      (∀ q ∈ pre' ++ post', bimap.pair_of (!true) b' q = bimap.pair_of (!true) demo3 q) ∧
      bimap.size b' + 1 = bimap.size demo3 :=
  ⟨demo3_reachable, ⟨_, demo3_nodes_left, by simp⟩, by decide,
    erase_it_removes_pair natLt_strictWeak natLt_strictWeak demo3_reachable true (Ptr.node true 1)
      ⟨_, demo3_nodes_left, by simp⟩⟩

end


section
variable {T : Type} {cmp : T → T → Bool} {val : Nat → Option T}

/-- In a strictly increasing list, the nodes below the value of node `i` are the
ones before `i`. -/
theorem filter_lt_at (hc : StrictWeak cmp) {pre post : List Nat} {i : Nat} {v : T}
    (hs : (pre ++ i :: post).Pairwise (idLt cmp val)) (hv : val i = some v) :
    (pre ++ i :: post).filter (ltVal cmp val v) = pre ∧
      (pre ++ i :: post).filter (fun k => !ltVal cmp val v k) = i :: post := by
  rw [List.pairwise_append, List.pairwise_cons] at hs
  obtain ⟨_, ⟨hip, _⟩, hpre⟩ := hs
  have h1 : ∀ k ∈ pre, ltVal cmp val v k = true := by
    intro k hk
    obtain ⟨a, c, ha, hc', hac⟩ := hpre k hk i (by simp)
    rw [hv] at hc'
    injection hc' with hc'
    have : ltVal cmp val v k = cmp a v := ltVal_of_some ha
    rw [this, hc']
    exact hac
  have h2 : ltVal cmp val v i = false := by
    have : ltVal cmp val v i = cmp v v := ltVal_of_some hv
    rw [this]
    exact hc.irrefl v
  have h3 : ∀ k ∈ post, ltVal cmp val v k = false := by
    intro k hk
    obtain ⟨a, c, ha, hc', hac⟩ := hip k hk
    rw [hv] at ha
    injection ha with ha
    have : ltVal cmp val v k = cmp c v := ltVal_of_some hc'
    rw [this, ha]
    exact hc.asymm hac
  have e1 : pre.filter (ltVal cmp val v) = pre := List.filter_eq_self.2 h1
  have e2 : post.filter (ltVal cmp val v) = [] :=
    List.filter_eq_nil_iff.2 (fun k hk => by simp [h3 k hk])
  have e3 : pre.filter (fun k => !ltVal cmp val v k) = [] :=
    List.filter_eq_nil_iff.2 (fun k hk => by simp [h1 k hk])
  have e4 : post.filter (fun k => !ltVal cmp val v k) = post :=
    List.filter_eq_self.2 (fun k hk => by simp [h3 k hk])
  constructor
  · rw [List.filter_append, List.filter_cons, e1, e2]
    simp [h2]
  · rw [List.filter_append, List.filter_cons, e3, e4]
    simp [h2]

/-- The three parts `treap::remove(iterator, iterator)` cuts a sorted tree into
are the nodes before `first`, the nodes from `first` up to `last`, and the nodes
from `last` on. -/
theorem range_parts (hc : StrictWeak cmp) {s : Bool} {t : NodeTree}
    (hs : t.toList.Pairwise (idLt cmp val)) {pre mid post : List Nat}
    (hl : t.toList = pre ++ (mid ++ post)) {i1 : Nat} {v1 : T}
    (h1 : (mid ++ post).head? = some i1) (hv1 : val i1 = some v1) {last : Ptr}
    (hlast : last = post.head?.elim (Ptr.root s) (Ptr.node s)) {A D C : NodeTree}
    (hA : A = (t.split (ltVal cmp val v1)).1)
    (hcase : (last = Ptr.root s ∧ D = (t.split (ltVal cmp val v1)).2 ∧ C = NodeTree.nil) ∨
      (last ≠ Ptr.root s ∧ ∃ v2, treap.value val s last = some v2 ∧
        D = ((t.split (ltVal cmp val v1)).2.split (ltVal cmp val v2)).1 ∧
        C = ((t.split (ltVal cmp val v1)).2.split (ltVal cmp val v2)).2)) :
    A.toList = pre ∧ D.toList = mid ∧ C.toList = post := by
  obtain ⟨fa, fb⟩ := NodeTree.split_filter (ltVal cmp val v1) t (ltVal_mono hc v1 hs)
  obtain ⟨rest, hrest⟩ : ∃ rest, mid ++ post = i1 :: rest := by
    cases hmp : mid ++ post with
    | nil => rw [hmp] at h1; cases h1
    | cons a rest =>
      rw [hmp] at h1
      simp only [List.head?_cons, Option.some.injEq] at h1
      exact ⟨rest, by rw [h1]⟩
  have hs' := hs
  rw [hl, hrest] at hs'
  obtain ⟨g1, g2⟩ := filter_lt_at hc hs' hv1
  rw [hl, hrest] at fa fb
  rw [g1] at fa
  rw [g2, ← hrest] at fb
  refine ⟨by rw [hA, fa], ?_⟩
  have hsB : (mid ++ post).Pairwise (idLt cmp val) := by
    rw [hl] at hs
    exact (List.pairwise_append.1 hs).2.1
  rcases hcase with ⟨hroot, hD, hC⟩ | ⟨hnroot, v2, hv2, hD, hC⟩
  · have hpost : post = [] := by
      cases post with
      | nil => rfl
      | cons j post' =>
        rw [hlast] at hroot
        simp [Option.elim] at hroot
    subst hpost
    rw [hD, hC, fb]
    simp [NodeTree.toList]
  · cases post with
    | nil =>
      rw [hlast] at hnroot
      exact absurd rfl hnroot
    | cons i2 post' =>
      have hl2 : last = Ptr.node s i2 := hlast
      rw [hl2] at hv2
      have hv2' : val i2 = some v2 := by simpa [treap.value] using hv2
      have hsB' : ((t.split (ltVal cmp val v1)).2).toList.Pairwise (idLt cmp val) := by
        rw [fb]; exact hsB
      obtain ⟨fa2, fb2⟩ := NodeTree.split_filter (ltVal cmp val v2) _ (ltVal_mono hc v2 hsB')
      rw [fb] at fa2 fb2
      obtain ⟨k1, k2⟩ := filter_lt_at hc hsB hv2'
      rw [k1] at fa2
      rw [k2] at fb2
      exact ⟨by rw [hD, fa2], by rw [hC, fb2]⟩

end

section
variable {L R : Type} {cmpL : L → L → Bool} {cmpR : R → R → Bool}

/-- `erase_left(first, last)` on a state that satisfies the invariant, with the
left tree cut as `pre ++ (mid ++ post)`, `first` at the head of `mid ++ post` and
`last` at the head of `post` (the end iterator when `post` is empty): the nodes
`mid` leave both trees and nothing else moves. -/
theorem erase_left_range_exact (hL : StrictWeak cmpL) {b : Bimap L R} {tl tr : NodeTree}
    (h : BimapInv cmpL cmpR b tl tr) {pre mid post : List Nat}
    (hl : tl.toList = pre ++ (mid ++ post)) {i1 : Nat} (h1 : (mid ++ post).head? = some i1)
    {last : Ptr} (hlast : last = post.head?.elim (Ptr.root true) (Ptr.node true)) :
    ∃ b' tl' tr', bimap.erase_left_range cmpL b (Ptr.node true i1) last = some (b', last) ∧
      BimapInv cmpL cmpR b' tl' tr' ∧ tl'.toList = pre ++ post ∧
      tr'.toList = tr.toList.filter (fun k => decide (k ∉ mid)) ∧
      b'.valL = b.valL ∧ b'.valR = b.valR ∧ b'.nextId = b.nextId ∧
      b'.cnt_elem = b.cnt_elem - mid.length := by
  have hi1 : i1 ∈ tl.toList := by
    rw [hl]
    exact List.mem_append_right _ (List.mem_of_mem_head? h1)
  obtain ⟨v1, hv1⟩ := h.valsL i1 hi1
  have hl2 : last = Ptr.root true ∨ ∃ v2, treap.value b.valL true last = some v2 := by
    cases post with
    | nil => exact Or.inl hlast
    | cons i2 post' =>
      obtain ⟨v2, hv2⟩ := h.valsL i2 (by rw [hl]; simp)
      exact Or.inr ⟨v2, by rw [hlast]; simp [treap.value, hv2]⟩
  have hv1' : treap.value b.valL true (Ptr.node true i1) = some v1 := by simp [treap.value, hv1]
  obtain ⟨m2, A, D, C, e, r1, r2, hl', hA, hcase⟩ := erase_range_rooted cmpL b.valL true false
    rfl b h.left h.right (fun i hi => h.perm.mem_iff.1 hi) h.valsL h.size_left_lt
    h.size_right_lt hv1' hl2
  obtain ⟨eA, eD, eC⟩ := range_parts hL h.sortedL hl h1 hv1 hlast hA hcase
  have hn : (A.toList ++ (D.toList ++ C.toList)).Nodup := by rw [hl']; exact h.left.nodup
  have hnD : D.toList.Nodup := (List.nodup_append.1 (List.nodup_append.1 hn).2.1).1
  have el : (NodeTree.merge (fun k => b.mem.priority (Ptr.node true k)) A C).toList
      = tl.toList.filter (fun k => decide (k ∉ D.toList)) := by
    rw [NodeTree.merge_toList_eq, ← hl', filter_not_mem_middle (fun _ => Iff.rfl) hn]
  have er : (tr.delAll (fun k => b.mem.priority (Ptr.node false k)) D.postorder).toList
      = tr.toList.filter (fun k => decide (k ∉ D.toList)) := by
    rw [(NodeTree.delAll_toList _ _ tr h.right.nodup).2, filter_postorder]
  have hinv := inv_range h hnD r1 r2 el er (fun k hk => by
    rw [← hl']; exact List.mem_append_right _ (List.mem_append_left _ hk))
  rw [NodeTree.length_toList] at hinv
  refine ⟨_, _, _, e, hinv, ?_, ?_, rfl, rfl, rfl, ?_⟩
  · rw [NodeTree.merge_toList_eq, eA, eC]
  · rw [er, eD]
  · show b.cnt_elem - D.size = b.cnt_elem - mid.length
    rw [← NodeTree.length_toList, eD]

/-- `erase_right(first, last)` on a state that satisfies the invariant; the
mirror image of `erase_left_range_exact`. -/
theorem erase_right_range_exact (hR : StrictWeak cmpR) {b : Bimap L R} {tl tr : NodeTree}
    (h : BimapInv cmpL cmpR b tl tr) {pre mid post : List Nat}
    (hl : tr.toList = pre ++ (mid ++ post)) {i1 : Nat} (h1 : (mid ++ post).head? = some i1)
    {last : Ptr} (hlast : last = post.head?.elim (Ptr.root false) (Ptr.node false)) :
    ∃ b' tl' tr', bimap.erase_right_range cmpR b (Ptr.node false i1) last = some (b', last) ∧
      BimapInv cmpL cmpR b' tl' tr' ∧ tr'.toList = pre ++ post ∧
      tl'.toList = tl.toList.filter (fun k => decide (k ∉ mid)) ∧
      b'.valL = b.valL ∧ b'.valR = b.valR ∧ b'.nextId = b.nextId ∧
      b'.cnt_elem = b.cnt_elem - mid.length := by
  have hi1 : i1 ∈ tr.toList := by
    rw [hl]
    exact List.mem_append_right _ (List.mem_of_mem_head? h1)
  obtain ⟨v1, hv1⟩ := h.valsR_right i1 hi1
  have hl2 : last = Ptr.root false ∨ ∃ v2, treap.value b.valR false last = some v2 := by
    cases post with
    | nil => exact Or.inl hlast
    | cons i2 post' =>
      obtain ⟨v2, hv2⟩ := h.valsR_right i2 (by rw [hl]; simp)
      exact Or.inr ⟨v2, by rw [hlast]; simp [treap.value, hv2]⟩
  have hv1' : treap.value b.valR false (Ptr.node false i1) = some v1 := by
    simp [treap.value, hv1]
  obtain ⟨m2, A, D, C, e, r1, r2, hl', hA, hcase⟩ := erase_range_rooted cmpR b.valR false true
    rfl b h.right h.left (fun i hi => h.perm.mem_iff.2 hi) h.valsR_right h.size_right_lt
    h.size_left_lt hv1' hl2
  obtain ⟨eA, eD, eC⟩ := range_parts hR h.sortedR hl h1 hv1 hlast hA hcase
  have hn : (A.toList ++ (D.toList ++ C.toList)).Nodup := by rw [hl']; exact h.right.nodup
  have hnD : D.toList.Nodup := (List.nodup_append.1 (List.nodup_append.1 hn).2.1).1
  have er : (NodeTree.merge (fun k => b.mem.priority (Ptr.node false k)) A C).toList
      = tr.toList.filter (fun k => decide (k ∉ D.toList)) := by
    rw [NodeTree.merge_toList_eq, ← hl', filter_not_mem_middle (fun _ => Iff.rfl) hn]
  have el : (tl.delAll (fun k => b.mem.priority (Ptr.node true k)) D.postorder).toList
      = tl.toList.filter (fun k => decide (k ∉ D.toList)) := by
    rw [(NodeTree.delAll_toList _ _ tl h.left.nodup).2, filter_postorder]
  have hinv := inv_range h hnD r2 r1 el er (fun k hk => by
    apply h.perm.mem_iff.2
    rw [← hl']; exact List.mem_append_right _ (List.mem_append_left _ hk))
  rw [NodeTree.length_toList] at hinv
  refine ⟨_, _, _, e, hinv, ?_, ?_, rfl, rfl, rfl, ?_⟩
  · rw [NodeTree.merge_toList_eq, eA, eC]
  · rw [el, eD]
  · show b.cnt_elem - D.size = b.cnt_elem - mid.length
    rw [← NodeTree.length_toList, eD]

end


theorem map_node_split (s : Bool) {xs : List Nat} {pre mid post : List Ptr}
    (h : xs.map (Ptr.node s) = pre ++ (mid ++ post)) :
    ∃ pre' mid' post', xs = pre' ++ (mid' ++ post') ∧ pre = pre'.map (Ptr.node s) ∧
      mid = mid'.map (Ptr.node s) ∧ post = post'.map (Ptr.node s) := by
  obtain ⟨a, r, rfl, ha, hr⟩ := List.map_eq_append_iff.1 h
  obtain ⟨c, d, rfl, hc, hd⟩ := List.map_eq_append_iff.1 hr
  exact ⟨a, c, d, rfl, ha.symm, hc.symm, hd.symm⟩

/-- Dropping the nodes `D` from the records of the other projection is dropping
the partners of the records of `D`. -/
theorem partners_filter (s : Bool) (m : Mem) {D : List Nat}
    (hD : ∀ k ∈ D, bimap.flip s m (Ptr.node s k) = some (Ptr.node (!s) k)) (ys : List Nat) :
    (ys.filter (fun k => decide (k ∉ D))).map (Ptr.node (!s)) =
      (ys.map (Ptr.node (!s))).filter
        (fun q => decide (some q ∉ (D.map (Ptr.node s)).map (bimap.flip s m))) := by
  rw [List.filter_map]
  congr 1
  apply List.filter_congr
  intro k _
  have : (some (Ptr.node (!s) k) ∈ (D.map (Ptr.node s)).map (bimap.flip s m)) ↔ k ∈ D := by
    simp only [List.map_map, List.mem_map, Function.comp]
    constructor
    · rintro ⟨j, hj, e⟩
      rw [hD j hj] at e
      injection e with e
      injection e with _ e
      exact e ▸ hj
    · intro hk
      exact ⟨k, hk, hD k hk⟩
  simp only [Function.comp_apply, decide_eq_decide]
  first
    | exact not_congr this
    | exact (not_congr this).symm

section
variable {T : Type} {cmp : T → T → Bool} {val : Nat → Option T}

/-- In a strictly increasing list no node outside `mid` has a value equivalent to
that of a node of `mid`. -/
theorem not_equal_erased (hc : StrictWeak cmp) {pre mid post : List Nat}
    (hs : (pre ++ (mid ++ post)).Pairwise (idLt cmp val)) {j : Nat} (hj : j ∈ mid) {x : T}
    (hx : val j = some x) :
    ∀ i ∈ pre ++ post, ∀ y, val i = some y → treap.equal cmp y x = false := by
  intro i hi y hy
  cases he : treap.equal cmp y x with
  | false => rfl
  | true =>
    exfalso
    have hn := nodup_of_sorted hc hs
    have hi' : i ∈ pre ++ (mid ++ post) := by
      rcases List.mem_append.1 hi with h | h
      · exact List.mem_append_left _ h
      · exact List.mem_append_right _ (List.mem_append_right _ h)
    have hj' : j ∈ pre ++ (mid ++ post) :=
      List.mem_append_right _ (List.mem_append_left _ hj)
    have hxx : treap.equal cmp x x = true := by simp [treap.equal, hc.irrefl]
    have hij : i = j := equal_unique hc hs hi' hj' hy hx he hxx
    subst hij
    rw [List.nodup_append] at hn
    obtain ⟨_, hn2, hd⟩ := hn
    rw [List.nodup_append] at hn2
    rcases List.mem_append.1 hi with h | h
    · exact hd h (List.mem_append_left _ hj)
    · exact hn2.2.2 hj h

end

section
variable {L R : Type} {cmpL : L → L → Bool} {cmpR : R → R → Bool}

/-- C14: in every reachable state, let the records of the left tree be
`pre ++ (mid ++ post)`, `first` the head of `mid ++ post` and `last` the head of
`post`, or `end_left()` when `post` is empty (so `last` is reached from `first`
by `mid.length` increments).  Then `erase_left(first, last)` returns `last`; the
left records are `pre ++ post` afterwards; the right records are the former ones
without the partners of `mid`; each remaining record stands for the pair it stood
for; `find_left` of the value of any record of `mid` returns `end_left()`; and
`size()` has gone down by `mid.length`.  The same holds for
`erase_right(first, last)` with the roles of the trees exchanged. -/
theorem erase_range_cuts (hL : StrictWeak cmpL) (hR : StrictWeak cmpR) {b : Bimap L R}
    (hb : Reachable cmpL cmpR b) :
    (∀ first last pre mid post, bimap.nodes true b = some (pre ++ (mid ++ post)) →
      (mid ++ post).head? = some first → last = post.headD bimap.end_left →
      ∃ b' ys, bimap.erase_left_range cmpL b first last = some (b', last) ∧
        bimap.nodes true b' = some (pre ++ post) ∧
        bimap.nodes false b = some ys ∧
        bimap.nodes false b' = some (ys.filter
          (fun q => decide (some q ∉ mid.map (bimap.flip true b.mem)))) ∧
        (∀ p ∈ pre ++ post, bimap.pair_of true b' p = bimap.pair_of true b p) ∧
        (∀ q ∈ ys, some q ∉ mid.map (bimap.flip true b.mem) →
          bimap.pair_of false b' q = bimap.pair_of false b q) ∧
        (∀ p ∈ mid, ∀ x, treap.value b.valL true p = some x →
          bimap.find_left cmpL b' x = some bimap.end_left) ∧
        bimap.size b' + mid.length = bimap.size b) ∧
    (∀ first last pre mid post, bimap.nodes false b = some (pre ++ (mid ++ post)) →
      (mid ++ post).head? = some first → last = post.headD bimap.end_right →
      ∃ b' ys, bimap.erase_right_range cmpR b first last = some (b', last) ∧
        bimap.nodes false b' = some (pre ++ post) ∧
        bimap.nodes true b = some ys ∧
        bimap.nodes true b' = some (ys.filter
          (fun q => decide (some q ∉ mid.map (bimap.flip false b.mem)))) ∧
        (∀ p ∈ pre ++ post, bimap.pair_of false b' p = bimap.pair_of false b p) ∧
        (∀ q ∈ ys, some q ∉ mid.map (bimap.flip false b.mem) →
          bimap.pair_of true b' q = bimap.pair_of true b q) ∧
        (∀ p ∈ mid, ∀ y, treap.value b.valR false p = some y →
          bimap.find_right cmpR b' y = some bimap.end_right) ∧
        bimap.size b' + mid.length = bimap.size b) := by
  obtain ⟨tl, tr, h⟩ := reachable_inv hL hR hb
  constructor
  · intro first last pre mid post hn hfirst hlast
    rw [h.nodes_left] at hn
    injection hn with hn
    obtain ⟨pre', mid', post', hl, rfl, rfl, rfl⟩ := map_node_split true hn
    rw [← List.map_append] at hfirst
    obtain ⟨i1, h1, rfl⟩ : ∃ i1, (mid' ++ post').head? = some i1 ∧ first = Ptr.node true i1 := by
      cases hmp : mid' ++ post' with
      | nil => rw [hmp] at hfirst; cases hfirst
      | cons a rest =>
        rw [hmp] at hfirst
        simp only [List.map_cons, List.head?_cons, Option.some.injEq] at hfirst
        exact ⟨a, rfl, hfirst.symm⟩
    have hlast' : last = post'.head?.elim (Ptr.root true) (Ptr.node true) := by
      rw [hlast]; exact headD_map_node true post'
    obtain ⟨b', tl', tr', e, h', el, er, hvl, hvr, _, hc⟩ :=
      erase_left_range_exact hL h hl h1 hlast'
    have hmid : ∀ k ∈ mid', k ∈ tl.toList := fun k hk => by
      rw [hl]; exact List.mem_append_right _ (List.mem_append_left _ hk)
    have hflip : ∀ k ∈ mid', bimap.flip true b.mem (Ptr.node true k)
        = some (Ptr.node (!true) k) := fun k hk => flip_rooted h.left (hmid k hk)
    have hsrt : (pre' ++ (mid' ++ post')).Pairwise (idLt cmpL b.valL) := hl ▸ h.sortedL
    refine ⟨b', tr.toList.map (Ptr.node false), e, ?_, h.nodes_right, ?_, ?_, ?_, ?_, ?_⟩
    · rw [h'.nodes_left, el, List.map_append]
    · rw [h'.nodes_right, er]
      exact congrArg some (partners_filter true b.mem hflip tr.toList)
    · have := pair_of_kept true h.left h'.left (fun j hj => by
        rw [el] at hj
        rw [hl]
        rcases List.mem_append.1 hj with hj | hj
        · exact List.mem_append_left _ hj
        · exact List.mem_append_right _ (List.mem_append_right _ hj)) hvl hvr
      rw [el, List.map_append] at this
      exact this
    · intro q hq hnot
      have hq' : q ∈ (tr.toList.map (Ptr.node (!true))).filter
          (fun q => decide (some q ∉ (mid'.map (Ptr.node true)).map (bimap.flip true b.mem))) :=
        List.mem_filter.2 ⟨hq, by simpa using hnot⟩
      rw [← partners_filter true b.mem hflip tr.toList, ← er] at hq'
      exact pair_of_kept false h.right h'.right (fun j hj => by
        rw [er] at hj; exact (List.mem_filter.1 hj).1) hvl hvr q hq'
    · intro p hp x hx
      obtain ⟨j, hj, rfl⟩ := List.mem_map.1 hp
      have hxj : b.valL j = some x := by simpa [treap.value] using hx
      have hne := not_equal_erased hL hsrt hj hxj
      have e2 := find_of_not_equal hL h'.left h'.valsL h'.sortedL x h'.size_left_lt
        (fun i hi y hy => hne i (el ▸ hi) y (hvl ▸ hy))
      simp [bimap.find_left, e2]
    · have hcnt := h.cnt
      rw [hl] at hcnt
      simp only [List.length_append] at hcnt
      simp only [bimap.size, hc, List.length_map]
      omega
  · intro first last pre mid post hn hfirst hlast
    rw [h.nodes_right] at hn
    injection hn with hn
    obtain ⟨pre', mid', post', hl, rfl, rfl, rfl⟩ := map_node_split false hn
    rw [← List.map_append] at hfirst
    obtain ⟨i1, h1, rfl⟩ : ∃ i1, (mid' ++ post').head? = some i1 ∧ first = Ptr.node false i1 := by
      cases hmp : mid' ++ post' with
      | nil => rw [hmp] at hfirst; cases hfirst
      | cons a rest =>
        rw [hmp] at hfirst
        simp only [List.map_cons, List.head?_cons, Option.some.injEq] at hfirst
        exact ⟨a, rfl, hfirst.symm⟩
    have hlast' : last = post'.head?.elim (Ptr.root false) (Ptr.node false) := by
      rw [hlast]; exact headD_map_node false post'
    obtain ⟨b', tl', tr', e, h', er, el, hvl, hvr, _, hc⟩ :=
      erase_right_range_exact hR h hl h1 hlast'
    have hmid : ∀ k ∈ mid', k ∈ tr.toList := fun k hk => by
      rw [hl]; exact List.mem_append_right _ (List.mem_append_left _ hk)
    have hflip : ∀ k ∈ mid', bimap.flip false b.mem (Ptr.node false k)
        = some (Ptr.node (!false) k) := fun k hk => flip_rooted h.right (hmid k hk)
    have hsrt : (pre' ++ (mid' ++ post')).Pairwise (idLt cmpR b.valR) := hl ▸ h.sortedR
    refine ⟨b', tl.toList.map (Ptr.node true), e, ?_, h.nodes_left, ?_, ?_, ?_, ?_, ?_⟩
    · rw [h'.nodes_right, er, List.map_append]
    · rw [h'.nodes_left, el]
      exact congrArg some (partners_filter false b.mem hflip tl.toList)
    · have := pair_of_kept false h.right h'.right (fun j hj => by
        rw [er] at hj
        rw [hl]
        rcases List.mem_append.1 hj with hj | hj
        · exact List.mem_append_left _ hj
        · exact List.mem_append_right _ (List.mem_append_right _ hj)) hvl hvr
      rw [er, List.map_append] at this
      exact this
    · intro q hq hnot
      have hq' : q ∈ (tl.toList.map (Ptr.node (!false))).filter
          (fun q => decide (some q ∉ (mid'.map (Ptr.node false)).map
            (bimap.flip false b.mem))) :=
        List.mem_filter.2 ⟨hq, by simpa using hnot⟩
      rw [← partners_filter false b.mem hflip tl.toList, ← el] at hq'
      exact pair_of_kept true h.left h'.left (fun j hj => by
        rw [el] at hj; exact (List.mem_filter.1 hj).1) hvl hvr q hq'
    · intro p hp y hy
      obtain ⟨j, hj, rfl⟩ := List.mem_map.1 hp
      have hyj : b.valR j = some y := by simpa [treap.value] using hy
      have hne := not_equal_erased hR hsrt hj hyj
      have e2 := find_of_not_equal hR h'.right h'.valsR_right h'.sortedR y h'.size_right_lt
        (fun i hi z hz => hne i (er ▸ hi) z (hvr ▸ hz))
      simp [bimap.find_right, e2]
    · have hcnt := h.cnt
      have hlen := h.length_right
      rw [hl] at hlen
      simp only [List.length_append] at hlen
      simp only [bimap.size, hc, List.length_map]
      omega

/-- C14 at a concrete input: `erase_left(first, last)` with `first` at `1` and
`last` at `3` on the bimap that holds `(1, 10)`, `(2, 20)`, `(3, 30)`. -/
theorem erase_range_cuts_witness :
    Reachable natLt natLt demo3 ∧
    bimap.nodes true demo3
      = some ([] ++ ([Ptr.node true 0, Ptr.node true 1] ++ [Ptr.node true 2])) ∧
    ∃ b' ys, bimap.erase_left_range natLt demo3 (Ptr.node true 0) (Ptr.node true 2)
        = some (b', Ptr.node true 2) ∧
      bimap.nodes true b' = some ([] ++ [Ptr.node true 2]) ∧
      bimap.nodes false demo3 = some ys ∧
      bimap.nodes false b' = some (ys.filter (fun q => decide
        (some q ∉ [Ptr.node true 0, Ptr.node true 1].map (bimap.flip true demo3.mem)))) ∧
      (∀ p ∈ [] ++ [Ptr.node true 2], bimap.pair_of true b' p = bimap.pair_of true demo3 p) ∧
      (∀ q ∈ ys, some q ∉ [Ptr.node true 0, Ptr.node true 1].map (bimap.flip true demo3.mem) →
        bimap.pair_of false b' q = bimap.pair_of false demo3 q) ∧
      (∀ p ∈ [Ptr.node true 0, Ptr.node true 1], ∀ x,
        treap.value demo3.valL true p = some x →
        bimap.find_left natLt b' x = some bimap.end_left) ∧
      bimap.size b' + [Ptr.node true 0, Ptr.node true 1].length = bimap.size demo3 :=
  ⟨demo3_reachable, demo3_nodes_left,
    (erase_range_cuts natLt_strictWeak natLt_strictWeak demo3_reachable).1 (Ptr.node true 0)
      (Ptr.node true 2) [] [Ptr.node true 0, Ptr.node true 1] [Ptr.node true 2]
      demo3_nodes_left rfl rfl⟩

end


section
variable {L R : Type} {cmpL : L → L → Bool} {cmpR : R → R → Bool}

/-- `erase_right(d)` takes out of both trees exactly the nodes whose right value
is equivalent to `d`. -/
theorem erase_right_key_evicts (hR : StrictWeak cmpR) {b : Bimap L R} {tl tr : NodeTree}
    (h : BimapInv cmpL cmpR b tl tr) (d : R) :
    ∃ b' tl' tr' res, bimap.erase_right_key cmpR b d = some (b', res) ∧
      BimapInv cmpL cmpR b' tl' tr' ∧ b'.valL = b.valL ∧ b'.valR = b.valR ∧
      b'.nextId = b.nextId ∧
      tl'.toList = tl.toList.filter (fun k => rightApart cmpR d (pairAt b k)) ∧
      tr'.toList = tr.toList.filter (fun k => rightApart cmpR d (pairAt b k)) := by
  obtain ⟨a1, a2⟩ := erase_right_key_inv hR h d
  have hpa : ∀ k ∈ tl.toList, ∃ x y, b.valR k = some y ∧ pairAt b k = some (x, y) := by
    intro k hk
    obtain ⟨x, hx⟩ := h.valsL k hk
    obtain ⟨y, hy⟩ := h.valsR k hk
    exact ⟨x, y, hy, by simp [pairAt, hx, hy]⟩
  by_cases hex : ∃ i y, i ∈ tl.toList ∧ b.valR i = some y ∧ treap.equal cmpR y d = true
  · obtain ⟨i, y, hi, hy, he⟩ := hex
    obtain ⟨b', tl', tr', e, h', el, er, hvl, hvr, hn, _⟩ := a2 i y hi hy he
    have hcongr : ∀ k ∈ tl.toList,
        decide (k ≠ i) = rightApart cmpR d (pairAt b k) := by
      intro k hk
      obtain ⟨x', y', hy', hp⟩ := hpa k hk
      rw [hp]
      simp only [rightApart]
      by_cases hki : k = i
      · subst hki
        rw [hy] at hy'
        injection hy' with hy'
        subst hy'
        simp [he]
      · cases he' : treap.equal cmpR y' d with
        | false => simp [hki]
        | true =>
          exact absurd (equal_unique hR h.sortedR (h.perm.mem_iff.1 hk) (h.perm.mem_iff.1 hi)
            hy' hy he' he) hki
    refine ⟨b', tl', tr', true, e, h', hvl, hvr, hn, ?_, ?_⟩
    · rw [el]
      exact List.filter_congr hcongr
    · rw [er]
      exact List.filter_congr (fun k hk => hcongr k (h.perm.mem_iff.2 hk))
  · have hne : ∀ i ∈ tl.toList, ∀ y, b.valR i = some y → treap.equal cmpR y d = false := by
      intro i hi y hy
      cases he : treap.equal cmpR y d with
      | false => rfl
      | true => exact absurd ⟨i, y, hi, hy, he⟩ hex
    have hall : ∀ k ∈ tl.toList, rightApart cmpR d (pairAt b k) = true := by
      intro k hk
      obtain ⟨x', y', hy', hp⟩ := hpa k hk
      rw [hp]
      simp [rightApart, hne k hk y' hy']
    refine ⟨b, tl, tr, false, a1 hne, h, rfl, rfl, rfl, ?_, ?_⟩
    · exact (List.filter_eq_self.2 hall).symm
    · exact (List.filter_eq_self.2 (fun k hk => hall k (h.perm.mem_iff.2 hk))).symm

/-- `erase_left(d)` takes out of both trees exactly the nodes whose left value is
equivalent to `d`. -/
theorem erase_left_key_evicts (hL : StrictWeak cmpL) {b : Bimap L R} {tl tr : NodeTree}
    (h : BimapInv cmpL cmpR b tl tr) (d : L) :
    ∃ b' tl' tr' res, bimap.erase_left_key cmpL b d = some (b', res) ∧
      BimapInv cmpL cmpR b' tl' tr' ∧ b'.valL = b.valL ∧ b'.valR = b.valR ∧
      b'.nextId = b.nextId ∧
      tl'.toList = tl.toList.filter (fun k => leftApart cmpL d (pairAt b k)) ∧
      tr'.toList = tr.toList.filter (fun k => leftApart cmpL d (pairAt b k)) := by
  obtain ⟨a1, a2⟩ := erase_left_key_inv hL h d
  have hpa : ∀ k ∈ tl.toList, ∃ x y, b.valL k = some x ∧ pairAt b k = some (x, y) := by
    intro k hk
    obtain ⟨x, hx⟩ := h.valsL k hk
    obtain ⟨y, hy⟩ := h.valsR k hk
    exact ⟨x, y, hx, by simp [pairAt, hx, hy]⟩
  by_cases hex : ∃ i x, i ∈ tl.toList ∧ b.valL i = some x ∧ treap.equal cmpL x d = true
  · obtain ⟨i, x, hi, hx, he⟩ := hex
    obtain ⟨b', tl', tr', e, h', el, er, hvl, hvr, hn, _⟩ := a2 i x hi hx he
    have hcongr : ∀ k ∈ tl.toList,
        decide (k ≠ i) = leftApart cmpL d (pairAt b k) := by
      intro k hk
      obtain ⟨x', y', hx', hp⟩ := hpa k hk
      rw [hp]
      simp only [leftApart]
      by_cases hki : k = i
      · subst hki
        rw [hx] at hx'
        injection hx' with hx'
        subst hx'
        simp [he]
      · cases he' : treap.equal cmpL x' d with
        | false => simp [hki]
        | true => exact absurd (equal_unique hL h.sortedL hk hi hx' hx he' he) hki
    refine ⟨b', tl', tr', true, e, h', hvl, hvr, hn, ?_, ?_⟩
    · rw [el]
      exact List.filter_congr hcongr
    · rw [er]
      exact List.filter_congr (fun k hk => hcongr k (h.perm.mem_iff.2 hk))
  · have hne : ∀ i ∈ tl.toList, ∀ x, b.valL i = some x → treap.equal cmpL x d = false := by
      intro i hi x hx
      cases he : treap.equal cmpL x d with
      | false => rfl
      | true => exact absurd ⟨i, x, hi, hx, he⟩ hex
    have hall : ∀ k ∈ tl.toList, leftApart cmpL d (pairAt b k) = true := by
      intro k hk
      obtain ⟨x', y', hx', hp⟩ := hpa k hk
      rw [hp]
      simp [leftApart, hne k hk x' hx']
    refine ⟨b, tl, tr, false, a1 hne, h, rfl, rfl, rfl, ?_, ?_⟩
    · exact (List.filter_eq_self.2 hall).symm
    · exact (List.filter_eq_self.2 (fun k hk => hall k (h.perm.mem_iff.2 hk))).symm

/-- The pairs after an insertion that followed an eviction: the new pair and the
pairs that survived the eviction. -/
theorem pairs_after_evict {b b1 b2 : Bimap L R} {xs xs1 xs2 : List Nat}
    (keep : Option (L × R) → Bool) {l : L} {r : R}
    (hids : ∀ i ∈ xs, i < b.nextId) (hn : b1.nextId = b.nextId)
    (hvl1 : b1.valL = b.valL) (hvr1 : b1.valR = b.valR)
    (hvl2 : b2.valL = updVal b1.valL b1.nextId l) (hvr2 : b2.valR = updVal b1.valR b1.nextId r)
    (e1 : xs1 = xs.filter (fun k => keep (pairAt b k)))
    (e2 : xs2.Perm (b1.nextId :: xs1)) :
    (xs2.map (pairAt b2)).Perm (some (l, r) :: (xs.map (pairAt b)).filter keep) := by
  obtain ⟨pn, po⟩ := pairAt_insert hvl2 hvr2
  refine (e2.map (pairAt b2)).trans ?_
  rw [List.map_cons, pn]
  refine List.Perm.cons _ (List.Perm.of_eq ?_)
  rw [List.filter_map, e1]
  refine List.map_congr_left (fun i hi => ?_)
  have hi' : i ∈ xs := (List.mem_filter.1 hi).1
  have hlt := hids i hi'
  rw [po i (by omega), pairAt_congr hvl1 hvr1]

end

section
variable {L R : Type} {cmpL : L → L → Bool} {cmpR : R → R → Bool}

/-- C15: in every reachable state, if a stored left value is equivalent to `kl`,
`at_left_or_default(kl)` returns the right value paired with it and hands back
the state it was given; if none is, it returns the default `dr`, and the pairs of
the new state, read through either projection, are `(kl, dr)` together with the
former pairs whose right value is not equivalent to `dr`.  Symmetrically,
`at_right_or_default(kr)` returns the paired left value and changes nothing, or
returns the default `dl` and leaves `(dl, kr)` together with the former pairs
whose left value is not equivalent to `dl`. -/
theorem at_or_default_evicts (hL : StrictWeak cmpL) (hR : StrictWeak cmpR) {b : Bimap L R}
    (hb : Reachable cmpL cmpR b) (dl : L) (dr : R) (kl : L) (kr : R) (pl pr : Nat) :
    (∀ it x, Live true b it → treap.value b.valL true it = some x →
      treap.equal cmpL x kl = true →
      ∃ y, bimap.right_of_left b it = some y ∧
        bimap.at_left_or_default cmpL cmpR dr b kl pl pr = some (b, y)) ∧
    ((∀ it x, Live true b it → treap.value b.valL true it = some x →
        treap.equal cmpL x kl = false) →
      ∃ b' ps qs ps' qs', bimap.at_left_or_default cmpL cmpR dr b kl pl pr = some (b', dr) ∧
        bimap.pairs true b = some ps ∧ bimap.pairs false b = some qs ∧
        bimap.pairs true b' = some ps' ∧ bimap.pairs false b' = some qs' ∧
        ps'.Perm (some (kl, dr) :: ps.filter (rightApart cmpR dr)) ∧
        qs'.Perm (some (kl, dr) :: qs.filter (rightApart cmpR dr))) ∧
    (∀ it y, Live false b it → treap.value b.valR false it = some y →
      treap.equal cmpR y kr = true →
      ∃ x, bimap.left_of_right b it = some x ∧
        bimap.at_right_or_default cmpL cmpR dl b kr pl pr = some (b, x)) ∧
    ((∀ it y, Live false b it → treap.value b.valR false it = some y →
        treap.equal cmpR y kr = false) →
      ∃ b' ps qs ps' qs', bimap.at_right_or_default cmpL cmpR dl b kr pl pr = some (b', dl) ∧
        bimap.pairs true b = some ps ∧ bimap.pairs false b = some qs ∧
        bimap.pairs true b' = some ps' ∧ bimap.pairs false b' = some qs' ∧
        ps'.Perm (some (dl, kr) :: ps.filter (leftApart cmpL dl)) ∧
        qs'.Perm (some (dl, kr) :: qs.filter (leftApart cmpL dl))) := by
  obtain ⟨tl, tr, h⟩ := reachable_inv hL hR hb
  refine ⟨?_, ?_, ?_, ?_⟩
  · intro it x hlive hx he
    obtain ⟨i, hi, rfl, hxi⟩ := h.stored_left hlive hx
    have e := find_of_equal hL h.left h.valsL h.sortedL kl h.size_left_lt hi hxi he
    obtain ⟨y, hy⟩ := h.valsR i hi
    have e3 := flip_rooted h.left hi
    refine ⟨y, by simp [bimap.right_of_left, bimap.get_another_node, treap.value, hy], ?_⟩
    simp [bimap.at_left_or_default, bimap.find_left, e, bimap.end_left, e3, treap.value, hy]
  · intro hall
    have hne : ∀ i ∈ tl.toList, ∀ x, b.valL i = some x → treap.equal cmpL x kl = false :=
      fun i hi x hx => hall (Ptr.node true i) x (h.live_left.2 ⟨i, hi, rfl⟩)
        (by simpa [treap.value] using hx)
    have e := find_of_not_equal hL h.left h.valsL h.sortedL kl h.size_left_lt hne
    obtain ⟨b1, tl1, tr1, res1, e1, h1, hvl, hvr, hn1, el1, er1⟩ := erase_right_key_evicts hR h dr
    have hsub : ∀ k ∈ tl1.toList, k ∈ tl.toList := fun k hk => by
      rw [el1] at hk; exact (List.mem_filter.1 hk).1
    have hclr : ∀ k ∈ tl1.toList, ∀ y, b.valR k = some y → treap.equal cmpR y dr = false := by
      intro k hk y hy
      rw [el1] at hk
      obtain ⟨hk1, hk2⟩ := List.mem_filter.1 hk
      obtain ⟨x, hx⟩ := h.valsL k hk1
      have hp : pairAt b k = some (x, y) := by simp [pairAt, hx, hy]
      rw [hp] at hk2
      simpa [rightApart] using hk2
    obtain ⟨b2, tl2, tr2, e2, h2, hvl2, hvr2, _, _, el2, er2, _⟩ :=
      insert_fresh hL hR h1 kl dr pl pr
        (fun k hk y hy => hne k (hsub k hk) y (by rw [← hvl]; exact hy))
        (fun k hk y hy => hclr k hk y (by rw [← hvr]; exact hy))
    have hn : b1.nextId ∈ tl2.toList := by rw [el2]; simp
    have e3 := flip_rooted h2.left hn
    refine ⟨b2, _, _, _, _, ?_, h.pairs_left, h.pairs_right, h2.pairs_left, h2.pairs_right,
      ?_, ?_⟩
    · simp [bimap.at_left_or_default, bimap.find_left, e, bimap.end_left, e1, e2, e3,
        treap.value, hvr2, updVal_same]
    · exact pairs_after_evict (rightApart cmpR dr) h.ids hn1 hvl hvr hvl2 hvr2 el1
        (by rw [el2]; exact filter_perm_cons _ _ _)
    · exact pairs_after_evict (rightApart cmpR dr) h.ids_right hn1 hvl hvr hvl2 hvr2 er1
        (by rw [er2]; exact filter_perm_cons _ _ _)
  · intro it y hlive hy he
    obtain ⟨i, hi, rfl, hyi⟩ := h.stored_right hlive hy
    have e := find_of_equal hR h.right h.valsR_right h.sortedR kr h.size_right_lt hi hyi he
    obtain ⟨x, hx⟩ := h.valsL i (h.perm.mem_iff.2 hi)
    have e3 := flip_rooted h.right hi
    simp only [Bool.not_false] at e3
    refine ⟨x, by simp [bimap.left_of_right, bimap.get_another_node, treap.value, hx], ?_⟩
    simp [bimap.at_right_or_default, bimap.find_right, e, bimap.end_right, e3, treap.value, hx]
  · intro hall
    have hne : ∀ i ∈ tr.toList, ∀ y, b.valR i = some y → treap.equal cmpR y kr = false :=
      fun i hi y hy => hall (Ptr.node false i) y (h.live_right.2 ⟨i, hi, rfl⟩)
        (by simpa [treap.value] using hy)
    have e := find_of_not_equal hR h.right h.valsR_right h.sortedR kr h.size_right_lt hne
    obtain ⟨b1, tl1, tr1, res1, e1, h1, hvl, hvr, hn1, el1, er1⟩ := erase_left_key_evicts hL h dl
    have hsub : ∀ k ∈ tl1.toList, k ∈ tl.toList := fun k hk => by
      rw [el1] at hk; exact (List.mem_filter.1 hk).1
    have hclr : ∀ k ∈ tl1.toList, ∀ x, b.valL k = some x → treap.equal cmpL x dl = false := by
      intro k hk x hx
      rw [el1] at hk
      obtain ⟨hk1, hk2⟩ := List.mem_filter.1 hk
      obtain ⟨y, hy⟩ := h.valsR k hk1
      have hp : pairAt b k = some (x, y) := by simp [pairAt, hx, hy]
      rw [hp] at hk2
      simpa [leftApart] using hk2
    obtain ⟨b2, tl2, tr2, e2, h2, hvl2, hvr2, _, _, el2, er2, _⟩ :=
      insert_fresh hL hR h1 dl kr pl pr
        (fun k hk x hx => hclr k hk x (by rw [← hvl]; exact hx))
        (fun k hk y hy => hne k (h.perm.mem_iff.1 (hsub k hk)) y (by rw [← hvr]; exact hy))
    refine ⟨b2, _, _, _, _, ?_, h.pairs_left, h.pairs_right, h2.pairs_left, h2.pairs_right,
      ?_, ?_⟩
    · simp [bimap.at_right_or_default, bimap.find_right, e, bimap.end_right, e1, e2,
        treap.value, hvl2, updVal_same]
    · exact pairs_after_evict (leftApart cmpL dl) h.ids hn1 hvl hvr hvl2 hvr2 el1
        (by rw [el2]; exact filter_perm_cons _ _ _)
    · exact pairs_after_evict (leftApart cmpL dl) h.ids_right hn1 hvl hvr hvl2 hvr2 er1
        (by rw [er2]; exact filter_perm_cons _ _ _)

theorem demo3_absent_right_40 : ∀ it y, Live false demo3 it →
    treap.value demo3.valR false it = some y → treap.equal natLt y 40 = false := by
  rintro it y ⟨xs, hx, hit⟩ hy
  rw [demo3_nodes_right] at hx
  injection hx with hx
  subst hx
  simp only [List.mem_cons, List.mem_nil_iff, or_false] at hit
  rcases hit with rfl | rfl | rfl
  · have : treap.value demo3.valR false (Ptr.node false 0) = some 10 := by decide
    rw [this] at hy
    injection hy with hy
    subst hy
    decide
  · have : treap.value demo3.valR false (Ptr.node false 1) = some 20 := by decide
    rw [this] at hy
    injection hy with hy
    subst hy
    decide
  · have : treap.value demo3.valR false (Ptr.node false 2) = some 30 := by decide
    rw [this] at hy
    injection hy with hy
    subst hy
    decide

/-- C15 at a concrete input: `at_left_or_default(2)` (present) and
`at_right_or_default(40)` (absent, default left value `1`, which evicts
`(1, 10)`) on the bimap that holds `(1, 10)`, `(2, 20)`, `(3, 30)`. -/
theorem at_or_default_evicts_witness :
    Reachable natLt natLt demo3 ∧
    Live true demo3 (Ptr.node true 1) ∧
    (∃ y, bimap.right_of_left demo3 (Ptr.node true 1) = some y ∧
      bimap.at_left_or_default natLt natLt 0 demo3 2 6 8 = some (demo3, y)) ∧
    (∀ it y, Live false demo3 it → treap.value demo3.valR false it = some y →
      treap.equal natLt y 40 = false) ∧
    ∃ b' ps qs ps' qs', bimap.at_right_or_default natLt natLt 1 demo3 40 6 8 = some (b', 1) ∧
      bimap.pairs true demo3 = some ps ∧ bimap.pairs false demo3 = some qs ∧
      bimap.pairs true b' = some ps' ∧ bimap.pairs false b' = some qs' ∧
      ps'.Perm (some (1, 40) :: ps.filter (leftApart natLt 1)) ∧
      qs'.Perm (some (1, 40) :: qs.filter (leftApart natLt 1)) :=
  ⟨demo3_reachable, ⟨_, demo3_nodes_left, by simp⟩,
    (at_or_default_evicts natLt_strictWeak natLt_strictWeak demo3_reachable 1 0 2 40 6 8).1
      (Ptr.node true 1) 2 ⟨_, demo3_nodes_left, by simp⟩ (by decide) (by decide),
    demo3_absent_right_40,
    (at_or_default_evicts natLt_strictWeak natLt_strictWeak demo3_reachable 1 0 2 40 6
      8).2.2.2 demo3_absent_right_40⟩

end


/-- `prev` inside a subtree of shape `t`: on the record of a node that is not the
first of `t` it gives the record of the node before it in symmetric order; on the
first node it gives whatever climbing out of the top of `t` ends at. -/
theorem prev_shape (s : Bool) : ∀ (t : NodeTree) (m : Mem), Shape m s t → t.toList.Nodup →
    ∀ (fuel : Nat) (pre : List Nat) (i : Nat) (post : List Nat), t.toList = pre ++ i :: post →
      (∀ q, pre.getLast? = some q → t.size < fuel →
        node_base_t.prev fuel m (Ptr.node s i) = some (Ptr.node s q)) ∧
      (pre = [] → ∀ (before : Ptr) (k0 : Nat),
        (∀ k, k0 ≤ k → node_base_t.prev_climb k m (t.ptr s) = some before) →
        k0 + t.size ≤ fuel → node_base_t.prev fuel m (Ptr.node s i) = some before) := by
  intro t
  induction t with
  | nil => intro m _ _ fuel pre i post h; simp at h
  | node l j r ihl ihr =>
    intro m hs hn fuel pre i post h
    obtain ⟨h1, h2, h3, h4, h5, h6⟩ := hs
    simp only [NodeTree.toList_node] at hn h
    simp only [NodeTree.size_node, NodeTree.ptr_node]
    have hn' := hn
    rw [List.nodup_append] at hn'
    obtain ⟨hnl, hnr, hdis⟩ := hn'
    rw [List.nodup_cons] at hnr
    -- climbing out of the right subtree ends at `j`
    have hexr : ∀ a, r.toList = i :: a → ∀ k, 1 ≤ k →
        node_base_t.prev_climb k m (r.ptr s) = some (Ptr.node s j) := by
      intro a hr k hk
      obtain ⟨k', rfl⟩ : ∃ k', k = k' + 1 := ⟨k - 1, by omega⟩
      cases r with
      | nil => simp at hr
      | node rl jr rr =>
        simp only [Fath] at h4
        simp [node_base_t.prev_climb, h4, h2]
    -- climbing out of the left subtree goes on from `j`
    have hexl : ∀ c, l.toList = i :: c → ∀ (before : Ptr) (k0 : Nat),
        (∀ k, k0 ≤ k → node_base_t.prev_climb k m (Ptr.node s j) = some before) →
        ∀ k, k0 + 1 ≤ k → node_base_t.prev_climb k m (l.ptr s) = some before := by
      intro c hl before k0 hex k hk
      obtain ⟨k', rfl⟩ : ∃ k', k = k' + 1 := ⟨k - 1, by omega⟩
      cases l with
      | nil => simp at hl
      | node ll jl lr =>
        simp only [Fath] at h3
        have hne : m.right (Ptr.node s j) ≠ Ptr.node s jl := by
          rw [h2]
          intro hc
          have : jl ∈ r.toList := by
            rcases NodeTree.ptr_cases s r with h0 | ⟨q, hq, he⟩
            · rw [h0] at hc; cases hc
            · rw [he] at hc; injection hc with _ e; exact e ▸ hq
          exact hdis (by simp) (List.mem_cons_of_mem _ this)
        have := hex k' (by omega)
        simp [node_base_t.prev_climb, h3, hne, this]
    -- the node at the top
    have self : i = j → pre = l.toList →
        (∀ q, pre.getLast? = some q → l.size + r.size + 1 < fuel →
          node_base_t.prev fuel m (Ptr.node s i) = some (Ptr.node s q)) ∧
        (pre = [] → ∀ (before : Ptr) (k0 : Nat),
          (∀ k, k0 ≤ k → node_base_t.prev_climb k m (Ptr.node s j) = some before) →
          k0 + (l.size + r.size + 1) ≤ fuel →
          node_base_t.prev fuel m (Ptr.node s i) = some before) := by
      rintro rfl rfl
      constructor
      · intro q hq hf
        cases l with
        | nil => simp at hq
        | node ll jl lr =>
          have := get_max_shape s (NodeTree.node ll jl lr) fuel m h5
            (by simp only [NodeTree.size_node] at hf ⊢; omega)
          rw [hq] at this
          simp only [NodeTree.ptr_node] at this h1
          simp [node_base_t.prev, h1, this]
      · intro hl before k0 hex hf
        cases l with
        | nil =>
          simp only [NodeTree.ptr_nil] at h1
          simp only [node_base_t.prev, h1]
          simpa using hex fuel (by omega)
        | node ll jl lr => simp at hl
    rw [List.append_eq_append_iff] at h
    rcases h with ⟨a, hpre, ha⟩ | ⟨c, hl, hc⟩
    · cases a with
      | nil =>
        simp only [List.nil_append, List.cons.injEq] at ha
        simp only [List.append_nil] at hpre
        exact self ha.1.symm hpre
      | cons x a =>
        simp only [List.cons_append, List.cons.injEq] at ha
        obtain ⟨rfl, hr⟩ := ha
        obtain ⟨ia, ib⟩ := ihr m h6 hnr.2 fuel a i post hr
        constructor
        · intro q hq hf
          cases a with
          | nil =>
            rw [hpre] at hq
            simp at hq
            subst hq
            exact ib rfl (Ptr.node s j) 1 (hexr post hr) (by omega)
          | cons y a' =>
            have hq' : (y :: a').getLast? = some q := by
              rw [hpre, show l.toList ++ j :: y :: a' = (l.toList ++ [j]) ++ (y :: a') by simp,
                List.getLast?_append_of_ne_nil _ (by simp)] at hq
              exact hq
            exact ia q hq' (by omega)
        · intro hp
          rw [hp] at hpre
          simp at hpre
    · cases c with
      | nil =>
        simp only [List.nil_append, List.cons.injEq] at hc
        simp only [List.append_nil] at hl
        exact self hc.1 hl.symm
      | cons x c =>
        simp only [List.cons_append, List.cons.injEq] at hc
        obtain ⟨rfl, hp⟩ := hc
        obtain ⟨ia, ib⟩ := ihl m h5 hnl fuel pre i c hl
        constructor
        · intro q hq hf
          exact ia q hq (by omega)
        · intro hp0 before k0 hex hf
          subst hp0
          exact ib rfl before (k0 + 1) (hexl c hl before k0 hex) (by omega)

/-- `prev` in a tree that hangs under its sentinel, on a node that is not the
first: the record of the node before it. -/
theorem prev_rooted {m : Mem} {s : Bool} {t : NodeTree} (h : Rooted m s t) {fuel : Nat}
    (hf : t.size < fuel) {pre : List Nat} {q i : Nat} {post : List Nat}
    (hl : t.toList = (pre ++ [q]) ++ i :: post) :
    node_base_t.prev fuel m (Ptr.node s i) = some (Ptr.node s q) :=
  (prev_shape s t m h.shape h.nodup fuel (pre ++ [q]) i post hl).1 q (by simp) hf

/-- `prev` on the sentinel of a non-empty tree: the record of the last node. -/
theorem prev_end {m : Mem} {s : Bool} {t : NodeTree} (h : Rooted m s t) {fuel : Nat}
    (hf : t.size < fuel) {pre : List Nat} {q : Nat} (hl : t.toList = pre ++ [q]) :
    node_base_t.prev fuel m (Ptr.root s) = some (Ptr.node s q) := by
  have e := get_max_shape s t fuel m h.shape hf
  rw [hl] at e
  have hne : t.ptr s ≠ Ptr.null := by
    cases t with
    | nil => simp at hl
    | node l j r => simp
  simp only [node_base_t.prev, h.root_left]
  simpa [hne] using e

/-- The three iterator facts on a tree under its sentinel: `next` gives the
following record or the sentinel, `prev` undoes it, and `prev` on the sentinel
gives the last record. -/
theorem steps_rooted {m : Mem} {s : Bool} {t : NodeTree} (h : Rooted m s t) {fuel : Nat}
    (hf : t.size < fuel) {pre : List Nat} {i : Nat} {post : List Nat}
    (hl : t.toList = pre ++ i :: post) :
    node_base_t.next fuel m (Ptr.node s i) = some (post.head?.elim (Ptr.root s) (Ptr.node s)) ∧
    node_base_t.prev fuel m (post.head?.elim (Ptr.root s) (Ptr.node s)) = some (Ptr.node s i) ∧
    ∃ xs last, t.toList = xs ++ [last] ∧
      node_base_t.prev fuel m (Ptr.root s) = some (Ptr.node s last) := by
  refine ⟨next_rooted h hf hl, ?_, ?_⟩
  · cases post with
    | nil => exact prev_end h hf hl
    | cons j post' =>
      have hl' : t.toList = (pre ++ [i]) ++ j :: post' := by rw [hl]; simp
      exact prev_rooted h hf hl'
  · rcases List.eq_nil_or_concat t.toList with h0 | ⟨xs, last, hx⟩
    · rw [h0] at hl; simp at hl
    · rw [List.concat_eq_append] at hx
      exact ⟨xs, last, hx, prev_end h hf hx⟩

section
variable {L R : Type} {cmpL : L → L → Bool} {cmpR : R → R → Bool}

/-- C18: in every reachable state, for an iterator `it` of projection `side`
that refers to an element, with the records of that projection being
`pre ++ it :: post`: `++it` is the first record of `post`, or the end iterator
when `post` is empty; `--` applied to that result is `it` again; and `--` applied
to the end iterator is the last record of the projection. -/
theorem iterator_steps (hL : StrictWeak cmpL) (hR : StrictWeak cmpR) {b : Bimap L R}
    (hb : Reachable cmpL cmpR b) (side : Bool) (it : Ptr) (hlive : Live side b it) :
    ∃ pre post xs last, bimap.nodes side b = some (pre ++ it :: post) ∧
      bimap.nodes side b = some (xs ++ [last]) ∧
      bimap.incr b it = some (post.headD (Ptr.root side)) ∧
      bimap.decr b (post.headD (Ptr.root side)) = some it ∧
      bimap.decr b (Ptr.root side) = some last := by
  obtain ⟨tl, tr, h⟩ := reachable_inv hL hR hb
  cases side with
  | true =>
    obtain ⟨i, hi, rfl⟩ := h.live_left.1 hlive
    obtain ⟨pre, post, hl⟩ := List.append_of_mem hi
    obtain ⟨e1, e2, xs, last, hx, e3⟩ := steps_rooted h.left h.size_left_lt hl
    refine ⟨pre.map (Ptr.node true), post.map (Ptr.node true), xs.map (Ptr.node true),
      Ptr.node true last, ?_, ?_, ?_, ?_, e3⟩
    · rw [h.nodes_left, hl]; simp
    · rw [h.nodes_left, hx]; simp
    · rw [headD_map_node]; exact e1
    · rw [headD_map_node]; exact e2
  | false =>
    obtain ⟨i, hi, rfl⟩ := h.live_right.1 hlive
    obtain ⟨pre, post, hl⟩ := List.append_of_mem hi
    obtain ⟨e1, e2, xs, last, hx, e3⟩ := steps_rooted h.right h.size_right_lt hl
    refine ⟨pre.map (Ptr.node false), post.map (Ptr.node false), xs.map (Ptr.node false),
      Ptr.node false last, ?_, ?_, ?_, ?_, e3⟩
    · rw [h.nodes_right, hl]; simp
    · rw [h.nodes_right, hx]; simp
    · rw [headD_map_node]; exact e1
    · rw [headD_map_node]; exact e2

/-- C18 at a concrete input: the iterators of the bimap that holds `(1, 10)`,
`(2, 20)`, `(3, 30)`. -/
theorem iterator_steps_witness :
    Reachable natLt natLt demo3 ∧ Live true demo3 (Ptr.node true 1) ∧
    bimap.incr demo3 (Ptr.node true 1) = some (Ptr.node true 2) ∧
    bimap.incr demo3 (Ptr.node true 2) = some bimap.end_left ∧
    bimap.decr demo3 bimap.end_left = some (Ptr.node true 2) ∧
    bimap.decr demo3 (Ptr.node true 2) = some (Ptr.node true 1) ∧
    bimap.decr demo3 bimap.end_right = some (Ptr.node false 2) ∧
    ∃ pre post xs last, bimap.nodes true demo3 = some (pre ++ Ptr.node true 1 :: post) ∧
      bimap.nodes true demo3 = some (xs ++ [last]) ∧
      bimap.incr demo3 (Ptr.node true 1) = some (post.headD (Ptr.root true)) ∧
      bimap.decr demo3 (post.headD (Ptr.root true)) = some (Ptr.node true 1) ∧
      bimap.decr demo3 (Ptr.root true) = some last :=
  ⟨demo3_reachable, ⟨_, demo3_nodes_left, by simp⟩, by decide, by decide, by decide, by decide,
    by decide,
    iterator_steps natLt_strictWeak natLt_strictWeak demo3_reachable true (Ptr.node true 1)
      ⟨_, demo3_nodes_left, by simp⟩⟩

end


section
variable {L R : Type} {cmpL : L → L → Bool} {cmpR : R → R → Bool}
  {cmpL' : L → L → Bool} {cmpR' : R → R → Bool}

/-- The loop of `operator==` started at two positions with equally many records
left: it returns, and the result says whether all remaining pairs match. -/
theorem eq_loop_spec {a b : Bimap L R} {tla tra tlb trb : NodeTree}
    (ha : BimapInv cmpL cmpR a tla tra) (hb : BimapInv cmpL' cmpR' b tlb trb) :
    ∀ (sa sb pa pb : List Nat) (fuel : Nat), tla.toList = pa ++ sa → tlb.toList = pb ++ sb →
      sa.length = sb.length → sa.length < fuel →
      bimap.eq_loop cmpL cmpR a b fuel (sa.head?.elim (Ptr.root true) (Ptr.node true))
          (sb.head?.elim (Ptr.root true) (Ptr.node true))
        = some ((sa.zip sb).all (fun p => pairEquiv cmpL cmpR (pairAt a p.1) (pairAt b p.2))) := by
  intro sa
  induction sa with
  | nil =>
    intro sb pa pb fuel _ _ hlen hf
    obtain ⟨f, rfl⟩ : ∃ f, fuel = f + 1 := ⟨fuel - 1, by omega⟩
    cases sb with
    | nil => simp [bimap.eq_loop, bimap.end_left]
    | cons j sb' => simp at hlen
  | cons i sa' ih =>
    intro sb pa pb fuel ea eb hlen hf
    obtain ⟨f, rfl⟩ : ∃ f, fuel = f + 1 := ⟨fuel - 1, by omega⟩
    cases sb with
    | nil => simp at hlen
    | cons j sb' =>
      have hi : i ∈ tla.toList := by rw [ea]; simp
      have hj : j ∈ tlb.toList := by rw [eb]; simp
      obtain ⟨la, hla⟩ := ha.valsL i hi
      obtain ⟨ra, hra⟩ := ha.valsR i hi
      obtain ⟨lb, hlb⟩ := hb.valsL j hj
      obtain ⟨rb, hrb⟩ := hb.valsR j hj
      have fa := flip_rooted ha.left hi
      have fb := flip_rooted hb.left hj
      have na : bimap.incr a (Ptr.node true i)
          = some (sa'.head?.elim (Ptr.root true) (Ptr.node true)) :=
        next_rooted ha.left ha.size_left_lt ea
      have nb : bimap.incr b (Ptr.node true j)
          = some (sb'.head?.elim (Ptr.root true) (Ptr.node true)) :=
        next_rooted hb.left hb.size_left_lt eb
      have hrec := ih sb' (pa ++ [i]) (pb ++ [j]) f (by rw [ea]; simp) (by rw [eb]; simp)
        (by simpa using hlen) (by simp at hf; omega)
      have hpa : pairAt a i = some (la, ra) := by simp [pairAt, hla, hra]
      have hpb : pairAt b j = some (lb, rb) := by simp [pairAt, hlb, hrb]
      change bimap.eq_loop cmpL cmpR a b (f + 1) (Ptr.node true i) (Ptr.node true j) = _
      have hpe : pairEquiv cmpL cmpR (pairAt a i) (pairAt b j)
          = (treap.equal cmpL la lb && treap.equal cmpR ra rb) := by
        rw [hpa, hpb]; rfl
      simp only [List.zip_cons_cons, List.all_cons, hpe]
      simp only [Bool.not_true] at fa fb
      have va : treap.value a.valL true (Ptr.node true i) = some la := by simp [treap.value, hla]
      have vb : treap.value b.valL true (Ptr.node true j) = some lb := by simp [treap.value, hlb]
      have wa : treap.value a.valR false (Ptr.node false i) = some ra := by
        simp [treap.value, hra]
      have wb : treap.value b.valR false (Ptr.node false j) = some rb := by
        simp [treap.value, hrb]
      have hend : (Ptr.node true i ≠ bimap.end_left ∧ Ptr.node true j ≠ bimap.end_left) := by
        simp [bimap.end_left]
      unfold bimap.eq_loop
      rw [if_pos hend]
      simp only [va, vb, fa, fb, wa, wb, na, nb, hrec]
      cases h1 : treap.equal cmpL la lb <;> cases h2 : treap.equal cmpR ra rb <;> simp

/-- `operator==` on two distinct objects that are not both empty returns, and
says whether the sizes agree and the pairs, walked in left order, match. -/
theorem eq_spec {a b : Bimap L R} {tla tra tlb trb : NodeTree}
    (ha : BimapInv cmpL cmpR a tla tra) (hb : BimapInv cmpL' cmpR' b tlb trb)
    (hne : ¬(bimap.size a = 0 ∧ bimap.size b = 0)) :
    bimap.eq cmpL cmpR false a b = some (decide (bimap.size a = bimap.size b) &&
      (tla.toList.zip tlb.toList).all
        (fun p => pairEquiv cmpL cmpR (pairAt a p.1) (pairAt b p.2))) := by
  by_cases hsz : bimap.size a = bimap.size b
  · have hlen : tla.toList.length = tlb.toList.length := by
      have h1 := ha.cnt
      have h2 := hb.cnt
      simp only [bimap.size] at hsz
      omega
    have hf : tla.toList.length < bimap.fuel a := by
      have h1 := ha.cnt
      have h2 := ha.cap
      simp only [bimap.fuel]
      omega
    have hpos : 0 < tla.toList.length := by
      have h1 := ha.cnt
      simp only [bimap.size] at hne hsz
      omega
    have ea := get_min_shape true tla _ a.mem ha.left.shape ha.size_left_lt
    have eb := get_min_shape true tlb _ b.mem hb.left.shape hb.size_left_lt
    have hloop := eq_loop_spec ha hb tla.toList tlb.toList [] [] (bimap.fuel a) rfl rfl hlen hf
    cases hla : tla.toList with
    | nil => rw [hla] at hpos; simp at hpos
    | cons i sa =>
      cases hlb : tlb.toList with
      | nil => rw [hla, hlb] at hlen; simp at hlen
      | cons j sb =>
        rw [hla] at ea hloop
        rw [hlb] at eb hloop
        simp only [List.head?_cons, Option.elim] at ea eb hloop
        simp only [bimap.eq, Bool.false_eq_true, if_false, hsz, ne_eq, not_true_eq_false,
          bimap.begin_left, ha.left.root_left, hb.left.root_left, ea, eb, hloop]
        simp
  · simp [bimap.eq, hsz]

end

section
variable {L R : Type} {cmpL : L → L → Bool} {cmpR : R → R → Bool}

theorem equal_comm {T : Type} (cmp : T → T → Bool) (x y : T) :
    treap.equal cmp x y = treap.equal cmp y x := by
  simp [treap.equal, Bool.and_comm]

theorem equal_self {T : Type} {cmp : T → T → Bool} (hc : StrictWeak cmp) (x : T) :
    treap.equal cmp x x = true := by
  simp [treap.equal, hc.irrefl]

/-- A run of `insert` calls with values that are pairwise non-equivalent and not
equivalent to anything stored: every call inserts, and the pairs of the final
state are the stored pairs together with the inserted ones. -/
theorem insert_all_fresh (hL : StrictWeak cmpL) (hR : StrictWeak cmpR) :
    ∀ (ops : List (L × R × Nat × Nat)) {b : Bimap L R} {tl tr : NodeTree},
      BimapInv cmpL cmpR b tl tr →
      ops.Pairwise (fun o o' => treap.equal cmpL o.1 o'.1 = false) →
      ops.Pairwise (fun o o' => treap.equal cmpR o.2.1 o'.2.1 = false) →
      (∀ i ∈ tl.toList, ∀ x, b.valL i = some x → ∀ o ∈ ops, treap.equal cmpL x o.1 = false) →
      (∀ i ∈ tl.toList, ∀ y, b.valR i = some y → ∀ o ∈ ops,
        treap.equal cmpR y o.2.1 = false) →
      ∃ b' tl' tr', bimap.insert_all cmpL cmpR b ops = some (b', ops.length) ∧
        BimapInv cmpL cmpR b' tl' tr' ∧
        (tl'.toList.map (pairAt b')).Perm
          (tl.toList.map (pairAt b) ++ ops.map (fun o => some (o.1, o.2.1))) := by
  intro ops
  induction ops with
  | nil =>
    intro b tl tr h _ _ _ _
    exact ⟨b, tl, tr, rfl, h, by simp⟩
  | cons op rest ih =>
    intro b tl tr h hdl hdr hsl hsr
    obtain ⟨l, r, pl, pr⟩ := op
    rw [List.pairwise_cons] at hdl hdr
    obtain ⟨b1, tl1, tr1, e1, h1, hvl, hvr, _, _, el, _, _⟩ := insert_fresh hL hR h l r pl pr
      (fun i hi x hx => hsl i hi x hx (l, r, pl, pr) (List.mem_cons_self _ _))
      (fun i hi y hy => hsr i hi y hy (l, r, pl, pr) (List.mem_cons_self _ _))
    have hmem : ∀ i ∈ tl1.toList, i = b.nextId ∨ i ∈ tl.toList := by
      intro i hi
      rw [el] at hi
      simp only [List.mem_append, List.mem_cons, List.mem_filter] at hi
      rcases hi with hi | rfl | hi
      · exact Or.inr hi.1
      · exact Or.inl rfl
      · exact Or.inr hi.1
    have hnl : b.nextId ∉ tl.toList := fun hc => Nat.lt_irrefl _ (h.ids _ hc)
    obtain ⟨b2, tl2, tr2, e2, h2, hp2⟩ := ih h1 hdl.2 hdr.2
      (fun i hi x hx o ho => by
        rcases hmem i hi with rfl | hi'
        · rw [hvl, updVal_same] at hx
          injection hx with hx
          subst hx
          exact hdl.1 o ho
        · have hne : i ≠ b.nextId := fun e => hnl (e ▸ hi')
          rw [hvl, updVal_ne _ _ hne] at hx
          exact hsl i hi' x hx o (List.mem_cons_of_mem _ ho))
      (fun i hi y hy o ho => by
        rcases hmem i hi with rfl | hi'
        · rw [hvr, updVal_same] at hy
          injection hy with hy
          subst hy
          exact hdr.1 o ho
        · have hne : i ≠ b.nextId := fun e => hnl (e ▸ hi')
          rw [hvr, updVal_ne _ _ hne] at hy
          exact hsr i hi' y hy o (List.mem_cons_of_mem _ ho))
    obtain ⟨pn, po⟩ := pairAt_insert hvl hvr
    have hp1 : (tl1.toList.map (pairAt b1)).Perm (some (l, r) :: tl.toList.map (pairAt b)) := by
      have pl' : tl1.toList.Perm (b.nextId :: tl.toList) := by
        rw [el]; exact filter_perm_cons _ _ _
      refine (pl'.map (pairAt b1)).trans ?_
      rw [List.map_cons, pn]
      refine List.Perm.cons _ (List.Perm.of_eq ?_)
      exact List.map_congr_left (fun i hi => po i (fun e => hnl (e ▸ hi)))
    refine ⟨b2, tl2, tr2, ?_, h2, ?_⟩
    · simp [bimap.insert_all, e1, e2, bimap.end_left]
    · refine hp2.trans ?_
      refine (List.Perm.append_right _ hp1).trans ?_
      simp only [List.map_cons, List.cons_append]
      exact List.perm_middle.symm

/-- The pairs read through the left tree are strictly increasing in their left
values. -/
theorem pairs_sorted {b : Bimap L R} {tl tr : NodeTree} (h : BimapInv cmpL cmpR b tl tr) :
    (tl.toList.map (pairAt b)).Pairwise (pairLt cmpL) := by
  rw [List.pairwise_map]
  have hs := h.sortedL
  have hv : ∀ i ∈ tl.toList, ∃ y, b.valR i = some y := h.valsR
  refine List.Pairwise.imp_of_mem ?_ hs
  intro i j hi hj hij
  obtain ⟨x, x', hx, hx', hlt⟩ := hij
  obtain ⟨y, hy⟩ := hv i hi
  obtain ⟨y', hy'⟩ := hv j hj
  exact ⟨x, y, x', y', by simp [pairAt, hx, hy], by simp [pairAt, hx', hy'], hlt⟩

/-- Two strictly increasing lists of pairs with the same entries are the same
list. -/
theorem eq_of_perm_sorted_pairs (hL : StrictWeak cmpL) {xs ys : List (Option (L × R))}
    (hp : xs.Perm ys) (hx : xs.Pairwise (pairLt cmpL)) (hy : ys.Pairwise (pairLt cmpL)) :
    xs = ys := by
  haveI : IsAntisymm (Option (L × R)) (pairLt cmpL) := ⟨by
    rintro p q ⟨x, y, x', y', rfl, rfl, h1⟩ ⟨a, c, a', c', e1, e2, h2⟩
    injection e1 with e1
    injection e2 with e2
    injection e1 with e11 e12
    injection e2 with e21 e22
    subst e11 e21
    rw [hL.asymm h1] at h2
    cases h2⟩
  exact List.eq_of_perm_of_sorted hp hx hy

/-- Two walks over the same sequence of pairs pass the test of `operator==` at
every step. -/
theorem all_pairEquiv_of_eq (hL : StrictWeak cmpL) (hR : StrictWeak cmpR) {a b : Bimap L R} :
    ∀ (xs ys : List Nat), xs.map (pairAt a) = ys.map (pairAt b) →
      (∀ i ∈ xs, ∃ x y, pairAt a i = some (x, y)) →
      (xs.zip ys).all (fun p => pairEquiv cmpL cmpR (pairAt a p.1) (pairAt b p.2)) = true := by
  intro xs
  induction xs with
  | nil => intro ys _ _; simp
  | cons i xs ih =>
    intro ys he hv
    cases ys with
    | nil => simp
    | cons j ys =>
      simp only [List.map_cons, List.cons.injEq] at he
      obtain ⟨x, y, hxy⟩ := hv i (by simp)
      have hj : pairAt b j = some (x, y) := he.1 ▸ hxy
      simp only [List.zip_cons_cons, List.all_cons, Bool.and_eq_true]
      refine ⟨?_, ih ys he.2 (fun k hk => hv k (List.mem_cons_of_mem _ hk))⟩
      rw [hxy, hj]
      simp [pairEquiv, equal_self hL, equal_self hR]

end

section
variable {L R : Type} {cmpL : L → L → Bool} {cmpR : R → R → Bool}

/-- C16 (the code at the failing input): for two distinct empty bimaps the sizes
agree and both left projections are empty, yet `operator==` does not return
true: `begin_left()` is the null pointer, which differs from `end_left()`, so
the loop body runs and dereferences it.  The same happens when one bimap was
emptied by `erase_left`.  Only the shortcut for one and the same object
answers. -/
theorem eq_of_empty_dereferences_null :
    bimap.size demo0 = bimap.size (bimap.empty 3 4 : Bimap Nat Nat) ∧
    bimap.nodes true demo0 = some [] ∧
    bimap.nodes true (bimap.empty 3 4 : Bimap Nat Nat) = some [] ∧
    bimap.begin_left demo0 = some Ptr.null ∧
    bimap.eq natLt natLt false demo0 (bimap.empty 3 4) = none ∧
    bimap.neq natLt natLt false demo0 (bimap.empty 3 4) = none ∧
    bimap.eq natLt natLt false demo2 demo0 = none ∧
    bimap.eq natLt natLt true demo0 demo0 = some true := by
  decide

/-- C17: take a non-empty list of `insert` calls whose left values are pairwise
non-equivalent and whose right values are pairwise non-equivalent, and a second
list whose pairs are a permutation of the pairs of the first, the priorities
drawn being arbitrary in both.  Run the first list on an empty bimap with the
comparators `cmpL`, `cmpR` and the second on another empty bimap with comparators
`cmpL'`, `cmpR'` that order the values identically.  Then every call inserts,
and `operator==` on the two results returns true in either direction and
`operator!=` returns false. -/
theorem eq_insertion_order (hL : StrictWeak cmpL) (hR : StrictWeak cmpR)
    (cmpL' : L → L → Bool) (cmpR' : R → R → Bool)
    (hcl : ∀ x y, cmpL' x y = cmpL x y) (hcr : ∀ x y, cmpR' x y = cmpR x y)
    (ops1 ops2 : List (L × R × Nat × Nat)) (hne : ops1 ≠ [])
    (hperm : (ops1.map (fun o => (o.1, o.2.1))).Perm (ops2.map (fun o => (o.1, o.2.1))))
    (hdl : ops1.Pairwise (fun o o' => treap.equal cmpL o.1 o'.1 = false))
    (hdr : ops1.Pairwise (fun o o' => treap.equal cmpR o.2.1 o'.2.1 = false))
    (pl pr pl' pr' : Nat) :
    ∃ a b, bimap.insert_all cmpL cmpR (bimap.empty pl pr) ops1 = some (a, ops1.length) ∧
      bimap.insert_all cmpL' cmpR' (bimap.empty pl' pr') ops2 = some (b, ops2.length) ∧
      bimap.eq cmpL cmpR false a b = some true ∧
      bimap.eq cmpL' cmpR' false b a = some true ∧
      bimap.neq cmpL cmpR false a b = some false := by
  obtain rfl : cmpL' = cmpL := funext (fun x => funext (fun y => hcl x y))
  obtain rfl : cmpR' = cmpR := funext (fun x => funext (fun y => hcr x y))
  have hdl2 : ops2.Pairwise (fun o o' => treap.equal cmpL' o.1 o'.1 = false) := by
    have h1 : (ops1.map (fun o => (o.1, o.2.1))).Pairwise
        (fun (p q : L × R) => treap.equal cmpL' p.1 q.1 = false) := List.pairwise_map.2 hdl
    have h2 := (hperm.pairwise_iff (fun {p q} h => by rw [equal_comm]; exact h)).1 h1
    exact List.pairwise_map.1 h2
  have hdr2 : ops2.Pairwise (fun o o' => treap.equal cmpR' o.2.1 o'.2.1 = false) := by
    have h1 : (ops1.map (fun o => (o.1, o.2.1))).Pairwise
        (fun (p q : L × R) => treap.equal cmpR' p.2 q.2 = false) := List.pairwise_map.2 hdr
    have h2 := (hperm.pairwise_iff (fun {p q} h => by rw [equal_comm]; exact h)).1 h1
    exact List.pairwise_map.1 h2
  obtain ⟨a, tla, tra, ea, ha, pa⟩ := insert_all_fresh hL hR ops1
    (@inv_empty L R cmpL' cmpR' pl pr) hdl hdr (fun i hi => by simp at hi)
    (fun i hi => by simp at hi)
  obtain ⟨b, tlb, trb, eb, hb, pb⟩ := insert_all_fresh hL hR ops2
    (@inv_empty L R cmpL' cmpR' pl' pr') hdl2 hdr2 (fun i hi => by simp at hi)
    (fun i hi => by simp at hi)
  simp only [NodeTree.toList_nil, List.map_nil, List.nil_append] at pa pb
  have hp12 : (ops1.map (fun o => some (o.1, o.2.1))).Perm
      (ops2.map (fun o => some (o.1, o.2.1))) := by
    have := hperm.map (fun p : L × R => some p)
    simpa [List.map_map, Function.comp] using this
  have hlist : tla.toList.map (pairAt a) = tlb.toList.map (pairAt b) :=
    eq_of_perm_sorted_pairs hL ((pa.trans hp12).trans pb.symm) (pairs_sorted ha)
      (pairs_sorted hb)
  have hlen : tla.toList.length = tlb.toList.length := by
    have := congrArg List.length hlist
    simpa using this
  have hpos : tla.toList.length ≠ 0 := by
    have := pa.length_eq
    simp only [List.length_map] at this
    rw [this]
    exact fun h0 => hne (List.length_eq_zero.1 h0)
  have hsz : bimap.size a = bimap.size b := by
    simp only [bimap.size, ha.cnt, hb.cnt, hlen]
  have hnz : bimap.size a ≠ 0 := by
    simp only [bimap.size, ha.cnt]
    exact hpos
  have hva : ∀ i ∈ tla.toList, ∃ x y, pairAt a i = some (x, y) := by
    intro i hi
    obtain ⟨x, hx⟩ := ha.valsL i hi
    obtain ⟨y, hy⟩ := ha.valsR i hi
    exact ⟨x, y, by simp [pairAt, hx, hy]⟩
  have hvb : ∀ i ∈ tlb.toList, ∃ x y, pairAt b i = some (x, y) := by
    intro i hi
    obtain ⟨x, hx⟩ := hb.valsL i hi
    obtain ⟨y, hy⟩ := hb.valsR i hi
    exact ⟨x, y, by simp [pairAt, hx, hy]⟩
  have e1 : bimap.eq cmpL' cmpR' false a b = some true := by
    rw [eq_spec ha hb (fun h0 => hnz h0.1), all_pairEquiv_of_eq hL hR _ _ hlist hva]
    simp [hsz]
  have e2 : bimap.eq cmpL' cmpR' false b a = some true := by
    rw [eq_spec hb ha (fun h0 => hnz h0.2), all_pairEquiv_of_eq hL hR _ _ hlist.symm hvb]
    simp [hsz]
  exact ⟨a, b, ea, eb, e1, e2, by simp [bimap.neq, e1]⟩

/-- C17 at a concrete input: `(1, 10)`, `(2, 20)` inserted in this order and in
the opposite order, with different priorities. -/
theorem eq_insertion_order_witness :
    ([(1, 10, 5, 7), (2, 20, 3, 9)] : List (Nat × Nat × Nat × Nat)) ≠ [] ∧
    ∃ a b, bimap.insert_all natLt natLt (bimap.empty 0 0) [(1, 10, 5, 7), (2, 20, 3, 9)]
        = some (a, [(1, 10, 5, 7), (2, 20, 3, 9)].length) ∧
      bimap.insert_all natLt natLt (bimap.empty 1 2) [(2, 20, 1, 1), (1, 10, 8, 2)]
        = some (b, [(2, 20, 1, 1), (1, 10, 8, 2)].length) ∧
      bimap.eq natLt natLt false a b = some true ∧
      bimap.eq natLt natLt false b a = some true ∧
      bimap.neq natLt natLt false a b = some false :=
  ⟨by simp,
    eq_insertion_order natLt_strictWeak natLt_strictWeak natLt natLt (fun _ _ => rfl)
      (fun _ _ => rfl) [(1, 10, 5, 7), (2, 20, 3, 9)] [(2, 20, 1, 1), (1, 10, 8, 2)] (by simp)
      (List.Perm.swap (2, 20) (1, 10) []) (by decide) (by decide) 0 0 1 2⟩

end


namespace NodeTree

theorem heap_nil (gt : Nat → Nat → Bool) (prio : Nat → Nat) : heap gt prio nil = true := rfl

theorem heap_node {gt : Nat → Nat → Bool} {prio : Nat → Nat} {l r : NodeTree} {i : Nat} :
    heap gt prio (node l i r) = true ↔
      above gt prio i l = true ∧ above gt prio i r = true ∧ heap gt prio l = true ∧
        heap gt prio r = true := by
  simp only [heap, Bool.and_eq_true]
  tauto

/-- Heap order only looks at the priorities of the nodes of the tree. -/
theorem heap_congr {gt : Nat → Nat → Bool} {prio prio' : Nat → Nat} :
    ∀ t : NodeTree, (∀ i ∈ t.toList, prio i = prio' i) → heap gt prio t = heap gt prio' t := by
  intro t
  induction t with
  | nil => intro _; rfl
  | node l i r ihl ihr =>
    intro h
    have hi : prio i = prio' i := h i (by simp)
    have hl : ∀ k ∈ l.toList, prio k = prio' k := fun k hk => h k (by simp [hk])
    have hr : ∀ k ∈ r.toList, prio k = prio' k := fun k hk => h k (by simp [hk])
    have al : above gt prio i l = above gt prio' i l := by
      cases l with
      | nil => rfl
      | node ll j lr => simp [above, hi, hl j (by simp)]
    have ar : above gt prio i r = above gt prio' i r := by
      cases r with
      | nil => rfl
      | node rl j rr => simp [above, hi, hr j (by simp)]
    simp only [heap, al, ar, ihl hl, ihr hr]

/-- What `merge` does to the shape depends only on the priorities of the nodes
involved. -/
theorem merge_congr {prio prio' : Nat → Nat} : ∀ (n : Nat) (a b : NodeTree),
    a.size + b.size ≤ n → (∀ i ∈ a.toList ++ b.toList, prio i = prio' i) →
    merge prio a b = merge prio' a b := by
  intro n
  induction n with
  | zero =>
    intro a b h _
    cases a with
    | nil =>
      cases b with
      | nil => simp [merge]
      | node l j r => simp only [size_node] at h; omega
    | node l i r => simp only [size_node] at h; omega
  | succ n ih =>
    intro a b h hp
    cases a with
    | nil => rw [merge_nil_left, merge_nil_left]
    | node l1 i r1 =>
      cases b with
      | nil => rw [merge_nil_right, merge_nil_right]
      | node l2 j r2 =>
        have hi : prio i = prio' i := hp i (by simp)
        have hj : prio j = prio' j := hp j (by simp)
        simp only [size_node] at h
        rw [merge_node_node, merge_node_node, hi, hj]
        by_cases hc : prio' i > prio' j
        · simp only [hc, if_true]
          rw [ih r1 (node l2 j r2) (by simp only [size_node]; omega)
            (fun k hk => hp k (by
              simp only [toList_node, List.mem_append, List.mem_cons] at hk ⊢
              tauto))]
        · simp only [hc, if_false]
          rw [ih (node l1 i r1) l2 (by simp only [size_node]; omega)
            (fun k hk => hp k (by
              simp only [toList_node, List.mem_append, List.mem_cons] at hk ⊢
              tauto))]

/-- `merge` keeps heap order for a transitive relation `gt` that follows the
comparison `merge` makes: `gt` holds from the winner of each comparison to the
loser. -/
theorem merge_heap {gt : Nat → Nat → Bool} {prio : Nat → Nat}
    (ht : ∀ x y z, gt x y = true → gt y z = true → gt x z = true) :
    ∀ (n : Nat) (a b : NodeTree), a.size + b.size ≤ n →
      (∀ i ∈ a.toList, ∀ j ∈ b.toList, prio i > prio j → gt (prio i) (prio j) = true) →
      (∀ i ∈ a.toList, ∀ j ∈ b.toList, ¬ prio i > prio j → gt (prio j) (prio i) = true) →
      heap gt prio a = true → heap gt prio b = true → heap gt prio (merge prio a b) = true := by
  intro n
  induction n with
  | zero =>
    intro a b h _ _ _ _
    cases a with
    | nil =>
      cases b with
      | nil => simp [merge, heap]
      | node l j r => simp only [size_node] at h; omega
    | node l i r => simp only [size_node] at h; omega
  | succ n ih =>
    intro a b h h1 h2 ha hb
    cases a with
    | nil => rw [merge_nil_left]; exact hb
    | node l1 i r1 =>
      cases b with
      | nil => rw [merge_nil_right]; exact ha
      | node l2 j r2 =>
        simp only [size_node] at h
        obtain ⟨a1, a2, a3, a4⟩ := heap_node.1 ha
        obtain ⟨b1, b2, b3, b4⟩ := heap_node.1 hb
        rw [merge_node_node]
        by_cases hc : prio i > prio j
        · simp only [hc, if_true]
          have hij : gt (prio i) (prio j) = true := h1 i (by simp) j (by simp) hc
          have hrec := ih r1 (node l2 j r2) (by simp only [size_node]; omega)
            (fun x hx y hy => h1 x (by simp [hx]) y hy)
            (fun x hx y hy => h2 x (by simp [hx]) y hy) a4 hb
          refine heap_node.2 ⟨a1, above_of_all (fun k hk => ?_), a3, hrec⟩
          rw [merge_toList_eq, List.mem_append] at hk
          rcases hk with hk | hk
          · exact heap_all ht i r1 a4 a2 k hk
          · exact heap_all ht i (node l2 j r2) hb hij k hk
        · simp only [hc, if_false]
          have hji : gt (prio j) (prio i) = true := h2 i (by simp) j (by simp) hc
          have hrec := ih (node l1 i r1) l2 (by simp only [size_node]; omega)
            (fun x hx y hy => h1 x hx y (by simp [hy]))
            (fun x hx y hy => h2 x hx y (by simp [hy])) ha b3
          refine heap_node.2 ⟨above_of_all (fun k hk => ?_), b2, hrec, b4⟩
          rw [merge_toList_eq, List.mem_append] at hk
          rcases hk with hk | hk
          · exact heap_all ht j (node l1 i r1) ha hji k hk
          · exact heap_all ht j l2 b3 b1 k hk

/-- `merge` keeps the non-strict heap order, whatever the priorities. -/
theorem merge_heap_ge (prio : Nat → Nat) (a b : NodeTree) (ha : heap prioGe prio a = true)
    (hb : heap prioGe prio b = true) : heap prioGe prio (merge prio a b) = true :=
  merge_heap prioGe_trans _ a b (Nat.le_refl _)
    (fun i _ j _ h => by simp only [prioGe, decide_eq_true_eq]; omega)
    (fun i _ j _ h => by simp only [prioGe, decide_eq_true_eq]; omega) ha hb

/-- `merge` keeps the strict heap order when no node of `a` has the priority of
a node of `b`. -/
theorem merge_heap_gt (prio : Nat → Nat) (a b : NodeTree)
    (hne : ∀ i ∈ a.toList, ∀ j ∈ b.toList, prio i ≠ prio j)
    (ha : heap prioGt prio a = true) (hb : heap prioGt prio b = true) :
    heap prioGt prio (merge prio a b) = true :=
  merge_heap prioGt_trans _ a b (Nat.le_refl _)
    (fun i _ j _ h => by simp only [prioGt, decide_eq_true_eq]; omega)
    (fun i hi j hj h => by
      have := hne i hi j hj
      simp only [prioGt, decide_eq_true_eq]; omega) ha hb

theorem ins_heap_ge (prio : Nat → Nat) (p : Nat → Bool) (n : Nat) (t : NodeTree)
    (h : heap prioGe prio t = true) : heap prioGe prio (ins prio p n t) = true := by
  obtain ⟨h1, h2⟩ := split_heap prioGe_trans p t h
  exact merge_heap_ge prio _ _ (merge_heap_ge prio _ _ h1 rfl) h2

theorem del_subset (prio : Nat → Nat) (i : Nat) : ∀ t : NodeTree,
    ∀ k ∈ (del prio i t).toList, k ∈ t.toList := by
  intro t
  induction t with
  | nil => intro k hk; exact hk
  | node l j r ihl ihr =>
    intro k hk
    unfold del at hk
    by_cases hj : j = i
    · simp only [hj, if_true, merge_toList_eq, List.mem_append] at hk
      simp only [toList_node, List.mem_append, List.mem_cons]
      tauto
    · simp only [hj, if_false, toList_node, List.mem_append, List.mem_cons] at hk
      simp only [toList_node, List.mem_append, List.mem_cons]
      rcases hk with hk | hk | hk
      · exact Or.inl (ihl k hk)
      · exact Or.inr (Or.inl hk)
      · exact Or.inr (Or.inr (ihr k hk))

theorem del_heap_ge (prio : Nat → Nat) (i : Nat) : ∀ t : NodeTree,
    heap prioGe prio t = true → heap prioGe prio (del prio i t) = true := by
  intro t
  induction t with
  | nil => intro h; exact h
  | node l j r ihl ihr =>
    intro h
    obtain ⟨a1, a2, a3, a4⟩ := heap_node.1 h
    unfold del
    by_cases hj : j = i
    · simp only [hj, if_true]
      exact merge_heap_ge prio l r a3 a4
    · simp only [hj, if_false]
      refine heap_node.2 ⟨above_of_all (fun k hk => ?_), above_of_all (fun k hk => ?_),
        ihl a3, ihr a4⟩
      · exact heap_all prioGe_trans j l a3 a1 k (del_subset prio i l k hk)
      · exact heap_all prioGe_trans j r a4 a2 k (del_subset prio i r k hk)

theorem delAll_heap_ge (prio : Nat → Nat) : ∀ (xs : List Nat) (t : NodeTree),
    heap prioGe prio t = true → heap prioGe prio (delAll prio xs t) = true := by
  intro xs
  induction xs with
  | nil => intro t h; exact h
  | cons x xs ih => intro t h; exact ih _ (del_heap_ge prio x t h)

/-- Non-strict heap order is strict when the nodes of the tree have pairwise
different priorities. -/
theorem heap_gt_of_ge {prio : Nat → Nat} : ∀ t : NodeTree, t.toList.Nodup →
    (∀ i ∈ t.toList, ∀ j ∈ t.toList, i ≠ j → prio i ≠ prio j) →
    heap prioGe prio t = true → heap prioGt prio t = true := by
  intro t
  induction t with
  | nil => intro _ _ _; rfl
  | node l i r ihl ihr =>
    intro hn hd h
    obtain ⟨a1, a2, a3, a4⟩ := heap_node.1 h
    simp only [toList_node] at hn hd
    have hn' := hn
    rw [List.nodup_append] at hn'
    obtain ⟨hnl, hnr, hdis⟩ := hn'
    rw [List.nodup_cons] at hnr
    have up : ∀ c : NodeTree, (∀ k ∈ c.toList, k ∈ l.toList ++ i :: r.toList) →
        i ∉ c.toList → above prioGe prio i c = true → above prioGt prio i c = true := by
      intro c hc hic hab
      cases c with
      | nil => rfl
      | node cl j cr =>
        have hj : j ∈ (node cl j cr).toList := by simp
        have hne : i ≠ j := fun e => hic (e ▸ hj)
        have := hd i (by simp) j (hc j hj) hne
        simp only [above, prioGe, prioGt, decide_eq_true_eq] at hab ⊢
        omega
    refine heap_node.2 ⟨up l (fun k hk => by simp [hk]) (fun hc => hdis hc (by simp)) a1,
      up r (fun k hk => by simp [hk]) hnr.1 a2,
      ihl hnl (fun x hx y hy => hd x (by simp [hx]) y (by simp [hy])) a3,
      ihr hnr.2 (fun x hx y hy => hd x (by simp [hx]) y (by simp [hy])) a4⟩

end NodeTree

/-- A region of memory holds at most one shape below a given top pointer. -/
theorem Shape_unique {m : Mem} {s : Bool} : ∀ (t t' : NodeTree), Shape m s t → Shape m s t' →
    t.ptr s = t'.ptr s → t = t' := by
  intro t
  induction t with
  | nil =>
    intro t' _ _ h
    cases t' with
    | nil => rfl
    | node l j r => simp [NodeTree.ptr] at h
  | node l i r ihl ihr =>
    intro t' hs hs' h
    cases t' with
    | nil => simp [NodeTree.ptr] at h
    | node l' j r' =>
      simp only [NodeTree.ptr_node, Ptr.node.injEq, true_and] at h
      subst h
      obtain ⟨h1, h2, _, _, h5, h6⟩ := hs
      obtain ⟨h1', h2', _, _, h5', h6'⟩ := hs'
      rw [ihl l' h5 h5' (h1.symm.trans h1'), ihr r' h6 h6' (h2.symm.trans h2')]

theorem Rooted_unique {m : Mem} {s : Bool} {t t' : NodeTree} (h : Rooted m s t)
    (h' : Rooted m s t') : t = t' :=
  Shape_unique t t' h.shape h'.shape (h.root_left.symm.trans h'.root_left)


section
variable {L R : Type} {cmpL : L → L → Bool} {cmpR : R → R → Bool}

/-- Heap order of a state follows from heap order of the two trees it holds. -/
theorem heapOrdered_of_trees {b : Bimap L R} {t1 t2 : NodeTree} (h1 : Rooted b.mem true t1)
    (h2 : Rooted b.mem false t2) (g1 : t1.heap prioGe (prioOf b.mem true) = true)
    (g2 : t2.heap prioGe (prioOf b.mem false) = true) : HeapOrdered b := by
  intro s t ht
  cases s with
  | true => rw [Rooted_unique ht h1]; exact g1
  | false => rw [Rooted_unique ht h2]; exact g2

theorem prioOf_congr {m m' : Mem} (h : m'.priority = m.priority) (s : Bool) :
    prioOf m' s = prioOf m s := by
  funext i
  simp [prioOf, h]

theorem heapOrdered_empty (pl pr : Nat) : HeapOrdered (bimap.empty pl pr : Bimap L R) := by
  have h := @inv_empty L R (fun _ _ => false) (fun _ _ => false) pl pr
  exact heapOrdered_of_trees h.left h.right rfl rfl

/-- The by-key erase of either projection keeps both trees heap-ordered. -/
theorem erase_key_heap {T : Type} {cmp : T → T → Bool} {val : Nat → Option T}
    (hc : StrictWeak cmp) (s s' : Bool) (hs : s' = !s) (b : Bimap L R) {t t' : NodeTree}
    (h : Rooted b.mem s t) (h' : Rooted b.mem s' t') (hmem : ∀ i, i ∈ t.toList → i ∈ t'.toList)
    (hv : ∀ i ∈ t.toList, ∃ x, val i = some x) (hso : t.toList.Pairwise (idLt cmp val))
    (hf : t.size < bimap.fuel b) (hf' : t'.size < bimap.fuel b) (key : T)
    (hh : HeapOrdered b) {b' : Bimap L R} {res : Bool}
    (e : bimap.erase_key cmp val s b key = some (b', res)) : HeapOrdered b' := by
  obtain ⟨a1, a2⟩ := erase_key_rooted hc s s' hs b h h' hmem hv hso hf hf' key
  by_cases hex : ∃ i x, i ∈ t.toList ∧ val i = some x ∧ treap.equal cmp x key = true
  · obtain ⟨i, x, hi, hx, he⟩ := hex
    obtain ⟨m2, e2, r1, r2, hp⟩ := a2 i x hi hx he
    rw [e2] at e
    injection e with e
    injection e with e _
    subst e
    have g1 := NodeTree.del_heap_ge (prioOf b.mem s) i t (hh s t h)
    have g2 := NodeTree.del_heap_ge (prioOf b.mem s') i t' (hh s' t' h')
    intro s0 t0 ht0
    have hp0 : prioOf m2 s0 = prioOf b.mem s0 := prioOf_congr hp s0
    show t0.heap prioGe (prioOf m2 s0) = true
    rw [hp0]
    by_cases hs0 : s0 = s
    · subst hs0
      rw [Rooted_unique ht0 r1]; exact g1
    · have : s0 = s' := by
        subst hs
        cases s0 <;> cases s <;> simp at hs0 ⊢
      subst this
      rw [Rooted_unique ht0 r2]; exact g2
  · have hne : ∀ i ∈ t.toList, ∀ x, val i = some x → treap.equal cmp x key = false := by
      intro i hi x hx
      cases he : treap.equal cmp x key with
      | false => rfl
      | true => exact absurd ⟨i, x, hi, hx, he⟩ hex
    rw [a1 hne] at e
    injection e with e
    injection e with e _
    subst e
    exact hh

/-- The by-iterator erase of either projection keeps both trees heap-ordered. -/
theorem erase_it_heap (s s' : Bool) (hs : s' = !s) (b : Bimap L R) {t t' : NodeTree}
    (h : Rooted b.mem s t) (h' : Rooted b.mem s' t') {i : Nat} (hi : i ∈ t.toList)
    (hi' : i ∈ t'.toList) (hf : t.size < bimap.fuel b) (hf' : t'.size < bimap.fuel b)
    (hh : HeapOrdered b) {b' : Bimap L R} {res : Ptr}
    (e : bimap.erase_it s b (Ptr.node s i) = some (b', res)) : HeapOrdered b' := by
  obtain ⟨m2, res2, e2, r1, r2, hp, _⟩ := erase_it_rooted s s' hs b h h' hi hi' hf hf'
  rw [e2] at e
  injection e with e
  injection e with e _
  subst e
  have g1 := NodeTree.del_heap_ge (prioOf b.mem s) i t (hh s t h)
  have g2 := NodeTree.del_heap_ge (prioOf b.mem s') i t' (hh s' t' h')
  intro s0 t0 ht0
  have hp0 : prioOf m2 s0 = prioOf b.mem s0 := prioOf_congr hp s0
  show t0.heap prioGe (prioOf m2 s0) = true
  rw [hp0]
  by_cases hs0 : s0 = s
  · subst hs0
    rw [Rooted_unique ht0 r1]; exact g1
  · have : s0 = s' := by
      subst hs
      cases s0 <;> cases s <;> simp at hs0 ⊢
    subst this
    rw [Rooted_unique ht0 r2]; exact g2

end

section
variable {L R : Type} {cmpL : L → L → Bool} {cmpR : R → R → Bool}

/-- The range erase of either projection keeps both trees heap-ordered. -/
theorem erase_range_heap {T : Type} (cmp : T → T → Bool) (val : Nat → Option T)
    (s s' : Bool) (hs : s' = !s) (b : Bimap L R) {t t' : NodeTree}
    (h : Rooted b.mem s t) (h' : Rooted b.mem s' t') (hmem : ∀ i, i ∈ t.toList → i ∈ t'.toList)
    (hv : ∀ i ∈ t.toList, ∃ x, val i = some x)
    (hf : t.size < bimap.fuel b) (hf' : t'.size < bimap.fuel b)
    {first last : Ptr} {v1 : T} (hv1 : treap.value val s first = some v1)
    (hlast : last = Ptr.root s ∨ ∃ v2, treap.value val s last = some v2)
    (hh : HeapOrdered b) {b' : Bimap L R} {res : Ptr}
    (e : bimap.erase_range cmp val s b first last = some (b', res)) : HeapOrdered b' := by
  have hs2 : s = !s' := by subst hs; simp
  obtain ⟨m1, A, D, C, e1, rK, sD, o1, hl, hA, hcase⟩ :=
    remove_range_rooted cmp val h hf hv1 hlast hv
  have hn : (A.toList ++ (D.toList ++ C.toList)).Nodup := by rw [hl]; exact h.nodup
  have hnD : D.toList.Nodup := (List.nodup_append.1 (List.nodup_append.1 hn).2.1).1
  have hDt : ∀ k ∈ D.toList, k ∈ t.toList := fun k hk => by
    rw [← hl]; exact List.mem_append_right _ (List.mem_append_left _ hk)
  have hDsz : D.size < bimap.fuel b := by
    have : D.size ≤ t.size := by
      rw [← NodeTree.length_toList, ← NodeTree.length_toList, ← hl]
      simp only [List.length_append]
      omega
    omega
  obtain ⟨m2, e2, r2, o2⟩ := remove_another_nodes_shape hs
    (fun k => b.mem.priority (Ptr.node s' k)) (bimap.fuel b) D (bimap.fuel b) m1 t' sD hnD
    (Rooted_outside_of_eq hs o1 h') (fun k hk => hmem k (hDt k hk)) hDsz hf'
    (fun k => by rw [o1.1])
  have e3 := delete_nodes_shape s D (bimap.fuel b) m2 (Shape_outside hs2 o2 sD) hDsz
  have e' : bimap.erase_range cmp val s b first last
      = some ({ b with mem := m2, cnt_elem := b.cnt_elem - D.size }, last) := by
    simp [bimap.erase_range, e1, e2, e3]
  rw [e'] at e
  injection e with e
  injection e with e _
  subst e
  have r1 := Rooted_outside_of_eq hs2 o2 rK
  have hp : m2.priority = b.mem.priority := o2.1.trans o1.1
  have ht := hh s t h
  have hsA := NodeTree.split_heap prioGe_trans (ltVal cmp val v1) t ht
  have hCh : C.heap prioGe (prioOf b.mem s) = true := by
    rcases hcase with ⟨_, _, hC⟩ | ⟨_, v2, _, _, hC⟩
    · rw [hC]; rfl
    · rw [hC]
      exact (NodeTree.split_heap prioGe_trans (ltVal cmp val v2) _ hsA.2).2
  have g1 : (NodeTree.merge (prioOf b.mem s) A C).heap prioGe (prioOf b.mem s) = true :=
    NodeTree.merge_heap_ge _ A C (hA ▸ hsA.1) hCh
  have g2 := NodeTree.delAll_heap_ge (prioOf b.mem s') D.postorder t' (hh s' t' h')
  intro s0 t0 ht0
  have hp0 : prioOf m2 s0 = prioOf b.mem s0 := prioOf_congr hp s0
  show t0.heap prioGe (prioOf m2 s0) = true
  rw [hp0]
  by_cases hs0 : s0 = s
  · subst hs0
    rw [Rooted_unique ht0 r1]; exact g1
  · have : s0 = s' := by
      subst hs
      cases s0 <;> cases s <;> simp at hs0 ⊢
    subst this
    rw [Rooted_unique ht0 r2]; exact g2

/-- `insert` keeps both trees heap-ordered, whatever priorities the new records
draw. -/
theorem insert_heap (hL : StrictWeak cmpL) (hR : StrictWeak cmpR) {b : Bimap L R}
    {tl tr : NodeTree} (h : BimapInv cmpL cmpR b tl tr) (l : L) (r : R) (pl pr : Nat)
    (hh : HeapOrdered b) {b' : Bimap L R} {it : Ptr}
    (e : bimap.insert cmpL cmpR b l r pl pr = some (b', it)) : HeapOrdered b' := by
  by_cases hdup : (∃ i x, i ∈ tl.toList ∧ b.valL i = some x ∧ treap.equal cmpL x l = true) ∨
      (∃ i y, i ∈ tl.toList ∧ b.valR i = some y ∧ treap.equal cmpR y r = true)
  · rw [insert_dup hL hR h l r pl pr hdup] at e
    injection e with e
    injection e with e _
    subst e
    exact hh
  rw [not_or] at hdup
  have hl : ∀ i ∈ tl.toList, ∀ x, b.valL i = some x → treap.equal cmpL x l = false := by
    intro i hi x hx
    cases he : treap.equal cmpL x l with
    | false => rfl
    | true => exact absurd ⟨i, x, hi, hx, he⟩ hdup.1
  have hr : ∀ i ∈ tr.toList, ∀ y, b.valR i = some y → treap.equal cmpR y r = false := by
    intro i hi y hy
    cases he : treap.equal cmpR y r with
    | false => rfl
    | true => exact absurd ⟨i, y, h.perm.mem_iff.2 hi, hy, he⟩ hdup.2
  have e1 := find_of_not_equal hL h.left h.valsL h.sortedL l h.size_left_lt hl
  have e2 := find_of_not_equal hR h.right h.valsR_right h.sortedR r h.size_right_lt hr
  have hnl : b.nextId ∉ tl.toList := fun hc => Nat.lt_irrefl _ (h.ids _ hc)
  have hnr : b.nextId ∉ tr.toList := fun hc => Nat.lt_irrefl _ (h.ids_right _ hc)
  -- the memory after `new node_t`
  generalize hm0 : ((((((((b.mem.setLeft (Ptr.node true b.nextId) Ptr.null).setRight
    (Ptr.node true b.nextId) Ptr.null).setFather (Ptr.node true b.nextId) Ptr.null).setPriority
    (Ptr.node true b.nextId) pl).setLeft (Ptr.node false b.nextId) Ptr.null).setRight
    (Ptr.node false b.nextId) Ptr.null).setFather (Ptr.node false b.nextId)
    Ptr.null).setPriority (Ptr.node false b.nextId) pr) = m0
  have hm0l : ∀ q, (∀ s, q ≠ Ptr.node s b.nextId) → m0.left q = b.mem.left q ∧
      m0.right q = b.mem.right q ∧ m0.father q = b.mem.father q ∧
      m0.priority q = b.mem.priority q := by
    intro q hq
    subst hm0
    simp [upd_apply, hq true, hq false]
  have hm0n : ∀ s, m0.left (Ptr.node s b.nextId) = Ptr.null ∧
      m0.right (Ptr.node s b.nextId) = Ptr.null := by
    intro s
    subst hm0
    cases s <;> simp [upd_apply]
  have hroot0 : ∀ s' s, Ptr.root s' ≠ Ptr.node s b.nextId := by intro s' s hc; cases hc
  have hne0 : ∀ (s : Bool) (t : NodeTree), b.nextId ∉ t.toList →
      ∀ j ∈ t.toList, ∀ s', Ptr.node s j ≠ Ptr.node s' b.nextId := by
    intro s t hn j hj s' hc
    injection hc with _ e
    exact hn (e ▸ hj)
  have rooted0 : ∀ (s : Bool) (t : NodeTree), b.nextId ∉ t.toList → Rooted b.mem s t →
      Rooted m0 s t := by
    intro s t hn ht
    have hne := hne0 s t hn
    refine ⟨(hm0l _ (hroot0 s)).1.trans ht.root_left, ?_, ?_,
      (hm0l _ (hroot0 s)).2.1.trans ht.root_right, ht.nodup⟩
    · exact Shape_congr t (fun j hj => ⟨(hm0l _ (hne j hj)).1, (hm0l _ (hne j hj)).2.1⟩)
        (fun j hj => (hm0l _ (hne j (NodeTree.inner_subset t j hj))).2.2.1) ht.shape
    · have := ht.fath
      cases t with
      | nil => trivial
      | node tl' i tr' => exact ((hm0l _ (hne i (by simp))).2.2.1).trans this
  have heap0 : ∀ (s : Bool) (t : NodeTree), b.nextId ∉ t.toList → Rooted b.mem s t →
      t.heap prioGe (prioOf m0 s) = true := by
    intro s t hn ht
    have hc : t.heap prioGe (prioOf m0 s) = t.heap prioGe (prioOf b.mem s) :=
      NodeTree.heap_congr t (fun j hj => (hm0l _ (hne0 s t hn j hj)).2.2.2)
    rw [hc]
    exact hh s t ht
  have hszl : tl.size + 2 ≤ b.nextId + 2 := by
    have := h.size_left_lt; unfold bimap.fuel at this; omega
  have hszr : tr.size + 2 ≤ b.nextId + 2 := by
    have := h.size_right_lt; unfold bimap.fuel at this; omega
  -- the left tree
  obtain ⟨m1, i1, r1, o1, f1⟩ := insert_rooted cmpL (updVal b.valL b.nextId l) true l
    (ltVal cmpL b.valL l) (rooted0 true tl hnl h.left)
    (fun i hi => by
      obtain ⟨x, hx⟩ := h.valsL i hi
      have hin : i ≠ b.nextId := fun e => hnl (e ▸ hi)
      exact ⟨x, by rw [updVal_ne _ _ hin]; exact hx, (ltVal_of_some hx).symm⟩)
    (updVal_same _ _ _) hnl (hm0n true).1 (hm0n true).2 hszl
  -- the right tree
  have rr1 : Rooted m1 false tr := Rooted_outside_true o1 (rooted0 false tr hnr h.right)
  obtain ⟨m2, i2, r2, o2, f2⟩ := insert_rooted cmpR (updVal b.valR b.nextId r) false r
    (ltVal cmpR b.valR r) rr1
    (fun i hi => by
      obtain ⟨x, hx⟩ := h.valsR_right i hi
      have hin : i ≠ b.nextId := fun e => hnr (e ▸ hi)
      exact ⟨x, by rw [updVal_ne _ _ hin]; exact hx, (ltVal_of_some hx).symm⟩)
    (updVal_same _ _ _) hnr
    (((o1.2.1 b.nextId).1).trans (hm0n false).1)
    (((o1.2.1 b.nextId).2.1).trans (hm0n false).2) hszr
  have rl2 := Rooted_outside_false o2 r1
  have e' : bimap.insert cmpL cmpR b l r pl pr
      = some (⟨m2, updVal b.valL b.nextId l, updVal b.valR b.nextId r, b.cnt_elem + 1,
        b.nextId + 1⟩, Ptr.node true b.nextId) := by
    simp only [bimap.insert, treap.contains, e1, e2, ne_eq, not_true_eq_false, decide_False]
    rw [hm0]
    simp [i1, i2]
  rw [e'] at e
  injection e with e
  injection e with e _
  subst e
  have g1 : (NodeTree.ins (prioOf m0 true) (ltVal cmpL b.valL l) b.nextId tl).heap prioGe
      (prioOf m0 true) = true :=
    NodeTree.ins_heap_ge _ _ _ tl (heap0 true tl hnl h.left)
  have g2 : (NodeTree.ins (prioOf m1 false) (ltVal cmpR b.valR r) b.nextId tr).heap prioGe
      (prioOf m1 false) = true := by
    refine NodeTree.ins_heap_ge _ _ _ tr ?_
    rw [prioOf_congr o1.1 false]
    exact heap0 false tr hnr h.right
  intro s0 t0 ht0
  cases s0 with
  | true =>
    have hp0 : prioOf m2 true = prioOf m0 true := prioOf_congr (o2.1.trans o1.1) true
    show t0.heap prioGe (prioOf m2 true) = true
    rw [hp0, Rooted_unique ht0 rl2]; exact g1
  | false =>
    have hp0 : prioOf m2 false = prioOf m1 false := prioOf_congr o2.1 false
    show t0.heap prioGe (prioOf m2 false) = true
    rw [hp0, Rooted_unique ht0 r2]; exact g2

end

section
variable {L R : Type} {cmpL : L → L → Bool} {cmpR : R → R → Bool}

/-- What `at_left_or_default` does to the state: nothing, or `erase_right` of the
default followed by `insert`. -/
theorem at_left_or_default_cases {b b' : Bimap L R} {dflt res : R} {key : L} {pl pr : Nat}
    (e : bimap.at_left_or_default cmpL cmpR dflt b key pl pr = some (b', res)) :
    b' = b ∨ ∃ b1 x it, bimap.erase_right_key cmpR b dflt = some (b1, x) ∧
      bimap.insert cmpL cmpR b1 key dflt pl pr = some (b', it) := by
  unfold bimap.at_left_or_default at e
  cases hf : bimap.find_left cmpL b key with
  | none => rw [hf] at e; cases e
  | some iter_l =>
    rw [hf] at e
    dsimp only at e
    by_cases hne : iter_l ≠ bimap.end_left
    · rw [if_pos hne] at e
      cases h1 : bimap.flip true b.mem iter_l with
      | none => rw [h1] at e; cases e
      | some other =>
        rw [h1] at e
        dsimp only at e
        cases h2 : treap.value b.valR false other with
        | none => rw [h2] at e; cases e
        | some r =>
          rw [h2] at e
          dsimp only at e
          injection e with e
          injection e with e _
          exact Or.inl e.symm
    · rw [if_neg hne] at e
      cases h1 : bimap.erase_right_key cmpR b dflt with
      | none => rw [h1] at e; cases e
      | some p1 =>
        obtain ⟨b1, x⟩ := p1
        rw [h1] at e
        dsimp only at e
        cases h2 : bimap.insert cmpL cmpR b1 key dflt pl pr with
        | none => rw [h2] at e; cases e
        | some p2 =>
          obtain ⟨b2, it⟩ := p2
          rw [h2] at e
          dsimp only at e
          cases h3 : bimap.flip true b2.mem it with
          | none => rw [h3] at e; cases e
          | some other =>
            rw [h3] at e
            dsimp only at e
            cases h4 : treap.value b2.valR false other with
            | none => rw [h4] at e; cases e
            | some r =>
              rw [h4] at e
              dsimp only at e
              injection e with e
              injection e with e _
              exact Or.inr ⟨b1, x, it, rfl, e ▸ h2⟩

/-- What `at_right_or_default` does to the state: nothing, or `erase_left` of the
default followed by `insert`. -/
theorem at_right_or_default_cases {b b' : Bimap L R} {dflt res : L} {key : R} {pl pr : Nat}
    (e : bimap.at_right_or_default cmpL cmpR dflt b key pl pr = some (b', res)) :
    b' = b ∨ ∃ b1 x it, bimap.erase_left_key cmpL b dflt = some (b1, x) ∧
      bimap.insert cmpL cmpR b1 dflt key pl pr = some (b', it) := by
  unfold bimap.at_right_or_default at e
  cases hf : bimap.find_right cmpR b key with
  | none => rw [hf] at e; cases e
  | some iter_r =>
    rw [hf] at e
    dsimp only at e
    by_cases hne : iter_r ≠ bimap.end_right
    · rw [if_pos hne] at e
      cases h1 : bimap.flip false b.mem iter_r with
      | none => rw [h1] at e; cases e
      | some other =>
        rw [h1] at e
        dsimp only at e
        cases h2 : treap.value b.valL true other with
        | none => rw [h2] at e; cases e
        | some r =>
          rw [h2] at e
          dsimp only at e
          injection e with e
          injection e with e _
          exact Or.inl e.symm
    · rw [if_neg hne] at e
      cases h1 : bimap.erase_left_key cmpL b dflt with
      | none => rw [h1] at e; cases e
      | some p1 =>
        obtain ⟨b1, x⟩ := p1
        rw [h1] at e
        dsimp only at e
        cases h2 : bimap.insert cmpL cmpR b1 dflt key pl pr with
        | none => rw [h2] at e; cases e
        | some p2 =>
          obtain ⟨b2, it⟩ := p2
          rw [h2] at e
          dsimp only at e
          cases h4 : treap.value b2.valL true it with
          | none => rw [h4] at e; cases e
          | some r =>
            rw [h4] at e
            dsimp only at e
            injection e with e
            injection e with e _
            exact Or.inr ⟨b1, x, it, rfl, e ▸ h2⟩

/-- In every reachable state both trees are heap-ordered in the non-strict
sense. -/
theorem reachable_heap (hL : StrictWeak cmpL) (hR : StrictWeak cmpR) {b : Bimap L R}
    (hb : Reachable cmpL cmpR b) : HeapOrdered b := by
  induction hb with
  | empty pl pr => exact heapOrdered_empty pl pr
  | @insert b b1 it l r pl pr hp e ih =>
    obtain ⟨tl, tr, h⟩ := reachable_inv hL hR hp
    exact insert_heap hL hR h l r pl pr ih e
  | @erase_left_key b b1 res l hp e ih =>
    obtain ⟨tl, tr, h⟩ := reachable_inv hL hR hp
    exact erase_key_heap hL true false rfl b h.left h.right (fun i hi => h.perm.mem_iff.1 hi)
      h.valsL h.sortedL h.size_left_lt h.size_right_lt l ih e
  | @erase_right_key b b1 res r hp e ih =>
    obtain ⟨tl, tr, h⟩ := reachable_inv hL hR hp
    exact erase_key_heap hR false true rfl b h.right h.left (fun i hi => h.perm.mem_iff.2 hi)
      h.valsR_right h.sortedR h.size_right_lt h.size_left_lt r ih e
  | @erase_it b b1 res side it hp hlive e ih =>
    obtain ⟨tl, tr, h⟩ := reachable_inv hL hR hp
    cases side with
    | true =>
      obtain ⟨i, hi, rfl⟩ := h.live_left.1 hlive
      exact erase_it_heap true false rfl b h.left h.right hi (h.perm.mem_iff.1 hi)
        h.size_left_lt h.size_right_lt ih e
    | false =>
      obtain ⟨i, hi, rfl⟩ := h.live_right.1 hlive
      exact erase_it_heap false true rfl b h.right h.left hi (h.perm.mem_iff.2 hi)
        h.size_right_lt h.size_left_lt ih e
  | @erase_left_range b b1 res first last hp hv e ih =>
    obtain ⟨tl, tr, h⟩ := reachable_inv hL hR hp
    obtain ⟨⟨i1, hi1, rfl⟩, hlast⟩ := validRange_ends h.nodes_left hv
    obtain ⟨v1, hv1⟩ := h.valsL i1 hi1
    have hl2 : last = Ptr.root true ∨ ∃ v2, treap.value b.valL true last = some v2 := by
      rcases hlast with hl | ⟨i2, hi2, rfl⟩
      · exact Or.inl hl
      · obtain ⟨v2, hv2⟩ := h.valsL i2 hi2
        exact Or.inr ⟨v2, by simp [treap.value, hv2]⟩
    have hv1' : treap.value b.valL true (Ptr.node true i1) = some v1 := by
      simp [treap.value, hv1]
    exact erase_range_heap cmpL b.valL true false rfl b h.left h.right
      (fun i hi => h.perm.mem_iff.1 hi) h.valsL h.size_left_lt h.size_right_lt hv1' hl2 ih e
  | @erase_right_range b b1 res first last hp hv e ih =>
    obtain ⟨tl, tr, h⟩ := reachable_inv hL hR hp
    obtain ⟨⟨i1, hi1, rfl⟩, hlast⟩ := validRange_ends h.nodes_right hv
    obtain ⟨v1, hv1⟩ := h.valsR_right i1 hi1
    have hl2 : last = Ptr.root false ∨ ∃ v2, treap.value b.valR false last = some v2 := by
      rcases hlast with hl | ⟨i2, hi2, rfl⟩
      · exact Or.inl hl
      · obtain ⟨v2, hv2⟩ := h.valsR_right i2 hi2
        exact Or.inr ⟨v2, by simp [treap.value, hv2]⟩
    have hv1' : treap.value b.valR false (Ptr.node false i1) = some v1 := by
      simp [treap.value, hv1]
    exact erase_range_heap cmpR b.valR false true rfl b h.right h.left
      (fun i hi => h.perm.mem_iff.2 hi) h.valsR_right h.size_right_lt h.size_left_lt hv1' hl2
      ih e
  | @at_left_or_default b b1 res dflt key pl pr hp e ih =>
    obtain ⟨tl, tr, h⟩ := reachable_inv hL hR hp
    rcases at_left_or_default_cases e with rfl | ⟨b2, x, it, e1, e2⟩
    · exact ih
    · have hh2 := erase_key_heap hR false true rfl b h.right h.left
        (fun i hi => h.perm.mem_iff.2 hi) h.valsR_right h.sortedR h.size_right_lt
        h.size_left_lt dflt ih e1
      obtain ⟨tl2, tr2, h2⟩ := reachable_inv hL hR (Reachable.erase_right_key dflt hp e1)
      exact insert_heap hL hR h2 key dflt pl pr hh2 e2
  | @at_right_or_default b b1 res dflt key pl pr hp e ih =>
    obtain ⟨tl, tr, h⟩ := reachable_inv hL hR hp
    rcases at_right_or_default_cases e with rfl | ⟨b2, x, it, e1, e2⟩
    · exact ih
    · have hh2 := erase_key_heap hL true false rfl b h.left h.right
        (fun i hi => h.perm.mem_iff.1 hi) h.valsL h.sortedL h.size_left_lt
        h.size_right_lt dflt ih e1
      obtain ⟨tl2, tr2, h2⟩ := reachable_inv hL hR (Reachable.erase_left_key dflt hp e1)
      exact insert_heap hL hR h2 dflt key pl pr hh2 e2

end


theorem demoTie1_reachable : Reachable natLt natLt demoTie1 :=
  @Reachable.insert Nat Nat natLt natLt demo0 demoTie1 (Ptr.node true 0) 1 10 5 5
    (Reachable.empty 0 0) (by rfl)

theorem demoTie_reachable : Reachable natLt natLt demoTie :=
  @Reachable.insert Nat Nat natLt natLt demoTie1 demoTie (Ptr.node true 1) 2 20 5 5
    demoTie1_reachable (by rfl)

theorem demoTie_rooted_left : Rooted demoTie.mem true tieShape :=
  ⟨by decide, by simp only [tieShape, Shape, Fath, NodeTree.ptr]; decide,
    by simp only [tieShape, Fath]; decide, by decide, by decide⟩

theorem demoTie_rooted_right : Rooted demoTie.mem false tieShape :=
  ⟨by decide, by simp only [tieShape, Shape, Fath, NodeTree.ptr]; decide,
    by simp only [tieShape, Fath]; decide, by decide, by decide⟩

theorem tieMem_shape (i : Nat) :
    Shape tieMem true (NodeTree.node NodeTree.nil i NodeTree.nil) := by
  simp only [Shape, Fath, NodeTree.ptr]
  exact ⟨rfl, rfl, trivial, trivial, trivial, trivial⟩

/-- C21 (counterexample): two single-record subtrees whose records drew the same
priority are both strictly heap-ordered, yet `merge` puts the second on top of
the first, a parent whose priority is not greater than its child's.  The same
shape arises in the state reached by `insert(1, 10)`, `insert(2, 20)` when all
four records draw priority 5: there the strict heap property fails in both
trees. -/
theorem merge_breaks_strict_heap :
    Shape tieMem true (NodeTree.node NodeTree.nil 0 NodeTree.nil) ∧
    Shape tieMem true (NodeTree.node NodeTree.nil 1 NodeTree.nil) ∧
    (NodeTree.node NodeTree.nil 0 NodeTree.nil).heap prioGt (prioOf tieMem true) = true ∧
    (NodeTree.node NodeTree.nil 1 NodeTree.nil).heap prioGt (prioOf tieMem true) = true ∧
    treap.merge 3 tieMem (Ptr.node true 0) (Ptr.node true 1)
      = some (tieMerged, tieShape.ptr true) ∧
    Shape tieMerged true tieShape ∧
    tieShape.heap prioGt (prioOf tieMerged true) = false ∧
    Reachable natLt natLt demoTie ∧
    Rooted demoTie.mem true tieShape ∧ Rooted demoTie.mem false tieShape ∧
    tieShape.heap prioGt (prioOf demoTie.mem true) = false ∧
    tieShape.heap prioGt (prioOf demoTie.mem false) = false :=
  ⟨tieMem_shape 0, tieMem_shape 1, by decide, by decide, by rfl,
    by simp only [tieShape, Shape, Fath, NodeTree.ptr]; decide, by decide,
    demoTie_reachable, demoTie_rooted_left, demoTie_rooted_right, by decide, by decide⟩

section
variable {L R : Type} {cmpL : L → L → Bool} {cmpR : R → R → Bool}

/-- C21 (amended): the heap property holds in the non-strict form
`priority(parent) >= priority(child)`.  `merge` of two subtrees that satisfy it
returns a subtree that satisfies it, and it holds in both trees of every
reachable state, whatever priorities the records drew.  The strict form is kept
by `merge` when no record of the first subtree has the priority of a record of
the second, and holds in a tree of a reachable state whose records have pairwise
different priorities. -/
theorem heap_order_maintained (hL : StrictWeak cmpL) (hR : StrictWeak cmpR) {b : Bimap L R}
    (hb : Reachable cmpL cmpR b) :
    (∀ (s : Bool) (m : Mem) (a c : NodeTree) (fuel : Nat), Shape m s a → Shape m s c →
      (a.toList ++ c.toList).Nodup → a.size + c.size < fuel →
      ∃ m' t, treap.merge fuel m (a.ptr s) (c.ptr s) = some (m', t.ptr s) ∧ Shape m' s t ∧
        t.toList = a.toList ++ c.toList ∧
        (a.heap prioGe (prioOf m s) = true → c.heap prioGe (prioOf m s) = true →
          t.heap prioGe (prioOf m' s) = true) ∧
        (a.heap prioGt (prioOf m s) = true → c.heap prioGt (prioOf m s) = true →
          (∀ i ∈ a.toList, ∀ j ∈ c.toList, prioOf m s i ≠ prioOf m s j) →
          t.heap prioGt (prioOf m' s) = true)) ∧
    ∃ tl tr, Rooted b.mem true tl ∧ Rooted b.mem false tr ∧
      tl.heap prioGe (prioOf b.mem true) = true ∧
      tr.heap prioGe (prioOf b.mem false) = true ∧
      ((∀ i ∈ tl.toList, ∀ j ∈ tl.toList, i ≠ j → prioOf b.mem true i ≠ prioOf b.mem true j) →
        tl.heap prioGt (prioOf b.mem true) = true) ∧
      ((∀ i ∈ tr.toList, ∀ j ∈ tr.toList, i ≠ j →
          prioOf b.mem false i ≠ prioOf b.mem false j) →
        tr.heap prioGt (prioOf b.mem false) = true) := by
  constructor
  · intro s m a c fuel ha hc hn hf
    obtain ⟨m', e, st, fr⟩ := merge_shape s fuel a c m ha hc hn hf
    have hp : prioOf m' s = prioOf m s := prioOf_congr fr.1 s
    refine ⟨m', _, e, st, NodeTree.merge_toList_eq _ a c, ?_, ?_⟩
    · intro g1 g2
      rw [hp]
      exact NodeTree.merge_heap_ge (prioOf m s) a c g1 g2
    · intro g1 g2 hne
      rw [hp]
      exact NodeTree.merge_heap_gt (prioOf m s) a c hne g1 g2
  · obtain ⟨tl, tr, h⟩ := reachable_inv hL hR hb
    have hh := reachable_heap hL hR hb
    exact ⟨tl, tr, h.left, h.right, hh true tl h.left, hh false tr h.right,
      fun hd => NodeTree.heap_gt_of_ge tl h.left.nodup hd (hh true tl h.left),
      fun hd => NodeTree.heap_gt_of_ge tr h.right.nodup hd (hh false tr h.right)⟩

/-- C21 (amended) at a concrete input: the state with four records of priority 5,
and the merge of two records of equal priority. -/
theorem heap_order_maintained_witness :
    Reachable natLt natLt demoTie ∧
    (∃ m' t, treap.merge 3 tieMem ((NodeTree.node NodeTree.nil 0 NodeTree.nil).ptr true)
        ((NodeTree.node NodeTree.nil 1 NodeTree.nil).ptr true) = some (m', t.ptr true) ∧
      Shape m' true t ∧
      t.toList = (NodeTree.node NodeTree.nil 0 NodeTree.nil).toList ++
        (NodeTree.node NodeTree.nil 1 NodeTree.nil).toList ∧
      ((NodeTree.node NodeTree.nil 0 NodeTree.nil).heap prioGe (prioOf tieMem true) = true →
        (NodeTree.node NodeTree.nil 1 NodeTree.nil).heap prioGe (prioOf tieMem true) = true →
        t.heap prioGe (prioOf m' true) = true) ∧
      ((NodeTree.node NodeTree.nil 0 NodeTree.nil).heap prioGt (prioOf tieMem true) = true →
        (NodeTree.node NodeTree.nil 1 NodeTree.nil).heap prioGt (prioOf tieMem true) = true →
        (∀ i ∈ (NodeTree.node NodeTree.nil 0 NodeTree.nil).toList,
          ∀ j ∈ (NodeTree.node NodeTree.nil 1 NodeTree.nil).toList,
            prioOf tieMem true i ≠ prioOf tieMem true j) →
        t.heap prioGt (prioOf m' true) = true)) ∧
    ∃ tl tr, Rooted demoTie.mem true tl ∧ Rooted demoTie.mem false tr ∧
      tl.heap prioGe (prioOf demoTie.mem true) = true ∧
      tr.heap prioGe (prioOf demoTie.mem false) = true ∧
      ((∀ i ∈ tl.toList, ∀ j ∈ tl.toList, i ≠ j →
          prioOf demoTie.mem true i ≠ prioOf demoTie.mem true j) →
        tl.heap prioGt (prioOf demoTie.mem true) = true) ∧
      ((∀ i ∈ tr.toList, ∀ j ∈ tr.toList, i ≠ j →
          prioOf demoTie.mem false i ≠ prioOf demoTie.mem false j) →
        tr.heap prioGt (prioOf demoTie.mem false) = true) :=
  ⟨demoTie_reachable,
    (heap_order_maintained natLt_strictWeak natLt_strictWeak demoTie_reachable).1 true tieMem
      (NodeTree.node NodeTree.nil 0 NodeTree.nil) (NodeTree.node NodeTree.nil 1 NodeTree.nil) 3
      (tieMem_shape 0) (tieMem_shape 1) (by decide) (by decide),
    (heap_order_maintained natLt_strictWeak natLt_strictWeak demoTie_reachable).2⟩

end


section
variable {L R : Type} {cmpL : L → L → Bool} {cmpR : R → R → Bool}

/-- Every query answers the same in two states with the same view. -/
theorem sameView_queries (hL : StrictWeak cmpL) (hR : StrictWeak cmpR) {b1 b2 : Bimap L R}
    (hv : SameView cmpL cmpR b1 b2) :
    bimap.size b1 = bimap.size b2 ∧
    bimap.nodes true b1 = bimap.nodes true b2 ∧ bimap.nodes false b1 = bimap.nodes false b2 ∧
    bimap.pairs true b1 = bimap.pairs true b2 ∧ bimap.pairs false b1 = bimap.pairs false b2 ∧
    (∀ l, bimap.find_left cmpL b1 l = bimap.find_left cmpL b2 l ∧
      bimap.at_left cmpL b1 l = bimap.at_left cmpL b2 l ∧
      bimap.lower_bound_left cmpL b1 l = bimap.lower_bound_left cmpL b2 l ∧
      bimap.upper_bound_left cmpL b1 l = bimap.upper_bound_left cmpL b2 l) ∧
    (∀ r, bimap.find_right cmpR b1 r = bimap.find_right cmpR b2 r ∧
      bimap.at_right cmpR b1 r = bimap.at_right cmpR b2 r ∧
      bimap.lower_bound_right cmpR b1 r = bimap.lower_bound_right cmpR b2 r ∧
      bimap.upper_bound_right cmpR b1 r = bimap.upper_bound_right cmpR b2 r) := by
  obtain ⟨tl1, tr1, tl2, tr2, h1, h2, el, er, evl, evr, en⟩ := hv
  have hpa : pairAt b1 = pairAt b2 := pairAt_congr evl evr
  refine ⟨?_, ?_, ?_, ?_, ?_, ?_, ?_⟩
  · simp only [bimap.size, h1.cnt, h2.cnt, el]
  · rw [h1.nodes_left, h2.nodes_left, el]
  · rw [h1.nodes_right, h2.nodes_right, er]
  · rw [h1.pairs_left, h2.pairs_left, el, hpa]
  · rw [h1.pairs_right, h2.pairs_right, er, hpa]
  · intro l
    have ef : treap.find cmpL b1.valL true (bimap.fuel b1) b1.mem l
        = treap.find cmpL b2.valL true (bimap.fuel b2) b2.mem l := by
      rw [find_rooted hL h1.left h1.valsL h1.sortedL l h1.size_left_lt,
        find_rooted hL h2.left h2.valsL h2.sortedL l h2.size_left_lt, el, evl]
    have eg : treap.lower_bound cmpL b1.valL true (bimap.fuel b1) b1.mem
          (b1.mem.left (Ptr.root true)) l
        = treap.lower_bound cmpL b2.valL true (bimap.fuel b2) b2.mem
          (b2.mem.left (Ptr.root true)) l := by
      rw [lower_bound_rooted hL h1.left h1.valsL h1.sortedL l h1.size_left_lt,
        lower_bound_rooted hL h2.left h2.valsL h2.sortedL l h2.size_left_lt, el, evl]
    have eu : treap.upper_bound cmpL b1.valL true (bimap.fuel b1) b1.mem
          (b1.mem.left (Ptr.root true)) l
        = treap.upper_bound cmpL b2.valL true (bimap.fuel b2) b2.mem
          (b2.mem.left (Ptr.root true)) l := by
      rw [upper_bound_rooted hL h1.left h1.valsL h1.sortedL l h1.size_left_lt,
        upper_bound_rooted hL h2.left h2.valsL h2.sortedL l h2.size_left_lt, el, evl]
    refine ⟨?_, ?_, ?_, ?_⟩
    · simp only [bimap.find_left, ef]
    · simp only [bimap.at_left, ef, bimap.right_of_left, evr]
    · simp only [bimap.lower_bound_left, eg]
    · simp only [bimap.upper_bound_left, eu]
  · intro r
    have ef : treap.find cmpR b1.valR false (bimap.fuel b1) b1.mem r
        = treap.find cmpR b2.valR false (bimap.fuel b2) b2.mem r := by
      rw [find_rooted hR h1.right h1.valsR_right h1.sortedR r h1.size_right_lt,
        find_rooted hR h2.right h2.valsR_right h2.sortedR r h2.size_right_lt, er, evr]
    have eg : treap.lower_bound cmpR b1.valR false (bimap.fuel b1) b1.mem
          (b1.mem.left (Ptr.root false)) r
        = treap.lower_bound cmpR b2.valR false (bimap.fuel b2) b2.mem
          (b2.mem.left (Ptr.root false)) r := by
      rw [lower_bound_rooted hR h1.right h1.valsR_right h1.sortedR r h1.size_right_lt,
        lower_bound_rooted hR h2.right h2.valsR_right h2.sortedR r h2.size_right_lt, er, evr]
    have eu : treap.upper_bound cmpR b1.valR false (bimap.fuel b1) b1.mem
          (b1.mem.left (Ptr.root false)) r
        = treap.upper_bound cmpR b2.valR false (bimap.fuel b2) b2.mem
          (b2.mem.left (Ptr.root false)) r := by
      rw [upper_bound_rooted hR h1.right h1.valsR_right h1.sortedR r h1.size_right_lt,
        upper_bound_rooted hR h2.right h2.valsR_right h2.sortedR r h2.size_right_lt, er, evr]
    refine ⟨?_, ?_, ?_, ?_⟩
    · simp only [bimap.find_right, ef]
    · simp only [bimap.at_right, ef, bimap.left_of_right, evl]
    · simp only [bimap.lower_bound_right, eg]
    · simp only [bimap.upper_bound_right, eu]

end

section
variable {L R : Type} {cmpL : L → L → Bool} {cmpR : R → R → Bool}

theorem insert_sameView (hL : StrictWeak cmpL) (hR : StrictWeak cmpR) {b1 b2 : Bimap L R}
    (hv : SameView cmpL cmpR b1 b2) (l : L) (r : R) (pl pr pl' pr' : Nat) :
    ∃ b1' b2' it, bimap.insert cmpL cmpR b1 l r pl pr = some (b1', it) ∧
      bimap.insert cmpL cmpR b2 l r pl' pr' = some (b2', it) ∧ SameView cmpL cmpR b1' b2' := by
  obtain ⟨tl1, tr1, tl2, tr2, h1, h2, el, er, evl, evr, en⟩ := hv
  by_cases hdup : (∃ i x, i ∈ tl1.toList ∧ b1.valL i = some x ∧ treap.equal cmpL x l = true) ∨
      (∃ i y, i ∈ tl1.toList ∧ b1.valR i = some y ∧ treap.equal cmpR y r = true)
  · have hdup2 : (∃ i x, i ∈ tl2.toList ∧ b2.valL i = some x ∧ treap.equal cmpL x l = true) ∨
        (∃ i y, i ∈ tl2.toList ∧ b2.valR i = some y ∧ treap.equal cmpR y r = true) := by
      rw [← el, ← evl, ← evr]; exact hdup
    exact ⟨b1, b2, bimap.end_left, insert_dup hL hR h1 l r pl pr hdup,
      insert_dup hL hR h2 l r pl' pr' hdup2, tl1, tr1, tl2, tr2, h1, h2, el, er, evl, evr, en⟩
  · rw [not_or] at hdup
    have hl1 : ∀ i ∈ tl1.toList, ∀ x, b1.valL i = some x → treap.equal cmpL x l = false := by
      intro i hi x hx
      cases he : treap.equal cmpL x l with
      | false => rfl
      | true => exact absurd ⟨i, x, hi, hx, he⟩ hdup.1
    have hr1 : ∀ i ∈ tl1.toList, ∀ y, b1.valR i = some y → treap.equal cmpR y r = false := by
      intro i hi y hy
      cases he : treap.equal cmpR y r with
      | false => rfl
      | true => exact absurd ⟨i, y, hi, hy, he⟩ hdup.2
    obtain ⟨b1', tl1', tr1', e1, h1', vl1, vr1, _, n1, l1, r1, _⟩ :=
      insert_fresh hL hR h1 l r pl pr hl1 hr1
    obtain ⟨b2', tl2', tr2', e2, h2', vl2, vr2, _, n2, l2, r2, _⟩ :=
      insert_fresh hL hR h2 l r pl' pr' (by rw [← el, ← evl]; exact hl1)
        (by rw [← el, ← evr]; exact hr1)
    refine ⟨b1', b2', Ptr.node true b1.nextId, e1, by rw [en]; exact e2, tl1', tr1', tl2', tr2',
      h1', h2', ?_, ?_, ?_, ?_, ?_⟩
    · rw [l1, l2, el, evl, en]
    · rw [r1, r2, er, evr, en]
    · rw [vl1, vl2, evl, en]
    · rw [vr1, vr2, evr, en]
    · rw [n1, n2, en]

theorem erase_left_key_sameView (hL : StrictWeak cmpL) {b1 b2 : Bimap L R}
    (hv : SameView cmpL cmpR b1 b2) (l : L) :
    ∃ b1' b2' res, bimap.erase_left_key cmpL b1 l = some (b1', res) ∧
      bimap.erase_left_key cmpL b2 l = some (b2', res) ∧ SameView cmpL cmpR b1' b2' := by
  obtain ⟨tl1, tr1, tl2, tr2, h1, h2, el, er, evl, evr, en⟩ := hv
  obtain ⟨a1, a2⟩ := erase_left_key_inv hL h1 l
  obtain ⟨c1, c2⟩ := erase_left_key_inv hL h2 l
  by_cases hex : ∃ i x, i ∈ tl1.toList ∧ b1.valL i = some x ∧ treap.equal cmpL x l = true
  · obtain ⟨i, x, hi, hx, he⟩ := hex
    obtain ⟨b1', tl1', tr1', e1, h1', l1, r1, vl1, vr1, n1, _⟩ := a2 i x hi hx he
    obtain ⟨b2', tl2', tr2', e2, h2', l2, r2, vl2, vr2, n2, _⟩ :=
      c2 i x (el ▸ hi) (evl ▸ hx) he
    exact ⟨b1', b2', true, e1, e2, tl1', tr1', tl2', tr2', h1', h2', by rw [l1, l2, el],
      by rw [r1, r2, er], by rw [vl1, vl2, evl], by rw [vr1, vr2, evr], by rw [n1, n2, en]⟩
  · have hne : ∀ i ∈ tl1.toList, ∀ x, b1.valL i = some x → treap.equal cmpL x l = false := by
      intro i hi x hx
      cases he : treap.equal cmpL x l with
      | false => rfl
      | true => exact absurd ⟨i, x, hi, hx, he⟩ hex
    exact ⟨b1, b2, false, a1 hne, c1 (by rw [← el, ← evl]; exact hne), tl1, tr1, tl2, tr2, h1, h2,
      el, er, evl, evr, en⟩

theorem erase_right_key_sameView (hR : StrictWeak cmpR) {b1 b2 : Bimap L R}
    (hv : SameView cmpL cmpR b1 b2) (r : R) :
    ∃ b1' b2' res, bimap.erase_right_key cmpR b1 r = some (b1', res) ∧
      bimap.erase_right_key cmpR b2 r = some (b2', res) ∧ SameView cmpL cmpR b1' b2' := by
  obtain ⟨tl1, tr1, tl2, tr2, h1, h2, el, er, evl, evr, en⟩ := hv
  obtain ⟨a1, a2⟩ := erase_right_key_inv hR h1 r
  obtain ⟨c1, c2⟩ := erase_right_key_inv hR h2 r
  by_cases hex : ∃ i y, i ∈ tl1.toList ∧ b1.valR i = some y ∧ treap.equal cmpR y r = true
  · obtain ⟨i, y, hi, hy, he⟩ := hex
    obtain ⟨b1', tl1', tr1', e1, h1', l1, r1, vl1, vr1, n1, _⟩ := a2 i y hi hy he
    obtain ⟨b2', tl2', tr2', e2, h2', l2, r2, vl2, vr2, n2, _⟩ :=
      c2 i y (el ▸ hi) (evr ▸ hy) he
    exact ⟨b1', b2', true, e1, e2, tl1', tr1', tl2', tr2', h1', h2', by rw [l1, l2, el],
      by rw [r1, r2, er], by rw [vl1, vl2, evl], by rw [vr1, vr2, evr], by rw [n1, n2, en]⟩
  · have hne : ∀ i ∈ tl1.toList, ∀ y, b1.valR i = some y → treap.equal cmpR y r = false := by
      intro i hi y hy
      cases he : treap.equal cmpR y r with
      | false => rfl
      | true => exact absurd ⟨i, y, hi, hy, he⟩ hex
    exact ⟨b1, b2, false, a1 hne, c1 (by rw [← el, ← evr]; exact hne), tl1, tr1, tl2, tr2, h1, h2,
      el, er, evl, evr, en⟩

theorem erase_it_sameView {b1 b2 : Bimap L R} (hv : SameView cmpL cmpR b1 b2) (side : Bool)
    (it : Ptr) (hlive : Live side b1 it) :
    ∃ b1' b2' res, bimap.erase_it side b1 it = some (b1', res) ∧
      bimap.erase_it side b2 it = some (b2', res) ∧ SameView cmpL cmpR b1' b2' := by
  obtain ⟨tl1, tr1, tl2, tr2, h1, h2, el, er, evl, evr, en⟩ := hv
  cases side with
  | true =>
    obtain ⟨i, hi, rfl⟩ := h1.live_left.1 hlive
    obtain ⟨pre, post, hd⟩ := List.append_of_mem hi
    obtain ⟨b1', tl1', tr1', res1, e1, h1', l1, r1, vl1, vr1, n1, _, hres1⟩ :=
      erase_it_left_inv h1 hi
    obtain ⟨b2', tl2', tr2', res2, e2, h2', l2, r2, vl2, vr2, n2, _, hres2⟩ :=
      erase_it_left_inv h2 (el ▸ hi)
    have hr12 : res2 = res1 := by
      rw [hres1 pre post hd, hres2 pre post (el ▸ hd)]
    exact ⟨b1', b2', res1, e1, hr12 ▸ e2, tl1', tr1', tl2', tr2', h1', h2', by rw [l1, l2, el],
      by rw [r1, r2, er], by rw [vl1, vl2, evl], by rw [vr1, vr2, evr], by rw [n1, n2, en]⟩
  | false =>
    obtain ⟨i, hi, rfl⟩ := h1.live_right.1 hlive
    obtain ⟨pre, post, hd⟩ := List.append_of_mem hi
    obtain ⟨b1', tl1', tr1', res1, e1, h1', l1, r1, vl1, vr1, n1, _, hres1⟩ :=
      erase_it_right_inv h1 hi
    obtain ⟨b2', tl2', tr2', res2, e2, h2', l2, r2, vl2, vr2, n2, _, hres2⟩ :=
      erase_it_right_inv h2 (er ▸ hi)
    have hr12 : res2 = res1 := by
      rw [hres1 pre post hd, hres2 pre post (er ▸ hd)]
    exact ⟨b1', b2', res1, e1, hr12 ▸ e2, tl1', tr1', tl2', tr2', h1', h2', by rw [l1, l2, el],
      by rw [r1, r2, er], by rw [vl1, vl2, evl], by rw [vr1, vr2, evr], by rw [n1, n2, en]⟩

end

section
variable {L R : Type} {cmpL : L → L → Bool} {cmpR : R → R → Bool}

/-- A valid range in terms of node numbers. -/
theorem validRange_split {s : Bool} {b : Bimap L R} {t : NodeTree}
    (hn : bimap.nodes s b = some (t.toList.map (Ptr.node s))) {first last : Ptr}
    (h : ValidRange s b first last) :
    ∃ pre mid post i1, t.toList = pre ++ (mid ++ post) ∧ (mid ++ post).head? = some i1 ∧
      first = Ptr.node s i1 ∧ last = post.head?.elim (Ptr.root s) (Ptr.node s) := by
  obtain ⟨pre, mid, post, hnodes, hfirst, hlast⟩ := h
  rw [hn] at hnodes
  injection hnodes with hnodes
  obtain ⟨pre', mid', post', hl, rfl, rfl, rfl⟩ := map_node_split s hnodes
  rw [← List.map_append] at hfirst
  obtain ⟨i1, h1, rfl⟩ : ∃ i1, (mid' ++ post').head? = some i1 ∧ first = Ptr.node s i1 := by
    cases hmp : mid' ++ post' with
    | nil => rw [hmp] at hfirst; cases hfirst
    | cons a rest =>
      rw [hmp] at hfirst
      simp only [List.map_cons, List.head?_cons, Option.some.injEq] at hfirst
      exact ⟨a, rfl, hfirst.symm⟩
  exact ⟨pre', mid', post', i1, hl, h1, rfl, by rw [hlast]; exact headD_map_node s post'⟩

theorem erase_left_range_sameView (hL : StrictWeak cmpL) {b1 b2 : Bimap L R}
    (hv : SameView cmpL cmpR b1 b2) (first last : Ptr) (hr : ValidRange true b1 first last) :
    ∃ b1' b2' res, bimap.erase_left_range cmpL b1 first last = some (b1', res) ∧
      bimap.erase_left_range cmpL b2 first last = some (b2', res) ∧
      SameView cmpL cmpR b1' b2' := by
  obtain ⟨tl1, tr1, tl2, tr2, h1, h2, el, er, evl, evr, en⟩ := hv
  obtain ⟨pre, mid, post, i1, hl, hh, rfl, hlast⟩ := validRange_split h1.nodes_left hr
  obtain ⟨b1', tl1', tr1', e1, h1', l1, r1, vl1, vr1, n1, _⟩ :=
    erase_left_range_exact hL h1 hl hh hlast
  obtain ⟨b2', tl2', tr2', e2, h2', l2, r2, vl2, vr2, n2, _⟩ :=
    erase_left_range_exact hL h2 (el ▸ hl) hh hlast
  exact ⟨b1', b2', last, e1, e2, tl1', tr1', tl2', tr2', h1', h2', by rw [l1, l2],
    by rw [r1, r2, er], by rw [vl1, vl2, evl], by rw [vr1, vr2, evr], by rw [n1, n2, en]⟩

theorem erase_right_range_sameView (hR : StrictWeak cmpR) {b1 b2 : Bimap L R}
    (hv : SameView cmpL cmpR b1 b2) (first last : Ptr) (hr : ValidRange false b1 first last) :
    ∃ b1' b2' res, bimap.erase_right_range cmpR b1 first last = some (b1', res) ∧
      bimap.erase_right_range cmpR b2 first last = some (b2', res) ∧
      SameView cmpL cmpR b1' b2' := by
  obtain ⟨tl1, tr1, tl2, tr2, h1, h2, el, er, evl, evr, en⟩ := hv
  obtain ⟨pre, mid, post, i1, hl, hh, rfl, hlast⟩ := validRange_split h1.nodes_right hr
  obtain ⟨b1', tl1', tr1', e1, h1', r1, l1, vl1, vr1, n1, _⟩ :=
    erase_right_range_exact hR h1 hl hh hlast
  obtain ⟨b2', tl2', tr2', e2, h2', r2, l2, vl2, vr2, n2, _⟩ :=
    erase_right_range_exact hR h2 (er ▸ hl) hh hlast
  exact ⟨b1', b2', last, e1, e2, tl1', tr1', tl2', tr2', h1', h2', by rw [l1, l2, el],
    by rw [r1, r2], by rw [vl1, vl2, evl], by rw [vr1, vr2, evr], by rw [n1, n2, en]⟩

/-- `at_left_or_default` in terms of the view: the paired value and no change
when the key is stored; otherwise the default, after the eviction of the pair
that held it and the insertion of the new pair. -/
theorem at_left_or_default_view (hL : StrictWeak cmpL) (hR : StrictWeak cmpR) {b : Bimap L R}
    {tl tr : NodeTree} (h : BimapInv cmpL cmpR b tl tr) (dflt : R) (key : L) (pl pr : Nat) :
    (∀ i x y, i ∈ tl.toList → b.valL i = some x → treap.equal cmpL x key = true →
      b.valR i = some y →
      bimap.at_left_or_default cmpL cmpR dflt b key pl pr = some (b, y)) ∧
    ((∀ i ∈ tl.toList, ∀ x, b.valL i = some x → treap.equal cmpL x key = false) →
      ∃ b' tl' tr', bimap.at_left_or_default cmpL cmpR dflt b key pl pr = some (b', dflt) ∧
        BimapInv cmpL cmpR b' tl' tr' ∧
        b'.valL = updVal b.valL b.nextId key ∧ b'.valR = updVal b.valR b.nextId dflt ∧
        b'.nextId = b.nextId + 1 ∧
        tl'.toList = (tl.toList.filter (fun k => rightApart cmpR dflt (pairAt b k))).filter
            (ltVal cmpL b.valL key) ++
          b.nextId :: (tl.toList.filter (fun k => rightApart cmpR dflt (pairAt b k))).filter
            (fun i => !ltVal cmpL b.valL key i) ∧
        tr'.toList = (tr.toList.filter (fun k => rightApart cmpR dflt (pairAt b k))).filter
            (ltVal cmpR b.valR dflt) ++
          b.nextId :: (tr.toList.filter (fun k => rightApart cmpR dflt (pairAt b k))).filter
            (fun i => !ltVal cmpR b.valR dflt i)) := by
  constructor
  · intro i x y hi hx he hy
    have e := find_of_equal hL h.left h.valsL h.sortedL key h.size_left_lt hi hx he
    have e3 := flip_rooted h.left hi
    simp [bimap.at_left_or_default, bimap.find_left, e, bimap.end_left, e3, treap.value, hy]
  · intro hne
    have e := find_of_not_equal hL h.left h.valsL h.sortedL key h.size_left_lt hne
    obtain ⟨b1, tl1, tr1, res1, e1, h1, hvl, hvr, hn1, el1, er1⟩ := erase_right_key_evicts hR h dflt
    have hsub : ∀ k ∈ tl1.toList, k ∈ tl.toList := fun k hk => by
      rw [el1] at hk; exact (List.mem_filter.1 hk).1
    have hclr : ∀ k ∈ tl1.toList, ∀ y, b.valR k = some y → treap.equal cmpR y dflt = false := by
      intro k hk y hy
      rw [el1] at hk
      obtain ⟨hk1, hk2⟩ := List.mem_filter.1 hk
      obtain ⟨x, hx⟩ := h.valsL k hk1
      have hp : pairAt b k = some (x, y) := by simp [pairAt, hx, hy]
      rw [hp] at hk2
      simpa [rightApart] using hk2
    obtain ⟨b2, tl2, tr2, e2, h2, hvl2, hvr2, _, hn2, el2, er2, _⟩ :=
      insert_fresh hL hR h1 key dflt pl pr
        (fun k hk y hy => hne k (hsub k hk) y (by rw [← hvl]; exact hy))
        (fun k hk y hy => hclr k hk y (by rw [← hvr]; exact hy))
    have hn : b1.nextId ∈ tl2.toList := by rw [el2]; simp
    have e3 := flip_rooted h2.left hn
    refine ⟨b2, tl2, tr2, ?_, h2, by rw [hvl2, hvl, hn1], by rw [hvr2, hvr, hn1],
      by rw [hn2, hn1], by rw [el2, el1, hvl, hn1], by rw [er2, er1, hvr, hn1]⟩
    simp [bimap.at_left_or_default, bimap.find_left, e, bimap.end_left, e1, e2, e3,
      treap.value, hvr2, updVal_same]

/-- `at_right_or_default` in terms of the view; the mirror image of
`at_left_or_default_view`. -/
theorem at_right_or_default_view (hL : StrictWeak cmpL) (hR : StrictWeak cmpR) {b : Bimap L R}
    {tl tr : NodeTree} (h : BimapInv cmpL cmpR b tl tr) (dflt : L) (key : R) (pl pr : Nat) :
    (∀ i x y, i ∈ tl.toList → b.valR i = some y → treap.equal cmpR y key = true →
      b.valL i = some x →
      bimap.at_right_or_default cmpL cmpR dflt b key pl pr = some (b, x)) ∧
    ((∀ i ∈ tl.toList, ∀ y, b.valR i = some y → treap.equal cmpR y key = false) →
      ∃ b' tl' tr', bimap.at_right_or_default cmpL cmpR dflt b key pl pr = some (b', dflt) ∧
        BimapInv cmpL cmpR b' tl' tr' ∧
        b'.valL = updVal b.valL b.nextId dflt ∧ b'.valR = updVal b.valR b.nextId key ∧
        b'.nextId = b.nextId + 1 ∧
        tl'.toList = (tl.toList.filter (fun k => leftApart cmpL dflt (pairAt b k))).filter
            (ltVal cmpL b.valL dflt) ++
          b.nextId :: (tl.toList.filter (fun k => leftApart cmpL dflt (pairAt b k))).filter
            (fun i => !ltVal cmpL b.valL dflt i) ∧
        tr'.toList = (tr.toList.filter (fun k => leftApart cmpL dflt (pairAt b k))).filter
            (ltVal cmpR b.valR key) ++
          b.nextId :: (tr.toList.filter (fun k => leftApart cmpL dflt (pairAt b k))).filter
            (fun i => !ltVal cmpR b.valR key i)) := by
  constructor
  · intro i x y hi hy he hx
    have hir := h.perm.mem_iff.1 hi
    have e := find_of_equal hR h.right h.valsR_right h.sortedR key h.size_right_lt hir hy he
    have e3 := flip_rooted h.right hir
    simp only [Bool.not_false] at e3
    simp [bimap.at_right_or_default, bimap.find_right, e, bimap.end_right, e3, treap.value, hx]
  · intro hne
    have hne' : ∀ i ∈ tr.toList, ∀ y, b.valR i = some y → treap.equal cmpR y key = false :=
      fun i hi => hne i (h.perm.mem_iff.2 hi)
    have e := find_of_not_equal hR h.right h.valsR_right h.sortedR key h.size_right_lt hne'
    obtain ⟨b1, tl1, tr1, res1, e1, h1, hvl, hvr, hn1, el1, er1⟩ := erase_left_key_evicts hL h dflt
    have hsub : ∀ k ∈ tl1.toList, k ∈ tl.toList := fun k hk => by
      rw [el1] at hk; exact (List.mem_filter.1 hk).1
    have hclr : ∀ k ∈ tl1.toList, ∀ x, b.valL k = some x → treap.equal cmpL x dflt = false := by
      intro k hk x hx
      rw [el1] at hk
      obtain ⟨hk1, hk2⟩ := List.mem_filter.1 hk
      obtain ⟨y, hy⟩ := h.valsR k hk1
      have hp : pairAt b k = some (x, y) := by simp [pairAt, hx, hy]
      rw [hp] at hk2
      simpa [leftApart] using hk2
    obtain ⟨b2, tl2, tr2, e2, h2, hvl2, hvr2, _, hn2, el2, er2, _⟩ :=
      insert_fresh hL hR h1 dflt key pl pr
        (fun k hk x hx => hclr k hk x (by rw [← hvl]; exact hx))
        (fun k hk y hy => hne k (hsub k hk) y (by rw [← hvr]; exact hy))
    refine ⟨b2, tl2, tr2, ?_, h2, by rw [hvl2, hvl, hn1], by rw [hvr2, hvr, hn1],
      by rw [hn2, hn1], by rw [el2, el1, hvl, hn1], by rw [er2, er1, hvr, hn1]⟩
    simp [bimap.at_right_or_default, bimap.find_right, e, bimap.end_right, e1, e2,
      treap.value, hvl2, updVal_same]

end

section
variable {L R : Type} {cmpL : L → L → Bool} {cmpR : R → R → Bool}

theorem at_left_or_default_sameView (hL : StrictWeak cmpL) (hR : StrictWeak cmpR)
    {b1 b2 : Bimap L R} (hv : SameView cmpL cmpR b1 b2) (dflt : R) (key : L)
    (pl pr pl' pr' : Nat) :
    ∃ b1' b2' res, bimap.at_left_or_default cmpL cmpR dflt b1 key pl pr = some (b1', res) ∧
      bimap.at_left_or_default cmpL cmpR dflt b2 key pl' pr' = some (b2', res) ∧
      SameView cmpL cmpR b1' b2' := by
  obtain ⟨tl1, tr1, tl2, tr2, h1, h2, el, er, evl, evr, en⟩ := hv
  obtain ⟨a1, a2⟩ := at_left_or_default_view hL hR h1 dflt key pl pr
  obtain ⟨c1, c2⟩ := at_left_or_default_view hL hR h2 dflt key pl' pr'
  have hpa : pairAt b1 = pairAt b2 := pairAt_congr evl evr
  by_cases hex : ∃ i x, i ∈ tl1.toList ∧ b1.valL i = some x ∧ treap.equal cmpL x key = true
  · obtain ⟨i, x, hi, hx, he⟩ := hex
    obtain ⟨y, hy⟩ := h1.valsR i hi
    exact ⟨b1, b2, y, a1 i x y hi hx he hy, c1 i x y (el ▸ hi) (evl ▸ hx) he (evr ▸ hy),
      tl1, tr1, tl2, tr2, h1, h2, el, er, evl, evr, en⟩
  · have hne : ∀ i ∈ tl1.toList, ∀ x, b1.valL i = some x → treap.equal cmpL x key = false := by
      intro i hi x hx
      cases he : treap.equal cmpL x key with
      | false => rfl
      | true => exact absurd ⟨i, x, hi, hx, he⟩ hex
    obtain ⟨b1', tl1', tr1', e1, h1', vl1, vr1, n1, l1, r1⟩ := a2 hne
    obtain ⟨b2', tl2', tr2', e2, h2', vl2, vr2, n2, l2, r2⟩ :=
      c2 (by rw [← el, ← evl]; exact hne)
    exact ⟨b1', b2', dflt, e1, e2, tl1', tr1', tl2', tr2', h1', h2',
      by rw [l1, l2, el, evl, en, hpa], by rw [r1, r2, er, evr, en, hpa],
      by rw [vl1, vl2, evl, en], by rw [vr1, vr2, evr, en], by rw [n1, n2, en]⟩

theorem at_right_or_default_sameView (hL : StrictWeak cmpL) (hR : StrictWeak cmpR)
    {b1 b2 : Bimap L R} (hv : SameView cmpL cmpR b1 b2) (dflt : L) (key : R)
    (pl pr pl' pr' : Nat) :
    ∃ b1' b2' res, bimap.at_right_or_default cmpL cmpR dflt b1 key pl pr = some (b1', res) ∧
      bimap.at_right_or_default cmpL cmpR dflt b2 key pl' pr' = some (b2', res) ∧
      SameView cmpL cmpR b1' b2' := by
  obtain ⟨tl1, tr1, tl2, tr2, h1, h2, el, er, evl, evr, en⟩ := hv
  obtain ⟨a1, a2⟩ := at_right_or_default_view hL hR h1 dflt key pl pr
  obtain ⟨c1, c2⟩ := at_right_or_default_view hL hR h2 dflt key pl' pr'
  have hpa : pairAt b1 = pairAt b2 := pairAt_congr evl evr
  by_cases hex : ∃ i y, i ∈ tl1.toList ∧ b1.valR i = some y ∧ treap.equal cmpR y key = true
  · obtain ⟨i, y, hi, hy, he⟩ := hex
    obtain ⟨x, hx⟩ := h1.valsL i hi
    exact ⟨b1, b2, x, a1 i x y hi hy he hx, c1 i x y (el ▸ hi) (evr ▸ hy) he (evl ▸ hx),
      tl1, tr1, tl2, tr2, h1, h2, el, er, evl, evr, en⟩
  · have hne : ∀ i ∈ tl1.toList, ∀ y, b1.valR i = some y → treap.equal cmpR y key = false := by
      intro i hi y hy
      cases he : treap.equal cmpR y key with
      | false => rfl
      | true => exact absurd ⟨i, y, hi, hy, he⟩ hex
    obtain ⟨b1', tl1', tr1', e1, h1', vl1, vr1, n1, l1, r1⟩ := a2 hne
    obtain ⟨b2', tl2', tr2', e2, h2', vl2, vr2, n2, l2, r2⟩ :=
      c2 (by rw [← el, ← evr]; exact hne)
    exact ⟨b1', b2', dflt, e1, e2, tl1', tr1', tl2', tr2', h1', h2',
      by rw [l1, l2, el, evl, en, hpa], by rw [r1, r2, er, evr, en, hpa],
      by rw [vl1, vl2, evl, en], by rw [vr1, vr2, evr, en], by rw [n1, n2, en]⟩

/-- A query returns in a state that satisfies the invariant. -/
theorem queries_return (hL : StrictWeak cmpL) (hR : StrictWeak cmpR) {b : Bimap L R}
    {tl tr : NodeTree} (h : BimapInv cmpL cmpR b tl tr) :
    (∀ l, (∃ p, bimap.find_left cmpL b l = some p) ∧ (∃ x, bimap.at_left cmpL b l = some x) ∧
      (∃ p, bimap.lower_bound_left cmpL b l = some p) ∧
      (∃ p, bimap.upper_bound_left cmpL b l = some p)) ∧
    (∀ r, (∃ p, bimap.find_right cmpR b r = some p) ∧ (∃ x, bimap.at_right cmpR b r = some x) ∧
      (∃ p, bimap.lower_bound_right cmpR b r = some p) ∧
      (∃ p, bimap.upper_bound_right cmpR b r = some p)) := by
  constructor
  · intro l
    refine ⟨?_, ?_, ⟨_, lower_bound_rooted hL h.left h.valsL h.sortedL l h.size_left_lt⟩,
      ⟨_, upper_bound_rooted hL h.left h.valsL h.sortedL l h.size_left_lt⟩⟩
    · rcases find_cases hL h.left h.valsL h.sortedL l h.size_left_lt with
        ⟨e, _⟩ | ⟨i, x, _, _, _, e⟩
      · exact ⟨bimap.end_left, by simp [bimap.find_left, e]⟩
      · exact ⟨Ptr.node true i, by simp [bimap.find_left, e]⟩
    · rcases find_cases hL h.left h.valsL h.sortedL l h.size_left_lt with
        ⟨e, _⟩ | ⟨i, x, hi, _, _, e⟩
      · exact ⟨Except.error "not founded key", by simp [bimap.at_left, e]⟩
      · obtain ⟨y, hy⟩ := h.valsR i hi
        exact ⟨Except.ok y, by
          simp [bimap.at_left, e, bimap.right_of_left, bimap.get_another_node, treap.value, hy]⟩
  · intro r
    refine ⟨?_, ?_,
      ⟨_, lower_bound_rooted hR h.right h.valsR_right h.sortedR r h.size_right_lt⟩,
      ⟨_, upper_bound_rooted hR h.right h.valsR_right h.sortedR r h.size_right_lt⟩⟩
    · rcases find_cases hR h.right h.valsR_right h.sortedR r h.size_right_lt with
        ⟨e, _⟩ | ⟨i, x, _, _, _, e⟩
      · exact ⟨bimap.end_right, by simp [bimap.find_right, e]⟩
      · exact ⟨Ptr.node false i, by simp [bimap.find_right, e]⟩
    · rcases find_cases hR h.right h.valsR_right h.sortedR r h.size_right_lt with
        ⟨e, _⟩ | ⟨i, y, hi, _, _, e⟩
      · exact ⟨Except.error "not founded key", by simp [bimap.at_right, e]⟩
      · obtain ⟨x, hx⟩ := h.valsL i (h.perm.mem_iff.2 hi)
        exact ⟨Except.ok x, by
          simp [bimap.at_right, e, bimap.left_of_right, bimap.get_another_node, treap.value, hx]⟩

/-- One call made in two states with the same view, with arbitrary priorities on
either side: both calls return, they hand back the same result, and the two new
states have the same view. -/
theorem apply_sameView (hL : StrictWeak cmpL) (hR : StrictWeak cmpR) {b1 b2 : Bimap L R}
    (hv : SameView cmpL cmpR b1 b2) (op : Op L R) (hok : OpOk b1 op) (pl pr pl' pr' : Nat) :
    ∃ b1' b2' res, bimap.apply cmpL cmpR b1 pl pr op = some (b1', res) ∧
      bimap.apply cmpL cmpR b2 pl' pr' op = some (b2', res) ∧ SameView cmpL cmpR b1' b2' := by
  have hq := sameView_queries hL hR hv
  have hret : ∃ tl tr, BimapInv cmpL cmpR b1 tl tr := by
    obtain ⟨tl1, tr1, _, _, h1, _⟩ := hv
    exact ⟨tl1, tr1, h1⟩
  obtain ⟨tl1, tr1, h1⟩ := hret
  have hr := queries_return hL hR h1
  cases op with
  | insert l r =>
    obtain ⟨b1', b2', it, e1, e2, hv'⟩ := insert_sameView hL hR hv l r pl pr pl' pr'
    exact ⟨b1', b2', Res.it it, by simp [bimap.apply, e1], by simp [bimap.apply, e2], hv'⟩
  | erase_left_key l =>
    obtain ⟨b1', b2', x, e1, e2, hv'⟩ := erase_left_key_sameView hL hv l
    exact ⟨b1', b2', Res.flag x, by simp [bimap.apply, e1], by simp [bimap.apply, e2], hv'⟩
  | erase_right_key r =>
    obtain ⟨b1', b2', x, e1, e2, hv'⟩ := erase_right_key_sameView hR hv r
    exact ⟨b1', b2', Res.flag x, by simp [bimap.apply, e1], by simp [bimap.apply, e2], hv'⟩
  | erase_it side it =>
    obtain ⟨b1', b2', x, e1, e2, hv'⟩ := erase_it_sameView hv side it hok
    exact ⟨b1', b2', Res.it x, by simp [bimap.apply, e1], by simp [bimap.apply, e2], hv'⟩
  | erase_left_range first last =>
    obtain ⟨b1', b2', x, e1, e2, hv'⟩ := erase_left_range_sameView hL hv first last hok
    exact ⟨b1', b2', Res.it x, by simp [bimap.apply, e1], by simp [bimap.apply, e2], hv'⟩
  | erase_right_range first last =>
    obtain ⟨b1', b2', x, e1, e2, hv'⟩ := erase_right_range_sameView hR hv first last hok
    exact ⟨b1', b2', Res.it x, by simp [bimap.apply, e1], by simp [bimap.apply, e2], hv'⟩
  | at_left_or_default dflt key =>
    obtain ⟨b1', b2', x, e1, e2, hv'⟩ :=
      at_left_or_default_sameView hL hR hv dflt key pl pr pl' pr'
    exact ⟨b1', b2', Res.right x, by simp [bimap.apply, e1], by simp [bimap.apply, e2], hv'⟩
  | at_right_or_default dflt key =>
    obtain ⟨b1', b2', x, e1, e2, hv'⟩ :=
      at_right_or_default_sameView hL hR hv dflt key pl pr pl' pr'
    exact ⟨b1', b2', Res.left x, by simp [bimap.apply, e1], by simp [bimap.apply, e2], hv'⟩
  | find_left l =>
    obtain ⟨p, e⟩ := (hr.1 l).1
    exact ⟨b1, b2, Res.it p, by simp [bimap.apply, e],
      by simp [bimap.apply, ← (hq.2.2.2.2.2.1 l).1, e], hv⟩
  | find_right r =>
    obtain ⟨p, e⟩ := (hr.2 r).1
    exact ⟨b1, b2, Res.it p, by simp [bimap.apply, e],
      by simp [bimap.apply, ← (hq.2.2.2.2.2.2 r).1, e], hv⟩
  | at_left l =>
    obtain ⟨x, e⟩ := (hr.1 l).2.1
    have e2 : bimap.at_left cmpL b2 l = some x := by rw [← (hq.2.2.2.2.2.1 l).2.1]; exact e
    cases x with
    | ok v =>
      exact ⟨b1, b2, Res.right v, by simp [bimap.apply, e], by simp [bimap.apply, e2], hv⟩
    | error msg =>
      exact ⟨b1, b2, Res.thrown msg, by simp [bimap.apply, e], by simp [bimap.apply, e2], hv⟩
  | at_right r =>
    obtain ⟨x, e⟩ := (hr.2 r).2.1
    have e2 : bimap.at_right cmpR b2 r = some x := by rw [← (hq.2.2.2.2.2.2 r).2.1]; exact e
    cases x with
    | ok v =>
      exact ⟨b1, b2, Res.left v, by simp [bimap.apply, e], by simp [bimap.apply, e2], hv⟩
    | error msg =>
      exact ⟨b1, b2, Res.thrown msg, by simp [bimap.apply, e], by simp [bimap.apply, e2], hv⟩
  | lower_bound_left l =>
    obtain ⟨p, e⟩ := (hr.1 l).2.2.1
    exact ⟨b1, b2, Res.it p, by simp [bimap.apply, e],
      by simp [bimap.apply, ← (hq.2.2.2.2.2.1 l).2.2.1, e], hv⟩
  | upper_bound_left l =>
    obtain ⟨p, e⟩ := (hr.1 l).2.2.2
    exact ⟨b1, b2, Res.it p, by simp [bimap.apply, e],
      by simp [bimap.apply, ← (hq.2.2.2.2.2.1 l).2.2.2, e], hv⟩
  | lower_bound_right r =>
    obtain ⟨p, e⟩ := (hr.2 r).2.2.1
    exact ⟨b1, b2, Res.it p, by simp [bimap.apply, e],
      by simp [bimap.apply, ← (hq.2.2.2.2.2.2 r).2.2.1, e], hv⟩
  | upper_bound_right r =>
    obtain ⟨p, e⟩ := (hr.2 r).2.2.2
    exact ⟨b1, b2, Res.it p, by simp [bimap.apply, e],
      by simp [bimap.apply, ← (hq.2.2.2.2.2.2 r).2.2.2, e], hv⟩
  | size =>
    exact ⟨b1, b2, Res.count (bimap.size b1), by simp [bimap.apply],
      by simp [bimap.apply, hq.1], hv⟩

end

section
variable {L R : Type} {cmpL : L → L → Bool} {cmpR : R → R → Bool}

/-- A run made twice from two states with the same view, with arbitrary
priorities on either side: both runs return, with the same results call by call,
in states with the same view. -/
theorem run_sameView (hL : StrictWeak cmpL) (hR : StrictWeak cmpR) :
    ∀ (ops : List (Op L R × (Nat × Nat) × (Nat × Nat))) {b1 b2 : Bimap L R},
      SameView cmpL cmpR b1 b2 →
      RunOk cmpL cmpR b1 (ops.map (fun o => (o.1, o.2.1))) →
      ∃ b1' b2' results,
        bimap.run cmpL cmpR b1 (ops.map (fun o => (o.1, o.2.1))) = some (b1', results) ∧
        bimap.run cmpL cmpR b2 (ops.map (fun o => (o.1, o.2.2))) = some (b2', results) ∧
        results.length = ops.length ∧ SameView cmpL cmpR b1' b2' := by
  intro ops
  induction ops with
  | nil =>
    intro b1 b2 hv _
    exact ⟨b1, b2, [], rfl, rfl, rfl, hv⟩
  | cons o rest ih =>
    intro b1 b2 hv hok
    obtain ⟨op, ⟨pl, pr⟩, ⟨pl', pr'⟩⟩ := o
    simp only [List.map_cons, RunOk] at hok
    obtain ⟨hop, hrest⟩ := hok
    obtain ⟨c1, c2, res, e1, e2, hv'⟩ := apply_sameView hL hR hv op hop pl pr pl' pr'
    obtain ⟨d1, d2, results, f1, f2, hlen, hv''⟩ := ih hv' (hrest c1 res e1)
    refine ⟨d1, d2, res :: results, ?_, ?_, by simp [hlen], hv''⟩
    · simp only [List.map_cons, bimap.run, e1, f1]
    · simp only [List.map_cons, bimap.run, e2, f2]

/-- C22: take any list of calls (insert, the erase overloads, the
`at_*_or_default` accessors, find, at, the bounds, size), each with two pairs of
priorities, one pair per run, and two pairs of sentinel priorities.  If every
call of the first run respects its contract, then both runs from `bimap()`
return, every call hands back the same result in the two runs, and in the two
final states `size()`, the records of both projections in order, the pairs of
both projections in order and the answers of `find`, `at`, `lower_bound` and
`upper_bound` on either side for every key are the same. -/
theorem priorities_unobservable (hL : StrictWeak cmpL) (hR : StrictWeak cmpR)
    (ops : List (Op L R × (Nat × Nat) × (Nat × Nat))) (pl pr pl' pr' : Nat)
    (hok : RunOk cmpL cmpR (bimap.empty pl pr) (ops.map (fun o => (o.1, o.2.1)))) :
    ∃ b1 b2 results,
      bimap.run cmpL cmpR (bimap.empty pl pr) (ops.map (fun o => (o.1, o.2.1)))
        = some (b1, results) ∧
      bimap.run cmpL cmpR (bimap.empty pl' pr') (ops.map (fun o => (o.1, o.2.2)))
        = some (b2, results) ∧
      results.length = ops.length ∧
      bimap.size b1 = bimap.size b2 ∧
      bimap.nodes true b1 = bimap.nodes true b2 ∧
      bimap.nodes false b1 = bimap.nodes false b2 ∧
      bimap.pairs true b1 = bimap.pairs true b2 ∧
      bimap.pairs false b1 = bimap.pairs false b2 ∧
      (∀ l, bimap.find_left cmpL b1 l = bimap.find_left cmpL b2 l ∧
        bimap.at_left cmpL b1 l = bimap.at_left cmpL b2 l ∧
        bimap.lower_bound_left cmpL b1 l = bimap.lower_bound_left cmpL b2 l ∧
        bimap.upper_bound_left cmpL b1 l = bimap.upper_bound_left cmpL b2 l) ∧
      (∀ r, bimap.find_right cmpR b1 r = bimap.find_right cmpR b2 r ∧
        bimap.at_right cmpR b1 r = bimap.at_right cmpR b2 r ∧
        bimap.lower_bound_right cmpR b1 r = bimap.lower_bound_right cmpR b2 r ∧
        bimap.upper_bound_right cmpR b1 r = bimap.upper_bound_right cmpR b2 r) := by
  have hv0 : SameView cmpL cmpR (bimap.empty pl pr : Bimap L R) (bimap.empty pl' pr') :=
    ⟨NodeTree.nil, NodeTree.nil, NodeTree.nil, NodeTree.nil, @inv_empty L R cmpL cmpR pl pr,
      @inv_empty L R cmpL cmpR pl' pr', rfl, rfl, rfl, rfl, rfl⟩
  obtain ⟨b1, b2, results, e1, e2, hlen, hv⟩ := run_sameView hL hR ops hv0 hok
  obtain ⟨q1, q2, q3, q4, q5, q6, q7⟩ := sameView_queries hL hR hv
  exact ⟨b1, b2, results, e1, e2, hlen, q1, q2, q3, q4, q5, q6, q7⟩

end

theorem demo12_nodes_left :
    bimap.nodes true demo12 = some [Ptr.node true 0, Ptr.node true 1] := by
  decide

/-- The run used to illustrate C22 respects the contracts: the iterator handed
to `erase_left` refers to the element `1`. -/
theorem demoRun_ok :
    RunOk natLt natLt (bimap.empty 0 0)
      [(Op.insert 1 10, 5, 7), (Op.insert 2 20, 3, 9), (Op.erase_it true (Ptr.node true 0), 0, 0),
        (Op.find_left 2, 0, 0), (Op.upper_bound_right 5, 0, 0), (Op.size, 0, 0)] := by
  refine ⟨trivial, fun b1 res e => ?_⟩
  have e0 : bimap.apply natLt natLt (bimap.empty 0 0) 5 7 (Op.insert 1 10)
      = some (demo1, Res.it (Ptr.node true 0)) := rfl
  rw [e0] at e
  injection e with e
  injection e with e _
  subst e
  refine ⟨trivial, fun b2 res2 e => ?_⟩
  have e1 : bimap.apply natLt natLt demo1 3 9 (Op.insert 2 20)
      = some (demo12, Res.it (Ptr.node true 1)) := rfl
  rw [e1] at e
  injection e with e
  injection e with e _
  subst e
  exact ⟨⟨_, demo12_nodes_left, by simp⟩, fun _ _ _ => ⟨trivial, fun _ _ _ =>
    ⟨trivial, fun _ _ _ => ⟨trivial, fun _ _ _ => trivial⟩⟩⟩⟩

/-- C22 at a concrete input: two inserts, an erase by iterator and three queries,
run once with the priorities `(5, 7)`, `(3, 9)` and once with all priorities
equal to `5`. -/
theorem priorities_unobservable_witness :
    RunOk natLt natLt (bimap.empty 0 0)
      ([(Op.insert 1 10, (5, 7), (5, 5)), (Op.insert 2 20, (3, 9), (5, 5)),
        (Op.erase_it true (Ptr.node true 0), (0, 0), (0, 0)), (Op.find_left 2, (0, 0), (0, 0)),
        (Op.upper_bound_right 5, (0, 0), (0, 0)), (Op.size, (0, 0), (0, 0))].map
          (fun o => (o.1, o.2.1))) ∧
    ∃ b1 b2 results,
      bimap.run natLt natLt (bimap.empty 0 0)
        ([(Op.insert 1 10, (5, 7), (5, 5)), (Op.insert 2 20, (3, 9), (5, 5)),
          (Op.erase_it true (Ptr.node true 0), (0, 0), (0, 0)),
          (Op.find_left 2, (0, 0), (0, 0)), (Op.upper_bound_right 5, (0, 0), (0, 0)),
          (Op.size, (0, 0), (0, 0))].map (fun o => (o.1, o.2.1))) = some (b1, results) ∧
      bimap.run natLt natLt (bimap.empty 5 5)
        ([(Op.insert 1 10, (5, 7), (5, 5)), (Op.insert 2 20, (3, 9), (5, 5)),
          (Op.erase_it true (Ptr.node true 0), (0, 0), (0, 0)),
          (Op.find_left 2, (0, 0), (0, 0)), (Op.upper_bound_right 5, (0, 0), (0, 0)),
          (Op.size, (0, 0), (0, 0))].map (fun o => (o.1, o.2.2))) = some (b2, results) ∧
      results.length = [(Op.insert 1 10, (5, 7), (5, 5)), (Op.insert 2 20, (3, 9), (5, 5)),
          (Op.erase_it true (Ptr.node true 0), ((0 : Nat), (0 : Nat)), ((0 : Nat), (0 : Nat))),
          (Op.find_left 2, (0, 0), (0, 0)), (Op.upper_bound_right 5, (0, 0), (0, 0)),
          (Op.size, (0, 0), (0, 0))].length ∧
      bimap.size b1 = bimap.size b2 ∧
      bimap.nodes true b1 = bimap.nodes true b2 ∧
      bimap.nodes false b1 = bimap.nodes false b2 ∧
      bimap.pairs true b1 = bimap.pairs true b2 ∧
      bimap.pairs false b1 = bimap.pairs false b2 ∧
      (∀ l, bimap.find_left natLt b1 l = bimap.find_left natLt b2 l ∧
        bimap.at_left natLt b1 l = bimap.at_left natLt b2 l ∧
        bimap.lower_bound_left natLt b1 l = bimap.lower_bound_left natLt b2 l ∧
        bimap.upper_bound_left natLt b1 l = bimap.upper_bound_left natLt b2 l) ∧
      (∀ r, bimap.find_right natLt b1 r = bimap.find_right natLt b2 r ∧
        bimap.at_right natLt b1 r = bimap.at_right natLt b2 r ∧
        bimap.lower_bound_right natLt b1 r = bimap.lower_bound_right natLt b2 r ∧
        bimap.upper_bound_right natLt b1 r = bimap.upper_bound_right natLt b2 r) :=
  ⟨demoRun_ok,
    priorities_unobservable natLt_strictWeak natLt_strictWeak
      [(Op.insert 1 10, (5, 7), (5, 5)), (Op.insert 2 20, (3, 9), (5, 5)),
        (Op.erase_it true (Ptr.node true 0), (0, 0), (0, 0)), (Op.find_left 2, (0, 0), (0, 0)),
        (Op.upper_bound_right 5, (0, 0), (0, 0)), (Op.size, (0, 0), (0, 0))] 0 0 5 5
      demoRun_ok⟩
